import Mathlib

/-!
# rpncalc: a verification development

A shallow embedding of `rpncalc.c` (the RPN calculator engine): the calculator
state `DS`, its bounded stack operations, the operator dispatcher
`rpncalc_op`, the base-N literal reader `convert_s_to_d`, the base-N
formatter `convert_d_to_s`, the line evaluator `rpncalc_eval` and its one-shot
form `rpncalc_eval_full`.

Conventions of the embedding

* C `int` values are `Int`.  Status codes are the values of the C enum
  `RPN_OK, RPN_ERROR, RPN_HELP, RPN_QUIT`.
* C `double` values are elements of a type `α`; the arithmetic on them, the
  C math library, the clock and the random variate library are the fields of
  a `Host α ρ`, so a statement over every `Host` holds for whatever these
  collaborators compute, IEEE 754 doubles included.  `exactHost` is the
  instance over `ℚ` with exact arithmetic, `roundHost` the one over `ℚ` that
  rounds every result to the nearest binary64 value, `nanHost` exact
  arithmetic with a not-a-number.
* The caller-supplied buffer `double *stack` is the map `stack : Int → α`
  from index to cell content; `size` is the capacity handed to `ds_init`.
* A C string is a `List Char`; the terminating NUL is the end of the list
  (a NUL character inside the list terminates the string as well).
* A function that reports through an out-parameter and a status returns an
  `Option`: `none` is `RPN_ERROR`, `some v` is `RPN_OK` with `v` stored.
* A loop is a recursive function on the number of iterations allowed, given
  a bound the loop cannot exceed.
* A caller-supplied `char *buf` is the map `buf : Int → Char` from index to
  byte, so that a store past `maxLength` is visible; the text a call leaves
  is the C string read from index 0 (`cstr`).
-/

namespace RpnCalc

/-! ## The collaborators: double arithmetic, libm, clock, variates -/

/-- The operations on `double` and the external routines called by `rpncalc.c`. -/
structure Host (α ρ : Type) where
  /-- a floating constant of the source text -/
  lit : ℚ → α
  /-- conversion `int → double` -/
  ofInt : Int → α
  /-- conversion `double → int`, the cast `(int) x` -/
  toInt : α → Int
  add : α → α → α
  sub : α → α → α
  mul : α → α → α
  div : α → α → α
  neg : α → α
  /-- comparison `x < y` -/
  lt : α → α → Bool
  /-- comparison `x <= y` -/
  le : α → α → Bool
  /-- comparison `x == y` -/
  eq : α → α → Bool
  fabs : α → α
  floor : α → α
  ceil : α → α
  sqrt : α → α
  sin : α → α
  cos : α → α
  tan : α → α
  sinh : α → α
  cosh : α → α
  tanh : α → α
  asin : α → α
  acos : α → α
  atan : α → α
  atan2 : α → α → α
  exp : α → α
  log : α → α
  pow : α → α → α
  fmod : α → α → α
  /-- whether `errno` is non-zero after `errno = 0; sinh(x)` -/
  errno_sinh : α → Bool
  errno_cosh : α → Bool
  errno_tanh : α → Bool
  errno_asin : α → Bool
  errno_acos : α → Bool
  errno_log : α → Bool
  errno_pow : α → α → Bool
  /-- the reading returned by `ptime()` -/
  ptime : α
  uniform_random_init : α → α → ρ
  uniform_random_set : ρ → α → α → ρ
  uniform_random_real : ρ → α × ρ
  normal_random_init : α → α → ρ
  normal_random_set : ρ → α → α → ρ
  normal_random_real : ρ → α × ρ
  exponential_random_init : α → ρ
  exponential_random_set : ρ → α → ρ
  exponential_random_real : ρ → α × ρ

/-! ## Status codes and the calculator state -/

abbrev RPN_OK : Int := 0
abbrev RPN_ERROR : Int := 1
abbrev RPN_HELP : Int := 2
abbrev RPN_QUIT : Int := 3

/-- The struct `DS` of `rpncalc.h`. -/
structure DS (α ρ : Type) where
  stack : Int → α
  mem : α
  sumx : α
  sumy : α
  sumxx : α
  sumyy : α
  sumxy : α
  n : α
  size : Int
  next : Int
  base : Int
  askprec : Int
  prec : Int
  sigfig : Int
  angle_unit : Int
  urand : ρ
  nrand : ρ
  erand : ρ

variable {α ρ : Type}

/-- The assignment `a[i] = v` on the buffer. -/
def store (a : Int → α) (i : Int) (v : α) : Int → α :=
  fun j => if j = i then v else a j

/-- The value of a C condition used as an `int`: `0` or `1`. -/
def truth (b : Bool) : Int := if b then 1 else 0

def DOUBLE_BITS : Int := 53

/-- The C function `sigfig`: `(int) (DOUBLE_BITS * log(2)/log(base))`. -/
def sigfig (H : Host α ρ) (base : Int) : Int :=
  H.toInt (H.div (H.mul (H.ofInt DOUBLE_BITS) (H.log (H.ofInt 2))) (H.log (H.ofInt base)))

/-- The constant `DBL_MIN` of `float.h`, the smallest normal double `2^-1022`. -/
def DBL_MIN (H : Host α ρ) : α := H.lit (1 / 2 ^ 1022)

/-! ## Stack engine -/

/-- The C function `ds_init`; `none` is the `RPN_ERROR` return, which leaves
the struct uninitialised. -/
def ds_init (H : Host α ρ) (stack : Int → α) (size : Int) : Option (DS α ρ) :=
  if size ≤ 0 then none
  else some {
    stack := stack
    mem := H.lit 0
    sumx := H.lit 0, sumy := H.lit 0, sumxx := H.lit 0
    sumyy := H.lit 0, sumxy := H.lit 0, n := H.lit 0
    size := size
    next := 0
    base := 10
    sigfig := sigfig H 10
    askprec := sigfig H 10
    prec := sigfig H 10
    angle_unit := 0
    urand := H.uniform_random_init (H.ofInt 0) (H.ofInt 1)
    nrand := H.normal_random_init (H.ofInt 0) (H.ofInt 1)
    erand := H.exponential_random_init (H.ofInt 1) }

def ds_clear (ds : DS α ρ) : Int × DS α ρ :=
  (RPN_OK, { ds with next := 0 })

def ds_allclear (H : Host α ρ) (ds : DS α ρ) : Int × DS α ρ :=
  ds_clear { ds with
    mem := H.lit 0
    sumx := H.lit 0, sumy := H.lit 0, sumxx := H.lit 0
    sumyy := H.lit 0, sumxy := H.lit 0, n := H.lit 0 }

def ds_push (ds : DS α ρ) (val : α) : Int × DS α ρ :=
  if ds.next = ds.size then (RPN_ERROR, ds)
  else (RPN_OK, { ds with stack := store ds.stack ds.next val, next := ds.next + 1 })

/-- The C function `ds_pop`: the status, the value stored through `val` (if
any) and the state. -/
def ds_pop (ds : DS α ρ) : Int × Option α × DS α ρ :=
  if ds.next = 0 then (RPN_ERROR, none, ds)
  else (RPN_OK, some (ds.stack (ds.next - 1)), { ds with next := ds.next - 1 })

def ds_dup (ds : DS α ρ) : Int × DS α ρ :=
  if ds.next = 0 ∨ ds.next = ds.size then (RPN_ERROR, ds)
  else (RPN_OK, { ds with
    stack := store ds.stack ds.next (ds.stack (ds.next - 1))
    next := ds.next + 1 })

def ds_swap (ds : DS α ρ) : Int × DS α ρ :=
  if ds.next < 2 then (RPN_ERROR, ds)
  else
    let temp := ds.stack (ds.next - 1)
    let s1 := store ds.stack (ds.next - 1) (ds.stack (ds.next - 2))
    (RPN_OK, { ds with stack := store s1 (ds.next - 2) temp })

/-- The loop `for (t = 0; t < ds->next - 1; t++) stack[t] = stack[t + 1]` of
`ds_rot`, started at `t` with the given number of iterations allowed. -/
def ds_rot_loop (next : Int) : Nat → Int → (Int → α) → (Int → α)
  | 0, _, st => st
  | k + 1, t, st =>
    if t < next - 1 then ds_rot_loop next k (t + 1) (store st t (st (t + 1)))
    else st

def ds_rot (ds : DS α ρ) : Int × DS α ρ :=
  if ds.next < 2 then (RPN_OK, ds)
  else
    let temp := ds.stack 0
    let s1 := ds_rot_loop ds.next ds.next.toNat 0 ds.stack
    (RPN_OK, { ds with stack := store s1 (ds.next - 1) temp })

def ds_drop (ds : DS α ρ) : Int × DS α ρ :=
  if ds.next = 0 then (RPN_ERROR, ds)
  else (RPN_OK, { ds with next := ds.next - 1 })

def ds_replace (ds : DS α ρ) (howmany : Int) (val : α) : Int × DS α ρ :=
  if ds.next < howmany then (RPN_ERROR, ds)
  else
    let next := ds.next - (howmany - 1)
    (RPN_OK, { ds with next := next, stack := store ds.stack (next - 1) val })

/-- The C function `ds_fromtop`: `none` is `RPN_ERROR`, `some v` is `RPN_OK`
with `v` stored through `val`.  The stack is not changed. -/
def ds_fromtop (ds : DS α ρ) (down : Int) : Option α :=
  if down < 0 ∨ down ≥ ds.next then none
  else some (ds.stack (ds.next - 1 - down))

def ds_setbase (H : Host α ρ) (ds : DS α ρ) (base : Int) : Int × DS α ρ :=
  if base < 2 then (RPN_ERROR, ds)
  else if base > 36 then (RPN_ERROR, ds)
  else
    let sf := sigfig H base
    (RPN_OK, { ds with
      base := base
      sigfig := sf
      prec := if ds.askprec > sf then sf else ds.askprec })

def ds_base (ds : DS α ρ) : Int := ds.base

def ds_setprec (ds : DS α ρ) (prec : Int) : Int × DS α ρ :=
  (RPN_OK, { ds with
    askprec := prec
    prec := if prec < 0 then 0 else if prec > ds.sigfig then ds.sigfig else prec })

def ds_prec (ds : DS α ρ) : Int := ds.prec

/-! ## Statistics -/

/-- The loop of `ds_stddev`: accumulates `sumx` and `sumxx` over the cells
`0 .. next-1`. -/
def stddev_sums (H : Host α ρ) (ds : DS α ρ) : α × α :=
  (List.range ds.next.toNat).foldl
    (fun acc t => (H.add acc.1 (ds.stack t), H.add acc.2 (H.mul (ds.stack t) (ds.stack t))))
    (H.lit 0, H.lit 0)

def ds_stddev (H : Host α ρ) (ds : DS α ρ) : α :=
  if ds.next < 2 then H.lit 0
  else
    let sumx := (stddev_sums H ds).1
    let sumxx := (stddev_sums H ds).2
    let mean := H.div sumx (H.ofInt ds.next)
    H.sqrt (H.div
      (H.add (H.sub sumxx (H.mul (H.mul (H.lit 2) mean) sumx))
        (H.mul (H.mul (H.ofInt ds.next) mean) mean))
      (H.ofInt (ds.next - 1)))

def ds_stddev_x (H : Host α ρ) (ds : DS α ρ) : α :=
  if H.lt ds.n (H.ofInt 2) then H.lit 0
  else
    let mean := H.div ds.sumx ds.n
    H.sqrt (H.div
      (H.add (H.sub ds.sumxx (H.mul (H.mul (H.lit 2) mean) ds.sumx))
        (H.mul (H.mul ds.n mean) mean))
      (H.sub ds.n (H.ofInt 1)))

def ds_stddev_y (H : Host α ρ) (ds : DS α ρ) : α :=
  if H.lt ds.n (H.ofInt 2) then H.lit 0
  else
    let mean := H.div ds.sumy ds.n
    H.sqrt (H.div
      (H.add (H.sub ds.sumyy (H.mul (H.mul (H.lit 2) mean) ds.sumy))
        (H.mul (H.mul ds.n mean) mean))
      (H.sub ds.n (H.ofInt 1)))

def ds_leastsq_a (H : Host α ρ) (ds : DS α ρ) : α :=
  let denom := H.sub (H.mul ds.n ds.sumxx) (H.mul ds.sumx ds.sumx)
  if H.eq denom (H.lit 0) then H.lit 0
  else H.div (H.sub (H.mul ds.n ds.sumxy) (H.mul ds.sumx ds.sumy)) denom

def ds_leastsq_b (H : Host α ρ) (ds : DS α ρ) : α :=
  let denom := H.sub (H.mul ds.n ds.sumxx) (H.mul ds.sumx ds.sumx)
  if H.eq denom (H.lit 0) then H.lit 0
  else H.div (H.sub (H.mul ds.sumxx ds.sumy) (H.mul ds.sumx ds.sumxy)) denom

def ds_leastsq_r (H : Host α ρ) (ds : DS α ρ) : α :=
  let denom := H.mul (H.sub (H.mul ds.n ds.sumxx) (H.mul ds.sumx ds.sumx))
    (H.sub (H.mul ds.n ds.sumyy) (H.mul ds.sumy ds.sumy))
  if H.le denom (H.lit 0) then H.lit 0
  else H.div (H.sub (H.mul ds.n ds.sumxy) (H.mul ds.sumx ds.sumy)) (H.sqrt denom)

/-! ## Characters, strings and the dispatch key -/

/-- The NUL character that ends a C string. -/
def NUL : Char := Char.ofNat 0

/-- The character `buffer[k]` of a C string: NUL at and past the end. -/
def chr (buffer : List Char) (k : Nat) : Char := buffer.getD k NUL

/-- The cast `(int) c` of a character: its code (the characters of a line are
7-bit ASCII, for which `char` is non-negative). -/
def cint (c : Char) : Int := (c.toNat : Int)

/-- The macro `isspace`. -/
def isspace (c : Char) : Bool := c = ' ' || c = '\t' || c = '\n' || c = '\r'

/-- The macro `isnullspace`. -/
def isnullspace (c : Char) : Bool :=
  c = NUL || c = ' ' || c = '\t' || c = '\n' || c = '\r'

/-- The number of characters before the first NUL or white space: what the
loop `while (! isnullspace(buffer[len])) len++` adds to `len`. -/
def toklen : List Char → Nat
  | [] => 0
  | c :: rest => if isnullspace c then 0 else toklen rest + 1

/-- The C function `compute_hash`; `x << k` is `x * 2^k`. -/
def compute_hash (buffer : List Char) : Int :=
  if isnullspace (chr buffer 0) then 0
  else
    let hash := cint (chr buffer 0) * 2 ^ 24
    if isnullspace (chr buffer 1) then hash + 1
    else
      let hash := hash + cint (chr buffer 1) * 2 ^ 16
      if isnullspace (chr buffer 2) then hash + 2
      else
        let hash := hash + cint (chr buffer 2) * 2 ^ 8
        if isnullspace (chr buffer 3) then hash + 3
        else
          let len : Int := 4 + toklen (buffer.drop 4)
          hash + len

/-- The macro `compute_hash_1`. -/
def compute_hash_1 (a : Char) : Int := cint a * 2 ^ 24 + 1

/-- The macro `compute_hash_2`. -/
def compute_hash_2 (a b : Char) : Int := cint a * 2 ^ 24 + cint b * 2 ^ 16 + 2

/-- The macro `compute_hash_3`. -/
def compute_hash_3 (a b c : Char) : Int :=
  cint a * 2 ^ 24 + cint b * 2 ^ 16 + cint c * 2 ^ 8 + 3

/-- The macro `compute_hash_n`. -/
def compute_hash_n (a b c : Char) (n : Int) : Int :=
  if n = 3 then compute_hash_3 a b c
  else cint a * 2 ^ 24 + cint b * 2 ^ 16 + cint c * 2 ^ 8 + n

/-- The macro `round`: `(x) < 0 ? (int) ((x) - 0.5) : (int) ((x) + 0.5)`. -/
def round (H : Host α ρ) (x : α) : Int :=
  if H.lt x (H.ofInt 0) then H.toInt (H.sub x (H.lit (1 / 2)))
  else H.toInt (H.add x (H.lit (1 / 2)))

/-- The loop `while (r-- > 2) cum *= r` of `factorial`. -/
def factorial_loop (H : Host α ρ) : Nat → Int → α → α
  | 0, _, cum => cum
  | k + 1, r, cum =>
    if r > 2 then factorial_loop H k (r - 1) (H.mul cum (H.ofInt (r - 1)))
    else cum

/-- The C function `factorial`: `none` is `RPN_ERROR`, `some f` is `RPN_OK`
with `f` stored through the result pointer. -/
def factorial (H : Host α ρ) (x : α) : Option α :=
  let r := round H x
  if H.lt (DBL_MIN H) (H.fabs (H.sub x (H.ofInt r))) then none
  else if r < 0 then none
  else if r < 2 then some (H.ofInt 1)
  else some (factorial_loop H r.toNat r x)

/-! ## Operator dispatcher -/

/-- The macro `TODEG`. -/
def TODEG (H : Host α ρ) (x : α) : α := H.mul x (H.lit (57295779513082320875 / 10 ^ 18))

/-- The macro `TORAD`. -/
def TORAD (H : Host α ρ) (x : α) : α := H.mul x (H.lit (17453292519943295770 / 10 ^ 21))

/-- The macro `TOFARENHEIT`: `(9.0/5.0*(c)+32.0)`. -/
def TOFARENHEIT (H : Host α ρ) (c : α) : α :=
  H.add (H.mul (H.div (H.lit 9) (H.lit 5)) c) (H.lit 32)

/-- The macro `TOCELSIUS`: `(5.0/9.0*((f)-32.0))`. -/
def TOCELSIUS (H : Host α ρ) (f : α) : α :=
  H.mul (H.div (H.lit 5) (H.lit 9)) (H.sub f (H.lit 32))

def CONST_E (H : Host α ρ) : α := H.lit (27182818284590452354 / 10 ^ 19)
def CONST_PI (H : Host α ρ) : α := H.lit (31415926535897932385 / 10 ^ 19)
def CONST_LN10_INV (H : Host α ρ) : α := H.lit (43429448190325182765 / 10 ^ 20)
def CONST_SPEED_OF_LIGHT (H : Host α ρ) : α := H.lit 299792458
def CONV_MI_TO_M (H : Host α ρ) : α :=
  H.mul (H.mul (H.lit 5280) (H.lit 12)) (H.lit (254 / 10000))
def CONV_FT_TO_M (H : Host α ρ) : α := H.mul (H.lit 12) (H.lit (254 / 10000))
def CONV_IN_TO_MM (H : Host α ρ) : α := H.lit (254 / 10)

/-- The case bodies of the `switch` in `rpncalc_op`, one name per body (a body
reached from two `case` labels has one name). -/
inductive Op where
  | c | ac | dec | hex | bin | dup | swap | rot | drop | depth | avg | std
  | stat | n | sx | sy | sxx | syy | sxy | mx | my | sdx | sdy | a | b | r
  | setbase | setprec | getbase | getprec | getsf | sto | rcl | sum | exc
  | chs | inv | sq | sqrt | fact | sin | cos | tan | sinh | cosh | tanh
  | asin | acos | atan | atan2 | exp | ln | log | logn | abs | round
  | rad | deg | todeg | torad | tof | toc | xstat
  | plus | minus | times | divide | div | mod | fmod | floor | ceil | pow
  | shr | shl | bor | band | bnot | toxy | tort | mi2m | ft2m | in2mm | time
  | seturand | setnrand | seterand | urand | nrand | erand | pi | e | vc
  deriving DecidableEq, Repr

/-- The `case` labels of the `switch` in `rpncalc_op`, in source order, each
with the body it selects. -/
def case_labels : List (Int × Op) := [
  (compute_hash_1 'c', Op.c),
  (compute_hash_2 'a' 'c', Op.ac),
  (compute_hash_3 'd' 'e' 'c', Op.dec),
  (compute_hash_3 'h' 'e' 'x', Op.hex),
  (compute_hash_3 'b' 'i' 'n', Op.bin),
  (compute_hash_3 'd' 'u' 'p', Op.dup),
  (compute_hash_n 's' 'w' 'a' 4, Op.swap),
  (compute_hash_3 'r' 'o' 't', Op.rot),
  (compute_hash_n 'd' 'r' 'o' 4, Op.drop),
  (compute_hash_1 '.', Op.drop),
  (compute_hash_n 'd' 'e' 'p' 5, Op.depth),
  (compute_hash_3 'a' 'v' 'g', Op.avg),
  (compute_hash_3 's' 't' 'd', Op.std),
  (compute_hash_n 's' 't' 'a' 4, Op.stat),
  (compute_hash_1 'n', Op.n),
  (compute_hash_2 's' 'x', Op.sx),
  (compute_hash_2 's' 'y', Op.sy),
  (compute_hash_3 's' 'x' 'x', Op.sxx),
  (compute_hash_3 's' 'y' 'y', Op.syy),
  (compute_hash_3 's' 'x' 'y', Op.sxy),
  (compute_hash_2 'm' 'x', Op.mx),
  (compute_hash_2 'm' 'y', Op.my),
  (compute_hash_3 's' 'd' 'x', Op.sdx),
  (compute_hash_3 's' 'd' 'y', Op.sdy),
  (compute_hash_1 'a', Op.a),
  (compute_hash_1 'b', Op.b),
  (compute_hash_1 'r', Op.r),
  (compute_hash_n '=' 'b' 'a' 5, Op.setbase),
  (compute_hash_n '=' 'p' 'r' 5, Op.setprec),
  (compute_hash_n '?' 'b' 'a' 5, Op.getbase),
  (compute_hash_n '?' 'p' 'r' 5, Op.getprec),
  (compute_hash_3 '?' 's' 'f', Op.getsf),
  (compute_hash_3 's' 't' 'o', Op.sto),
  (compute_hash_3 'r' 'c' 'l', Op.rcl),
  (compute_hash_3 's' 'u' 'm', Op.sum),
  (compute_hash_3 'e' 'x' 'c', Op.exc),
  (compute_hash_2 '-' '+', Op.chs),
  (compute_hash_2 '+' '-', Op.chs),
  (compute_hash_3 'i' 'n' 'v', Op.inv),
  (compute_hash_2 's' 'q', Op.sq),
  (compute_hash_n 's' 'q' 'r' 4, Op.sqrt),
  (compute_hash_1 '!', Op.fact),
  (compute_hash_3 's' 'i' 'n', Op.sin),
  (compute_hash_3 'c' 'o' 's', Op.cos),
  (compute_hash_3 't' 'a' 'n', Op.tan),
  (compute_hash_n 's' 'i' 'n' 4, Op.sinh),
  (compute_hash_n 'c' 'o' 's' 4, Op.cosh),
  (compute_hash_n 't' 'a' 'n' 4, Op.tanh),
  (compute_hash_n 'a' 's' 'i' 4, Op.asin),
  (compute_hash_n 'a' 'c' 'o' 4, Op.acos),
  (compute_hash_n 'a' 't' 'a' 4, Op.atan),
  (compute_hash_n 'a' 't' 'a' 5, Op.atan2),
  (compute_hash_3 'e' 'x' 'p', Op.exp),
  (compute_hash_2 'l' 'n', Op.ln),
  (compute_hash_3 'l' 'o' 'g', Op.log),
  (compute_hash_n 'l' 'o' 'g' 4, Op.logn),
  (compute_hash_3 'a' 'b' 's', Op.abs),
  (compute_hash_n 'r' 'o' 'u' 5, Op.round),
  (compute_hash_3 'r' 'a' 'd', Op.rad),
  (compute_hash_3 'd' 'e' 'g', Op.deg),
  (compute_hash_n 't' 'o' 'd' 5, Op.todeg),
  (compute_hash_n 't' 'o' 'r' 5, Op.torad),
  (compute_hash_3 't' 'o' 'f', Op.tof),
  (compute_hash_3 't' 'o' 'c', Op.toc),
  (compute_hash_n 'x' 's' 't' 5, Op.xstat),
  (compute_hash_1 '+', Op.plus),
  (compute_hash_1 '-', Op.minus),
  (compute_hash_1 '*', Op.times),
  (compute_hash_1 'x', Op.times),
  (compute_hash_1 '/', Op.divide),
  (compute_hash_3 'd' 'i' 'v', Op.div),
  (compute_hash_3 'm' 'o' 'd', Op.mod),
  (compute_hash_n 'f' 'm' 'o' 4, Op.fmod),
  (compute_hash_n 'f' 'l' 'o' 5, Op.floor),
  (compute_hash_n 'c' 'e' 'i' 4, Op.ceil),
  (compute_hash_3 'p' 'o' 'w', Op.pow),
  (compute_hash_1 '^', Op.pow),
  (compute_hash_2 '>' '>', Op.shr),
  (compute_hash_2 '<' '<', Op.shl),
  (compute_hash_1 '|', Op.bor),
  (compute_hash_1 '&', Op.band),
  (compute_hash_1 '~', Op.bnot),
  (compute_hash_n 't' 'o' 'x' 4, Op.toxy),
  (compute_hash_n 't' 'o' 'r' 4, Op.tort),
  (compute_hash_n 'm' 'i' '2' 4, Op.mi2m),
  (compute_hash_n 'f' 't' '2' 4, Op.ft2m),
  (compute_hash_n 'i' 'n' '2' 5, Op.in2mm),
  (compute_hash_n 't' 'i' 'm' 4, Op.time),
  (compute_hash_n '=' 'u' 'r' 6, Op.seturand),
  (compute_hash_n '=' 'n' 'r' 6, Op.setnrand),
  (compute_hash_n '=' 'e' 'r' 6, Op.seterand),
  (compute_hash_n 'u' 'r' 'a' 5, Op.urand),
  (compute_hash_n 'n' 'r' 'a' 5, Op.nrand),
  (compute_hash_n 'e' 'r' 'a' 5, Op.erand),
  (compute_hash_2 'p' 'i', Op.pi),
  (compute_hash_1 'e', Op.e),
  (compute_hash_2 'v' 'c', Op.vc)]

/-- The body selected by a key: the first label equal to it, `none` when the
`switch` falls through to the final `return RPN_ERROR`. -/
def select (hash : Int) : Option Op := case_labels.lookup hash

/-- The value of `a || b` when `a` was zero and `b` is a call that returned
the given status and state. -/
def lor (r : Int × DS α ρ) : Int × DS α ρ := (truth (decide (r.1 ≠ 0)), r.2)

/-- The loop of `avg`: `for (t = 0; t < ds->next; t++) val += ds->stack[t]`. -/
def avg_sum (H : Host α ρ) (ds : DS α ρ) : α :=
  (List.range ds.next.toNat).foldl (fun val t => H.add val (ds.stack t)) (H.ofInt 0)

/-- The loop of `stat`: `for (t = 0; t < ds->next; t += 2) ...`, started at
`t` with the given number of iterations allowed. -/
def stat_loop (H : Host α ρ) : Nat → Int → DS α ρ → DS α ρ
  | 0, _, ds => ds
  | k + 1, t, ds =>
    if t < ds.next then
      stat_loop H k (t + 2) { ds with
        sumx := H.add ds.sumx (ds.stack t)
        sumy := H.add ds.sumy (ds.stack (t + 1))
        sumxx := H.add ds.sumxx (H.mul (ds.stack t) (ds.stack t))
        sumyy := H.add ds.sumyy (H.mul (ds.stack (t + 1)) (ds.stack (t + 1)))
        sumxy := H.add ds.sumxy (H.mul (ds.stack t) (ds.stack (t + 1)))
        n := H.add ds.n (H.ofInt 1) }
    else ds

/-- The loop of `xstat`: `for (t = 0; t < ds->next; t++) ...`, started at `t`
with the given number of iterations allowed. -/
def xstat_loop (H : Host α ρ) : Nat → Int → DS α ρ → DS α ρ
  | 0, _, ds => ds
  | k + 1, t, ds =>
    if t < ds.next then
      xstat_loop H k (t + 1) { ds with
        sumx := H.add ds.sumx ds.n
        sumy := H.add ds.sumy (ds.stack t)
        sumxx := H.add ds.sumxx (H.mul ds.n ds.n)
        sumyy := H.add ds.sumyy (H.mul (ds.stack t) (ds.stack t))
        sumxy := H.add ds.sumxy (H.mul ds.n (ds.stack t))
        n := H.add ds.n (H.ofInt 1) }
    else ds

/-- The argument of `sin`, `cos`, `tan`: `ds->angle_unit == 0 ? top : TORAD(top)`. -/
def angle_in (H : Host α ρ) (ds : DS α ρ) (top : α) : α :=
  if ds.angle_unit = 0 then top else TORAD H top

/-- The result of an inverse function: `ds->angle_unit == 0 ? val : TODEG(val)`. -/
def angle_out (H : Host α ρ) (ds : DS α ρ) (val : α) : α :=
  if ds.angle_unit = 0 then val else TODEG H val

/-- The bodies of the `switch` of `rpncalc_op`.  An `int` shift `i << j` is
`i * 2^j` and `i >> j` is the arithmetic shift; `i / j` and `i % j` truncate
towards zero. -/
def rpncalc_case (H : Host α ρ) (ds : DS α ρ) : Op → Int × DS α ρ
  | .c => ds_clear ds
  | .ac => ds_allclear H ds
  | .dec => ds_setbase H ds 10
  | .hex => ds_setbase H ds 16
  | .bin => ds_setbase H ds 2
  | .dup => ds_dup ds
  | .swap => ds_swap ds
  | .rot => ds_rot ds
  | .drop => ds_drop ds
  | .depth => ds_push ds (H.ofInt ds.next)
  | .avg =>
    if 0 = ds.next then (RPN_ERROR, ds)
    else ds_push ds (H.div (avg_sum H ds) (H.ofInt ds.next))
  | .std =>
    if 0 = ds.next then (RPN_ERROR, ds)
    else ds_push ds (ds_stddev H ds)
  | .stat =>
    match ds_fromtop ds 0 with
    | none => (RPN_ERROR, ds)
    | some _ =>
      match ds_fromtop ds 1 with
      | none => (RPN_ERROR, ds)
      | some _ =>
        if Int.tmod ds.next 2 ≠ 0 then (RPN_ERROR, ds)
        else (RPN_OK, { stat_loop H ds.next.toNat 0 ds with next := 0 })
  | .n => ds_push ds ds.n
  | .sx => ds_push ds ds.sumx
  | .sy => ds_push ds ds.sumy
  | .sxx => ds_push ds ds.sumxx
  | .syy => ds_push ds ds.sumyy
  | .sxy => ds_push ds ds.sumxy
  | .mx =>
    if H.eq ds.n (H.ofInt 0) then (1, ds) else lor (ds_push ds (H.div ds.sumx ds.n))
  | .my =>
    if H.eq ds.n (H.ofInt 0) then (1, ds) else lor (ds_push ds (H.div ds.sumy ds.n))
  | .sdx =>
    if H.lt ds.n (H.ofInt 2) then (1, ds) else lor (ds_push ds (ds_stddev_x H ds))
  | .sdy =>
    if H.lt ds.n (H.ofInt 2) then (1, ds) else lor (ds_push ds (ds_stddev_y H ds))
  | .a =>
    if H.lt ds.n (H.ofInt 2) then (1, ds) else lor (ds_push ds (ds_leastsq_a H ds))
  | .b =>
    if H.lt ds.n (H.ofInt 2) then (1, ds) else lor (ds_push ds (ds_leastsq_b H ds))
  | .r =>
    if H.lt ds.n (H.ofInt 2) then (1, ds) else lor (ds_push ds (ds_leastsq_r H ds))
  | .setbase =>
    match ds_fromtop ds 0 with
    | some top => ds_setbase H (ds_drop ds).2 (H.toInt top)
    | none => (RPN_ERROR, ds)
  | .setprec =>
    match ds_fromtop ds 0 with
    | some top => ds_setprec (ds_drop ds).2 (H.toInt top)
    | none => (RPN_ERROR, ds)
  | .getbase => ds_push ds (H.ofInt ds.base)
  | .getprec => ds_push ds (H.ofInt ds.prec)
  | .getsf => ds_push ds (H.ofInt ds.sigfig)
  | .sto =>
    match ds_fromtop ds 0 with
    | some top => (0, { (ds_drop ds).2 with mem := top })
    | none => (RPN_ERROR, ds)
  | .rcl => ds_push ds ds.mem
  | .sum =>
    match ds_fromtop ds 0 with
    | some top => (0, { (ds_drop ds).2 with mem := H.add ds.mem top })
    | none => (RPN_ERROR, ds)
  | .exc =>
    match ds_fromtop ds 0 with
    | some top => (0, { (ds_replace ds 1 ds.mem).2 with mem := top })
    | none => (RPN_ERROR, ds)
  | .chs =>
    match ds_fromtop ds 0 with
    | none => (1, ds)
    | some top => lor (ds_replace ds 1 (H.neg top))
  | .inv =>
    match ds_fromtop ds 0 with
    | none => (1, ds)
    | some top =>
      if ! H.lt (DBL_MIN H) (H.fabs top) then (1, ds)
      else lor (ds_replace ds 1 (H.div (H.lit 1) top))
  | .sq =>
    match ds_fromtop ds 0 with
    | none => (1, ds)
    | some top => lor (ds_replace ds 1 (H.mul top top))
  | .sqrt =>
    match ds_fromtop ds 0 with
    | none => (1, ds)
    | some top => lor (ds_replace ds 1 (H.sqrt top))
  | .fact =>
    match ds_fromtop ds 0 with
    | none => (1, ds)
    | some top =>
      match factorial H top with
      | none => (1, ds)
      | some val => lor (ds_replace ds 1 val)
  | .sin =>
    match ds_fromtop ds 0 with
    | none => (1, ds)
    | some top => lor (ds_replace ds 1 (H.sin (angle_in H ds top)))
  | .cos =>
    match ds_fromtop ds 0 with
    | none => (1, ds)
    | some top => lor (ds_replace ds 1 (H.cos (angle_in H ds top)))
  | .tan =>
    match ds_fromtop ds 0 with
    | none => (1, ds)
    | some top => lor (ds_replace ds 1 (H.tan (angle_in H ds top)))
  | .sinh =>
    match ds_fromtop ds 0 with
    | none => (RPN_ERROR, ds)
    | some top =>
      if H.errno_sinh top then (1, ds) else lor (ds_replace ds 1 (H.sinh top))
  | .cosh =>
    match ds_fromtop ds 0 with
    | none => (RPN_ERROR, ds)
    | some top =>
      if H.errno_cosh top then (1, ds) else lor (ds_replace ds 1 (H.cosh top))
  | .tanh =>
    match ds_fromtop ds 0 with
    | none => (RPN_ERROR, ds)
    | some top =>
      if H.errno_tanh top then (1, ds) else lor (ds_replace ds 1 (H.tanh top))
  | .asin =>
    match ds_fromtop ds 0 with
    | none => (RPN_ERROR, ds)
    | some top =>
      if H.errno_asin top then (1, ds)
      else lor (ds_replace ds 1 (angle_out H ds (H.asin top)))
  | .acos =>
    match ds_fromtop ds 0 with
    | none => (RPN_ERROR, ds)
    | some top =>
      if H.errno_acos top then (1, ds)
      else lor (ds_replace ds 1 (angle_out H ds (H.acos top)))
  | .atan =>
    match ds_fromtop ds 0 with
    | none => (RPN_ERROR, ds)
    | some top => ds_replace ds 1 (angle_out H ds (H.atan top))
  | .atan2 =>
    match ds_fromtop ds 0 with
    | none => (RPN_ERROR, ds)
    | some top =>
      match ds_fromtop ds 1 with
      | none => (RPN_ERROR, ds)
      | some next => ds_replace ds 2 (angle_out H ds (H.atan2 next top))
  | .exp =>
    match ds_fromtop ds 0 with
    | none => (1, ds)
    | some top => lor (ds_replace ds 1 (H.exp top))
  | .ln =>
    match ds_fromtop ds 0 with
    | none => (RPN_ERROR, ds)
    | some top =>
      if H.errno_log top then (1, ds) else lor (ds_replace ds 1 (H.log top))
  | .log =>
    match ds_fromtop ds 0 with
    | none => (RPN_ERROR, ds)
    | some top =>
      if H.errno_log top then (RPN_ERROR, ds)
      else ds_replace ds 1 (H.mul (H.log top) (CONST_LN10_INV H))
  | .logn =>
    match ds_fromtop ds 1 with
    | none => (1, ds)
    | some next =>
      match ds_fromtop ds 0 with
      | none => (1, ds)
      | some top =>
        if H.le next (H.lit 0) then (1, ds)
        else if H.le top (H.lit 0) then (1, ds)
        else lor (ds_replace ds 2 (H.div (H.log next) (H.log top)))
  | .abs =>
    match ds_fromtop ds 0 with
    | none => (1, ds)
    | some top => lor (ds_replace ds 1 (H.fabs top))
  | .round =>
    match ds_fromtop ds 0 with
    | none => (1, ds)
    | some top => lor (ds_replace ds 1 (H.ofInt (round H top)))
  | .rad => (RPN_OK, { ds with angle_unit := 0 })
  | .deg => (RPN_OK, { ds with angle_unit := 1 })
  | .todeg =>
    match ds_fromtop ds 0 with
    | none => (1, ds)
    | some top => lor (ds_replace ds 1 (TODEG H top))
  | .torad =>
    match ds_fromtop ds 0 with
    | none => (1, ds)
    | some top => lor (ds_replace ds 1 (TORAD H top))
  | .tof =>
    match ds_fromtop ds 0 with
    | none => (1, ds)
    | some top => lor (ds_replace ds 1 (TOFARENHEIT H top))
  | .toc =>
    match ds_fromtop ds 0 with
    | none => (1, ds)
    | some top => lor (ds_replace ds 1 (TOCELSIUS H top))
  | .xstat =>
    match ds_fromtop ds 0 with
    | none => (RPN_ERROR, ds)
    | some _ => (RPN_OK, { xstat_loop H ds.next.toNat 0 ds with next := 0 })
  | .plus =>
    match ds_fromtop ds 1 with
    | none => (1, ds)
    | some next =>
      match ds_fromtop ds 0 with
      | none => (1, ds)
      | some top => lor (ds_replace ds 2 (H.add next top))
  | .minus =>
    match ds_fromtop ds 1 with
    | none => (1, ds)
    | some next =>
      match ds_fromtop ds 0 with
      | none => (1, ds)
      | some top => lor (ds_replace ds 2 (H.sub next top))
  | .times =>
    match ds_fromtop ds 1 with
    | none => (1, ds)
    | some next =>
      match ds_fromtop ds 0 with
      | none => (1, ds)
      | some top => lor (ds_replace ds 2 (H.mul next top))
  | .divide =>
    match ds_fromtop ds 1 with
    | none => (1, ds)
    | some next =>
      match ds_fromtop ds 0 with
      | none => (1, ds)
      | some top =>
        if ! H.lt (DBL_MIN H) (H.fabs top) then (1, ds)
        else lor (ds_replace ds 2 (H.div next top))
  | .div =>
    match ds_fromtop ds 1 with
    | none => (RPN_ERROR, ds)
    | some next =>
      match ds_fromtop ds 0 with
      | none => (RPN_ERROR, ds)
      | some top =>
        if round H top = 0 then (RPN_ERROR, ds)
        else ds_replace ds 2 (H.ofInt (Int.tdiv (round H next) (round H top)))
  | .mod =>
    match ds_fromtop ds 1 with
    | none => (RPN_ERROR, ds)
    | some next =>
      match ds_fromtop ds 0 with
      | none => (RPN_ERROR, ds)
      | some top =>
        if round H top = 0 then (RPN_ERROR, ds)
        else ds_replace ds 2 (H.ofInt (Int.tmod (round H next) (round H top)))
  | .fmod =>
    match ds_fromtop ds 1 with
    | none => (RPN_ERROR, ds)
    | some next =>
      match ds_fromtop ds 0 with
      | none => (RPN_ERROR, ds)
      | some top => ds_replace ds 2 (H.fmod next top)
  | .floor =>
    match ds_fromtop ds 0 with
    | none => (RPN_ERROR, ds)
    | some top => ds_replace ds 1 (H.floor top)
  | .ceil =>
    match ds_fromtop ds 0 with
    | none => (RPN_ERROR, ds)
    | some top => ds_replace ds 1 (H.ceil top)
  | .pow =>
    match ds_fromtop ds 0 with
    | none => (RPN_ERROR, ds)
    | some top =>
      match ds_fromtop ds 1 with
      | none => (RPN_ERROR, ds)
      | some next =>
        if H.errno_pow next top then (1, ds)
        else lor (ds_replace ds 2 (H.pow next top))
  | .shr =>
    match ds_fromtop ds 1 with
    | none => (RPN_ERROR, ds)
    | some next =>
      match ds_fromtop ds 0 with
      | none => (RPN_ERROR, ds)
      | some top =>
        ds_replace ds 2 (H.ofInt (round H next >>> (round H top).toNat))
  | .shl =>
    match ds_fromtop ds 1 with
    | none => (RPN_ERROR, ds)
    | some next =>
      match ds_fromtop ds 0 with
      | none => (RPN_ERROR, ds)
      | some top =>
        ds_replace ds 2 (H.ofInt (round H next * 2 ^ (round H top).toNat))
  | .bor =>
    match ds_fromtop ds 1 with
    | none => (RPN_ERROR, ds)
    | some next =>
      match ds_fromtop ds 0 with
      | none => (RPN_ERROR, ds)
      | some top => ds_replace ds 2 (H.ofInt (Int.lor (round H next) (round H top)))
  | .band =>
    match ds_fromtop ds 1 with
    | none => (RPN_ERROR, ds)
    | some next =>
      match ds_fromtop ds 0 with
      | none => (RPN_ERROR, ds)
      | some top => ds_replace ds 2 (H.ofInt (Int.land (round H next) (round H top)))
  | .bnot =>
    match ds_fromtop ds 0 with
    | none => (RPN_ERROR, ds)
    | some top => ds_replace ds 1 (H.ofInt (Int.not (round H top)))
  | .toxy =>
    match ds_fromtop ds 0 with
    | none => (RPN_ERROR, ds)
    | some top =>
      match ds_fromtop ds 1 with
      | none => (RPN_ERROR, ds)
      | some next =>
        let ds1 := { ds with next := ds.next - 2 }
        let r1 := ds_push ds1 (H.mul next (H.cos (angle_in H ds1 top)))
        if r1.1 ≠ 0 then (1, r1.2)
        else lor (ds_push r1.2 (H.mul next (H.sin (angle_in H r1.2 top))))
  | .tort =>
    match ds_fromtop ds 0 with
    | none => (RPN_ERROR, ds)
    | some top =>
      match ds_fromtop ds 1 with
      | none => (RPN_ERROR, ds)
      | some next =>
        let ds1 := { ds with next := ds.next - 2 }
        let val := H.atan2 top next
        let r1 := ds_push ds1 (H.sqrt (H.add (H.mul next next) (H.mul top top)))
        if r1.1 ≠ 0 then (1, r1.2)
        else lor (ds_push r1.2 (angle_out H r1.2 val))
  | .mi2m => ds_push ds (CONV_MI_TO_M H)
  | .ft2m => ds_push ds (CONV_FT_TO_M H)
  | .in2mm => ds_push ds (CONV_IN_TO_MM H)
  | .time => ds_push ds H.ptime
  | .seturand =>
    match ds_fromtop ds 0 with
    | none => (RPN_ERROR, ds)
    | some top =>
      match ds_fromtop ds 1 with
      | none => (RPN_ERROR, ds)
      | some next =>
        (RPN_OK, { ds with
          next := ds.next - 2
          urand := H.uniform_random_set ds.urand next top })
  | .setnrand =>
    match ds_fromtop ds 0 with
    | none => (RPN_ERROR, ds)
    | some top =>
      match ds_fromtop ds 1 with
      | none => (RPN_ERROR, ds)
      | some next =>
        (RPN_OK, { ds with
          next := ds.next - 2
          nrand := H.normal_random_set ds.nrand next top })
  | .seterand =>
    match ds_fromtop ds 0 with
    | none => (RPN_ERROR, ds)
    | some top =>
      (RPN_OK, { ds with
        next := ds.next - 1
        erand := H.exponential_random_set ds.erand top })
  | .urand =>
    ds_push { ds with urand := (H.uniform_random_real ds.urand).2 }
      (H.uniform_random_real ds.urand).1
  | .nrand =>
    ds_push { ds with nrand := (H.normal_random_real ds.nrand).2 }
      (H.normal_random_real ds.nrand).1
  | .erand =>
    ds_push { ds with erand := (H.exponential_random_real ds.erand).2 }
      (H.exponential_random_real ds.erand).1
  | .pi => ds_push ds (CONST_PI H)
  | .e => ds_push ds (CONST_E H)
  | .vc => ds_push ds (CONST_SPEED_OF_LIGHT H)

/-- The C function `rpncalc_op`: computes the key of the token at `op` and
runs the body the `switch` selects; with no matching label the result is the
final `return RPN_ERROR`. -/
def rpncalc_op (H : Host α ρ) (ds : DS α ρ) (op : List Char) : Int × DS α ρ :=
  match select (compute_hash op) with
  | some body => rpncalc_case H ds body
  | none => (RPN_ERROR, ds)

/-! ## Base-N literal reader -/

/-- The C function `isdigitbase`. -/
def isdigitbase (digit : Char) (base : Int) : Bool :=
  if base ≤ 10 then
    if cint digit ≥ cint '0' ∧ cint digit - cint '0' < base then true else false
  else if base ≤ 36 then
    if cint digit ≥ cint '0' ∧ cint digit ≤ cint '9' then true
    else if cint digit ≥ cint 'A' ∧ cint digit - cint 'A' + 10 < base then true
    else false
  else false

/-- The C function `todoublebase`. -/
def todoublebase (H : Host α ρ) (digit : Char) (base : Int) : α :=
  if base ≤ 10 then
    if cint digit ≥ cint '0' ∧ cint digit - cint '0' < base then
      H.ofInt (cint digit - cint '0')
    else H.lit 0
  else if base ≤ 36 then
    if cint digit ≥ cint '0' ∧ cint digit ≤ cint '9' then H.ofInt (cint digit - cint '0')
    else if cint digit ≥ cint 'A' ∧ cint digit - cint 'A' + 10 < base then
      H.ofInt (cint digit - cint 'A' + 10)
    else H.lit 0
  else H.lit 0

/-- The C function `skipwhite`. -/
def skipwhite : List Char → List Char
  | [] => []
  | c :: rest => if isspace c then skipwhite rest else c :: rest

/-- The C function `skipnonwhite`. -/
def skipnonwhite : List Char → List Char
  | [] => []
  | c :: rest => if !isspace c && c ≠ NUL then skipnonwhite rest else c :: rest

/-- The loop `while (t-- > 0) fracnum /= (double) base` of `convert_s_to_d`,
for the initial value `t`. -/
def frac_scale (H : Host α ρ) (base : Int) : Nat → α → α
  | 0, fracnum => fracnum
  | t + 1, fracnum => frac_scale H base t (H.div fracnum (H.ofInt base))

/-- The main loop of `convert_s_to_d` over the characters from `ptr` on, with
the local variables `num`, `started`, `gotnum`, `infrac`, `minus`, `inexp`.
`none` is `RPN_ERROR`; `some v` is `RPN_OK` with `v` stored through `x`. -/
def convert_loop (H : Host α ρ) (base : Int) :
    List Char → α → Bool → Bool → Nat → Bool → Bool → Option α
  | [], num, _, gotnum, _, minus, _ =>
    if gotnum then some (if minus then H.neg num else num) else none
  | c :: ptr, num, started, gotnum, infrac, minus, inexp =>
    if c = NUL ∨ isspace c = true then
      if gotnum then some (if minus then H.neg num else num) else none
    else if c = '-' then
      if started then none
      else convert_loop H base ptr num true gotnum infrac true inexp
    else if c = '+' then
      if started then none
      else convert_loop H base ptr num true gotnum infrac minus inexp
    else if c = 'e' ∧ (started = false ∨ inexp = true) then none
    else
      let inexp := if c = 'e' then true else inexp
      if c = '.' then
        if infrac ≠ 0 then none
        else convert_loop H base ptr num true gotnum 1 minus inexp
      else if isdigitbase c base then
        if infrac ≠ 0 then
          convert_loop H base ptr
            (H.add num (frac_scale H base infrac (todoublebase H c base)))
            true true (infrac + 1) minus inexp
        else
          convert_loop H base ptr
            (H.add (H.mul num (H.ofInt base)) (todoublebase H c base))
            true true infrac minus inexp
      else none

/-- The C function `convert_s_to_d`: `none` is `RPN_ERROR`; `some v` is
`RPN_OK` with `v` stored through `x`. -/
def convert_s_to_d (H : Host α ρ) (ptr : List Char) (base : Int) : Option α :=
  if chr (skipwhite ptr) 0 = NUL then none
  else convert_loop H base (skipwhite ptr) (H.lit 0) false false 0 false false

/-! ## Base-N formatter -/

/-- The C function `tocharbase`; a character is built from its code. -/
def tocharbase (digit : Int) (base : Int) : Char :=
  if digit < 0 then '0'
  else if base ≤ 10 then
    if digit < base then Char.ofNat (digit + cint '0').toNat else '0'
  else if base ≤ 36 then
    if digit < 10 then Char.ofNat (digit + cint '0').toNat
    else if digit < base then Char.ofNat (digit + cint 'A' - 10).toNat
    else '0'
  else '0'

/-- The loop `for (t = 0; t < prec; t++) base_to_prec *= base` of
`convert_d_to_s`, for the number of iterations `prec`. -/
def base_to_prec (H : Host α ρ) (base : Int) : Nat → α → α
  | 0, acc => acc
  | t + 1, acc => base_to_prec H base t (H.mul acc (H.ofInt base))

/-- The local variables of `convert_d_to_s` that its integer-part loop
changes: the buffer, `ptr` (as an index into the buffer), `n`, `whole` and
`prec`. -/
structure Cursor (α : Type) where
  buf : Int → Char
  ptr : Int
  n : Int
  whole : α
  prec : Int

/-- The loop `while (whole >= 1.0) ...` of `convert_d_to_s`, with the number
of iterations allowed.  `Sum.inl` is the `return RPN_ERROR` inside the loop,
with the buffer and the index where the terminator was stored; `Sum.inr` is
the state at the normal exit; `none` only when the iterations are used up. -/
def whole_loop (H : Host α ρ) (base : Int) :
    Nat → Cursor α → Option (((Int → Char) × Int) ⊕ Cursor α)
  | 0, _ => none
  | k + 1, c =>
    if H.le (H.lit 1) c.whole then
      let digit := H.toInt
        (H.sub c.whole (H.mul (H.floor (H.div c.whole (H.ofInt base))) (H.ofInt base)))
      let buf := store c.buf c.ptr (tocharbase digit base)
      if c.n - 1 ≤ 0 then some (Sum.inl (store buf (c.ptr + 1) NUL, c.ptr + 1))
      else
        whole_loop H base k
          { buf := buf, ptr := c.ptr + 1, n := c.n - 1
            whole := H.div c.whole (H.ofInt base), prec := c.prec - 1 }
    else some (Sum.inr c)

/-- The loop `while (wholestart < ptr) ...` of `convert_d_to_s` that swaps the
ends of the integer part moving inward, with the number of iterations
allowed. -/
def reverse_loop : Nat → Int → Int → (Int → Char) → (Int → Char)
  | 0, _, _, buf => buf
  | k + 1, wholestart, ptr, buf =>
    if wholestart < ptr then
      let temp := buf wholestart
      reverse_loop k (wholestart + 1) (ptr - 1)
        (store (store buf wholestart (buf ptr)) ptr temp)
    else buf

/-- The loop `while (prec-- > 0) ...` of `convert_d_to_s` for a positive
`prec`, given as the number of iterations.  The result is the status, the
buffer and the index where the terminator was stored. -/
def frac_loop (H : Host α ρ) (base : Int) :
    Nat → (Int → Char) → Int → Int → α → Int → Int × (Int → Char) × Int
  | 0, buf, _, _, _, lastzero => (RPN_OK, store buf lastzero NUL, lastzero)
  | p + 1, buf, ptr, n, frac, lastzero =>
    let frac1 := H.mul frac (H.ofInt base)
    let digit := H.toInt frac1
    let frac2 := H.sub frac1 (H.ofInt digit)
    let c := tocharbase digit base
    let buf1 := store buf ptr c
    let lastzero1 := if c ≠ '0' then ptr + 1 else lastzero
    if n - 1 ≤ 0 then (RPN_ERROR, store buf1 lastzero1 NUL, lastzero1)
    else frac_loop H base p buf1 (ptr + 1) (n - 1) frac2 lastzero1

/-- The part of `convert_d_to_s` from `point = ptr` on, once the integer part
is in place: the test `prec <= 0`, the radix point and the fraction loop. -/
def d_to_s_point (H : Host α ρ) (base : Int) (buf : Int → Char) (ptr n : Int) (frac : α)
    (prec : Int) : Int × (Int → Char) × Int :=
  if prec ≤ 0 then (RPN_OK, store buf ptr NUL, ptr)
  else
    let lastzero := ptr
    let buf1 := store buf ptr '.'
    if n - 1 ≤ 0 then (RPN_ERROR, store buf1 (ptr + 1) NUL, ptr + 1)
    else frac_loop H base prec.toNat buf1 (ptr + 1) (n - 1) frac lastzero

/-- The part of `convert_d_to_s` from the integer-part loop on: the loop, the
reversal of the digits between `wholestart` and the point, and the rest. -/
def d_to_s_digits (H : Host α ρ) (base : Int) (wholestart : Int) (frac : α) (c : Cursor α) :
    Option (Int × (Int → Char) × Int) :=
  match whole_loop H base (c.n.toNat + 1) c with
  | none => none
  | some (Sum.inl r) => some (RPN_ERROR, r.1, r.2)
  | some (Sum.inr c1) =>
    let point := c1.ptr
    let buf := reverse_loop (point - 1 - wholestart).toNat wholestart (point - 1) c1.buf
    some (d_to_s_point H base buf point c1.n frac c1.prec)

/-- The part of `convert_d_to_s` from `wholestart = ptr` on, for the
magnitude `x`: the rounding increment, the leading zero and the digits. -/
def d_to_s_body (H : Host α ρ) (base : Int) (buf : Int → Char) (ptr n : Int) (x : α)
    (prec : Int) : Option (Int × (Int → Char) × Int) :=
  let wholestart := ptr
  let prec := if prec < 0 then 0 else prec
  let roundinc := H.div (H.lit (1 / 2)) (base_to_prec H base prec.toNat (H.lit 1))
  let x := H.add x roundinc
  let whole := H.floor x
  if H.le whole (H.lit 0) then
    let buf1 := store buf ptr '0'
    if n - 1 ≤ 0 then some (RPN_ERROR, store buf1 (ptr + 1) NUL, ptr + 1)
    else
      d_to_s_digits H base wholestart (H.sub x whole)
        { buf := buf1, ptr := ptr + 1, n := n - 1, whole := whole, prec := prec }
  else
    d_to_s_digits H base wholestart (H.sub x whole)
      { buf := buf, ptr := ptr, n := n, whole := whole, prec := prec }

/-- The C function `convert_d_to_s` on the buffer `buf` (`ptr = buf` is index
0), with one more result: the index at which the terminating NUL was stored.
`none` only if the integer-part loop used up its iterations, which it never
does (`d_to_s_returns`). -/
def d_to_s (H : Host α ρ) (buf : Int → Char) (x : α) (base prec n : Int) :
    Option (Int × (Int → Char) × Int) :=
  if H.lt x (H.lit 0) then
    let buf1 := store buf 0 '-'
    if n - 1 ≤ 0 then some (RPN_ERROR, store buf1 1 NUL, 1)
    else d_to_s_body H base buf1 1 (n - 1) (H.neg x) prec
  else d_to_s_body H base buf 0 n x prec

/-- The C function `convert_d_to_s`: the status and the buffer. -/
def convert_d_to_s (H : Host α ρ) (buf : Int → Char) (x : α) (base prec n : Int) :
    Option (Int × (Int → Char)) :=
  (d_to_s H buf x base prec n).map (fun r => (r.1, r.2.1))

/-- The C string held in a buffer from index `i` on, reading at most the given
number of characters: the characters before the first NUL. -/
def cstr (buf : Int → Char) : Nat → Int → List Char
  | 0, _ => []
  | k + 1, i => if buf i = NUL then [] else buf i :: cstr buf k (i + 1)

/-! ## Evaluator loop -/

/-- The body of the `while` loop of `rpncalc_eval` for the token at `ptr`
(white space skipped, not at the end of the line): `Sum.inl` is a `return`
from inside the loop with its status, `Sum.inr` is falling through to
`ptr = skipnonwhite(ptr)` and the next iteration. -/
def eval_token (H : Host α ρ) (ds : DS α ρ) (ptr : List Char) :
    (Int × DS α ρ) ⊕ DS α ρ :=
  if chr ptr 0 = '?' ∧ (chr ptr 1 = NUL ∨ isspace (chr ptr 1) = true) then
    Sum.inl (RPN_HELP, ds)
  else if chr ptr 0 = 'q' ∧ (chr ptr 1 = NUL ∨ isspace (chr ptr 1) = true) then
    Sum.inl (RPN_QUIT, ds)
  else
    let base := ds_base ds
    let r := rpncalc_op H ds ptr
    if r.1 ≠ 0 then
      match convert_s_to_d H ptr base with
      | some x => Sum.inr (ds_push r.2 x).2
      | none => Sum.inl (RPN_ERROR, r.2)
    else Sum.inr r.2

/-- The `while` loop of `rpncalc_eval`, with the number of iterations allowed;
`none` only when that number is used up. -/
def eval_loop (H : Host α ρ) : Nat → DS α ρ → List Char → Option (Int × DS α ρ)
  | 0, _, _ => none
  | k + 1, ds, ptr =>
    if chr (skipwhite ptr) 0 = NUL then some (RPN_OK, ds)
    else
      match eval_token H ds (skipwhite ptr) with
      | Sum.inl r => some r
      | Sum.inr ds1 => eval_loop H k ds1 (skipnonwhite (skipwhite ptr))

/-- The C function `rpncalc_eval`.  Every iteration of its loop consumes at
least one character, so `length + 1` iterations always suffice
(`rpncalc_eval_returns`). -/
def rpncalc_eval (H : Host α ρ) (ds : DS α ρ) (ptr : List Char) : Option (Int × DS α ρ) :=
  eval_loop H (ptr.length + 1) ds ptr

/-! ## An exact-arithmetic host -/

/-- The routines of the C math library that have no exact rational value, the
clock and the variates library, as needed to build a host over `ℚ`. -/
structure Libm (ρ : Type) where
  sqrt : ℚ → ℚ
  sin : ℚ → ℚ
  cos : ℚ → ℚ
  tan : ℚ → ℚ
  sinh : ℚ → ℚ
  cosh : ℚ → ℚ
  tanh : ℚ → ℚ
  asin : ℚ → ℚ
  acos : ℚ → ℚ
  atan : ℚ → ℚ
  atan2 : ℚ → ℚ → ℚ
  exp : ℚ → ℚ
  log : ℚ → ℚ
  pow : ℚ → ℚ → ℚ
  errno_sinh : ℚ → Bool
  errno_cosh : ℚ → Bool
  errno_tanh : ℚ → Bool
  errno_asin : ℚ → Bool
  errno_acos : ℚ → Bool
  errno_log : ℚ → Bool
  errno_pow : ℚ → ℚ → Bool
  ptime : ℚ
  uniform_random_init : ℚ → ℚ → ρ
  uniform_random_set : ρ → ℚ → ℚ → ρ
  uniform_random_real : ρ → ℚ × ρ
  normal_random_init : ℚ → ℚ → ρ
  normal_random_set : ρ → ℚ → ℚ → ρ
  normal_random_real : ρ → ℚ × ρ
  exponential_random_init : ℚ → ρ
  exponential_random_set : ρ → ℚ → ρ
  exponential_random_real : ρ → ℚ × ρ

/-- The cast `(int) x` on an exact value: truncation towards zero. -/
def truncQ (x : ℚ) : Int := Int.tdiv x.num x.den

/-- The host whose doubles are rationals with exact arithmetic.  It is not the
C type `double`: nothing is rounded, nothing overflows and there is no NaN or
infinity.  A statement over it says what the code computes when every
operation is exact; `roundHost` rounds as binary64 does and `nanHost` has a
NaN, and they show where doubles depart from it. -/
def exactHost {ρ : Type} (L : Libm ρ) : Host ℚ ρ where
  lit := fun q => q
  ofInt := fun i => (i : ℚ)
  toInt := truncQ
  add := fun x y => x + y
  sub := fun x y => x - y
  mul := fun x y => x * y
  div := fun x y => x / y
  neg := fun x => -x
  lt := fun x y => decide (x < y)
  le := fun x y => decide (x ≤ y)
  eq := fun x y => decide (x = y)
  fabs := fun x => |x|
  floor := fun x => ((Int.floor x : Int) : ℚ)
  ceil := fun x => ((Int.ceil x : Int) : ℚ)
  fmod := fun x y => x - (truncQ (x / y) : ℚ) * y
  sqrt := L.sqrt
  sin := L.sin
  cos := L.cos
  tan := L.tan
  sinh := L.sinh
  cosh := L.cosh
  tanh := L.tanh
  asin := L.asin
  acos := L.acos
  atan := L.atan
  atan2 := L.atan2
  exp := L.exp
  log := L.log
  pow := L.pow
  errno_sinh := L.errno_sinh
  errno_cosh := L.errno_cosh
  errno_tanh := L.errno_tanh
  errno_asin := L.errno_asin
  errno_acos := L.errno_acos
  errno_log := L.errno_log
  errno_pow := L.errno_pow
  ptime := L.ptime
  uniform_random_init := L.uniform_random_init
  uniform_random_set := L.uniform_random_set
  uniform_random_real := L.uniform_random_real
  normal_random_init := L.normal_random_init
  normal_random_set := L.normal_random_set
  normal_random_real := L.normal_random_real
  exponential_random_init := L.exponential_random_init
  exponential_random_set := L.exponential_random_set
  exponential_random_real := L.exponential_random_real

/-- A math library that returns `0` everywhere and never sets `errno`, with
trivial generator handles.  It closes statements over a concrete host on
paths that call none of these routines. -/
def zeroLibm : Libm Unit where
  sqrt := fun _ => 0
  sin := fun _ => 0
  cos := fun _ => 0
  tan := fun _ => 0
  sinh := fun _ => 0
  cosh := fun _ => 0
  tanh := fun _ => 0
  asin := fun _ => 0
  acos := fun _ => 0
  atan := fun _ => 0
  atan2 := fun _ _ => 0
  exp := fun _ => 0
  log := fun _ => 0
  pow := fun _ _ => 0
  errno_sinh := fun _ => false
  errno_cosh := fun _ => false
  errno_tanh := fun _ => false
  errno_asin := fun _ => false
  errno_acos := fun _ => false
  errno_log := fun _ => false
  errno_pow := fun _ _ => false
  ptime := 0
  uniform_random_init := fun _ _ => ()
  uniform_random_set := fun _ _ _ => ()
  uniform_random_real := fun _ => (0, ())
  normal_random_init := fun _ _ => ()
  normal_random_set := fun _ _ _ => ()
  normal_random_real := fun _ => (0, ())
  exponential_random_init := fun _ => ()
  exponential_random_set := fun _ _ => ()
  exponential_random_real := fun _ => (0, ())

/-- The exact host used in closed evaluations. -/
def Q : Host ℚ Unit := exactHost zeroLibm

/-- A calculator over `Q` in base 10 with the given capacity, depth and
buffer, cleared memory and statistics. -/
def mkDS (size next : Int) (stack : Int → ℚ) : DS ℚ Unit where
  stack := stack
  mem := 0
  sumx := 0
  sumy := 0
  sumxx := 0
  sumyy := 0
  sumxy := 0
  n := 0
  size := size
  next := next
  base := 10
  askprec := 15
  prec := 15
  sigfig := 15
  angle_unit := 0
  urand := ()
  nrand := ()
  erand := ()

/-- The buffer holding the listed values from index 0 on, and 0 elsewhere. -/
def cells (l : List ℚ) : Int → ℚ := fun i => if i < 0 then 0 else l.getD i.toNat 0

/-! ## Vocabulary of the statements -/

/-- The live elements of the stack, bottom first. -/
def live (ds : DS α ρ) : List α :=
  (List.range ds.next.toNat).map (fun (i : Nat) => ds.stack (Int.ofNat i))

/-- The bound `0 ≤ top ≤ capacity` on a state. -/
def Bounded (ds : DS α ρ) : Prop := 0 ≤ ds.next ∧ ds.next ≤ ds.size

/-- A token the evaluator takes as an operator: the bare `?` or `q` handled
by `rpncalc_eval` itself, or a token whose key has a `case` label in
`rpncalc_op`. -/
def recognised (tok : List Char) : Prop :=
  tok = ['?'] ∨ tok = ['q'] ∨ select (compute_hash tok) ≠ none

instance (tok : List Char) : Decidable (recognised tok) := by
  unfold recognised; infer_instance

/-! ### Numeric literals as the specification describes them -/

/-- The value of a digit character as the specification gives it: `'0'`-`'9'`
are 0-9, then uppercase `'A'`-`'Z'` are 10-35; anything else is no digit. -/
def specDigitValue (c : Char) : Option Int :=
  if '0'.toNat ≤ c.toNat ∧ c.toNat ≤ '9'.toNat then some ((c.toNat : Int) - '0'.toNat)
  else if 'A'.toNat ≤ c.toNat ∧ c.toNat ≤ 'Z'.toNat then some ((c.toNat : Int) - 'A'.toNat + 10)
  else none

/-- A digit valid in base `b`: a digit character of value below `b`. -/
def specIsDigit (b : Int) (c : Char) : Bool :=
  match specDigitValue c with
  | some v => decide (v < b)
  | none => false

/-- The part of a literal after the sign: only base-`b` digits and radix
points, at most one radix point, at least one digit. -/
def specBody (b : Int) (s : List Char) : Bool :=
  s.all (fun c => decide (c = '.') || specIsDigit b c) &&
    decide (s.count '.' ≤ 1) && s.any (fun c => specIsDigit b c)

/-- A numeric literal in base `b` as the specification describes it: an
optional single leading `+` or `-`, then a body. -/
def specLiteral (b : Int) : List Char → Bool
  | [] => false
  | c :: s => if c = '+' ∨ c = '-' then specBody b s else specBody b (c :: s)

/-! ### Values of digit strings as the specification describes them -/

/-- The value of a digit character as a rational, 0 for a character that is
no digit. -/
def digitQ (c : Char) : ℚ := (((specDigitValue c).getD 0 : Int) : ℚ)

/-- The value of the integer digits `I` in base `b`: the sum over the
positions `i` of `digit_i * b^(len(I)-1-i)`. -/
def specInt (b : Int) (I : List Char) : ℚ :=
  ((List.range I.length).map
    (fun i => digitQ (I.getD i '0') * (b : ℚ) ^ (I.length - 1 - i))).sum

/-- The value of the fractional digits `F` in base `b`: the sum over the
positions `k` of `digit_k * b^-(k+1)`. -/
def specFrac (b : Int) (F : List Char) : ℚ :=
  ((List.range F.length).map
    (fun k => digitQ (F.getD k '0') * ((b : ℚ) ^ (k + 1))⁻¹)).sum

/-- A calculator with an empty stack and cleared statistics, as `ds_init` and
`ds_allclear` leave it (exact arithmetic). -/
def Cleared {ρ : Type} (ds : DS ℚ ρ) : Prop :=
  ds.next = 0 ∧ ds.sumx = 0 ∧ ds.sumy = 0 ∧ ds.sumxx = 0 ∧ ds.sumyy = 0 ∧ ds.sumxy = 0 ∧
    ds.n = 0

/-- The math library of `zeroLibm` with a square root that is exact on the
squares of rationals. -/
def sqrtLibm : Libm Unit := { zeroLibm with sqrt := Rat.sqrt }

/-! ### The text of the formatter, as a list of characters -/

/-- The buffer after storing the characters of `l` one after the other from
index `i` on. -/
def writeList (buf : Int → Char) (i : Int) : List Char → (Int → Char)
  | [] => buf
  | c :: l => writeList (store buf i c) (i + 1) l

/-- The buffer holds the characters of `l` from index `i` on. -/
def holds (buf : Int → Char) (i : Int) (l : List Char) : Prop :=
  ∀ k : Nat, k < l.length → buf (i + k) = l.getD k NUL

/-- The characters the integer-part loop of `convert_d_to_s` stores one after
the other, least significant digit first, while `whole >= 1.0`; at most the
given number of them. -/
def whole_digits (H : Host α ρ) (base : Int) : Nat → α → List Char
  | 0, _ => []
  | k + 1, whole =>
    if H.le (H.lit 1) whole then
      tocharbase (H.toInt
        (H.sub whole (H.mul (H.floor (H.div whole (H.ofInt base))) (H.ofInt base)))) base
        :: whole_digits H base k (H.div whole (H.ofInt base))
    else []

/-- The characters the fraction loop of `convert_d_to_s` stores in the given
number of iterations. -/
def frac_digits (H : Host α ρ) (base : Int) : Nat → α → List Char
  | 0, _ => []
  | p + 1, frac =>
    tocharbase (H.toInt (H.mul frac (H.ofInt base))) base
      :: frac_digits H base p
        (H.sub (H.mul frac (H.ofInt base)) (H.ofInt (H.toInt (H.mul frac (H.ofInt base)))))

/-- The number of leading characters of a fraction that remain once its
trailing `'0'` are trimmed. -/
def keep : List Char → Nat
  | [] => 0
  | c :: l => if keep l = 0 then (if c = '0' then 0 else 1) else keep l + 1

/-- The characters `convert_d_to_s` stores from the radix point on, for the
precision left after the integer part: none when it is not positive. -/
def point_written (H : Host α ρ) (base : Int) (frac : α) (prec : Int) : List Char :=
  if prec ≤ 0 then [] else '.' :: frac_digits H base prec.toNat frac

/-- The part of the text from the radix point on: the characters stored,
trimmed of the trailing `'0'` and of a radix point left bare. -/
def point_text (H : Host α ρ) (base : Int) (frac : α) (prec : Int) : List Char :=
  if prec ≤ 0 ∨ keep (frac_digits H base prec.toNat frac) = 0 then []
  else '.' :: (frac_digits H base prec.toNat frac).take
    (keep (frac_digits H base prec.toNat frac))

/-- The precision `convert_d_to_s` works with: `if (prec < 0) prec = 0`. -/
def fmt_prec (prec : Int) : Int := if prec < 0 then 0 else prec

/-- The magnitude of `x` after `x += roundinc` in `convert_d_to_s`. -/
def fmt_round (H : Host α ρ) (base : Int) (x : α) (prec : Int) : α :=
  H.add (if H.lt x (H.lit 0) then H.neg x else x)
    (H.div (H.lit (1 / 2)) (base_to_prec H base (fmt_prec prec).toNat (H.lit 1)))

/-- The sign `convert_d_to_s` stores. -/
def fmt_sign (H : Host α ρ) (x : α) : List Char := if H.lt x (H.lit 0) then ['-'] else []

/-- The leading zero `convert_d_to_s` stores for a number below 1. -/
def fmt_zero (H : Host α ρ) (base : Int) (x : α) (prec : Int) : List Char :=
  if H.le (H.floor (fmt_round H base x prec)) (H.lit 0) then ['0'] else []

/-- The digits of the integer part, least significant first, with the number
of iterations allowed to the loop. -/
def fmt_int (H : Host α ρ) (base : Int) (x : α) (prec : Int) (fuel : Nat) : List Char :=
  whole_digits H base fuel (H.floor (fmt_round H base x prec))

/-- The fraction `frac = x - whole` of `convert_d_to_s`. -/
def fmt_fracval (H : Host α ρ) (base : Int) (x : α) (prec : Int) : α :=
  H.sub (fmt_round H base x prec) (H.floor (fmt_round H base x prec))

/-- The number of iterations the model allows to the integer-part loop of a
call with `maxLength = n`: one more than the room left when it starts. -/
def fmt_fuel (H : Host α ρ) (base : Int) (x : α) (prec n : Int) : Nat :=
  (n - (fmt_sign H x).length - (fmt_zero H base x prec).length).toNat + 1

/-- All the characters `convert_d_to_s` stores, in the order it stores them,
when room never runs out. -/
def fmt_written (H : Host α ρ) (base : Int) (x : α) (prec : Int) (fuel : Nat) : List Char :=
  fmt_sign H x ++ (fmt_zero H base x prec ++ fmt_int H base x prec fuel) ++
    point_written H base (fmt_fracval H base x prec)
      (fmt_prec prec - (fmt_int H base x prec fuel).length)

/-- The text `convert_d_to_s` leaves when room never runs out: the sign, the
integer part most significant digit first, and the trimmed fraction. -/
def fmt_text (H : Host α ρ) (base : Int) (x : α) (prec : Int) (fuel : Nat) : List Char :=
  fmt_sign H x ++ (fmt_zero H base x prec ++ fmt_int H base x prec fuel).reverse ++
    point_text H base (fmt_fracval H base x prec)
      (fmt_prec prec - (fmt_int H base x prec fuel).length)

/-! ### Numerals as the specification describes them -/

/-- The clamp of the specification: `clamp(p, lo, hi)` is `p` brought into
`[lo, hi]`. -/
def specClamp (p lo hi : Int) : Int := if p < lo then lo else if p > hi then hi else p

/-- A call of one of the two setters of base and precision. -/
inductive Setter where
  | setprec (prec : Int)
  | setbase (base : Int)

/-- The state after a call of a setter (its status is not looked at). -/
def Setter.run (H : Host α ρ) (ds : DS α ρ) : Setter → DS α ρ
  | Setter.setprec p => (ds_setprec ds p).2
  | Setter.setbase b => (ds_setbase H ds b).2

/-- The state after a sequence of calls of the setters. -/
def runSetters (H : Host α ρ) (ds : DS α ρ) (cs : List Setter) : DS α ρ :=
  cs.foldl (Setter.run H) ds

/-- The math library of `zeroLibm` with a logarithm given on 2, 10 and 16 by
ten-digit approximations of `ln 2`, `ln 10` and `ln 16`, for which
`sigfig(10) = 15` and `sigfig(16) = 13` as with the C library. -/
def logLibm : Libm Unit :=
  { zeroLibm with
    log := fun x =>
      if x = 2 then 6931471806 / 10 ^ 10
      else if x = 10 then 23025850930 / 10 ^ 10
      else if x = 16 then 27725887224 / 10 ^ 10
      else 0 }

/-! ### The operator vocabulary -/

/-- The spellings of the operators, one for each `case` label of `rpncalc_op`
in source order, as the comments of the labels and `print_help` give them. -/
def vocabulary : List (List Char) :=
  ["c", "ac", "dec", "hex", "bin", "dup", "swap", "rot", "drop", ".", "depth", "avg", "std",
   "stat", "n", "sx", "sy", "sxx", "syy", "sxy", "mx", "my", "sdx", "sdy", "a", "b", "r",
   "=base", "=prec", "?base", "?prec", "?sf", "sto", "rcl", "sum", "exc", "-+", "+-", "inv",
   "sq", "sqrt", "!", "sin", "cos", "tan", "sinh", "cosh", "tanh", "asin", "acos", "atan",
   "atan2", "exp", "ln", "log", "logn", "abs", "round", "rad", "deg", "todeg", "torad", "tof",
   "toc", "xstat", "+", "-", "*", "x", "/", "div", "mod", "fmod", "floor", "ceil", "pow", "^",
   ">>", "<<", "|", "&", "~", "toxy", "tort", "mi2m", "ft2m", "in2mm", "time", "=urand",
   "=nrand", "=erand", "urand", "nrand", "erand", "pi", "e", "vc"].map String.toList

/-- A token: a non-empty string of 7-bit ASCII characters other than NUL and
white space. -/
def Token (t : List Char) : Prop :=
  t ≠ [] ∧ ∀ c ∈ t, isnullspace c = false ∧ c.toNat < 128

/-! ### Single values as points -/

/-- The stack of `stat` that holds, for the values `y0, y1, ...` of a stack,
the pairs `(n, y0), (n + 1, y1), ...`: cell `2i` is `n + i` and cell `2i + 1`
is `yi`. -/
def specPairs (n : ℚ) (ys : Int → ℚ) : Int → ℚ :=
  fun j => if j % 2 = 0 then n + ((j / 2 : Int) : ℚ) else ys (j / 2)

/-- The state of `stat` for the values of a state of `xstat`: the same
statistics, the pairs of `specPairs` for the current count on a stack of
twice the capacity. -/
def specPaired {ρ : Type} (ds : DS ℚ ρ) : DS ℚ ρ :=
  { ds with stack := specPairs ds.n ds.stack, next := 2 * ds.next, size := 2 * ds.size }

/-! ### States reached by evaluating lines -/

/-- A state reachable from `ds_init` by evaluating lines with `rpncalc_eval`,
whatever their outcome. -/
inductive Reachable (H : Host α ρ) : DS α ρ → Prop
  | init (stack : Int → α) (size : Int) (ds : DS α ρ) :
      ds_init H stack size = some ds → Reachable H ds
  | line (ds : DS α ρ) (text : List Char) (status : Int) (ds1 : DS α ρ) :
      Reachable H ds → rpncalc_eval H ds text = some (status, ds1) → Reachable H ds1

/-- The statistics registers of a state: `n`, `sumx`, `sumy`, `sumxx`, `sumyy`,
`sumxy`. -/
def stats (ds : DS α ρ) : α × α × α × α × α × α :=
  (ds.n, ds.sumx, ds.sumy, ds.sumxx, ds.sumyy, ds.sumxy)

/-- A binary operation of exact arithmetic carried to `Option ℚ`, where `none`
stands for the not-a-number of IEEE 754: a NaN operand gives a NaN result. -/
def nanLift (f : ℚ → ℚ → ℚ) (x y : Option ℚ) : Option ℚ :=
  match x, y with
  | some a, some b => some (f a b)
  | _, _ => none

/-- A comparison of exact arithmetic carried to `Option ℚ`: every comparison
with a NaN operand is false. -/
def nanTest (p : ℚ → ℚ → Bool) (x y : Option ℚ) : Bool :=
  match x, y with
  | some a, some b => p a b
  | _, _ => false

/-- The exact-arithmetic host with one more value, `none`, for the
not-a-number of the C type `double`: `+ - * /` and the library routines return
NaN on a NaN operand, `<`, `<=` and `==` are false on a NaN operand, and `sqrt`
of a negative number is NaN.  Rounding, overflow and the infinities are not
represented: a quotient by zero is NaN here, and the cast of NaN to `int`,
which C leaves undefined, is 0. -/
def nanHost {ρ : Type} (L : Libm ρ) : Host (Option ℚ) ρ where
  lit := fun q => some q
  ofInt := fun i => some (i : ℚ)
  toInt := fun x => match x with
    | some q => truncQ q
    | none => 0
  add := nanLift (fun a b => a + b)
  sub := nanLift (fun a b => a - b)
  mul := nanLift (fun a b => a * b)
  div := fun x y => match x, y with
    | some a, some b => if b = 0 then none else some (a / b)
    | _, _ => none
  neg := Option.map (fun a => -a)
  lt := nanTest (fun a b => decide (a < b))
  le := nanTest (fun a b => decide (a ≤ b))
  eq := nanTest (fun a b => decide (a = b))
  fabs := Option.map (fun a => |a|)
  floor := Option.map (fun a => ((Int.floor a : Int) : ℚ))
  ceil := Option.map (fun a => ((Int.ceil a : Int) : ℚ))
  fmod := fun x y => match x, y with
    | some a, some b => if b = 0 then none else some (a - (truncQ (a / b) : ℚ) * b)
    | _, _ => none
  sqrt := fun x => match x with
    | some a => if a < 0 then none else some (L.sqrt a)
    | none => none
  sin := Option.map L.sin
  cos := Option.map L.cos
  tan := Option.map L.tan
  sinh := Option.map L.sinh
  cosh := Option.map L.cosh
  tanh := Option.map L.tanh
  asin := Option.map L.asin
  acos := Option.map L.acos
  atan := Option.map L.atan
  atan2 := nanLift L.atan2
  exp := Option.map L.exp
  log := Option.map L.log
  pow := nanLift L.pow
  errno_sinh := fun x => x.elim false L.errno_sinh
  errno_cosh := fun x => x.elim false L.errno_cosh
  errno_tanh := fun x => x.elim false L.errno_tanh
  errno_asin := fun x => x.elim false L.errno_asin
  errno_acos := fun x => x.elim false L.errno_acos
  errno_log := fun x => x.elim false L.errno_log
  errno_pow := nanTest L.errno_pow
  ptime := some L.ptime
  uniform_random_init := fun a b => L.uniform_random_init (a.getD 0) (b.getD 0)
  uniform_random_set := fun r a b => L.uniform_random_set r (a.getD 0) (b.getD 0)
  uniform_random_real := fun r => (some (L.uniform_random_real r).1, (L.uniform_random_real r).2)
  normal_random_init := fun a b => L.normal_random_init (a.getD 0) (b.getD 0)
  normal_random_set := fun r a b => L.normal_random_set r (a.getD 0) (b.getD 0)
  normal_random_real := fun r => (some (L.normal_random_real r).1, (L.normal_random_real r).2)
  exponential_random_init := fun a => L.exponential_random_init (a.getD 0)
  exponential_random_set := fun r a => L.exponential_random_set r (a.getD 0)
  exponential_random_real := fun r =>
    (some (L.exponential_random_real r).1, (L.exponential_random_real r).2)

/-! ### One-shot evaluation -/

/-- The value of `sizeof(double)`: 8 bytes, as on every platform with IEEE 754
doubles and 8-bit bytes. -/
def sizeof_double : Int := 8

/-- The number of elements of the local array `double stack[10]` of
`rpncalc_eval_full`. -/
def eval_full_cells : Int := 10

/-- The C function `rpncalc_eval_full`; `stack` is what the local array
`double stack[10]` holds on entry, and the capacity given to `ds_init` is
`sizeof(stack)`, the size of the array in bytes.  The result is the value of
`rpncalc_eval(&ds, ptr) || ds_pop(&ds, val)`, the value stored through `val`
(if any) and the final state of the private calculator. -/
def rpncalc_eval_full (H : Host α ρ) (stack : Int → α) (ptr : List Char) :
    Option (Int × Option α × DS α ρ) :=
  match ds_init H stack (eval_full_cells * sizeof_double) with
  | none => none
  | some ds =>
    match rpncalc_eval H ds ptr with
    | none => none
    | some r =>
      if r.1 ≠ 0 then some (1, none, r.2)
      else some (truth (decide ((ds_pop r.2).1 ≠ 0)), (ds_pop r.2).2.1, (ds_pop r.2).2.2)

/-! ### Points taken by `stat` in several calls -/

/-- The state after `ds_push` of each value of the list in turn. -/
def pushAll (ds : DS α ρ) (vals : List α) : DS α ρ :=
  vals.foldl (fun d v => (ds_push d v).2) ds

/-- The coordinates `x1, y1, x2, y2, ...` of a list of points, in the order
in which they are pushed for `stat`. -/
def coords : List (α × α) → List α
  | [] => []
  | p :: ps => p.1 :: p.2 :: coords ps

/-- Points ingested in several calls: for each batch in turn its coordinates
are pushed and the operator `stat` is applied; `none` when a `stat` fails. -/
def ingest (H : Host α ρ) : List (List (α × α)) → DS α ρ → Option (DS α ρ)
  | [], ds => some ds
  | pts :: rest, ds =>
    if (rpncalc_op H (pushAll ds (coords pts)) "stat".toList).1 = RPN_OK then
      ingest H rest (rpncalc_op H (pushAll ds (coords pts)) "stat".toList).2
    else none

/-! ### Arithmetic rounded as binary64 -/

/-- Rounding of a positive rational to 53 significant bits, to nearest with
ties to even: the value is halved or doubled until it lies in
`[2^52, 2^53)`, rounded there to the nearest integer (to the even one when it
lies half-way between two integers) and scaled back.  The first argument
bounds the number of halvings and doublings. -/
def rnPos : Nat → ℚ → ℚ
  | 0, q => q
  | k + 1, q =>
    if 2 ^ 53 ≤ q then 2 * rnPos k (q / 2)
    else if q < 2 ^ 52 then rnPos k (2 * q) / 2
    else if q - (⌊q⌋ : ℚ) < 1 / 2 then (⌊q⌋ : ℚ)
    else if 1 / 2 < q - (⌊q⌋ : ℚ) then (⌊q⌋ : ℚ) + 1
    else if ⌊q⌋ % 2 = 0 then (⌊q⌋ : ℚ)
    else (⌊q⌋ : ℚ) + 1

/-- Rounding of a rational to the nearest binary64 value (round to nearest,
ties to even), for values in the range of the normal doubles; overflow and
the subnormal range are not represented. -/
def rn (q : ℚ) : ℚ :=
  if q = 0 then 0 else if q < 0 then -(rnPos 2200 (-q)) else rnPos 2200 q

/-- The host whose doubles are rationals and whose arithmetic rounds every
result as IEEE 754 binary64 does in the default rounding mode: `+ - * /` and
the conversions from constants and from `int` round with `rn`; negation,
`fabs`, `floor`, `ceil`, `fmod` and the comparisons are exact, as they are on
doubles.  Overflow, the infinities, NaN and the subnormal range are not
represented, and the library routines are those of `L`. -/
def roundHost {ρ : Type} (L : Libm ρ) : Host ℚ ρ :=
  { exactHost L with
    lit := fun q => rn q
    ofInt := fun i => rn (i : ℚ)
    add := fun x y => rn (x + y)
    sub := fun x y => rn (x - y)
    mul := fun x y => rn (x * y)
    div := fun x y => rn (x / y) }

/-! ### Points added one at a time -/

/-- The six statistics registers `(n, sumx, sumy, sumxx, sumyy, sumxy)` after
one more point `(x, y)`: each register grows by one addition of the host. -/
def specPoint (H : Host α ρ) (s : α × α × α × α × α × α) (p : α × α) :
    α × α × α × α × α × α :=
  (H.add s.1 (H.ofInt 1), H.add s.2.1 p.1, H.add s.2.2.1 p.2,
   H.add s.2.2.2.1 (H.mul p.1 p.1), H.add s.2.2.2.2.1 (H.mul p.2 p.2),
   H.add s.2.2.2.2.2 (H.mul p.1 p.2))

/-- The registers after the points of a list, taken first to last. -/
def specPoints (H : Host α ρ) (s : α × α × α × α × α × α) (pts : List (α × α)) :
    α × α × α × α × α × α :=
  pts.foldl (specPoint H) s

/-- The cells `t, t + 1, ..., t + 2m - 1` of a stack read as `m` points
`(x, y)`, lowest cells first. -/
def pairsFrom (stack : Int → α) : Nat → Int → List (α × α)
  | 0, _ => []
  | m + 1, t => (stack t, stack (t + 1)) :: pairsFrom stack m (t + 2)

/-- A state with its six statistics registers replaced. -/
def withStats (ds : DS α ρ) (s : α × α × α × α × α × α) : DS α ρ :=
  { ds with n := s.1, sumx := s.2.1, sumy := s.2.2.1, sumxx := s.2.2.2.1,
            sumyy := s.2.2.2.2.1, sumxy := s.2.2.2.2.2 }

/-! # Theorems -/

/-! ## Stack engine -/

/-- C1: when `0 ≤ top < capacity`, `ds_push v` succeeds and the `ds_pop` that
follows succeeds, returns `v`, restores `top` and leaves every live element
as it was; the final state is the initial one up to the content of the dead
cell at index `top`. -/
theorem push_pop_roundtrip (ds : DS α ρ) (v : α)
    (h0 : 0 ≤ ds.next) (h1 : ds.next < ds.size) :
    (ds_push ds v).1 = RPN_OK ∧
    (ds_pop (ds_push ds v).2).1 = RPN_OK ∧
    (ds_pop (ds_push ds v).2).2.1 = some v ∧
    (ds_pop (ds_push ds v).2).2.2.next = ds.next ∧
    (∀ i, 0 ≤ i → i < ds.next → (ds_pop (ds_push ds v).2).2.2.stack i = ds.stack i) ∧
    (ds_pop (ds_push ds v).2).2.2 = { ds with stack := store ds.stack ds.next v } := by
  have hne : ds.next ≠ ds.size := ne_of_lt h1
  have hne1 : ds.next + 1 ≠ 0 := by omega
  simp only [ds_push, ds_pop, hne, hne1, if_false, store]
  refine ⟨trivial, trivial, ?_, ?_, ?_, ?_⟩
  · simp
  · simp
  · intro i _ hi
    have : i ≠ ds.next := ne_of_lt hi
    simp [this]
  · simp

/-- C1, at a concrete state: capacity 3, one live element, pushing 5. -/
theorem push_pop_roundtrip_witness :
    (0 : Int) ≤ (mkDS 3 1 (cells [7])).next ∧
    (ds_pop (ds_push (mkDS 3 1 (cells [7])) 5).2).2.1 = some 5 ∧
    (ds_pop (ds_push (mkDS 3 1 (cells [7])) 5).2).2.2.next = 1 :=
  ⟨by decide,
   (push_pop_roundtrip (mkDS 3 1 (cells [7])) 5 (by decide) (by decide)).2.2.1,
   (push_pop_roundtrip (mkDS 3 1 (cells [7])) 5 (by decide) (by decide)).2.2.2.1⟩

/-- Every stack operation other than `ds_replace` keeps `0 ≤ top ≤ capacity`,
and `ds_replace` keeps it when `howmany ≥ 1`. -/
theorem stack_ops_keep_bound (ds : DS α ρ) (v : α) (hb : Bounded ds) :
    Bounded (ds_push ds v).2 ∧ Bounded (ds_pop ds).2.2 ∧ Bounded (ds_dup ds).2 ∧
    Bounded (ds_swap ds).2 ∧ Bounded (ds_rot ds).2 ∧ Bounded (ds_drop ds).2 ∧
    Bounded (ds_clear ds).2 ∧
    (∀ howmany : Int, 1 ≤ howmany → Bounded (ds_replace ds howmany v).2) := by
  obtain ⟨h0, h1⟩ := hb
  refine ⟨?_, ?_, ?_, ?_, ?_, ?_, ?_, ?_⟩
  · unfold ds_push Bounded; split <;> simp <;> omega
  · unfold ds_pop Bounded; split <;> simp <;> omega
  · unfold ds_dup Bounded; split <;> simp <;> omega
  · unfold ds_swap Bounded; split <;> simp <;> omega
  · unfold ds_rot Bounded; split <;> simp <;> omega
  · unfold ds_drop Bounded; split <;> simp <;> omega
  · unfold ds_clear Bounded; simp; omega
  · intro howmany hh
    unfold ds_replace Bounded; split <;> simp <;> omega

/-- C2, at the failing input: on the full one-cell stack `[7]` (capacity 1,
top 1, within the bound) `ds_replace` with `howmany = 0` returns `RPN_OK`,
stores at index 1 = capacity, outside the buffer, and leaves top = 2 above
the capacity; with `howmany = -1` on the empty one-cell stack it leaves
top = 2 as well. -/
theorem ds_replace_nonpositive_breaks_bound :
    Bounded (mkDS 1 1 (cells [7])) ∧
    (ds_replace (mkDS 1 1 (cells [7])) 0 5).1 = RPN_OK ∧
    (ds_replace (mkDS 1 1 (cells [7])) 0 5).2.next = 2 ∧
    (ds_replace (mkDS 1 1 (cells [7])) 0 5).2.size = 1 ∧
    (ds_replace (mkDS 1 1 (cells [7])) 0 5).2.stack 1 = 5 ∧
    ¬ Bounded (ds_replace (mkDS 1 1 (cells [7])) 0 5).2 ∧
    Bounded (mkDS 1 0 (cells [])) ∧
    (ds_replace (mkDS 1 0 (cells [])) (-1) 5).1 = RPN_OK ∧
    ¬ Bounded (ds_replace (mkDS 1 0 (cells [])) (-1) 5).2 := by
  refine ⟨?_, ?_, ?_, ?_, ?_, ?_, ?_, ?_, ?_⟩ <;> simp [Bounded, ds_replace, mkDS, store]

/-- C3: `ds_dup` returns `RPN_ERROR` exactly when top is 0 or equals the
capacity and then leaves the state as it was; otherwise it returns `RPN_OK`,
top grows by one, the new top element equals the previous top element and
every cell below the new top keeps its content (all other fields too). -/
theorem ds_dup_spec (ds : DS α ρ) :
    ((ds_dup ds).1 = RPN_ERROR ↔ (ds.next = 0 ∨ ds.next = ds.size)) ∧
    ((ds.next = 0 ∨ ds.next = ds.size) → (ds_dup ds).2 = ds) ∧
    (¬ (ds.next = 0 ∨ ds.next = ds.size) →
      (ds_dup ds).1 = RPN_OK ∧
      (ds_dup ds).2.next = ds.next + 1 ∧
      (ds_dup ds).2.stack ((ds_dup ds).2.next - 1) = ds.stack (ds.next - 1) ∧
      (∀ i, i < ds.next → (ds_dup ds).2.stack i = ds.stack i) ∧
      (ds_dup ds).2 = { ds with
        stack := store ds.stack ds.next (ds.stack (ds.next - 1))
        next := ds.next + 1 }) := by
  by_cases h : ds.next = 0 ∨ ds.next = ds.size
  · simp [ds_dup, h]
  · refine ⟨?_, fun h' => absurd h' h, fun _ => ⟨?_, ?_, ?_, ?_, ?_⟩⟩
    · simp [ds_dup, h]
    · simp [ds_dup, h]
    · simp [ds_dup, h]
    · simp [ds_dup, h, store]
    · intro i hi
      have : i ≠ ds.next := ne_of_lt hi
      simp [ds_dup, h, store, this]
    · simp [ds_dup, h]

/-- C3, at concrete states: the empty and the full stack are refused, and on
`[7]` with capacity 3 the copy lands at index 1. -/
theorem ds_dup_spec_witness :
    (ds_dup (mkDS 3 0 (cells []))).1 = RPN_ERROR ∧
    (ds_dup (mkDS 1 1 (cells [7]))).1 = RPN_ERROR ∧
    (ds_dup (mkDS 3 1 (cells [7]))).1 = RPN_OK ∧
    (ds_dup (mkDS 3 1 (cells [7]))).2.next = 2 ∧
    (ds_dup (mkDS 3 1 (cells [7]))).2.stack 1 = 7 :=
  ⟨(ds_dup_spec (mkDS 3 0 (cells []))).1.2 (Or.inl rfl),
   (ds_dup_spec (mkDS 1 1 (cells [7]))).1.2 (Or.inr rfl),
   ((ds_dup_spec (mkDS 3 1 (cells [7]))).2.2 (by decide)).1,
   ((ds_dup_spec (mkDS 3 1 (cells [7]))).2.2 (by decide)).2.1,
   by simp [ds_dup, mkDS, store, cells]⟩

/-- C4: on depth `d ≥ 1`, `ds_replace 1 v` succeeds, keeps the depth and makes
`v` the top element; on depth `d ≥ 2`, `ds_replace 2 v` succeeds, yields depth
`d - 1` and makes `v` the top element; in both cases every cell below the new
top is unchanged; and whenever `top < howmany` the call returns `RPN_ERROR`
and the state is unchanged. -/
theorem ds_replace_spec (ds : DS α ρ) (v : α) :
    (1 ≤ ds.next →
      (ds_replace ds 1 v).1 = RPN_OK ∧
      (ds_replace ds 1 v).2.next = ds.next ∧
      (ds_replace ds 1 v).2.stack ((ds_replace ds 1 v).2.next - 1) = v ∧
      (∀ i, i < ds.next - 1 → (ds_replace ds 1 v).2.stack i = ds.stack i)) ∧
    (2 ≤ ds.next →
      (ds_replace ds 2 v).1 = RPN_OK ∧
      (ds_replace ds 2 v).2.next = ds.next - 1 ∧
      (ds_replace ds 2 v).2.stack ((ds_replace ds 2 v).2.next - 1) = v ∧
      (∀ i, i < ds.next - 2 → (ds_replace ds 2 v).2.stack i = ds.stack i)) ∧
    (∀ howmany : Int, ds.next < howmany → ds_replace ds howmany v = (RPN_ERROR, ds)) := by
  refine ⟨?_, ?_, ?_⟩
  · intro h
    have hn : ¬ ds.next < 1 := by omega
    simp only [ds_replace, hn, if_false, store]
    refine ⟨trivial, by simp, by simp, ?_⟩
    intro i hi
    have : i ≠ ds.next - 1 := ne_of_lt hi
    simp [this]
  · intro h
    have hn : ¬ ds.next < 2 := by omega
    simp only [ds_replace, hn, if_false, store]
    refine ⟨trivial, by simp, by simp, ?_⟩
    intro i hi
    have : i ≠ ds.next - 1 - 1 := by omega
    simp [this]
  · intro howmany h
    simp [ds_replace, h]

/-- C4, at the concrete stack `[7, 8, 9]` of capacity 3. -/
theorem ds_replace_spec_witness :
    (ds_replace (mkDS 3 3 (cells [7, 8, 9])) 1 5).2.next = 3 ∧
    (ds_replace (mkDS 3 3 (cells [7, 8, 9])) 2 5).2.next = 3 - 1 ∧
    ds_replace (mkDS 3 3 (cells [7, 8, 9])) 4 5 = (RPN_ERROR, mkDS 3 3 (cells [7, 8, 9])) :=
  ⟨((ds_replace_spec (mkDS 3 3 (cells [7, 8, 9])) 5).1 (by decide)).2.1,
   ((ds_replace_spec (mkDS 3 3 (cells [7, 8, 9])) 5).2.1 (by decide)).2.1,
   (ds_replace_spec (mkDS 3 3 (cells [7, 8, 9])) 5).2.2 4 (by decide)⟩

/-- The loop of `ds_rot` run from index `t` with enough iterations allowed
moves every cell `t+1 .. next-1` down one slot and touches nothing else. -/
theorem ds_rot_loop_spec (next : Int) (k : Nat) :
    ∀ (t : Int) (st : Int → α), next - 1 ≤ t + k →
      ∀ i, ((t ≤ i ∧ i < next - 1) → ds_rot_loop next k t st i = st (i + 1)) ∧
           ((i < t ∨ next - 1 ≤ i) → ds_rot_loop next k t st i = st i) := by
  induction k with
  | zero =>
    intro t st hk i
    refine ⟨fun h => ?_, fun _ => ?_⟩
    · omega
    · simp only [ds_rot_loop]
  | succ k ih =>
    intro t st hk i
    by_cases hlt : t < next - 1
    · have hk' : next - 1 ≤ (t + 1) + k := by push_cast at hk; omega
      obtain ⟨h1, h2⟩ := ih (t + 1) (store st t (st (t + 1))) hk' i
      refine ⟨fun hi => ?_, fun hi => ?_⟩
      · simp only [ds_rot_loop, hlt, if_true]
        by_cases hit : i = t
        · subst hit
          rw [h2 (Or.inl (by omega))]
          simp [store]
        · rw [h1 ⟨by omega, hi.2⟩]
          have : i + 1 ≠ t := by omega
          simp [store, this]
      · simp only [ds_rot_loop, hlt, if_true]
        rw [h2 (by omega)]
        have : i ≠ t := by omega
        simp [store, this]
    · refine ⟨fun h => ?_, fun _ => ?_⟩
      · omega
      · simp only [ds_rot_loop, hlt, if_false]

/-- C5: `ds_rot` always returns `RPN_OK` and never changes top; on depth
`n ≥ 2` the cell `i` receives the former cell `i + 1` for `0 ≤ i < n - 1`
and the top cell `n - 1` receives the former bottom cell 0, so the live
elements `[s0, s1, ..., s(n-1)]` become `[s1, ..., s(n-1), s0]` (cells
outside the live region and every other field are untouched); on depth
`< 2` the state is unchanged. -/
theorem ds_rot_spec (ds : DS α ρ) :
    (ds_rot ds).1 = RPN_OK ∧
    (ds_rot ds).2.next = ds.next ∧
    (ds.next < 2 → (ds_rot ds).2 = ds) ∧
    (2 ≤ ds.next →
      (∀ i, 0 ≤ i → i < ds.next - 1 → (ds_rot ds).2.stack i = ds.stack (i + 1)) ∧
      (ds_rot ds).2.stack (ds.next - 1) = ds.stack 0 ∧
      (∀ i, (i < 0 ∨ ds.next ≤ i) → (ds_rot ds).2.stack i = ds.stack i) ∧
      (ds_rot ds).2 = { ds with stack := (ds_rot ds).2.stack }) ∧
    live (ds_rot ds).2 = (live ds).rotate 1 := by
  by_cases h : ds.next < 2
  · refine ⟨by simp [ds_rot, h], by simp [ds_rot, h], fun _ => by simp [ds_rot, h],
      fun h2 => by omega, ?_⟩
    have hl : (live ds).length ≤ 1 := by simp [live]; omega
    have : (ds_rot ds).2 = ds := by simp [ds_rot, h]
    rw [this]
    rcases hm : live ds with _ | ⟨a, _ | ⟨b, l⟩⟩
    · rfl
    · simp
    · rw [hm] at hl; simp at hl
  · have hfuel : ds.next - 1 ≤ (0 : Int) + (ds.next.toNat : Int) := by
      rw [Int.toNat_of_nonneg (by omega)]; omega
    have hloop := ds_rot_loop_spec ds.next ds.next.toNat 0 ds.stack hfuel
    have hs : ∀ i, (ds_rot ds).2.stack i
        = store (ds_rot_loop ds.next ds.next.toNat 0 ds.stack) (ds.next - 1) (ds.stack 0) i := by
      intro i; simp [ds_rot, h]
    have hlow : ∀ i, 0 ≤ i → i < ds.next - 1 → (ds_rot ds).2.stack i = ds.stack (i + 1) := by
      intro i hi0 hi
      have : i ≠ ds.next - 1 := ne_of_lt hi
      rw [hs, store, if_neg this]
      exact (hloop i).1 ⟨hi0, hi⟩
    have htop : (ds_rot ds).2.stack (ds.next - 1) = ds.stack 0 := by
      rw [hs]; simp [store]
    refine ⟨by simp [ds_rot, h], by simp [ds_rot, h], fun h2 => absurd h2 h, fun _ => ⟨hlow, htop, ?_, ?_⟩, ?_⟩
    · intro i hi
      have : i ≠ ds.next - 1 := by omega
      rw [hs, store, if_neg this]
      exact (hloop i).2 (by omega)
    · simp [ds_rot, h]
    · have hn : (ds_rot ds).2.next = ds.next := by simp [ds_rot, h]
      have hpos : 0 < ds.next.toNat := by omega
      apply List.ext_getElem
      · simp [live, hn]
      · intro j h1 h2
        have hj : j < ds.next.toNat := by simpa [live, hn] using h1
        rw [List.getElem_rotate]
        simp only [live, List.getElem_map, List.getElem_range, List.length_map, List.length_range, hn,
          Int.ofNat_eq_coe]
        by_cases hjl : j + 1 < ds.next.toNat
        · rw [Nat.mod_eq_of_lt hjl]
          have := hlow (j : Int) (by omega) (by omega)
          rw [this]; push_cast; rfl
        · have hje : j + 1 = ds.next.toNat := by omega
          rw [hje, Nat.mod_self]
          have hjn : (j : Int) = ds.next - 1 := by omega
          rw [hjn, htop]; rfl

/-- C5, at the concrete stack `[3, 4, 5]`: it becomes `[4, 5, 3]`. -/
theorem ds_rot_spec_witness :
    (ds_rot (mkDS 4 3 (cells [3, 4, 5]))).2.stack 0 = 4 ∧
    (ds_rot (mkDS 4 3 (cells [3, 4, 5]))).2.stack 1 = 5 ∧
    (ds_rot (mkDS 4 3 (cells [3, 4, 5]))).2.stack (3 - 1) = 3 :=
  ⟨((ds_rot_spec (mkDS 4 3 (cells [3, 4, 5]))).2.2.2.1 (by decide)).1 0 (by decide) (by decide),
   ((ds_rot_spec (mkDS 4 3 (cells [3, 4, 5]))).2.2.2.1 (by decide)).1 1 (by decide) (by decide),
   ((ds_rot_spec (mkDS 4 3 (cells [3, 4, 5]))).2.2.2.1 (by decide)).2.1⟩

/-! ## Strings and tokens -/

theorem isspace_isnullspace {c : Char} (h : isspace c = true) : isnullspace c = true := by
  simp only [isspace, isnullspace, Bool.or_eq_true, decide_eq_true_eq] at h ⊢
  tauto

theorem isnullspace_iff (c : Char) : isnullspace c = true ↔ (c = NUL ∨ isspace c = true) := by
  simp only [isspace, isnullspace, Bool.or_eq_true, decide_eq_true_eq]
  tauto

theorem isnullspace_false {c : Char} (h : isnullspace c = false) :
    c ≠ NUL ∧ isspace c = false := by
  have := (isnullspace_iff c).not
  rw [h] at this
  simp only [Bool.false_eq_true, not_false_eq_true, not_or, true_iff] at this
  exact ⟨this.1, by simpa using this.2⟩

theorem skipwhite_length_le (p : List Char) : (skipwhite p).length ≤ p.length := by
  induction p with
  | nil => simp [skipwhite]
  | cons c p ih =>
    unfold skipwhite
    split
    · simp; omega
    · simp

/-- After `skipwhite` the string is empty or starts with a non-blank. -/
theorem skipwhite_head (p : List Char) :
    skipwhite p = [] ∨ ∃ c q, skipwhite p = c :: q ∧ isspace c = false := by
  induction p with
  | nil => left; rfl
  | cons c p ih =>
    unfold skipwhite
    by_cases h : isspace c = true
    · simpa [h] using ih
    · right; exact ⟨c, p, by simp [h], by simpa using h⟩

theorem skipwhite_of_head {c : Char} {q : List Char} (h : isspace c = false) :
    skipwhite (c :: q) = c :: q := by
  simp [skipwhite, h]

theorem skipwhite_all_space {s : List Char} (hs : ∀ c ∈ s, isspace c = true) (q : List Char) :
    skipwhite (s ++ q) = skipwhite q := by
  induction s with
  | nil => rfl
  | cons c s ih =>
    have hc : isspace c = true := hs c (by simp)
    have : skipwhite (c :: (s ++ q)) = skipwhite (s ++ q) := by
      conv_lhs => unfold skipwhite
      simp [hc]
    rw [List.cons_append, this]
    exact ih (fun d hd => hs d (by simp [hd]))

theorem skipwhite_append (p q : List Char) (w : Char) (hw : isspace w = true) :
    skipwhite (p ++ w :: q) = if skipwhite p = [] then skipwhite q else skipwhite p ++ w :: q := by
  induction p with
  | nil => simp [skipwhite, hw]
  | cons c p ih =>
    by_cases h : isspace c = true
    · have e1 : skipwhite (c :: p) = skipwhite p := by
        conv_lhs => unfold skipwhite
        simp [h]
      have e2 : skipwhite (c :: (p ++ w :: q)) = skipwhite (p ++ w :: q) := by
        conv_lhs => unfold skipwhite
        simp [h]
      rw [List.cons_append, e1, e2, ih]
    · have h' : isspace c = false := by simpa using h
      rw [List.cons_append, skipwhite_of_head h', skipwhite_of_head h']
      simp

theorem skipnonwhite_length_lt {c : Char} {q : List Char}
    (h1 : isspace c = false) (h2 : c ≠ NUL) :
    (skipnonwhite (c :: q)).length < (c :: q).length := by
  have aux : ∀ r : List Char, (skipnonwhite r).length ≤ r.length := by
    intro r
    induction r with
    | nil => simp [skipnonwhite]
    | cons d r ih =>
      unfold skipnonwhite
      split
      · simp; omega
      · simp
  have : skipnonwhite (c :: q) = skipnonwhite q := by
    conv_lhs => unfold skipnonwhite
    simp [h1, h2]
  rw [this]
  have := aux q
  simp; omega

theorem skipnonwhite_append (p q : List Char) (w : Char)
    (hp : NUL ∉ p) (hw : isnullspace w = true) :
    skipnonwhite (p ++ w :: q) = skipnonwhite p ++ w :: q := by
  induction p with
  | nil =>
    rcases (isnullspace_iff w).1 hw with h | h <;> simp [skipnonwhite, h]
  | cons c p ih =>
    have hc : c ≠ NUL := fun h => hp (by simp [h])
    have hp' : NUL ∉ p := fun h => hp (by simp [h])
    by_cases h : isspace c = true
    · simp [skipnonwhite, h]
    · have h' : isspace c = false := by simpa using h
      have e1 : skipnonwhite (c :: p) = skipnonwhite p := by
        conv_lhs => unfold skipnonwhite
        simp [h', hc]
      have e2 : skipnonwhite (c :: (p ++ w :: q)) = skipnonwhite (p ++ w :: q) := by
        conv_lhs => unfold skipnonwhite
        simp [h', hc]
      rw [List.cons_append, e1, e2, ih hp']

theorem skipnonwhite_no_nul (p : List Char) (hp : NUL ∉ p) : NUL ∉ skipnonwhite p := by
  induction p with
  | nil => simp [skipnonwhite]
  | cons c p ih =>
    have hp' : NUL ∉ p := fun h => hp (by simp [h])
    unfold skipnonwhite
    split
    · exact ih hp'
    · exact hp

theorem skipwhite_no_nul (p : List Char) (hp : NUL ∉ p) : NUL ∉ skipwhite p := by
  induction p with
  | nil => simp [skipwhite]
  | cons c p ih =>
    have hp' : NUL ∉ p := fun h => hp (by simp [h])
    unfold skipwhite
    split
    · exact ih hp'
    · exact hp

theorem toklen_append (p q : List Char) (w : Char) (hw : isnullspace w = true) :
    toklen (p ++ w :: q) = toklen p := by
  induction p with
  | nil => simp [toklen, hw]
  | cons c p ih =>
    simp only [List.cons_append, toklen, List.append_eq, ih]

/-- The key of a token does not depend on what follows its terminator. -/
theorem compute_hash_append (p q : List Char) (w : Char) (hw : isnullspace w = true) :
    compute_hash (p ++ w :: q) = compute_hash p := by
  have hN : isnullspace NUL = true := by decide
  rcases p with _ | ⟨a, _ | ⟨b, _ | ⟨c, _ | ⟨d, r⟩⟩⟩⟩
  · simp [compute_hash, chr, hw, hN]
  · simp [compute_hash, chr, hw, hN]
  · simp [compute_hash, chr, hw, hN]
  · simp [compute_hash, chr, hw, hN]
  · simp [compute_hash, chr, toklen_append r q w hw]

/-- The literal reader does not look past the terminator of the token. -/
theorem convert_loop_append (H : Host α ρ) (base : Int) (q : List Char) (w : Char)
    (hw : isnullspace w = true) (p : List Char) :
    ∀ (num : α) (started gotnum : Bool) (infrac : Nat) (minus inexp : Bool),
      convert_loop H base (p ++ w :: q) num started gotnum infrac minus inexp
        = convert_loop H base p num started gotnum infrac minus inexp := by
  induction p with
  | nil =>
    intro num started gotnum infrac minus inexp
    have := (isnullspace_iff w).1 hw
    simp [convert_loop, this]
  | cons c p ih =>
    intro num started gotnum infrac minus inexp
    simp only [List.cons_append, convert_loop, List.append_eq, ih]

/-! ## Evaluator loop -/

theorem eval_loop_succ (H : Host α ρ) (k : Nat) (ds : DS α ρ) (ptr : List Char) :
    eval_loop H (k + 1) ds ptr =
      if chr (skipwhite ptr) 0 = NUL then some (RPN_OK, ds)
      else
        match eval_token H ds (skipwhite ptr) with
        | Sum.inl r => some r
        | Sum.inr ds1 => eval_loop H k ds1 (skipnonwhite (skipwhite ptr)) := rfl

/-- Each iteration that goes on to a next token leaves a shorter string. -/
theorem next_token_shorter (ptr : List Char) (h : chr (skipwhite ptr) 0 ≠ NUL) :
    (skipnonwhite (skipwhite ptr)).length < ptr.length := by
  rcases skipwhite_head ptr with he | ⟨c, q, he, hc⟩
  · rw [he] at h; exact absurd rfl h
  · have hn : c ≠ NUL := by
      rw [he] at h; simpa [chr] using h
    have h1 := skipnonwhite_length_lt (q := q) hc hn
    have h2 := skipwhite_length_le ptr
    rw [he] at h2 ⊢
    omega

/-- The result of the loop does not depend on the number of iterations
allowed once it exceeds the length of the line. -/
theorem eval_loop_fuel (H : Host α ρ) (k : Nat) :
    ∀ (k' : Nat) (ds : DS α ρ) (ptr : List Char), ptr.length < k → ptr.length < k' →
      eval_loop H k ds ptr = eval_loop H k' ds ptr := by
  induction k with
  | zero => intro k' ds ptr h; omega
  | succ k ih =>
    intro k' ds ptr h1 h2
    cases k' with
    | zero => omega
    | succ k' =>
      rw [eval_loop_succ, eval_loop_succ]
      by_cases hn : chr (skipwhite ptr) 0 = NUL
      · simp [hn]
      · have hlt := next_token_shorter ptr hn
        simp only [hn, if_false]
        cases eval_token H ds (skipwhite ptr) with
        | inl r => rfl
        | inr ds1 => exact ih k' ds1 _ (by omega) (by omega)

/-- The loop of `rpncalc_eval` ends within `length + 1` iterations: the
function returns a status on every line. -/
theorem rpncalc_eval_returns (H : Host α ρ) (ds : DS α ρ) (ptr : List Char) :
    ∃ r, rpncalc_eval H ds ptr = some r := by
  have key : ∀ (k : Nat) (ds : DS α ρ) (ptr : List Char), ptr.length < k →
      ∃ r, eval_loop H k ds ptr = some r := by
    intro k
    induction k with
    | zero => intro ds ptr h; omega
    | succ k ih =>
      intro ds ptr h
      rw [eval_loop_succ]
      by_cases hn : chr (skipwhite ptr) 0 = NUL
      · exact ⟨(RPN_OK, ds), by simp [hn]⟩
      · have hlt := next_token_shorter ptr hn
        simp only [hn, if_false]
        cases eval_token H ds (skipwhite ptr) with
        | inl r => exact ⟨r, rfl⟩
        | inr ds1 => exact ih ds1 _ (by omega)
  exact key _ ds ptr (Nat.lt_succ_self _)

/-- A `return` from inside the loop never carries `RPN_OK`. -/
theorem eval_token_inl_status (H : Host α ρ) (ds : DS α ρ) (ptr : List Char) (r : Int × DS α ρ)
    (h : eval_token H ds ptr = Sum.inl r) : r.1 ≠ RPN_OK := by
  unfold eval_token at h
  split at h
  · cases h; simp
  · split at h
    · cases h; simp
    · simp only at h
      split at h
      · split at h
        · cases h
        · cases h; simp
      · cases h

/-- The body of the loop reads the token only up to its terminator. -/
theorem eval_token_append (H : Host α ρ) (ds : DS α ρ) (c : Char) (p q : List Char) (w : Char)
    (hc : isspace c = false) (hw : isnullspace w = true) :
    eval_token H ds (c :: p ++ w :: q) = eval_token H ds (c :: p) := by
  have h1 : (chr (c :: p ++ w :: q) 1 = NUL ∨ isspace (chr (c :: p ++ w :: q) 1) = true)
      ↔ (chr (c :: p) 1 = NUL ∨ isspace (chr (c :: p) 1) = true) := by
    cases p with
    | nil =>
      have := (isnullspace_iff w).1 hw
      simp [chr, this]
    | cons d p => simp [chr]
  have h0 : chr (c :: p ++ w :: q) 0 = chr (c :: p) 0 := by simp [chr]
  have hop : rpncalc_op H ds (c :: p ++ w :: q) = rpncalc_op H ds (c :: p) := by
    simp only [rpncalc_op, compute_hash_append (c :: p) q w hw]
  have hcv : ∀ base, convert_s_to_d H (c :: p ++ w :: q) base = convert_s_to_d H (c :: p) base := by
    intro base
    have e1 : skipwhite (c :: p ++ w :: q) = c :: p ++ w :: q := by
      rw [List.cons_append]; exact skipwhite_of_head hc
    simp only [convert_s_to_d, e1, skipwhite_of_head hc, h0,
      convert_loop_append H base q w hw (c :: p)]
  simp only [eval_token, h0, h1, hop, hcv]

/-- Evaluation composes over concatenation: when the line `pre` evaluates to
`RPN_OK` with state `S`, evaluating `pre`, a blank and `suffix` gives what
evaluating `suffix` from `S` gives. -/
theorem eval_loop_append (H : Host α ρ) (suffix : List Char) (w : Char)
    (hw : isspace w = true) (S : DS α ρ) (k : Nat) :
    ∀ (ds : DS α ρ) (pre : List Char), pre.length < k → NUL ∉ pre →
      eval_loop H k ds pre = some (RPN_OK, S) →
      ∀ k', (pre ++ w :: suffix).length < k' →
        eval_loop H k' ds (pre ++ w :: suffix) = eval_loop H (suffix.length + 1) S suffix := by
  induction k with
  | zero => intro ds pre h; omega
  | succ k ih =>
    intro ds pre hlen hnul hok k' hk'
    cases k' with
    | zero => omega
    | succ k' =>
      have hlen' : (pre ++ w :: suffix).length = pre.length + suffix.length + 1 := by
        simp; omega
      rw [eval_loop_succ] at hok
      rcases skipwhite_head pre with he | ⟨c, q, he, hc⟩
      · -- `pre` is blank
        have hS : S = ds := by
          simp [he, chr] at hok; exact hok.symm
        subst hS
        have e : skipwhite (pre ++ w :: suffix) = skipwhite suffix := by
          rw [skipwhite_append pre suffix w hw, if_pos he]
        have e2 : eval_loop H (k' + 1) S (pre ++ w :: suffix) = eval_loop H (k' + 1) S suffix := by
          rw [eval_loop_succ, eval_loop_succ, e]
        rw [e2]
        exact eval_loop_fuel H _ _ S suffix (by omega) (by omega)
      · have hcn : c ≠ NUL := by
          intro h
          have := skipwhite_no_nul pre hnul
          rw [he, h] at this
          exact this (by simp)
        have hne : skipwhite pre ≠ [] := by rw [he]; simp
        have e : skipwhite (pre ++ w :: suffix) = c :: q ++ w :: suffix := by
          rw [skipwhite_append pre suffix w hw, if_neg hne, he]
        have h0 : chr (c :: q) 0 ≠ NUL := by simpa [chr] using hcn
        have h0' : chr (c :: q ++ w :: suffix) 0 ≠ NUL := by simpa [chr] using hcn
        have hq : NUL ∉ c :: q := by
          rw [← he]; exact skipwhite_no_nul pre hnul
        have hlt : (skipnonwhite (c :: q)).length < pre.length := by
          have := next_token_shorter pre (by rw [he]; exact h0)
          rwa [he] at this
        rw [eval_loop_succ, e, if_neg h0',
          eval_token_append H ds c q suffix w hc (isspace_isnullspace hw),
          skipnonwhite_append (c :: q) suffix w hq (isspace_isnullspace hw)]
        rw [he, if_neg h0] at hok
        cases ht : eval_token H ds (c :: q) with
        | inl r =>
          rw [ht] at hok
          simp only at hok ⊢
          have hr := eval_token_inl_status H ds (c :: q) r ht
          have : r = (RPN_OK, S) := by simpa using hok
          rw [this] at hr
          exact absurd rfl hr
        | inr ds1 =>
          rw [ht] at hok
          simp only at hok ⊢
          have hn' : NUL ∉ skipnonwhite (c :: q) := skipnonwhite_no_nul _ hq
          exact ih ds1 (skipnonwhite (c :: q)) (by omega) hn' hok k' (by
            simp at hk' ⊢; have := hlt; simp at this; omega)

/-- C6, at the failing input: on the full one-cell stack `[7]` the line `5`
is a valid base-10 literal whose `ds_push` fails, yet `rpncalc_eval` returns
`RPN_OK` with the state unchanged (the value is lost silently), while the
line `pi`, whose push fails for the same reason, returns `RPN_ERROR`. -/
theorem eval_literal_on_full_stack :
    (mkDS 1 1 (cells [7])).next = (mkDS 1 1 (cells [7])).size ∧
    convert_s_to_d Q "5".toList 10 = some 5 ∧
    (ds_push (mkDS 1 1 (cells [7])) 5).1 = RPN_ERROR ∧
    rpncalc_eval Q (mkDS 1 1 (cells [7])) "5".toList = some (RPN_OK, mkDS 1 1 (cells [7])) ∧
    rpncalc_eval Q (mkDS 1 1 (cells [7])) "pi".toList
      = some (RPN_ERROR, mkDS 1 1 (cells [7])) := by
  refine ⟨by decide, by with_unfolding_all rfl, by decide, by with_unfolding_all rfl, by rfl⟩

/-- What one unrecognised, non-numeric token does: the line is abandoned with
`RPN_ERROR` and the state it was reached in. -/
theorem eval_bad_token (H : Host α ρ) (S : DS α ρ) (sep bad rest : List Char) (k : Nat)
    (hsep : ∀ c ∈ sep, isspace c = true)
    (hne : bad ≠ []) (hbad : ∀ c ∈ bad, isnullspace c = false)
    (hrest : ∀ c ∈ rest.head?, isnullspace c = true)
    (hop : ¬ recognised bad)
    (hnum : convert_s_to_d H bad (ds_base S) = none) :
    eval_loop H (k + 1) S (sep ++ (bad ++ rest)) = some (RPN_ERROR, S) := by
  obtain ⟨c, b, rfl⟩ := List.exists_cons_of_ne_nil hne
  obtain ⟨hcn, hcs⟩ := isnullspace_false (hbad c (by simp))
  have htok : eval_token H S (c :: b) = Sum.inl (RPN_ERROR, S) := by
    have hsel : select (compute_hash (c :: b)) = none := by
      by_contra h
      exact hop (Or.inr (Or.inr h))
    have h1 : ¬ (chr (c :: b) 0 = '?' ∧
        (chr (c :: b) 1 = NUL ∨ isspace (chr (c :: b) 1) = true)) := by
      rintro ⟨h0, h1⟩
      have hc : c = '?' := by simpa [chr] using h0
      cases b with
      | nil => exact hop (Or.inl (by rw [hc]))
      | cons d b =>
        obtain ⟨hdn, hds⟩ := isnullspace_false (hbad d (by simp))
        simp [chr, hdn, hds] at h1
    have h2 : ¬ (chr (c :: b) 0 = 'q' ∧
        (chr (c :: b) 1 = NUL ∨ isspace (chr (c :: b) 1) = true)) := by
      rintro ⟨h0, h1⟩
      have hc : c = 'q' := by simpa [chr] using h0
      cases b with
      | nil => exact hop (Or.inr (Or.inl (by rw [hc])))
      | cons d b =>
        obtain ⟨hdn, hds⟩ := isnullspace_false (hbad d (by simp))
        simp [chr, hdn, hds] at h1
    simp [eval_token, h1, h2, rpncalc_op, hsel, hnum]
  have htok' : eval_token H S (c :: b ++ rest) = Sum.inl (RPN_ERROR, S) := by
    cases rest with
    | nil => simpa using htok
    | cons w r =>
      rw [eval_token_append H S c b r w hcs (hrest w (by simp))]
      exact htok
  have hsk : skipwhite (sep ++ (c :: b ++ rest)) = c :: b ++ rest := by
    rw [skipwhite_all_space hsep, List.cons_append]
    exact skipwhite_of_head hcs
  have h0 : chr (c :: b ++ rest) 0 ≠ NUL := by simpa [chr] using hcn
  rw [eval_loop_succ, hsk, if_neg h0, htok']

/-- C7: no rollback on a failing line.  Let the text `pre` (the tokens
`t1 ... tk`) evaluate on its own to `RPN_OK` with final state `S`; let `bad`
be a token that is not a recognised operator and that `convert_s_to_d`
refuses in the base of `S`; then the line made of `pre`, separating blanks,
`bad` and whatever follows it returns `RPN_ERROR` and leaves the calculator
in exactly the state `S`. -/
theorem eval_no_rollback (H : Host α ρ) (ds S : DS α ρ) (pre sep bad rest : List Char)
    (hnul : NUL ∉ pre)
    (hsep : ∀ c ∈ sep, isspace c = true) (hsep_ne : sep ≠ [] ∨ pre = [])
    (hne : bad ≠ []) (hbad : ∀ c ∈ bad, isnullspace c = false)
    (hrest : ∀ c ∈ rest.head?, isnullspace c = true)
    (hop : ¬ recognised bad)
    (hnum : convert_s_to_d H bad (ds_base S) = none)
    (hok : rpncalc_eval H ds pre = some (RPN_OK, S)) :
    rpncalc_eval H ds (pre ++ sep ++ bad ++ rest) = some (RPN_ERROR, S) := by
  cases sep with
  | nil =>
    have hpre : pre = [] := by
      rcases hsep_ne with h | h
      · exact absurd rfl h
      · exact h
    subst hpre
    have hS : S = ds := by
      simp [rpncalc_eval, eval_loop_succ, skipwhite, chr] at hok; exact hok.symm
    subst hS
    have := eval_bad_token H S [] bad rest (bad ++ rest).length (by simp) hne hbad hrest hop hnum
    simpa [rpncalc_eval] using this
  | cons w sep =>
    have hw : isspace w = true := hsep w (by simp)
    have hsep' : ∀ c ∈ sep, isspace c = true := fun c hc => hsep c (by simp [hc])
    have e : pre ++ w :: sep ++ bad ++ rest = pre ++ w :: (sep ++ (bad ++ rest)) := by simp
    rw [e]
    unfold rpncalc_eval at hok ⊢
    rw [eval_loop_append H (sep ++ (bad ++ rest)) w hw S (pre.length + 1) ds pre
      (Nat.lt_succ_self _) hnul hok _ (Nat.lt_succ_self _)]
    exact eval_bad_token H S sep bad rest _ hsep' hne hbad hrest hop hnum

/-- C7, on the line `1 2 + foo 9` from the empty stack: the sum 3 stays on
the stack, `foo` fails the line and `9` is not pushed. -/
theorem eval_no_rollback_witness :
    rpncalc_eval Q (mkDS 4 0 (cells [])) ("1 2 +".toList ++ " ".toList ++ "foo".toList ++ " 9".toList)
      = some (RPN_ERROR,
          (rpncalc_op Q (ds_push (ds_push (mkDS 4 0 (cells [])) 1).2 2).2 "+".toList).2) ∧
    (rpncalc_op Q (ds_push (ds_push (mkDS 4 0 (cells [])) 1).2 2).2 "+".toList).2.next = 1 ∧
    (rpncalc_op Q (ds_push (ds_push (mkDS 4 0 (cells [])) 1).2 2).2 "+".toList).2.stack 0 = 3 :=
  ⟨eval_no_rollback Q (mkDS 4 0 (cells []))
      (rpncalc_op Q (ds_push (ds_push (mkDS 4 0 (cells [])) 1).2 2).2 "+".toList).2
      "1 2 +".toList " ".toList "foo".toList " 9".toList
      (by decide) (by decide) (by decide) (by decide) (by decide) (by decide) (by decide)
      (by decide) (by with_unfolding_all rfl),
   by decide, by with_unfolding_all rfl⟩

/-- C8, at the failing input: on the stack `[99]` the token `=base` returns
`RPN_ERROR` (99 is no base) although it has already dropped the operand: top
goes from 1 to 0, so the state after the failed operation differs from the
state before. -/
theorem setbase_failure_drops_operand :
    (mkDS 4 1 (cells [99])).next = 1 ∧
    (rpncalc_op Q (mkDS 4 1 (cells [99])) "=base".toList).1 = RPN_ERROR ∧
    (rpncalc_op Q (mkDS 4 1 (cells [99])) "=base".toList).2.next = 0 ∧
    (rpncalc_op Q (mkDS 4 1 (cells [99])) "=base".toList).2 ≠ mkDS 4 1 (cells [99]) := by
  refine ⟨by decide, by decide, by decide, ?_⟩
  intro h
  have := congrArg DS.next h
  revert this
  decide

/-! ## Literal reader -/

/-- In the bases 2..36 the digit test of the code is the digit notion of the
specification. -/
theorem isdigitbase_eq_spec (b : Int) (hb : 2 ≤ b ∧ b ≤ 36) (c : Char) :
    isdigitbase c b = specIsDigit b c := by
  obtain ⟨h2, h36⟩ := hb
  have e0 : ('0' : Char).toNat = 48 := rfl
  have e9 : ('9' : Char).toNat = 57 := rfl
  have eA : ('A' : Char).toNat = 65 := rfl
  have eZ : ('Z' : Char).toNat = 90 := rfl
  simp only [isdigitbase, specIsDigit, specDigitValue, cint, e0, e9, eA, eZ]
  generalize c.toNat = n
  by_cases h1 : 48 ≤ n ∧ n ≤ 57 <;> by_cases h3 : 65 ≤ n ∧ n ≤ 90 <;>
    by_cases hb10 : b ≤ 10 <;> simp [h1, h3, hb10, h36] <;> first | omega | (rw [Bool.eq_iff_iff]; simp; omega)

theorem specIsDigit_special (b : Int) :
    specIsDigit b '.' = false ∧ specIsDigit b '+' = false ∧ specIsDigit b '-' = false ∧
    specIsDigit b 'e' = false := by
  refine ⟨?_, ?_, ?_, ?_⟩ <;> simp [specIsDigit, specDigitValue]

/-- Once the number has started, the main loop of `convert_s_to_d` accepts
the rest of the token exactly when it holds only digits and radix points,
no radix point beyond the one allowed, and a digit has been or is seen. -/
theorem convert_loop_started (H : Host α ρ) (b : Int) (hb : 2 ≤ b ∧ b ≤ 36) (s : List Char) :
    (∀ c ∈ s, isnullspace c = false) →
    ∀ (num : α) (gotnum : Bool) (infrac : Nat) (minus inexp : Bool),
      ((convert_loop H b s num true gotnum infrac minus inexp).isSome = true ↔
        ((∀ c ∈ s, c = '.' ∨ specIsDigit b c = true) ∧
          s.count '.' ≤ (if infrac = 0 then 1 else 0) ∧
          (gotnum = true ∨ ∃ c ∈ s, specIsDigit b c = true))) := by
  obtain ⟨hdot, hplus, hminus, hexp⟩ := specIsDigit_special b
  induction s with
  | nil =>
    intro _ num gotnum infrac minus inexp
    cases gotnum <;> simp [convert_loop]
  | cons c s ih =>
    intro hs num gotnum infrac minus inexp
    obtain ⟨hcn, hcs⟩ := isnullspace_false (hs c (by simp))
    have ih' := ih (fun d hd => hs d (by simp [hd]))
    have hd := isdigitbase_eq_spec b hb c
    rw [convert_loop]
    simp only [hcn, hcs, false_or, Bool.false_eq_true, if_false]
    by_cases hm : c = '-'
    · subst hm; simp [hminus]
    by_cases hp : c = '+'
    · subst hp; simp [hplus]
    by_cases he : c = 'e'
    · subst he
      have : isdigitbase 'e' b = false := by rw [hd, hexp]
      simp [hexp, this]
    by_cases hdt : c = '.'
    · subst hdt
      by_cases hi : infrac = 0
      · subst hi
        simp [ih', hdot]
      · simp [hi]
    by_cases hdig : specIsDigit b c = true
    · have hcd : isdigitbase c b = true := by rw [hd, hdig]
      have hcount : List.count '.' (c :: s) = List.count '.' s := by
        rw [List.count_cons_of_ne]; exact fun h => hdt h.symm
      by_cases hi : infrac = 0
      · subst hi
        simp [hm, hp, he, hdt, hcd, ih', hdig, hcount]
      · simp [hm, hp, he, hdt, hcd, ih', hdig, hcount, hi]
    · have hcd : isdigitbase c b = false := by
        rw [hd]; simpa using hdig
      simp [hm, hp, he, hdt, hcd, hdig]

/-- The literals `convert_s_to_d` accepts, token by token (the criterion of the
specification, `specLiteral`). -/
theorem convert_s_to_d_isSome_iff (H : Host α ρ) (b : Int) (tok : List Char)
    (hb : 2 ≤ b ∧ b ≤ 36) (hne : tok ≠ []) (hws : ∀ c ∈ tok, isnullspace c = false) :
    (convert_s_to_d H tok b).isSome = true ↔ specLiteral b tok = true := by
  obtain ⟨hdot, hplus, hminus, hexp⟩ := specIsDigit_special b
  obtain ⟨c, s, rfl⟩ := List.exists_cons_of_ne_nil hne
  obtain ⟨hcn, hcs⟩ := isnullspace_false (hws c (by simp))
  have hs : ∀ d ∈ s, isnullspace d = false := fun d hd => hws d (by simp [hd])
  have hd := isdigitbase_eq_spec b hb c
  have key := convert_loop_started H b hb s hs
  have keyc := convert_loop_started H b hb (c :: s) hws
  have h0 : chr (c :: s) 0 ≠ NUL := by simpa [chr] using hcn
  rw [convert_s_to_d, skipwhite_of_head hcs, if_neg h0, convert_loop]
  simp only [hcn, hcs, false_or, Bool.false_eq_true, if_false]
  by_cases hm : c = '-'
  · subst hm
    simp [specLiteral, specBody, key]
    tauto
  by_cases hp : c = '+'
  · subst hp
    simp [specLiteral, specBody, key]
    tauto
  by_cases he : c = 'e'
  · subst he
    simp [specLiteral, specBody, hexp]
  by_cases hdt : c = '.'
  · subst hdt
    simp [specLiteral, specBody, key, hdot]
    tauto
  by_cases hdig : specIsDigit b c = true
  · have hcd : isdigitbase c b = true := by rw [hd, hdig]
    have hcount : List.count '.' (c :: s) = List.count '.' s := by
      rw [List.count_cons_of_ne]; exact fun h => hdt h.symm
    simp [specLiteral, specBody, key, hm, hp, he, hdt, hcd, hdig, hcount]
  · have hcd : isdigitbase c b = false := by
      rw [hd]; simpa using hdig
    simp [specLiteral, specBody, hm, hp, he, hdt, hcd, hdig]

/-- C9: in every base 2..36, on a non-empty token free of white space (and
of NUL), `convert_s_to_d` returns `RPN_OK` if and only if the token is a
numeric literal as the specification describes it: an optional single
leading `+` or `-`, then only base-`b` digits (`0`-`9`, uppercase `A`-`Z`,
of value below `b`) and at most one `.`, with at least one digit. -/
theorem convert_s_to_d_accepts_iff (H : Host α ρ) (b : Int) (tok : List Char)
    (hb : 2 ≤ b ∧ b ≤ 36) (hne : tok ≠ []) (hws : ∀ c ∈ tok, isnullspace c = false) :
    (convert_s_to_d H tok b).isSome = true ↔ specLiteral b tok = true := by
  constructor
  · intro h
    exact (convert_s_to_d_isSome_iff H b tok hb hne hws).1 h
  · intro h
    exact (convert_s_to_d_isSome_iff H b tok hb hne hws).2 h

/-- C9, on concrete tokens: `-1A.8` is accepted in base 16, while a sign that
is not first, a second radix point, a lowercase letter and a token without
digits are refused. -/
theorem convert_s_to_d_accepts_iff_witness :
    (convert_s_to_d Q "-1A.8".toList 16).isSome = true ∧
    ¬ (convert_s_to_d Q "1-2".toList 10).isSome = true ∧
    ¬ (convert_s_to_d Q "1.2.3".toList 10).isSome = true ∧
    ¬ (convert_s_to_d Q "1a".toList 16).isSome = true ∧
    ¬ (convert_s_to_d Q "+.".toList 10).isSome = true :=
  ⟨(convert_s_to_d_accepts_iff Q 16 "-1A.8".toList (by decide) (by decide) (by decide)).2
      (by decide),
   fun h => absurd
     ((convert_s_to_d_accepts_iff Q 10 "1-2".toList (by decide) (by decide) (by decide)).1 h)
     (by decide),
   fun h => absurd
     ((convert_s_to_d_accepts_iff Q 10 "1.2.3".toList (by decide) (by decide) (by decide)).1 h)
     (by decide),
   fun h => absurd
     ((convert_s_to_d_accepts_iff Q 16 "1a".toList (by decide) (by decide) (by decide)).1 h)
     (by decide),
   fun h => absurd
     ((convert_s_to_d_accepts_iff Q 10 "+.".toList (by decide) (by decide) (by decide)).1 h)
     (by decide)⟩

/-- The letter `e` is a digit in no base. -/
theorem isdigitbase_e (b : Int) : isdigitbase 'e' b = false := by
  have e0 : ('0' : Char).toNat = 48 := rfl
  have e9 : ('9' : Char).toNat = 57 := rfl
  have eA : ('A' : Char).toNat = 65 := rfl
  have ee : ('e' : Char).toNat = 101 := rfl
  simp only [isdigitbase, cint, e0, e9, eA, ee]
  by_cases h1 : b ≤ 10 <;> by_cases h2 : b ≤ 36 <;> simp [h1, h2] <;> omega

/-- From any point of the main loop, a token that still holds an `e` is
refused. -/
theorem convert_loop_exponent (H : Host α ρ) (b : Int) (exp : List Char) (mant : List Char) :
    (∀ c ∈ mant, isnullspace c = false) →
    ∀ (num : α) (started gotnum : Bool) (infrac : Nat) (minus inexp : Bool),
      convert_loop H b (mant ++ 'e' :: exp) num started gotnum infrac minus inexp = none := by
  induction mant with
  | nil =>
    intro _ num started gotnum infrac minus inexp
    have hn : ('e' : Char) ≠ NUL := by decide
    have hs : isspace 'e' = false := by decide
    simp [convert_loop, hn, hs, isdigitbase_e]
  | cons c m ih =>
    intro hm num started gotnum infrac minus inexp
    have ih' := ih (fun d hd => hm d (by simp [hd]))
    obtain ⟨hcn, hcs⟩ := isnullspace_false (hm c (by simp))
    simp only [List.cons_append, convert_loop, List.append_eq, ih']
    simp [hcn, hcs]

/-- C10, at the input of the claim: in base 10 the token `1.2e4` is refused
by `convert_s_to_d` (it does not yield 1.2, the value of `1.2`). -/
theorem exponent_literal_refused :
    convert_s_to_d Q "1.2e4".toList 10 = none ∧
    convert_s_to_d Q "1.2".toList 10 = some (6 / 5) ∧
    convert_s_to_d Q "1.2e4".toList 10 ≠ some (6 / 5) := by
  refine ⟨by decide, by with_unfolding_all decide, by with_unfolding_all decide⟩

/-- C10 as amended: exponent notation is not accepted.  In every base, a
token made of a mantissa followed by the letter `e` and anything after it is
refused by `convert_s_to_d`: the `e` is taken for a bad character. -/
theorem convert_s_to_d_refuses_exponent (H : Host α ρ) (b : Int) (mant exp : List Char)
    (hm : ∀ c ∈ mant, isnullspace c = false) :
    convert_s_to_d H (mant ++ 'e' :: exp) b = none := by
  have hsk : skipwhite (mant ++ 'e' :: exp) = mant ++ 'e' :: exp := by
    cases mant with
    | nil => exact skipwhite_of_head (by decide)
    | cons c m => exact skipwhite_of_head (isnullspace_false (hm c (by simp))).2
  simp [convert_s_to_d, hsk, convert_loop_exponent H b exp mant hm]

/-- C10 as amended, on the token `1.2e4` in base 10. -/
theorem convert_s_to_d_refuses_exponent_witness :
    (∀ c ∈ "1.2".toList, isnullspace c = false) ∧
    convert_s_to_d Q ("1.2".toList ++ 'e' :: "4".toList) 10 = none :=
  ⟨by decide, convert_s_to_d_refuses_exponent Q 10 "1.2".toList "4".toList (by decide)⟩

/-! ## Literal reader: values -/

theorem specInt_cons (b : Int) (c : Char) (s : List Char) :
    specInt b (c :: s) = digitQ c * (b : ℚ) ^ s.length + specInt b s := by
  simp only [specInt, List.length_cons, List.range_succ_eq_map, List.map_cons, List.sum_cons,
    List.map_map]
  congr 1
  apply congrArg
  apply List.map_congr_left
  intro i _
  simp only [Function.comp_apply, List.getD_cons_succ]
  congr 2
  omega

/-- The fractional digits weighted from the position `j` on. -/
theorem fracFrom_cons (b : Int) (j : Nat) (c : Char) (s : List Char) :
    ((List.range (c :: s).length).map
      (fun k => digitQ ((c :: s).getD k '0') * ((b : ℚ) ^ (j + k))⁻¹)).sum
    = digitQ c * ((b : ℚ) ^ j)⁻¹ +
      ((List.range s.length).map
        (fun k => digitQ (s.getD k '0') * ((b : ℚ) ^ (j + 1 + k))⁻¹)).sum := by
  simp only [List.length_cons, List.range_succ_eq_map, List.map_cons, List.sum_cons,
    List.map_map]
  congr 1
  apply congrArg
  apply List.map_congr_left
  intro i _
  simp only [Function.comp_apply, List.getD_cons_succ]
  congr 3
  omega

theorem frac_scale_exact {ρ : Type} (L : Libm ρ) (b : Int) (t : Nat) (f : ℚ) :
    frac_scale (exactHost L) b t f = f * ((b : ℚ) ^ t)⁻¹ := by
  induction t generalizing f with
  | zero => simp [frac_scale]
  | succ t ih =>
    simp only [frac_scale, ih]
    simp only [exactHost]
    rw [pow_succ, mul_inv, div_eq_mul_inv]
    ring

/-- What the code knows of a character that is a digit of base `b`. -/
theorem digit_char_facts (b : Int) (hb : 2 ≤ b ∧ b ≤ 36) (c : Char)
    (hc : specIsDigit b c = true) :
    c ≠ NUL ∧ isspace c = false ∧ c ≠ '-' ∧ c ≠ '+' ∧ c ≠ 'e' ∧ c ≠ '.' ∧
    isdigitbase c b = true := by
  obtain ⟨hdot, hplus, hminus, hexp⟩ := specIsDigit_special b
  have hN : specIsDigit b NUL = false := by simp [specIsDigit, specDigitValue, NUL]
  have hsp : ∀ d, isspace d = true → specIsDigit b d = false := by
    intro d hd
    simp only [isspace, Bool.or_eq_true, decide_eq_true_eq] at hd
    rcases hd with ((h | h) | h) | h <;> subst h <;> simp [specIsDigit, specDigitValue]
  refine ⟨?_, ?_, ?_, ?_, ?_, ?_, ?_⟩
  · rintro rfl; rw [hN] at hc; exact absurd hc (by simp)
  · by_contra h
    have := hsp c (by simpa using h)
    rw [this] at hc; exact absurd hc (by simp)
  · rintro rfl; rw [hminus] at hc; exact absurd hc (by simp)
  · rintro rfl; rw [hplus] at hc; exact absurd hc (by simp)
  · rintro rfl; rw [hexp] at hc; exact absurd hc (by simp)
  · rintro rfl; rw [hdot] at hc; exact absurd hc (by simp)
  · rw [isdigitbase_eq_spec b hb c, hc]

/-- On a digit of base `b` the code reads the value the specification gives. -/
theorem todoublebase_exact {ρ : Type} (L : Libm ρ) (b : Int) (hb : 2 ≤ b ∧ b ≤ 36) (c : Char)
    (hc : specIsDigit b c = true) :
    todoublebase (exactHost L) c b = digitQ c := by
  obtain ⟨h2, h36⟩ := hb
  have e0 : ('0' : Char).toNat = 48 := rfl
  have e9 : ('9' : Char).toNat = 57 := rfl
  have eA : ('A' : Char).toNat = 65 := rfl
  have eZ : ('Z' : Char).toNat = 90 := rfl
  revert hc
  simp only [todoublebase, specIsDigit, digitQ, specDigitValue, cint, e0, e9, eA, eZ, exactHost]
  generalize c.toNat = n
  by_cases h1 : 48 ≤ n ∧ n ≤ 57 <;> by_cases h3 : 65 ≤ n ∧ n ≤ 90 <;>
    by_cases hb10 : b ≤ 10 <;> simp [h1, h3, hb10, h36] <;> intros <;> omega

/-- The main loop of `convert_s_to_d` over integer digits: Horner's rule
gives the positional value. -/
theorem convert_loop_int {ρ : Type} (L : Libm ρ) (b : Int) (hb : 2 ≤ b ∧ b ≤ 36)
    (rest : List Char) (I : List Char) :
    (∀ c ∈ I, specIsDigit b c = true) →
    ∀ (num : ℚ) (started gotnum minus inexp : Bool),
      convert_loop (exactHost L) b (I ++ rest) num started gotnum 0 minus inexp
        = convert_loop (exactHost L) b rest (num * (b : ℚ) ^ I.length + specInt b I)
            (started || !I.isEmpty) (gotnum || !I.isEmpty) 0 minus inexp := by
  induction I with
  | nil =>
    intro _ num started gotnum minus inexp
    simp [specInt]
  | cons c s ih =>
    intro hI num started gotnum minus inexp
    obtain ⟨h1, h2, h3, h4, h5, h6, h7⟩ := digit_char_facts b hb c (hI c (by simp))
    have ih' := ih (fun d hd => hI d (by simp [hd]))
    have hv := todoublebase_exact L b hb c (hI c (by simp))
    rw [List.cons_append, convert_loop]
    simp only [h1, h2, h3, h4, h5, h6, h7, false_or, Bool.false_eq_true, if_false, if_true,
      false_and, ne_eq, not_true_eq_false, ih', hv]
    have e : ((exactHost L).add ((exactHost L).mul num ((exactHost L).ofInt b)) (digitQ c))
        * (b : ℚ) ^ s.length + specInt b s
        = num * (b : ℚ) ^ (c :: s).length + specInt b (c :: s) := by
      simp only [exactHost, specInt_cons, List.length_cons, pow_succ]
      ring
    rw [e]
    cases s <;> simp

/-- The main loop of `convert_s_to_d` over fractional digits, the next one
having the weight `b^-j`. -/
theorem convert_loop_frac {ρ : Type} (L : Libm ρ) (b : Int) (hb : 2 ≤ b ∧ b ≤ 36)
    (F : List Char) :
    (∀ c ∈ F, specIsDigit b c = true) →
    ∀ (j : Nat), 0 < j → ∀ (num : ℚ) (gotnum minus inexp : Bool),
      convert_loop (exactHost L) b F num true gotnum j minus inexp
        = if gotnum = true ∨ F ≠ [] then
            some (if minus = true then
              -(num + ((List.range F.length).map
                (fun k => digitQ (F.getD k '0') * ((b : ℚ) ^ (j + k))⁻¹)).sum)
              else num + ((List.range F.length).map
                (fun k => digitQ (F.getD k '0') * ((b : ℚ) ^ (j + k))⁻¹)).sum)
          else none := by
  induction F with
  | nil =>
    intro _ j hj num gotnum minus inexp
    cases gotnum <;> simp [convert_loop, exactHost]
  | cons c s ih =>
    intro hF j hj num gotnum minus inexp
    obtain ⟨h1, h2, h3, h4, h5, h6, h7⟩ := digit_char_facts b hb c (hF c (by simp))
    have ih' := ih (fun d hd => hF d (by simp [hd]))
    have hv := todoublebase_exact L b hb c (hF c (by simp))
    have hj0 : j ≠ 0 := by omega
    rw [convert_loop]
    simp only [h1, h2, h3, h4, h5, h6, h7, false_or, Bool.false_eq_true, if_false, if_true,
      false_and, ne_eq, not_true_eq_false, hj0, not_false_eq_true, hv]
    rw [ih' (j + 1) (by omega), fracFrom_cons b j c s, frac_scale_exact]
    have hc : (gotnum = true ∨ c :: s ≠ []) := Or.inr (List.cons_ne_nil c s)
    have ht : ((true : Bool) = true ∨ s ≠ []) := Or.inl rfl
    rw [if_pos hc, if_pos ht]
    cases minus
    · simp only [Bool.false_eq_true, if_false, exactHost]
      congr 1; ring
    · simp only [if_true, exactHost]
      congr 1; ring

/-- The main loop of `convert_s_to_d` from the radix point on, over
fractional digits. -/
theorem convert_loop_point {ρ : Type} (L : Libm ρ) (b : Int) (hb : 2 ≤ b ∧ b ≤ 36)
    (F : List Char) (hF : ∀ c ∈ F, specIsDigit b c = true) (gotnum : Bool)
    (hgot : gotnum = true ∨ F ≠ []) (num : ℚ) (started minus : Bool) :
    convert_loop (exactHost L) b ('.' :: F) num started gotnum 0 minus false
      = some (if minus = true then -(num + specFrac b F) else num + specFrac b F) := by
  have hdotn : ('.' : Char) ≠ NUL := by decide
  have hdots : isspace '.' = false := by decide
  rw [convert_loop]
  simp only [hdotn, hdots, false_or, Bool.false_eq_true, if_false]
  have e1 : ¬ (('.' : Char) = '-') := by decide
  have e2 : ¬ (('.' : Char) = '+') := by decide
  have e3 : ¬ (('.' : Char) = 'e') := by decide
  simp only [e1, e2, e3, if_false, false_and, if_true, ne_eq, not_true_eq_false]
  rw [convert_loop_frac L b hb F hF 1 (by omega)]
  simp only [hgot, if_true, specFrac]
  have : ∀ k : Nat, (b : ℚ) ^ (1 + k) = (b : ℚ) ^ (k + 1) := fun k => by rw [add_comm]
  simp only [this]

theorem isEmpty_or_of_ne (I F : List Char) (hne : I ≠ [] ∨ F ≠ []) :
    (!I.isEmpty) = true ∨ F ≠ [] := by
  rcases hne with h | h
  · left; cases I with
    | nil => exact absurd rfl h
    | cons => rfl
  · right; exact h

/-- In exact arithmetic an unsigned token `I.F` of base-`b` digits is read as
its positional value. -/
theorem convert_s_to_d_point {ρ : Type} (L : Libm ρ) (b : Int) (I F : List Char)
    (hb : 2 ≤ b ∧ b ≤ 36)
    (hI : ∀ c ∈ I, specIsDigit b c = true) (hF : ∀ c ∈ F, specIsDigit b c = true)
    (hne : I ≠ [] ∨ F ≠ []) :
    convert_s_to_d (exactHost L) (I ++ '.' :: F) b = some (specInt b I + specFrac b F) := by
  have hdotn : ('.' : Char) ≠ NUL := by decide
  have hdots : isspace '.' = false := by decide
  have hhead : skipwhite (I ++ '.' :: F) = I ++ '.' :: F ∧ chr (I ++ '.' :: F) 0 ≠ NUL := by
    cases I with
    | nil => exact ⟨skipwhite_of_head hdots, by simpa [chr] using hdotn⟩
    | cons c s =>
      obtain ⟨h1, h2, -⟩ := digit_char_facts b hb c (hI c (by simp))
      exact ⟨skipwhite_of_head h2, by simpa [chr] using h1⟩
  obtain ⟨hs, h0⟩ := hhead
  rw [convert_s_to_d, hs, if_neg h0, convert_loop_int L b hb ('.' :: F) I hI]
  simp only [Bool.false_or]
  rw [convert_loop_point L b hb F hF _ (isEmpty_or_of_ne I F hne)]
  simp [exactHost]

/-- C16: in exact arithmetic and every base `b` in 2..36, for strings `I` and
`F` of base-`b` digits that are not both empty, `convert_s_to_d` on the token
`I.F` returns the sum over the integer digits of `digit_i * b^(len(I)-1-i)`
plus the sum over the fractional digits of `digit_k * b^-(k+1)`, and on the
same token prefixed by `-` it returns the negation of that value. -/
theorem convert_s_to_d_value {ρ : Type} (L : Libm ρ) (b : Int) (I F : List Char)
    (hb : 2 ≤ b ∧ b ≤ 36)
    (hI : ∀ c ∈ I, specIsDigit b c = true) (hF : ∀ c ∈ F, specIsDigit b c = true)
    (hne : I ≠ [] ∨ F ≠ []) :
    convert_s_to_d (exactHost L) (I ++ '.' :: F) b = some (specInt b I + specFrac b F) ∧
    convert_s_to_d (exactHost L) ('-' :: (I ++ '.' :: F)) b
      = some (-(specInt b I + specFrac b F)) := by
  have hmn : ('-' : Char) ≠ NUL := by decide
  have hms : isspace '-' = false := by decide
  constructor
  · exact convert_s_to_d_point L b I F hb hI hF hne
  · have hs : skipwhite ('-' :: (I ++ '.' :: F)) = '-' :: (I ++ '.' :: F) :=
      skipwhite_of_head hms
    have h0 : chr ('-' :: (I ++ '.' :: F)) 0 ≠ NUL := by simpa [chr] using hmn
    rw [convert_s_to_d, hs, if_neg h0, convert_loop]
    simp only [hmn, hms, false_or, Bool.false_eq_true, if_false, if_true]
    rw [convert_loop_int L b hb ('.' :: F) I hI]
    simp only [Bool.false_or]
    rw [convert_loop_point L b hb F hF _ (isEmpty_or_of_ne I F hne)]
    simp [exactHost]

/-- C16, on the token `1A.8` in base 16: 1*16 + 10 + 8/16, and its negation
for `-1A.8`. -/
theorem convert_s_to_d_value_witness :
    convert_s_to_d Q ("1A".toList ++ '.' :: "8".toList) 16
      = some (specInt 16 "1A".toList + specFrac 16 "8".toList) ∧
    convert_s_to_d Q ('-' :: ("1A".toList ++ '.' :: "8".toList)) 16
      = some (-(specInt 16 "1A".toList + specFrac 16 "8".toList)) ∧
    specInt 16 "1A".toList + specFrac 16 "8".toList = 53 / 2 :=
  ⟨(convert_s_to_d_value zeroLibm 16 "1A".toList "8".toList (by decide) (by decide) (by decide)
      (by decide)).1,
   (convert_s_to_d_value zeroLibm 16 "1A".toList "8".toList (by decide) (by decide) (by decide)
      (by decide)).2,
   by with_unfolding_all decide⟩

/-! ## Evaluating lines token by token -/

/-- Evaluation composes over concatenation (see `eval_loop_append`). -/
theorem rpncalc_eval_append (H : Host α ρ) (ds S : DS α ρ) (pre suffix : List Char) (w : Char)
    (hnul : NUL ∉ pre) (hw : isspace w = true)
    (hok : rpncalc_eval H ds pre = some (RPN_OK, S)) :
    rpncalc_eval H ds (pre ++ w :: suffix) = rpncalc_eval H S suffix := by
  unfold rpncalc_eval at hok ⊢
  exact eval_loop_append H suffix w hw S (pre.length + 1) ds pre (Nat.lt_succ_self _) hnul hok _
    (Nat.lt_succ_self _)

theorem skipnonwhite_token (tok : List Char) (h : ∀ c ∈ tok, isnullspace c = false) :
    skipnonwhite tok = [] := by
  induction tok with
  | nil => rfl
  | cons c s ih =>
    obtain ⟨h1, h2⟩ := isnullspace_false (h c (by simp))
    have : skipnonwhite (c :: s) = skipnonwhite s := by
      conv_lhs => unfold skipnonwhite
      simp [h1, h2]
    rw [this]
    exact ih (fun d hd => h d (by simp [hd]))

/-- A line made of one token: the outcome of the body of the loop on it. -/
theorem eval_single_token (H : Host α ρ) (ds : DS α ρ) (tok : List Char)
    (hne : tok ≠ []) (htok : ∀ c ∈ tok, isnullspace c = false) :
    rpncalc_eval H ds tok =
      some (match eval_token H ds tok with
        | Sum.inl r => r
        | Sum.inr ds1 => (RPN_OK, ds1)) := by
  obtain ⟨c, s, rfl⟩ := List.exists_cons_of_ne_nil hne
  obtain ⟨h1, h2⟩ := isnullspace_false (htok c (by simp))
  have h0 : chr (c :: s) 0 ≠ NUL := by simpa [chr] using h1
  rw [rpncalc_eval, eval_loop_succ, skipwhite_of_head h2, if_neg h0, skipnonwhite_token _ htok]
  cases eval_token H ds (c :: s) with
  | inl r => rfl
  | inr ds1 =>
    simp only [List.length_cons]
    rw [eval_loop_succ]
    simp [skipwhite, chr]

/-- The tests for the bare `?` and `q` fail on any other token. -/
theorem not_help_quit (tok : List Char) (htok : ∀ c ∈ tok, isnullspace c = false)
    (h1 : tok ≠ ['?']) (h2 : tok ≠ ['q']) :
    ¬ (chr tok 0 = '?' ∧ (chr tok 1 = NUL ∨ isspace (chr tok 1) = true)) ∧
    ¬ (chr tok 0 = 'q' ∧ (chr tok 1 = NUL ∨ isspace (chr tok 1) = true)) := by
  rcases tok with _ | ⟨c, _ | ⟨d, s⟩⟩
  · exact ⟨by simp [chr, NUL], by simp [chr, NUL]⟩
  · constructor
    · rintro ⟨h, -⟩
      exact h1 (by simpa [chr] using h)
    · rintro ⟨h, -⟩
      exact h2 (by simpa [chr] using h)
  · obtain ⟨hd1, hd2⟩ := isnullspace_false (htok d (by simp))
    constructor <;> simp [chr, hd1, hd2]

/-- A line made of one numeric literal that is no operator: the value is
pushed (the status of the push is not looked at) and the line is `RPN_OK`. -/
theorem eval_literal_line (H : Host α ρ) (ds : DS α ρ) (tok : List Char) (x : α)
    (hne : tok ≠ []) (htok : ∀ c ∈ tok, isnullspace c = false)
    (hop : ¬ recognised tok) (hx : convert_s_to_d H tok (ds_base ds) = some x) :
    rpncalc_eval H ds tok = some (RPN_OK, (ds_push ds x).2) := by
  have hsel : select (compute_hash tok) = none := by
    by_contra h
    exact hop (Or.inr (Or.inr h))
  obtain ⟨hh, hq⟩ := not_help_quit tok htok (fun h => hop (Or.inl h))
    (fun h => hop (Or.inr (Or.inl h)))
  rw [eval_single_token H ds tok hne htok]
  simp [eval_token, hh, hq, rpncalc_op, hsel, hx]

/-- A line made of one operator that succeeds. -/
theorem eval_op_line_ok (H : Host α ρ) (ds S : DS α ρ) (tok : List Char)
    (hne : tok ≠ []) (htok : ∀ c ∈ tok, isnullspace c = false)
    (h1 : tok ≠ ['?']) (h2 : tok ≠ ['q'])
    (hop : rpncalc_op H ds tok = (0, S)) :
    rpncalc_eval H ds tok = some (RPN_OK, S) := by
  obtain ⟨hh, hq⟩ := not_help_quit tok htok h1 h2
  rw [eval_single_token H ds tok hne htok]
  simp [eval_token, hh, hq, hop]

/-- A line made of one operator that fails and is no numeric literal. -/
theorem eval_op_line_fail (H : Host α ρ) (ds S : DS α ρ) (tok : List Char) (r : Int)
    (hne : tok ≠ []) (htok : ∀ c ∈ tok, isnullspace c = false)
    (h1 : tok ≠ ['?']) (h2 : tok ≠ ['q'])
    (hop : rpncalc_op H ds tok = (r, S)) (hr : r ≠ 0)
    (hx : convert_s_to_d H tok (ds_base ds) = none) :
    rpncalc_eval H ds tok = some (RPN_ERROR, S) := by
  obtain ⟨hh, hq⟩ := not_help_quit tok htok h1 h2
  rw [eval_single_token H ds tok hne htok]
  simp [eval_token, hh, hq, hop, hr, hx]

/-- In exact arithmetic a token of base-`b` digits is read as its positional
value. -/
theorem convert_s_to_d_int {ρ : Type} (L : Libm ρ) (b : Int) (hb : 2 ≤ b ∧ b ≤ 36)
    (I : List Char) (hne : I ≠ []) (hI : ∀ c ∈ I, specIsDigit b c = true) :
    convert_s_to_d (exactHost L) I b = some (specInt b I) := by
  obtain ⟨c, s, rfl⟩ := List.exists_cons_of_ne_nil hne
  obtain ⟨h1, h2, -⟩ := digit_char_facts b hb c (hI c (by simp))
  have h0 : chr (c :: s) 0 ≠ NUL := by simpa [chr] using h1
  have := convert_loop_int L b hb [] (c :: s) hI 0 false false false false
  rw [List.append_nil] at this
  rw [convert_s_to_d, skipwhite_of_head h2, if_neg h0]
  simp only [exactHost] at this ⊢
  rw [this]
  simp [convert_loop]

/-! ## Division -/

/-- The operator `/` on a stack of at least two values whose top the test
`fabs(top) > DBL_MIN` refuses. -/
theorem divide_refused (H : Host α ρ) (ds : DS α ρ) (h2 : 2 ≤ ds.next)
    (hd : H.lt (DBL_MIN H) (H.fabs (ds.stack (ds.next - 1))) = false) :
    rpncalc_op H ds "/".toList = (1, ds) := by
  have hsel : select (compute_hash "/".toList) = some Op.divide := by decide
  have f1 : ¬ ((1 : Int) < 0 ∨ 1 ≥ ds.next) := by omega
  have f0 : ¬ ((0 : Int) < 0 ∨ 0 ≥ ds.next) := by omega
  simp only [rpncalc_op, hsel, rpncalc_case, ds_fromtop, f1, f0, if_false, sub_zero, hd,
    Bool.not_false, if_true]

/-- A single-digit literal in exact arithmetic. -/
theorem convert_s_to_d_digit {ρ : Type} (L : Libm ρ) (b : Int) (hb : 2 ≤ b ∧ b ≤ 36)
    (c : Char) (hc : specIsDigit b c = true) :
    convert_s_to_d (exactHost L) [c] b = some (digitQ c) := by
  rw [convert_s_to_d_int L b hb [c] (by simp) (by simpa using hc)]
  simp [specInt, List.range_succ]

/-- C17: (1) for every host and every state whose stack holds at least two
values and whose top value `d` fails the test `fabs(d) > DBL_MIN` (that is
`|d| ≤ DBL_MIN`, in particular `d = 0`), the operator `/` returns a non-zero
status and leaves the state unchanged; (2) consequently, in exact arithmetic,
from an empty stack of capacity at least 2 in a base where 5 is a digit, the
line `5 0 /` returns `RPN_ERROR` with the stack holding 5 and 0. -/
theorem divide_near_zero_fails :
    (∀ (α ρ : Type) (H : Host α ρ) (ds : DS α ρ), 2 ≤ ds.next →
      H.lt (DBL_MIN H) (H.fabs (ds.stack (ds.next - 1))) = false →
      rpncalc_op H ds "/".toList = (1, ds)) ∧
    (∀ (ρ : Type) (L : Libm ρ) (d : ℚ), |d| ≤ 1 / 2 ^ 1022 →
      (exactHost L).lt (DBL_MIN (exactHost L)) ((exactHost L).fabs d) = false) ∧
    (∀ (ρ : Type) (L : Libm ρ) (ds : DS ℚ ρ), ds.next = 0 → 2 ≤ ds.size →
      6 ≤ ds.base → ds.base ≤ 36 →
      rpncalc_eval (exactHost L) ds "5 0 /".toList
        = some (RPN_ERROR, (ds_push (ds_push ds 5).2 0).2) ∧
      (ds_push (ds_push ds 5).2 0).2.next = 2 ∧
      (ds_push (ds_push ds 5).2 0).2.stack 0 = 5 ∧
      (ds_push (ds_push ds 5).2 0).2.stack 1 = 0) := by
  refine ⟨fun α ρ H ds h2 hd => divide_refused H ds h2 hd, ?_, ?_⟩
  · intro ρ L d hd
    simp only [exactHost, DBL_MIN, decide_eq_false_iff_not, not_lt]
    exact hd
  · intro ρ L ds hnext hsize hb6 hb36
    have hb : 2 ≤ ds.base ∧ ds.base ≤ 36 := ⟨by omega, hb36⟩
    have hn0 : (0 : Int) ≠ ds.size := by omega
    have hn1 : (1 : Int) ≠ ds.size := by omega
    have hd5 : specIsDigit ds.base '5' = true := by
      simp [specIsDigit, specDigitValue]; omega
    have hd0 : specIsDigit ds.base '0' = true := by
      simp [specIsDigit, specDigitValue]; omega
    have v5 : digitQ '5' = 5 := by simp [digitQ, specDigitValue]
    have v0 : digitQ '0' = 0 := by simp [digitQ, specDigitValue]
    -- the state after each push
    have p2next : (ds_push (ds_push ds 5).2 0).2.next = 2 := by
      simp [ds_push, hn0, hn1, hnext]
    have p2s0 : (ds_push (ds_push ds 5).2 0).2.stack 0 = 5 := by
      simp [ds_push, hn0, hn1, hnext, store]
    have p2s1 : (ds_push (ds_push ds 5).2 0).2.stack 1 = 0 := by
      simp [ds_push, hn0, hn1, hnext, store]
    have p2base : ds_base (ds_push (ds_push ds 5).2 0).2 = ds.base := by
      simp [ds_push, hn0, hn1, hnext, ds_base]
    have p1base : ds_base (ds_push ds 5).2 = ds.base := by
      simp [ds_push, hn0, hnext, ds_base]
    -- the three tokens
    have e1 : rpncalc_eval (exactHost L) ds "5".toList = some (RPN_OK, (ds_push ds 5).2) := by
      apply eval_literal_line _ _ _ _ (by decide) (by decide) (by decide)
      rw [← v5]; exact convert_s_to_d_digit L ds.base hb '5' hd5
    have e2 : rpncalc_eval (exactHost L) (ds_push ds 5).2 "0".toList
        = some (RPN_OK, (ds_push (ds_push ds 5).2 0).2) := by
      apply eval_literal_line _ _ _ _ (by decide) (by decide) (by decide)
      rw [p1base, ← v0]; exact convert_s_to_d_digit L ds.base hb '0' hd0
    have hslash : convert_s_to_d (exactHost L) "/".toList ds.base = none := by
      have hnd : isdigitbase '/' ds.base = false := by
        rw [isdigitbase_eq_spec _ hb]; simp [specIsDigit, specDigitValue]
      have : "/".toList = ['/'] := rfl
      rw [this]
      simp [convert_s_to_d, skipwhite, isspace, chr, NUL, convert_loop, hnd]
    have e3 : rpncalc_eval (exactHost L) (ds_push (ds_push ds 5).2 0).2 "/".toList
        = some (RPN_ERROR, (ds_push (ds_push ds 5).2 0).2) := by
      apply eval_op_line_fail _ _ _ _ 1 (by decide) (by decide) (by decide) (by decide)
        _ (by decide) (by rw [p2base]; exact hslash)
      apply divide_refused
      · rw [p2next]
      · rw [p2next]
        have : (2 : Int) - 1 = 1 := by norm_num
        rw [this, p2s1]
        simp [exactHost, DBL_MIN]
    refine ⟨?_, p2next, p2s0, p2s1⟩
    have s1 : "5 0 /".toList = "5".toList ++ ' ' :: "0 /".toList := rfl
    have s2 : "0 /".toList = "0".toList ++ ' ' :: "/".toList := rfl
    rw [s1, rpncalc_eval_append _ _ _ _ _ _ (by decide) (by decide) e1,
      s2, rpncalc_eval_append _ _ _ _ _ _ (by decide) (by decide) e2, e3]

/-- C17, at a concrete state: the stack `[5, 0]` refuses `/`, and the line
`5 0 /` from the empty stack of capacity 4 in base 10 ends in `RPN_ERROR`
with depth 2. -/
theorem divide_near_zero_fails_witness :
    rpncalc_op Q (mkDS 4 2 (cells [5, 0])) "/".toList = (1, mkDS 4 2 (cells [5, 0])) ∧
    rpncalc_eval Q (mkDS 4 0 (cells [])) "5 0 /".toList
      = some (RPN_ERROR, (ds_push (ds_push (mkDS 4 0 (cells [])) 5).2 0).2) :=
  ⟨divide_near_zero_fails.1 ℚ Unit Q (mkDS 4 2 (cells [5, 0])) (by decide)
      (divide_near_zero_fails.2.1 Unit zeroLibm
        ((mkDS 4 2 (cells [5, 0])).stack ((mkDS 4 2 (cells [5, 0])).next - 1))
        (by simp [mkDS, cells])),
   (divide_near_zero_fails.2.2 Unit zeroLibm (mkDS 4 0 (cells [])) rfl (by decide) (by decide)
      (by decide)).1⟩

/-! ## Statistics -/

/-- The loop of `stat` in exact arithmetic, with `m` pairs left from index
`t` on: every running sum grows by the sum over those pairs. -/
theorem stat_loop_exact {ρ : Type} (L : Libm ρ) (m : Nat) :
    ∀ (fuel : Nat) (t : Int) (ds : DS ℚ ρ), ds.next = t + 2 * m → m ≤ fuel →
      stat_loop (exactHost L) fuel t ds = { ds with
        sumx := ds.sumx + ((List.range m).map (fun (i : Nat) => ds.stack (t + 2 * (i : Int)))).sum
        sumy := ds.sumy + ((List.range m).map (fun (i : Nat) => ds.stack (t + 2 * (i : Int) + 1))).sum
        sumxx := ds.sumxx + ((List.range m).map
          (fun (i : Nat) => ds.stack (t + 2 * (i : Int)) * ds.stack (t + 2 * (i : Int)))).sum
        sumyy := ds.sumyy + ((List.range m).map
          (fun (i : Nat) => ds.stack (t + 2 * (i : Int) + 1) * ds.stack (t + 2 * (i : Int) + 1))).sum
        sumxy := ds.sumxy + ((List.range m).map
          (fun (i : Nat) => ds.stack (t + 2 * (i : Int)) * ds.stack (t + 2 * (i : Int) + 1))).sum
        n := ds.n + m } := by
  induction m with
  | zero =>
    intro fuel t ds hn _
    have hlt : ¬ t < ds.next := by rw [hn]; simp
    cases fuel with
    | zero => simp [stat_loop]
    | succ f => simp [stat_loop, hlt]
  | succ m ih =>
    intro fuel t ds hn hf
    cases fuel with
    | zero => omega
    | succ f =>
      have hlt : t < ds.next := by rw [hn]; push_cast; omega
      rw [stat_loop, if_pos hlt, ih f (t + 2) _ (by simp only [hn]; push_cast; ring) (by omega)]
      have e : ∀ i : Nat, t + 2 * ((Nat.succ i : Nat) : Int) = t + 2 + 2 * (i : Int) := by
        intro i; push_cast; ring
      simp only [List.sum_range_succ', e, Nat.cast_zero, mul_zero, add_zero, exactHost]
      congr 1 <;> (push_cast; ring)

/-- The operator `stat` in exact arithmetic: it fails, changing nothing,
unless the stack depth is even and non-zero; on the stack
`[x1, y1, ..., xk, yk]` (bottom first, `k ≥ 1`) it adds the sum of the `xi` to `sumx`, of the
`yi` to `sumy`, of the `xi^2` to `sumxx`, of the `yi^2` to `sumyy`, of the
`xi*yi` to `sumxy` and `k` to `n`, sets top to 0, changes nothing else and
returns `RPN_OK`. -/
theorem stat_spec {ρ : Type} (L : Libm ρ) (ds : DS ℚ ρ) :
    ((¬ ∃ k : Nat, 0 < k ∧ ds.next = 2 * (k : Int)) →
      rpncalc_op (exactHost L) ds "stat".toList = (RPN_ERROR, ds)) ∧
    (∀ k : Nat, 0 < k → ds.next = 2 * (k : Int) →
      rpncalc_op (exactHost L) ds "stat".toList = (RPN_OK, { ds with
        sumx := ds.sumx + ((List.range k).map (fun (i : Nat) => ds.stack (2 * (i : Int)))).sum
        sumy := ds.sumy +
          ((List.range k).map (fun (i : Nat) => ds.stack (2 * (i : Int) + 1))).sum
        sumxx := ds.sumxx + ((List.range k).map
          (fun (i : Nat) => ds.stack (2 * (i : Int)) * ds.stack (2 * (i : Int)))).sum
        sumyy := ds.sumyy + ((List.range k).map
          (fun (i : Nat) => ds.stack (2 * (i : Int) + 1) * ds.stack (2 * (i : Int) + 1))).sum
        sumxy := ds.sumxy + ((List.range k).map
          (fun (i : Nat) => ds.stack (2 * (i : Int)) * ds.stack (2 * (i : Int) + 1))).sum
        n := ds.n + k
        next := 0 })) := by
  have hsel : select (compute_hash "stat".toList) = some Op.stat := by decide
  have hop : rpncalc_op (exactHost L) ds "stat".toList = rpncalc_case (exactHost L) ds Op.stat := by
    simp only [rpncalc_op, hsel]
  rw [hop]
  constructor
  · intro hno
    by_cases h0 : ds.next ≤ 0
    · simp [rpncalc_case, ds_fromtop, h0]
    · by_cases h1 : ds.next ≤ 1
      · simp [rpncalc_case, ds_fromtop, h0, h1]
      · have hmod : Int.tmod ds.next 2 ≠ 0 := by
          rw [Int.tmod_eq_emod (by omega) (by omega)]
          intro h
          exact hno ⟨(ds.next / 2).toNat, by omega, by omega⟩
        simp [rpncalc_case, ds_fromtop, h0, h1, hmod]
  · intro k hk hn
    have h0 : ¬ ((0 : Int) < 0 ∨ 0 ≥ ds.next) := by omega
    have h1 : ¬ ((1 : Int) < 0 ∨ 1 ≥ ds.next) := by omega
    have hmod : Int.tmod ds.next 2 = 0 := by
      rw [Int.tmod_eq_emod (by omega) (by omega)]; omega
    have hloop := stat_loop_exact L k ds.next.toNat 0 ds (by omega) (by omega)
    simp only [rpncalc_case, ds_fromtop, h0, h1, if_false, hmod, ne_eq,
      not_true_eq_false, hloop, zero_add]

/-- The operator `stat` on the stack `[1, 2, 3, 4]` with cleared statistics: two points are
taken and the sums are 4, 6 and 14; on `[1, 2, 3]` the operator fails. -/
theorem stat_spec_witness :
    (rpncalc_op Q (mkDS 4 4 (cells [1, 2, 3, 4])) "stat".toList).1 = RPN_OK ∧
    (rpncalc_op Q (mkDS 4 4 (cells [1, 2, 3, 4])) "stat".toList).2.next = 0 ∧
    rpncalc_op Q (mkDS 4 3 (cells [1, 2, 3])) "stat".toList
      = (RPN_ERROR, mkDS 4 3 (cells [1, 2, 3])) :=
  ⟨congrArg Prod.fst
     ((stat_spec zeroLibm (mkDS 4 4 (cells [1, 2, 3, 4]))).2 2 (by decide) (by decide)),
   congrArg (fun r => r.2.next)
     ((stat_spec zeroLibm (mkDS 4 4 (cells [1, 2, 3, 4]))).2 2 (by decide) (by decide)),
   (stat_spec zeroLibm (mkDS 4 3 (cells [1, 2, 3]))).1 (by
      rintro ⟨k, hk, h⟩
      have : ((3 : Int)) = 2 * (k : Int) := h
      omega)⟩

/-- C20: (1) `ds_init` and `ds_allclear` leave an empty stack and cleared
statistics (`ds_init` in base 10); (2) from such a state of capacity at least
4 in a base where 1..4 are digits, in exact arithmetic and with a `sqrt` that
is exact at 16, the line `1 2 3 4 stat` returns `RPN_OK` and yields `n = 2`,
`sumx = 4`, `sumy = 6`, `sumxy = 14` and an empty stack, after which
`ds_leastsq_a`, `ds_leastsq_b` and `ds_leastsq_r` all return 1. -/
theorem stat_regression_example {ρ : Type} (L : Libm ρ) (ds : DS ℚ ρ)
    (hclear : Cleared ds) (hsize : 4 ≤ ds.size) (hb5 : 5 ≤ ds.base) (hb36 : ds.base ≤ 36)
    (hsqrt : L.sqrt 16 = 4) :
    (∀ (stack : Int → ℚ) (size : Int) (ds0 : DS ℚ ρ),
      ds_init (exactHost L) stack size = some ds0 →
        Cleared ds0 ∧ ds0.base = 10 ∧ ds0.size = size) ∧
    (∀ d : DS ℚ ρ, Cleared (ds_allclear (exactHost L) d).2 ∧
      (ds_allclear (exactHost L) d).2.base = d.base ∧
      (ds_allclear (exactHost L) d).2.size = d.size) ∧
    (∃ S : DS ℚ ρ,
      rpncalc_eval (exactHost L) ds "1 2 3 4 stat".toList = some (RPN_OK, S) ∧
      S.n = 2 ∧ S.sumx = 4 ∧ S.sumy = 6 ∧ S.sumxy = 14 ∧ S.next = 0 ∧
      ds_leastsq_a (exactHost L) S = 1 ∧ ds_leastsq_b (exactHost L) S = 1 ∧
      ds_leastsq_r (exactHost L) S = 1) := by
  refine ⟨?_, ?_, ?_⟩
  · intro stack size ds0 h
    unfold ds_init at h
    split at h
    · cases h
    · cases h
      simp [Cleared, exactHost]
  · intro d
    simp [Cleared, ds_allclear, ds_clear, exactHost]
  · obtain ⟨hnext, hsx, hsy, hsxx, hsyy, hsxy, hn⟩ := hclear
    have hb : 2 ≤ ds.base ∧ ds.base ≤ 36 := ⟨by omega, hb36⟩
    have hn0 : (0 : Int) ≠ ds.size := by omega
    have hn1 : (1 : Int) ≠ ds.size := by omega
    have hn2 : (2 : Int) ≠ ds.size := by omega
    have hn3 : (3 : Int) ≠ ds.size := by omega
    have hd : ∀ c ∈ ['1', '2', '3', '4'], specIsDigit ds.base c = true := by
      intro c hc
      simp only [List.mem_cons, List.mem_singleton, List.not_mem_nil, or_false] at hc
      rcases hc with rfl | rfl | rfl | rfl <;> simp [specIsDigit, specDigitValue] <;> omega
    have v1 : digitQ '1' = 1 := by simp [digitQ, specDigitValue]
    have v2 : digitQ '2' = 2 := by simp [digitQ, specDigitValue]
    have v3 : digitQ '3' = 3 := by simp [digitQ, specDigitValue]
    have v4 : digitQ '4' = 4 := by simp [digitQ, specDigitValue]
    -- the four pushes
    let d1 := (ds_push ds 1).2
    let d2 := (ds_push d1 2).2
    let d3 := (ds_push d2 3).2
    let d4 := (ds_push d3 4).2
    have b1 : ds_base d1 = ds.base := by simp [d1, ds_push, hn0, hnext, ds_base]
    have b2 : ds_base d2 = ds.base := by simp [d2, d1, ds_push, hn0, hn1, hnext, ds_base]
    have b3 : ds_base d3 = ds.base := by
      simp [d3, d2, d1, ds_push, hn0, hn1, hn2, hnext, ds_base]
    have e1 : rpncalc_eval (exactHost L) ds "1".toList = some (RPN_OK, d1) := by
      apply eval_literal_line _ _ _ _ (by decide) (by decide) (by decide)
      rw [← v1]; exact convert_s_to_d_digit L ds.base hb '1' (hd _ (by simp))
    have e2 : rpncalc_eval (exactHost L) d1 "2".toList = some (RPN_OK, d2) := by
      apply eval_literal_line _ _ _ _ (by decide) (by decide) (by decide)
      rw [b1, ← v2]; exact convert_s_to_d_digit L ds.base hb '2' (hd _ (by simp))
    have e3 : rpncalc_eval (exactHost L) d2 "3".toList = some (RPN_OK, d3) := by
      apply eval_literal_line _ _ _ _ (by decide) (by decide) (by decide)
      rw [b2, ← v3]; exact convert_s_to_d_digit L ds.base hb '3' (hd _ (by simp))
    have e4 : rpncalc_eval (exactHost L) d3 "4".toList = some (RPN_OK, d4) := by
      apply eval_literal_line _ _ _ _ (by decide) (by decide) (by decide)
      rw [b3, ← v4]; exact convert_s_to_d_digit L ds.base hb '4' (hd _ (by simp))
    -- the state before `stat`
    have n4 : d4.next = 4 := by
      simp [d4, d3, d2, d1, ds_push, hn0, hn1, hn2, hn3, hnext]
    have s4 : d4.stack 0 = 1 ∧ d4.stack 1 = 2 ∧ d4.stack 2 = 3 ∧ d4.stack 3 = 4 := by
      simp [d4, d3, d2, d1, ds_push, hn0, hn1, hn2, hn3, hnext, store]
    have z4 : d4.sumx = 0 ∧ d4.sumy = 0 ∧ d4.sumxx = 0 ∧ d4.sumyy = 0 ∧ d4.sumxy = 0 ∧
        d4.n = 0 := by
      simp [d4, d3, d2, d1, ds_push, hn0, hn1, hn2, hn3, hnext, hsx, hsy, hsxx, hsyy, hsxy, hn]
    -- the operator
    have hsel : select (compute_hash "stat".toList) = some Op.stat := by decide
    have hloop := stat_loop_exact L 2 d4.next.toNat 0 d4 (by rw [n4]; norm_num)
      (by rw [n4]; decide)
    have hop : rpncalc_op (exactHost L) d4 "stat".toList
        = (0, { stat_loop (exactHost L) d4.next.toNat 0 d4 with next := 0 }) := by
      have h0 : ¬ ((0 : Int) < 0 ∨ 0 ≥ d4.next) := by rw [n4]; decide
      have h1 : ¬ ((1 : Int) < 0 ∨ 1 ≥ d4.next) := by rw [n4]; decide
      have hmod : Int.tmod d4.next 2 = 0 := by rw [n4]; decide
      simp only [rpncalc_op, hsel, rpncalc_case, ds_fromtop, h0, h1, if_false, hmod, ne_eq,
        not_true_eq_false]
    have e5 : rpncalc_eval (exactHost L) d4 "stat".toList
        = some (RPN_OK, { stat_loop (exactHost L) d4.next.toNat 0 d4 with next := 0 }) :=
      eval_op_line_ok _ _ _ _ (by decide) (by decide) (by decide) (by decide) hop
    refine ⟨{ stat_loop (exactHost L) d4.next.toNat 0 d4 with next := 0 }, ?_, ?_⟩
    · have t1 : "1 2 3 4 stat".toList = "1".toList ++ ' ' :: "2 3 4 stat".toList := rfl
      have t2 : "2 3 4 stat".toList = "2".toList ++ ' ' :: "3 4 stat".toList := rfl
      have t3 : "3 4 stat".toList = "3".toList ++ ' ' :: "4 stat".toList := rfl
      have t4 : "4 stat".toList = "4".toList ++ ' ' :: "stat".toList := rfl
      rw [t1, rpncalc_eval_append _ _ _ _ _ _ (by decide) (by decide) e1,
        t2, rpncalc_eval_append _ _ _ _ _ _ (by decide) (by decide) e2,
        t3, rpncalc_eval_append _ _ _ _ _ _ (by decide) (by decide) e3,
        t4, rpncalc_eval_append _ _ _ _ _ _ (by decide) (by decide) e4, e5]
    · obtain ⟨s0, s1, s2, s3⟩ := s4
      obtain ⟨zx, zy, zxx, zyy, zxy, zn⟩ := z4
      have r2 : List.range 2 = [0, 1] := rfl
      rw [hloop]
      simp only [r2, List.map_cons, List.map_nil, List.sum_cons, List.sum_nil,
        Nat.cast_zero, Nat.cast_one, mul_zero, mul_one, zero_add, add_zero, s0, s1, s2, s3,
        zx, zy, zxx, zyy, zxy, zn, ds_leastsq_a, ds_leastsq_b, ds_leastsq_r, exactHost]
      norm_num [s0, s1, s2, s3, hsqrt]

/-- C20, from the cleared calculator of capacity 4 in base 10, with the math
library `sqrtLibm`. -/
theorem stat_regression_example_witness :
    ∃ S : DS ℚ Unit,
      rpncalc_eval (exactHost sqrtLibm) (mkDS 4 0 (cells [])) "1 2 3 4 stat".toList
        = some (RPN_OK, S) ∧
      S.n = 2 ∧ S.sumx = 4 ∧ S.sumy = 6 ∧ S.sumxy = 14 ∧ S.next = 0 ∧
      ds_leastsq_a (exactHost sqrtLibm) S = 1 ∧ ds_leastsq_b (exactHost sqrtLibm) S = 1 ∧
      ds_leastsq_r (exactHost sqrtLibm) S = 1 :=
  (stat_regression_example sqrtLibm (mkDS 4 0 (cells []))
    ⟨rfl, rfl, rfl, rfl, rfl, rfl, rfl⟩ (by decide) (by decide) (by decide)
    (by decide!)).2.2

/-! ## Formatter -/

/-- C12, at the failing input: with `maxLength = 1` (a one-byte buffer, here
followed by memory holding `X`), `x = 5`, base 10 and precision 0,
`convert_d_to_s` stores the digit `5` at index 0, finds no room left, stores
the terminating NUL at index 1 = `maxLength`, outside the buffer, and returns
`RPN_ERROR`; the buffer itself (index 0) holds no NUL. -/
theorem format_terminator_outside_buffer :
    (d_to_s Q (fun _ => 'X') 5 10 0 1).map (fun r => (r.1, r.2.2)) = some (RPN_ERROR, 1) ∧
    (convert_d_to_s Q (fun _ => 'X') 5 10 0 1).map (fun r => (r.1, r.2 0, r.2 1))
      = some (RPN_ERROR, '5', NUL) := by
  constructor <;> decide!

/-! ## Formatter: buffers as lists of characters -/

theorem writeList_frame (l : List Char) :
    ∀ (buf : Int → Char) (i j : Int), (j < i ∨ i + l.length ≤ j) →
      writeList buf i l j = buf j := by
  induction l with
  | nil => intro buf i j _; rfl
  | cons c l ih =>
    intro buf i j hj
    simp only [List.length_cons, Nat.cast_add, Nat.cast_one] at hj
    rw [writeList, ih _ _ _ (by omega)]
    have : j ≠ i := by omega
    simp [store, this]

theorem holds_writeList (l : List Char) :
    ∀ (buf : Int → Char) (i : Int), holds (writeList buf i l) i l := by
  induction l with
  | nil => intro buf i k hk; simp at hk
  | cons c l ih =>
    intro buf i k hk
    cases k with
    | zero =>
      rw [writeList, writeList_frame l _ _ _ (Or.inl (by simp))]
      simp [store]
    | succ k =>
      have := ih (store buf i c) (i + 1) k (by simpa using hk)
      rw [writeList]
      simp only [List.getD_cons_succ]
      rw [← this]
      congr 1
      push_cast; ring

theorem holds_nil (buf : Int → Char) (i : Int) : holds buf i [] := by
  intro k hk; simp at hk

theorem holds_append (buf : Int → Char) (i : Int) (l1 l2 : List Char) :
    holds buf i (l1 ++ l2) ↔ holds buf i l1 ∧ holds buf (i + l1.length) l2 := by
  constructor
  · intro h
    constructor
    · intro k hk
      have := h k (by simp; omega)
      rw [this, List.getD_append _ _ _ _ hk]
    · intro k hk
      have := h (l1.length + k) (by simp; omega)
      rw [List.getD_append_right _ _ _ _ (by omega)] at this
      simp only [Nat.add_sub_cancel_left] at this
      rw [← this]
      congr 1
      push_cast; ring
  · rintro ⟨h1, h2⟩ k hk
    by_cases hk1 : k < l1.length
    · rw [h1 k hk1, List.getD_append _ _ _ _ hk1]
    · have hk2 : k - l1.length < l2.length := by simp at hk; omega
      have := h2 (k - l1.length) hk2
      rw [List.getD_append_right _ _ _ _ (by omega), ← this]
      congr 1
      omega

/-- A store outside a segment does not disturb it. -/
theorem holds_store (buf : Int → Char) (i : Int) (l : List Char) (j : Int) (c : Char)
    (h : holds buf i l) (hj : j < i ∨ i + l.length ≤ j) : holds (store buf j c) i l := by
  intro k hk
  have : i + (k : Int) ≠ j := by omega
  simp only [store, this, if_false]
  exact h k hk

theorem holds_congr (buf buf1 : Int → Char) (i : Int) (l : List Char)
    (h : holds buf i l) (he : ∀ j, i ≤ j → j < i + l.length → buf1 j = buf j) :
    holds buf1 i l := by
  intro k hk
  rw [he _ (by omega) (by omega)]
  exact h k hk

/-- The text read from a buffer that holds `l` followed by NUL. -/
theorem cstr_of_holds (buf : Int → Char) (l : List Char) :
    ∀ (i : Int) (fuel : Nat), holds buf i l → buf (i + l.length) = NUL → NUL ∉ l →
      l.length < fuel → cstr buf fuel i = l := by
  induction l with
  | nil =>
    intro i fuel _ h0 _ hf
    cases fuel with
    | zero => simp at hf
    | succ f =>
      simp at h0
      simp [cstr, h0]
  | cons c l ih =>
    intro i fuel h h0 hn hf
    cases fuel with
    | zero => simp at hf
    | succ f =>
      have hc : buf i = c := by simpa using h 0 (by simp)
      have hcn : c ≠ NUL := fun e => hn (by simp [e])
      have hl : holds buf (i + 1) l := by
        intro k hk
        have := h (k + 1) (by simpa using hk)
        simp only [List.getD_cons_succ] at this
        rw [← this]; congr 1; push_cast; ring
      have h0' : buf (i + 1 + l.length) = NUL := by
        rw [← h0]; congr 1; simp; ring
      rw [cstr, hc, if_neg hcn,
        ih (i + 1) f hl h0' (fun e => hn (by simp [e])) (by simpa using hf)]

/-! ## Formatter: the three loops -/

theorem whole_digits_length_le (H : Host α ρ) (base : Int) (fuel : Nat) :
    ∀ w : α, (whole_digits H base fuel w).length ≤ fuel := by
  induction fuel with
  | zero => intro w; simp [whole_digits]
  | succ k ih =>
    intro w
    rw [whole_digits]
    split
    · simp; exact ih _
    · simp

/-- The integer-part loop, when every digit it wants to store finds room: it
stores the digits and ends normally. -/
theorem whole_loop_ok (H : Host α ρ) (base : Int) (fuel : Nat) :
    ∀ c : Cursor α,
      (whole_digits H base fuel c.whole).length < fuel →
      (whole_digits H base fuel c.whole = [] ∨
        ((whole_digits H base fuel c.whole).length : Int) < c.n) →
      ∃ w, whole_loop H base fuel c = some (Sum.inr
        { buf := writeList c.buf c.ptr (whole_digits H base fuel c.whole)
          ptr := c.ptr + (whole_digits H base fuel c.whole).length
          n := c.n - (whole_digits H base fuel c.whole).length
          whole := w
          prec := c.prec - (whole_digits H base fuel c.whole).length }) := by
  induction fuel with
  | zero => intro c h; simp at h
  | succ k ih =>
    intro c hlen hroom
    by_cases hc : H.le (H.lit 1) c.whole = true
    · simp only [whole_digits, hc, if_true, List.length_cons] at hlen hroom ⊢
      have hn : ¬ (c.n - 1 ≤ 0) := by
        rcases hroom with h | h
        · simp at h
        · push_cast at h; omega
      simp only [reduceCtorEq, false_or] at hroom
      obtain ⟨w, hw⟩ := ih
        { buf := store c.buf c.ptr (tocharbase (H.toInt (H.sub c.whole
            (H.mul (H.floor (H.div c.whole (H.ofInt base))) (H.ofInt base)))) base)
          ptr := c.ptr + 1, n := c.n - 1
          whole := H.div c.whole (H.ofInt base), prec := c.prec - 1 }
        (by simpa using hlen) (Or.inr (by push_cast at hroom ⊢; omega))
      refine ⟨w, ?_⟩
      rw [whole_loop]
      simp only [hc, if_true, hn, if_false]
      rw [hw]
      simp only [writeList, Nat.cast_add, Nat.cast_one]
      congr 3 <;> ring
    · refine ⟨c.whole, ?_⟩
      simp only [whole_digits, hc, Bool.false_eq_true, if_false, List.length_nil, whole_loop,
        writeList, Nat.cast_zero, add_zero, sub_zero]

/-- The integer-part loop, when room runs out: it returns `RPN_ERROR` after
as many digits as there was room for (one when there was none). -/
theorem whole_loop_err (H : Host α ρ) (base : Int) (fuel : Nat) :
    ∀ c : Cursor α,
      whole_digits H base fuel c.whole ≠ [] →
      c.n ≤ ((whole_digits H base fuel c.whole).length : Int) →
      ∃ r, whole_loop H base fuel c = some (Sum.inl r) := by
  induction fuel with
  | zero => intro c h; simp [whole_digits] at h
  | succ k ih =>
    intro c hne hroom
    by_cases hc : H.le (H.lit 1) c.whole = true
    · simp only [whole_digits, hc, if_true, List.length_cons] at hroom
      rw [whole_loop]
      simp only [hc, if_true]
      by_cases hn : c.n - 1 ≤ 0
      · simp only [hn, if_true]
        exact ⟨_, rfl⟩
      · simp only [hn, if_false]
        apply ih
        · simp only
          intro h
          rw [h] at hroom
          simp at hroom
          omega
        · simp only
          push_cast at hroom
          omega
    · simp [whole_digits, hc] at hne

/-- The fraction loop, when every digit finds room. -/
theorem frac_loop_ok (H : Host α ρ) (base : Int) (p : Nat) :
    ∀ (buf : Int → Char) (ptr n : Int) (frac : α) (lastzero : Int),
      (p = 0 ∨ (p : Int) < n) →
      frac_loop H base p buf ptr n frac lastzero =
        (RPN_OK,
          store (writeList buf ptr (frac_digits H base p frac))
            (if keep (frac_digits H base p frac) = 0 then lastzero
              else ptr + keep (frac_digits H base p frac)) NUL,
          if keep (frac_digits H base p frac) = 0 then lastzero
            else ptr + keep (frac_digits H base p frac)) := by
  induction p with
  | zero =>
    intro buf ptr n frac lastzero _
    simp [frac_loop, frac_digits, keep, writeList]
  | succ p ih =>
    intro buf ptr n frac lastzero hroom
    have hn : ¬ (n - 1 ≤ 0) := by
      rcases hroom with h | h
      · simp at h
      · push_cast at h; omega
    rw [frac_loop]
    simp only [hn, if_false]
    rw [ih _ _ _ _ _ (Or.inr (by rcases hroom with h | h
                                 · simp at h
                                 · push_cast at h; omega))]
    simp only [frac_digits, writeList, keep]
    by_cases hk : keep (frac_digits H base p (H.sub (H.mul frac (H.ofInt base))
        (H.ofInt (H.toInt (H.mul frac (H.ofInt base)))))) = 0
    · by_cases hz : tocharbase (H.toInt (H.mul frac (H.ofInt base))) base = '0'
      · simp [hk, hz]
      · simp [hk, hz]
    · simp only [hk, if_false, Nat.cast_add, Nat.cast_one]
      have e : ptr + 1 + (keep (frac_digits H base p (H.sub (H.mul frac (H.ofInt base))
          (H.ofInt (H.toInt (H.mul frac (H.ofInt base)))))) : Int)
          = ptr + ((keep (frac_digits H base p (H.sub (H.mul frac (H.ofInt base))
          (H.ofInt (H.toInt (H.mul frac (H.ofInt base)))))) : Int) + 1) := by ring
      rw [e]
      simp only [Nat.add_one_ne_zero, if_false]

/-- The fraction loop, when room runs out. -/
theorem frac_loop_err (H : Host α ρ) (base : Int) (p : Nat) :
    ∀ (buf : Int → Char) (ptr n : Int) (frac : α) (lastzero : Int),
      0 < p → n ≤ (p : Int) →
      (frac_loop H base p buf ptr n frac lastzero).1 = RPN_ERROR := by
  induction p with
  | zero => intro buf ptr n frac lastzero h; simp at h
  | succ p ih =>
    intro buf ptr n frac lastzero _ hroom
    rw [frac_loop]
    by_cases hn : n - 1 ≤ 0
    · simp [hn]
    · simp only [hn, if_false]
      apply ih
      · push_cast at hroom; omega
      · push_cast at hroom; omega

/-- The swap loop reverses the segment between its two pointers. -/
theorem reverse_loop_spec (fuel : Nat) :
    ∀ (ws p : Int) (buf : Int → Char), p - ws ≤ 2 * (fuel : Int) →
      ∀ i, reverse_loop fuel ws p buf i
        = if ws ≤ i ∧ i ≤ p then buf (ws + p - i) else buf i := by
  induction fuel with
  | zero =>
    intro ws p buf h i
    simp only [reverse_loop]
    split
    · rename_i hi
      congr 1; simp at h; omega
    · rfl
  | succ k ih =>
    intro ws p buf h i
    rw [reverse_loop]
    by_cases hlt : ws < p
    · simp only [hlt, if_true]
      rw [ih _ _ _ (by push_cast at h; omega)]
      by_cases h1 : ws + 1 ≤ i ∧ i ≤ p - 1
      · have h2 : ws ≤ i ∧ i ≤ p := by omega
        have e : ws + 1 + (p - 1) - i = ws + p - i := by ring
        rw [if_pos h1, if_pos h2, e]
        have a1 : ws + p - i ≠ p := by omega
        have a2 : ws + p - i ≠ ws := by omega
        simp [store, a1, a2]
      · rw [if_neg h1]
        by_cases h2 : ws ≤ i ∧ i ≤ p
        · rw [if_pos h2]
          have hi : i = ws ∨ i = p := by omega
          rcases hi with rfl | rfl
          · have : i ≠ p := by omega
            simp [store, this]
          · simp [store]
        · rw [if_neg h2]
          have a1 : i ≠ p := by omega
          have a2 : i ≠ ws := by omega
          simp [store, a1, a2]
    · simp only [hlt, if_false]
      split
      · congr 1; omega
      · rfl

/-- Reversing in place a segment that holds `l` leaves it holding the
reverse of `l`, and nothing else changes. -/
theorem reverse_loop_holds (buf : Int → Char) (ws : Int) (l : List Char) (fuel : Nat)
    (h : holds buf ws l) (hf : (l.length : Int) - 1 ≤ 2 * (fuel : Int)) :
    holds (reverse_loop fuel ws (ws + l.length - 1) buf) ws l.reverse ∧
    ∀ j, (j < ws ∨ ws + l.length ≤ j) →
      reverse_loop fuel ws (ws + l.length - 1) buf j = buf j := by
  have hs := reverse_loop_spec fuel ws (ws + l.length - 1) buf (by omega)
  constructor
  · intro k hk
    simp only [List.length_reverse] at hk
    rw [hs, if_pos (by omega)]
    have e : ws + (ws + (l.length : Int) - 1) - (ws + (k : Int))
        = ws + ((l.length - 1 - k : Nat) : Int) := by
      rw [Nat.cast_sub (by omega), Nat.cast_sub (by omega)]; push_cast; ring
    rw [e, h _ (by omega)]
    rw [List.getD_eq_getElem _ _ (by omega), List.getD_eq_getElem _ _ (by simpa using hk),
      List.getElem_reverse]
  · intro j hj
    rw [hs, if_neg (by omega)]

/-! ## Formatter: the call as a whole -/

theorem keep_le_length (l : List Char) : keep l ≤ l.length := by
  induction l with
  | nil => simp [keep]
  | cons c l ih =>
    simp only [keep, List.length_cons]
    split_ifs <;> omega

theorem frac_digits_length (H : Host α ρ) (base : Int) (p : Nat) (frac : α) :
    (frac_digits H base p frac).length = p := by
  induction p generalizing frac with
  | zero => rfl
  | succ p ih => simp [frac_digits, ih]

/-- From the radix point on, with room for every character. -/
theorem d_to_s_point_ok (H : Host α ρ) (base : Int) (buf : Int → Char) (ptr n : Int)
    (frac : α) (prec : Int)
    (hroom : point_written H base frac prec = [] ∨
      ((point_written H base frac prec).length : Int) < n) :
    ∃ out, d_to_s_point H base buf ptr n frac prec
        = (RPN_OK, out, ptr + (point_text H base frac prec).length) ∧
      holds out ptr (point_text H base frac prec) ∧
      out (ptr + (point_text H base frac prec).length) = NUL ∧
      ∀ j, j < ptr → out j = buf j := by
  by_cases hp : prec ≤ 0
  · refine ⟨store buf ptr NUL, ?_, ?_, ?_, ?_⟩
    · simp [d_to_s_point, point_text, hp]
    · simp [point_text, hp, holds_nil]
    · simp [point_text, hp, store]
    · intro j hj
      have : j ≠ ptr := by omega
      simp [store, this]
  · have hlen : ((point_written H base frac prec).length : Int) = prec + 1 := by
      simp only [point_written, hp, if_false, List.length_cons]
      rw [frac_digits_length]; push_cast; omega
    have hroom' : prec + 1 < n := by
      rcases hroom with h | h
      · simp [point_written, hp] at h
      · rw [hlen] at h; exact h
    have hn : ¬ (n - 1 ≤ 0) := by omega
    have hfl := frac_loop_ok H base prec.toNat (store buf ptr '.') (ptr + 1) (n - 1) frac ptr
      (Or.inr (by omega))
    have hkl := keep_le_length (frac_digits H base prec.toNat frac)
    simp only [d_to_s_point, hp, if_false, hn, hfl]
    by_cases hk : keep (frac_digits H base prec.toNat frac) = 0
    · refine ⟨store (writeList (store buf ptr '.') (ptr + 1)
        (frac_digits H base prec.toNat frac)) ptr NUL, ?_, ?_, ?_, ?_⟩
      · simp [hk, point_text]
      · simp [point_text, hk, holds_nil]
      · simp [point_text, hk, store]
      · intro j hj
        have a : j ≠ ptr := by omega
        simp only [store, a, if_false]
        rw [writeList_frame _ _ _ _ (Or.inl (by omega))]
        simp [store, a]
    · refine ⟨store (writeList (store buf ptr '.') (ptr + 1)
        (frac_digits H base prec.toNat frac))
        (ptr + 1 + (keep (frac_digits H base prec.toNat frac) : Int)) NUL, ?_, ?_, ?_, ?_⟩
      · simp only [hk, if_false, point_text, hp, or_self, List.length_cons, List.length_take]
        rw [min_eq_left hkl]
        have : ptr + 1 + (keep (frac_digits H base prec.toNat frac) : Int)
            = ptr + ((keep (frac_digits H base prec.toNat frac) + 1 : Nat) : Int) := by
          push_cast; ring
        rw [this]
      · simp only [point_text, hp, hk, or_self, if_false]
        intro k hkk
        simp only [List.length_cons, List.length_take, min_eq_left hkl] at hkk
        have a : ptr + (k : Int) ≠ ptr + 1 + (keep (frac_digits H base prec.toNat frac) : Int) := by
          omega
        simp only [store, a, if_false]
        cases k with
        | zero =>
          rw [writeList_frame _ _ _ _ (Or.inl (by simp))]
          simp [store]
        | succ k =>
          have h1 := holds_writeList (frac_digits H base prec.toNat frac)
            (store buf ptr '.') (ptr + 1) k (by omega)
          have e : ptr + ((k + 1 : Nat) : Int) = ptr + 1 + (k : Int) := by push_cast; ring
          rw [e, h1]
          simp only [List.getD_cons_succ]
          rw [List.getD_eq_getElem _ _ (by omega),
            List.getD_eq_getElem _ _ (by simp [List.length_take]; omega), List.getElem_take]
      · simp only [point_text, hp, hk, or_self, if_false, List.length_cons, List.length_take,
          min_eq_left hkl]
        have : ptr + ((keep (frac_digits H base prec.toNat frac) + 1 : Nat) : Int)
            = ptr + 1 + (keep (frac_digits H base prec.toNat frac) : Int) := by
          push_cast; ring
        rw [this]
        simp [store]
      · intro j hj
        have a : j ≠ ptr + 1 + (keep (frac_digits H base prec.toNat frac) : Int) := by omega
        have b : j ≠ ptr := by omega
        simp only [store, a, if_false]
        rw [writeList_frame _ _ _ _ (Or.inl (by omega))]
        simp [store, b]

/-- From the radix point on, when room runs out. -/
theorem d_to_s_point_err (H : Host α ρ) (base : Int) (buf : Int → Char) (ptr n : Int)
    (frac : α) (prec : Int)
    (hne : point_written H base frac prec ≠ [])
    (hroom : n ≤ ((point_written H base frac prec).length : Int)) :
    (d_to_s_point H base buf ptr n frac prec).1 = RPN_ERROR := by
  have hp : ¬ prec ≤ 0 := by
    intro h; simp [point_written, h] at hne
  have hlen : ((point_written H base frac prec).length : Int) = prec + 1 := by
    simp only [point_written, hp, if_false, List.length_cons]
    rw [frac_digits_length]; push_cast; omega
  rw [hlen] at hroom
  simp only [d_to_s_point, hp, if_false]
  by_cases hn : n - 1 ≤ 0
  · simp [hn]
  · simp only [hn, if_false]
    exact frac_loop_err H base prec.toNat _ _ _ _ _ (by omega) (by omega)

/-- From the integer-part loop on, with room for every character: `Zl` is what
has been stored from `wholestart` on before the loop (the leading zero, or
nothing). -/
theorem d_to_s_digits_ok (H : Host α ρ) (base : Int) (ws : Int) (frac : α) (c : Cursor α)
    (Zl : List Char) (hZ : holds c.buf ws Zl) (hptr : c.ptr = ws + Zl.length)
    (hD : whole_digits H base (c.n.toNat + 1) c.whole = [] ∨
      ((whole_digits H base (c.n.toNat + 1) c.whole).length : Int) < c.n)
    (hP : point_written H base frac
        (c.prec - (whole_digits H base (c.n.toNat + 1) c.whole).length) = [] ∨
      ((point_written H base frac
        (c.prec - (whole_digits H base (c.n.toNat + 1) c.whole).length)).length : Int)
        < c.n - (whole_digits H base (c.n.toNat + 1) c.whole).length) :
    ∃ out, d_to_s_digits H base ws frac c
        = some (RPN_OK, out, ws + (((Zl ++ whole_digits H base (c.n.toNat + 1) c.whole).reverse
            ++ point_text H base frac
              (c.prec - (whole_digits H base (c.n.toNat + 1) c.whole).length)).length : Nat)) ∧
      holds out ws ((Zl ++ whole_digits H base (c.n.toNat + 1) c.whole).reverse
            ++ point_text H base frac
              (c.prec - (whole_digits H base (c.n.toNat + 1) c.whole).length)) ∧
      out (ws + (((Zl ++ whole_digits H base (c.n.toNat + 1) c.whole).reverse
            ++ point_text H base frac
              (c.prec - (whole_digits H base (c.n.toNat + 1) c.whole).length)).length : Nat))
        = NUL ∧
      ∀ j, j < ws → out j = c.buf j := by
  generalize hDe : whole_digits H base (c.n.toNat + 1) c.whole = D at hD hP ⊢
  have hfuel : (whole_digits H base (c.n.toNat + 1) c.whole).length < c.n.toNat + 1 := by
    rw [hDe]
    rcases hD with h | h
    · simp [h]
    · omega
  obtain ⟨w, hw⟩ := whole_loop_ok H base (c.n.toNat + 1) c hfuel (by rw [hDe]; exact hD)
  rw [hDe] at hw
  have hl : holds (writeList c.buf c.ptr D) ws (Zl ++ D) := by
    rw [holds_append]
    constructor
    · apply holds_congr _ _ _ _ hZ
      intro j _ hj
      exact writeList_frame _ _ _ _ (Or.inl (by omega))
    · rw [← hptr]; exact holds_writeList _ _ _
  have hrev := reverse_loop_holds (writeList c.buf c.ptr D) ws (Zl ++ D)
    ((c.ptr + (D.length : Int) - 1 - ws).toNat) hl
    (by simp only [List.length_append, Nat.cast_add] at *; omega)
  have hpt : ws + ((Zl ++ D).length : Int) - 1 = c.ptr + (D.length : Int) - 1 := by
    simp only [List.length_append, Nat.cast_add]; omega
  rw [hpt] at hrev
  obtain ⟨out, ho, hh, hnul, hframe⟩ := d_to_s_point_ok H base
    (reverse_loop (c.ptr + (D.length : Int) - 1 - ws).toNat ws (c.ptr + (D.length : Int) - 1)
      (writeList c.buf c.ptr D))
    (c.ptr + D.length) (c.n - D.length) frac (c.prec - D.length) hP
  have hpt2 : c.ptr + (D.length : Int) = ws + ((Zl ++ D).reverse.length : Nat) := by
    simp only [List.length_reverse, List.length_append, Nat.cast_add]; omega
  refine ⟨out, ?_, ?_, ?_, ?_⟩
  · simp only [d_to_s_digits, hw, ho]
    congr 3
    simp only [List.length_append, List.length_reverse, Nat.cast_add]; omega
  · rw [holds_append]
    constructor
    · apply holds_congr _ _ _ _ hrev.1
      intro j _ hj
      exact hframe j (by rw [hpt2]; exact hj)
    · rw [← hpt2]; exact hh
  · rw [← hnul]
    congr 1
    simp only [List.length_append, List.length_reverse, Nat.cast_add]; omega
  · intro j hj
    rw [hframe j (by omega), hrev.2 j (Or.inl hj), writeList_frame _ _ _ _ (Or.inl (by omega))]

/-- From the integer-part loop on, when room runs out in the loop or after
it: the call fails. -/
theorem d_to_s_digits_err (H : Host α ρ) (base : Int) (ws : Int) (frac : α) (c : Cursor α)
    (h : (whole_digits H base (c.n.toNat + 1) c.whole ≠ [] ∧
        c.n ≤ ((whole_digits H base (c.n.toNat + 1) c.whole).length : Int)) ∨
      (point_written H base frac
          (c.prec - (whole_digits H base (c.n.toNat + 1) c.whole).length) ≠ [] ∧
        c.n - (whole_digits H base (c.n.toNat + 1) c.whole).length ≤
          ((point_written H base frac
            (c.prec - (whole_digits H base (c.n.toNat + 1) c.whole).length)).length : Int))) :
    ∃ r, d_to_s_digits H base ws frac c = some r ∧ r.1 = RPN_ERROR := by
  by_cases hD : whole_digits H base (c.n.toNat + 1) c.whole ≠ [] ∧
        c.n ≤ ((whole_digits H base (c.n.toNat + 1) c.whole).length : Int)
  · obtain ⟨r, hr⟩ := whole_loop_err H base (c.n.toNat + 1) c hD.1 hD.2
    exact ⟨(RPN_ERROR, r.1, r.2), by simp only [d_to_s_digits, hr], rfl⟩
  · have hP := h.resolve_left hD
    have hD1 : whole_digits H base (c.n.toNat + 1) c.whole = [] ∨
        ((whole_digits H base (c.n.toNat + 1) c.whole).length : Int) < c.n := by
      by_cases he : whole_digits H base (c.n.toNat + 1) c.whole = []
      · exact Or.inl he
      · right
        by_contra hlt
        exact hD ⟨he, by omega⟩
    have hfuel : (whole_digits H base (c.n.toNat + 1) c.whole).length < c.n.toNat + 1 := by
      rcases hD1 with h | h
      · simp [h]
      · omega
    obtain ⟨w, hw⟩ := whole_loop_ok H base (c.n.toNat + 1) c hfuel hD1
    have he := d_to_s_point_err H base
      (reverse_loop (c.ptr + ((whole_digits H base (c.n.toNat + 1) c.whole).length : Int)
        - 1 - ws).toNat ws
        (c.ptr + ((whole_digits H base (c.n.toNat + 1) c.whole).length : Int) - 1)
        (writeList c.buf c.ptr (whole_digits H base (c.n.toNat + 1) c.whole)))
      (c.ptr + (whole_digits H base (c.n.toNat + 1) c.whole).length)
      (c.n - (whole_digits H base (c.n.toNat + 1) c.whole).length) frac
      (c.prec - (whole_digits H base (c.n.toNat + 1) c.whole).length) hP.1 hP.2
    exact ⟨_, by simp only [d_to_s_digits, hw], he⟩

/-- The part of `convert_d_to_s` after the sign, with room for every
character: `y` is the magnitude after rounding, `Z` the leading zero, `D` the
digits of the integer part as stored. -/
theorem d_to_s_body_ok (H : Host α ρ) (base : Int) (buf : Int → Char) (ptr n : Int) (m : α)
    (prec : Int) (y : α) (Z D : List Char)
    (hy : y = H.add m (H.div (H.lit (1 / 2)) (base_to_prec H base (fmt_prec prec).toNat (H.lit 1))))
    (hZ : Z = if H.le (H.floor y) (H.lit 0) then ['0'] else [])
    (hD : D = whole_digits H base ((n - Z.length).toNat + 1) (H.floor y))
    (hroom : Z ++ D ++ point_written H base (H.sub y (H.floor y)) (fmt_prec prec - D.length) = []
      ∨ ((Z ++ D ++ point_written H base (H.sub y (H.floor y))
          (fmt_prec prec - D.length)).length : Int) < n) :
    ∃ out, d_to_s_body H base buf ptr n m prec
        = some (RPN_OK, out, ptr + (((Z ++ D).reverse ++
            point_text H base (H.sub y (H.floor y)) (fmt_prec prec - D.length)).length : Nat)) ∧
      holds out ptr ((Z ++ D).reverse ++
        point_text H base (H.sub y (H.floor y)) (fmt_prec prec - D.length)) ∧
      out (ptr + (((Z ++ D).reverse ++
        point_text H base (H.sub y (H.floor y)) (fmt_prec prec - D.length)).length : Nat)) = NUL ∧
      ∀ j, j < ptr → out j = buf j := by
  have hy1 : y = H.add m (H.div (H.lit (1 / 2))
      (base_to_prec H base (if prec < 0 then 0 else prec).toNat (H.lit 1))) := hy
  by_cases hle : H.le (H.floor y) (H.lit 0) = true
  · rw [if_pos hle] at hZ
    subst hZ
    simp only [List.length_singleton, Nat.cast_one] at hD
    have hn : ¬ (n - 1 ≤ 0) := by
      rcases hroom with h | h
      · simp at h
      · simp only [List.length_append, List.length_singleton, Nat.cast_add, Nat.cast_one] at h
        omega
    have hroom1 : ((D.length : Int) + (point_written H base (H.sub y (H.floor y))
        (fmt_prec prec - D.length)).length) < n - 1 := by
      rcases hroom with h | h
      · simp at h
      · simp only [List.length_append, List.length_singleton, Nat.cast_add, Nat.cast_one] at h
        omega
    obtain ⟨out, ho, hh, hnul, hframe⟩ := d_to_s_digits_ok H base ptr (H.sub y (H.floor y))
      { buf := store buf ptr '0', ptr := ptr + 1, n := n - 1, whole := H.floor y,
        prec := fmt_prec prec } ['0']
      (by intro k hk
          simp only [List.length_singleton, Nat.lt_one_iff] at hk
          subst hk
          simp [store])
      (by simp)
      (by simp only [← hD]
          by_cases hd : D = []
          · exact Or.inl hd
          · right; omega)
      (by simp only [← hD]
          right; omega)
    simp only [← hD] at ho hh hnul hframe
    refine ⟨out, ?_, hh, hnul, ?_⟩
    · rw [← ho]
      simp only [d_to_s_body, ← hy1, hle, if_true, hn, if_false, fmt_prec]
    · intro j hj
      rw [hframe j hj]
      have : j ≠ ptr := by omega
      simp [store, this]
  · rw [if_neg hle] at hZ
    subst hZ
    simp only [List.length_nil, Nat.cast_zero, sub_zero] at hD
    simp only [List.nil_append, List.append_eq_nil, List.length_append, Nat.cast_add] at hroom
    obtain ⟨out, ho, hh, hnul, hframe⟩ := d_to_s_digits_ok H base ptr (H.sub y (H.floor y))
      { buf := buf, ptr := ptr, n := n, whole := H.floor y, prec := fmt_prec prec } []
      (holds_nil _ _) (by simp)
      (by simp only [← hD]
          by_cases hd : D = []
          · exact Or.inl hd
          · right
            rcases hroom with h | h
            · exact absurd h.1 hd
            · omega)
      (by simp only [← hD]
          by_cases hp : point_written H base (H.sub y (H.floor y))
              (fmt_prec prec - D.length) = []
          · exact Or.inl hp
          · right
            rcases hroom with h | h
            · exact absurd h.2 hp
            · omega)
    simp only [← hD] at ho hh hnul hframe
    refine ⟨out, ?_, hh, hnul, hframe⟩
    rw [← ho]
    simp only [d_to_s_body, ← hy1, if_neg hle, fmt_prec]

/-- The part of `convert_d_to_s` after the sign, when room runs out. -/
theorem d_to_s_body_err (H : Host α ρ) (base : Int) (buf : Int → Char) (ptr n : Int) (m : α)
    (prec : Int) (y : α) (Z D : List Char)
    (hy : y = H.add m (H.div (H.lit (1 / 2)) (base_to_prec H base (fmt_prec prec).toNat (H.lit 1))))
    (hZ : Z = if H.le (H.floor y) (H.lit 0) then ['0'] else [])
    (hD : D = whole_digits H base ((n - Z.length).toNat + 1) (H.floor y))
    (hne : Z ++ D ++ point_written H base (H.sub y (H.floor y)) (fmt_prec prec - D.length) ≠ [])
    (hroom : n ≤ ((Z ++ D ++ point_written H base (H.sub y (H.floor y))
          (fmt_prec prec - D.length)).length : Int)) :
    ∃ r, d_to_s_body H base buf ptr n m prec = some r ∧ r.1 = RPN_ERROR := by
  have hy1 : y = H.add m (H.div (H.lit (1 / 2))
      (base_to_prec H base (if prec < 0 then 0 else prec).toNat (H.lit 1))) := hy
  by_cases hle : H.le (H.floor y) (H.lit 0) = true
  · rw [if_pos hle] at hZ
    subst hZ
    simp only [List.length_singleton, Nat.cast_one] at hD
    simp only [List.length_append, List.length_singleton, Nat.cast_add, Nat.cast_one] at hroom
    by_cases hn : n - 1 ≤ 0
    · exact ⟨(RPN_ERROR, store (store buf ptr '0') (ptr + 1) NUL, ptr + 1),
        by simp only [d_to_s_body, ← hy1, hle, if_true, hn], rfl⟩
    · obtain ⟨r, hr, hr1⟩ := d_to_s_digits_err H base ptr (H.sub y (H.floor y))
        { buf := store buf ptr '0', ptr := ptr + 1, n := n - 1, whole := H.floor y,
          prec := fmt_prec prec }
        (by simp only [← hD]
            by_cases hd : D ≠ [] ∧ n - 1 ≤ (D.length : Int)
            · exact Or.inl hd
            · right
              have hlt : (D.length : Int) < n - 1 := by
                by_contra hc
                apply hd
                refine ⟨?_, by omega⟩
                intro h0
                rw [h0] at hc
                simp at hc
                omega
              constructor
              · intro h0
                rw [h0] at hroom
                simp at hroom
                omega
              · omega)
      refine ⟨r, ?_, hr1⟩
      rw [← hr]
      simp only [d_to_s_body, ← hy1, hle, if_true, hn, if_false, fmt_prec]
  · rw [if_neg hle] at hZ
    subst hZ
    simp only [List.length_nil, Nat.cast_zero, sub_zero] at hD
    simp only [List.nil_append, List.length_append, Nat.cast_add] at hroom hne
    obtain ⟨r, hr, hr1⟩ := d_to_s_digits_err H base ptr (H.sub y (H.floor y))
      { buf := buf, ptr := ptr, n := n, whole := H.floor y, prec := fmt_prec prec }
      (by simp only [← hD]
          by_cases hd : D ≠ [] ∧ n ≤ (D.length : Int)
          · exact Or.inl hd
          · right
            by_cases h0 : D = []
            · rw [h0] at hne hroom ⊢
              simp only [List.nil_append, List.length_nil, Nat.cast_zero, sub_zero] at hne
              simp only [List.length_nil, Nat.cast_zero, zero_add, sub_zero] at hroom ⊢
              exact ⟨hne, hroom⟩
            · have hlt : (D.length : Int) < n := by
                by_contra hc
                exact hd ⟨h0, by omega⟩
              constructor
              · intro hp
                rw [hp] at hroom
                simp at hroom
                omega
              · omega)
    refine ⟨r, ?_, hr1⟩
    rw [← hr]
    simp only [d_to_s_body, ← hy1, if_neg hle, fmt_prec]

/-- The call as a whole, with room for every character it stores: it returns
`RPN_OK`, the buffer holds the text from index 0 on, and the terminating NUL
is stored right after it. -/
theorem d_to_s_ok (H : Host α ρ) (buf : Int → Char) (x : α) (base prec n : Int)
    (hroom : fmt_written H base x prec (fmt_fuel H base x prec n) = [] ∨
      ((fmt_written H base x prec (fmt_fuel H base x prec n)).length : Int) < n) :
    ∃ out, d_to_s H buf x base prec n
        = some (RPN_OK, out, ((fmt_text H base x prec (fmt_fuel H base x prec n)).length : Int)) ∧
      holds out 0 (fmt_text H base x prec (fmt_fuel H base x prec n)) ∧
      out ((fmt_text H base x prec (fmt_fuel H base x prec n)).length : Int) = NUL := by
  by_cases hlt : H.lt x (H.lit 0) = true
  · have hS : fmt_sign H x = ['-'] := by rw [fmt_sign, if_pos hlt]
    have hfuel : fmt_fuel H base x prec n = (n - 1 - (fmt_zero H base x prec).length).toNat + 1 := by
      rw [fmt_fuel, hS]; rfl
    simp only [fmt_written, fmt_text, hS, hfuel, fmt_fracval] at hroom ⊢
    generalize hDe : fmt_int H base x prec
      ((n - 1 - (fmt_zero H base x prec).length).toNat + 1) = D at hroom ⊢
    have hn : ¬ (n - 1 ≤ 0) := by
      rcases hroom with h | h
      · simp at h
      · simp only [List.length_append, List.length_singleton, Nat.cast_add, Nat.cast_one] at h
        omega
    obtain ⟨out, ho, hh, hnul, hframe⟩ := d_to_s_body_ok H base (store buf 0 '-') 1 (n - 1)
      (H.neg x) prec (fmt_round H base x prec) (fmt_zero H base x prec) D
      (by rw [fmt_round, if_pos hlt]) rfl (by rw [← hDe]; rfl)
      (by right
          rcases hroom with h | h
          · simp at h
          · simp only [List.length_append, List.length_singleton, Nat.cast_add,
              Nat.cast_one] at h ⊢
            omega)
    refine ⟨out, ?_, ?_, ?_⟩
    · simp only [d_to_s, hlt, if_true, hn, if_false, ho]
      congr 3
      simp only [List.length_append, List.length_singleton, Nat.cast_add, Nat.cast_one]
      ring
    · rw [List.append_assoc, holds_append]
      constructor
      · intro k hk
        simp only [List.length_singleton, Nat.lt_one_iff] at hk
        subst hk
        have := hframe 0 (by norm_num)
        simp only [Nat.cast_zero, add_zero, this]
        simp [store]
      · simpa using hh
    · rw [← hnul]
      congr 1
      simp only [List.length_append, List.length_singleton, Nat.cast_add, Nat.cast_one]
      ring
  · have hS : fmt_sign H x = [] := by rw [fmt_sign, if_neg hlt]
    have hfuel : fmt_fuel H base x prec n = (n - (fmt_zero H base x prec).length).toNat + 1 := by
      rw [fmt_fuel, hS]; simp
    simp only [fmt_written, fmt_text, hS, hfuel, fmt_fracval, List.nil_append] at hroom ⊢
    generalize hDe : fmt_int H base x prec
      ((n - (fmt_zero H base x prec).length).toNat + 1) = D at hroom ⊢
    obtain ⟨out, ho, hh, hnul, _⟩ := d_to_s_body_ok H base buf 0 n
      x prec (fmt_round H base x prec) (fmt_zero H base x prec) D
      (by rw [fmt_round, if_neg hlt]) rfl (by rw [← hDe]; rfl) hroom
    refine ⟨out, ?_, hh, ?_⟩
    · simp only [d_to_s, hlt, ho]
      simp
    · rw [← hnul]; simp

/-- The call as a whole, when the characters it wants to store leave no room
for the terminator: it returns `RPN_ERROR`. -/
theorem d_to_s_err (H : Host α ρ) (buf : Int → Char) (x : α) (base prec n : Int)
    (hne : fmt_written H base x prec (fmt_fuel H base x prec n) ≠ [])
    (hroom : n ≤ ((fmt_written H base x prec (fmt_fuel H base x prec n)).length : Int)) :
    ∃ r, d_to_s H buf x base prec n = some r ∧ r.1 = RPN_ERROR := by
  by_cases hlt : H.lt x (H.lit 0) = true
  · have hS : fmt_sign H x = ['-'] := by rw [fmt_sign, if_pos hlt]
    have hfuel : fmt_fuel H base x prec n = (n - 1 - (fmt_zero H base x prec).length).toNat + 1 := by
      rw [fmt_fuel, hS]; rfl
    simp only [fmt_written, hS, hfuel, fmt_fracval] at hroom hne
    generalize hDe : fmt_int H base x prec
      ((n - 1 - (fmt_zero H base x prec).length).toNat + 1) = D at hroom hne
    by_cases hn : n - 1 ≤ 0
    · exact ⟨(RPN_ERROR, store (store buf 0 '-') 1 NUL, 1),
        by simp only [d_to_s, hlt, if_true, hn], rfl⟩
    · have hl : ((fmt_zero H base x prec ++ D ++ point_written H base
          (H.sub (fmt_round H base x prec) (H.floor (fmt_round H base x prec)))
          (fmt_prec prec - D.length)).length : Int) ≥ n - 1 := by
        simp only [List.length_append, List.length_singleton, Nat.cast_add, Nat.cast_one]
          at hroom ⊢
        omega
      obtain ⟨r, hr, hr1⟩ := d_to_s_body_err H base (store buf 0 '-') 1 (n - 1)
        (H.neg x) prec (fmt_round H base x prec) (fmt_zero H base x prec) D
        (by rw [fmt_round, if_pos hlt]) rfl (by rw [← hDe]; rfl)
        (by intro h0
            rw [h0] at hl
            simp at hl
            omega)
        hl
      exact ⟨r, by simp only [d_to_s, hlt, if_true, hn, if_false, hr], hr1⟩
  · have hS : fmt_sign H x = [] := by rw [fmt_sign, if_neg hlt]
    have hfuel : fmt_fuel H base x prec n = (n - (fmt_zero H base x prec).length).toNat + 1 := by
      rw [fmt_fuel, hS]; simp
    simp only [fmt_written, hS, hfuel, fmt_fracval, List.nil_append] at hroom hne
    generalize hDe : fmt_int H base x prec
      ((n - (fmt_zero H base x prec).length).toNat + 1) = D at hroom hne
    obtain ⟨r, hr, hr1⟩ := d_to_s_body_err H base buf 0 n
      x prec (fmt_round H base x prec) (fmt_zero H base x prec) D
      (by rw [fmt_round, if_neg hlt]) rfl (by rw [← hDe]; rfl) hne hroom
    exact ⟨r, by simp only [d_to_s, hlt, hr]; simp, hr1⟩

/-- The call always returns: the number of iterations allowed to the
integer-part loop is never used up. -/
theorem d_to_s_returns (H : Host α ρ) (buf : Int → Char) (x : α) (base prec n : Int) :
    ∃ r, d_to_s H buf x base prec n = some r := by
  by_cases h : fmt_written H base x prec (fmt_fuel H base x prec n) = [] ∨
      ((fmt_written H base x prec (fmt_fuel H base x prec n)).length : Int) < n
  · obtain ⟨out, ho, _⟩ := d_to_s_ok H buf x base prec n h
    exact ⟨_, ho⟩
  · obtain ⟨r, hr, _⟩ := d_to_s_err H buf x base prec n (fun h0 => h (Or.inl h0))
      (by by_contra hc; exact h (Or.inr (by omega)))
    exact ⟨r, hr⟩

/-! ## Formatter: the characters of the text -/

/-- A character `tocharbase` returns is `'0'`-`'9'` or `'A'`-`'Z'`. -/
theorem tocharbase_range (d b : Int) :
    ∃ k : Nat, (48 ≤ k ∧ k ≤ 57 ∨ 65 ≤ k ∧ k ≤ 90) ∧ tocharbase d b = Char.ofNat k := by
  have e0 : cint '0' = 48 := rfl
  have eA : cint 'A' = 65 := rfl
  have z : (∃ k : Nat, (48 ≤ k ∧ k ≤ 57 ∨ 65 ≤ k ∧ k ≤ 90) ∧ '0' = Char.ofNat k) :=
    ⟨48, by omega, rfl⟩
  simp only [tocharbase, e0, eA]
  split_ifs
  all_goals first
    | exact z
    | exact ⟨(d + 48).toNat, by omega, rfl⟩
    | exact ⟨(d + 65 - 10).toNat, by omega, rfl⟩

theorem tocharbase_ne (d b : Int) :
    tocharbase d b ≠ NUL ∧ tocharbase d b ≠ '.' ∧ tocharbase d b ≠ '-' := by
  obtain ⟨k, hk, e⟩ := tocharbase_range d b
  rw [e]
  have : k ≤ 90 := by omega
  have h48 : 48 ≤ k := by omega
  interval_cases k <;> simp [NUL]

theorem whole_digits_mem (H : Host α ρ) (base : Int) (fuel : Nat) :
    ∀ (w : α) (c : Char), c ∈ whole_digits H base fuel w → ∃ d, c = tocharbase d base := by
  induction fuel with
  | zero => intro w c h; simp [whole_digits] at h
  | succ k ih =>
    intro w c h
    rw [whole_digits] at h
    split at h
    · rcases List.mem_cons.1 h with h | h
      · exact ⟨_, h⟩
      · exact ih _ _ h
    · simp at h

theorem frac_digits_mem (H : Host α ρ) (base : Int) (p : Nat) :
    ∀ (f : α) (c : Char), c ∈ frac_digits H base p f → ∃ d, c = tocharbase d base := by
  induction p with
  | zero => intro f c h; simp [frac_digits] at h
  | succ p ih =>
    intro f c h
    rw [frac_digits] at h
    rcases List.mem_cons.1 h with h | h
    · exact ⟨_, h⟩
    · exact ih _ _ h

/-- The last character kept of a fraction that is not trimmed away is a digit
of the fraction other than `'0'`. -/
theorem keep_last (l : List Char) (h : keep l ≠ 0) :
    ∃ c, (l.take (keep l)).getLast? = some c ∧ c ≠ '0' ∧ c ∈ l := by
  induction l with
  | nil => simp [keep] at h
  | cons a l ih =>
    by_cases hk : keep l = 0
    · have ha : a ≠ '0' := by
        intro h0
        simp [keep, hk, h0] at h
      refine ⟨a, ?_, ha, by simp⟩
      simp [keep, hk, ha]
    · obtain ⟨c, hc, hc0, hcl⟩ := ih hk
      refine ⟨c, ?_, hc0, by simp [hcl]⟩
      have e : keep (a :: l) = keep l + 1 := by simp [keep, hk]
      rw [e, List.take_succ_cons]
      have hne : l.take (keep l) ≠ [] := by
        intro h0; rw [h0] at hc; simp at hc
      obtain ⟨x, t, hx⟩ := List.exists_cons_of_ne_nil hne
      rw [hx] at hc ⊢
      rw [List.getLast?_cons_cons]
      exact hc

theorem point_text_length_le (H : Host α ρ) (base : Int) (frac : α) (prec : Int) :
    (point_text H base frac prec).length ≤ (point_written H base frac prec).length := by
  by_cases hp : prec ≤ 0
  · simp [point_text, point_written, hp]
  · by_cases hk : keep (frac_digits H base prec.toNat frac) = 0
    · simp [point_text, hk]
    · simp only [point_text, point_written, hp, hk, or_self, if_false, List.length_cons,
        List.length_take]
      omega

theorem fmt_text_length_le (H : Host α ρ) (base : Int) (x : α) (prec : Int) (fuel : Nat) :
    (fmt_text H base x prec fuel).length ≤ (fmt_written H base x prec fuel).length := by
  have := point_text_length_le H base (fmt_fracval H base x prec)
    (fmt_prec prec - (fmt_int H base x prec fuel).length)
  simp only [fmt_text, fmt_written, List.length_append, List.length_reverse]
  omega

theorem point_text_mem (H : Host α ρ) (base : Int) (frac : α) (prec : Int) (c : Char)
    (h : c ∈ point_text H base frac prec) : c = '.' ∨ ∃ d, c = tocharbase d base := by
  by_cases hp : prec ≤ 0 ∨ keep (frac_digits H base prec.toNat frac) = 0
  · simp [point_text, hp] at h
  · simp only [point_text, hp, if_false] at h
    rcases List.mem_cons.1 h with h | h
    · exact Or.inl h
    · exact Or.inr (frac_digits_mem H base _ _ _ (List.mem_of_mem_take h))

/-- The digits before the radix point: `'0'` or characters of `tocharbase`. -/
theorem fmt_int_mem (H : Host α ρ) (base : Int) (x : α) (prec : Int) (fuel : Nat) (c : Char)
    (h : c ∈ (fmt_zero H base x prec ++ fmt_int H base x prec fuel).reverse) :
    ∃ d, c = tocharbase d base := by
  rw [List.mem_reverse, List.mem_append] at h
  rcases h with h | h
  · refine ⟨-1, ?_⟩
    simp only [fmt_zero] at h
    split at h
    · simp at h; rw [h]; simp [tocharbase]
    · simp at h
  · exact whole_digits_mem H base _ _ _ h

theorem fmt_text_no_nul (H : Host α ρ) (base : Int) (x : α) (prec : Int) (fuel : Nat) :
    NUL ∉ fmt_text H base x prec fuel := by
  intro h
  simp only [fmt_text, List.mem_append] at h
  rcases h with (h | h) | h
  · simp only [fmt_sign] at h
    split at h
    · simp [NUL] at h
    · simp at h
  · obtain ⟨d, hd⟩ := fmt_int_mem H base x prec fuel _ h
    exact (tocharbase_ne d base).1 hd.symm
  · rcases point_text_mem H base _ _ _ h with h | ⟨d, hd⟩
    · simp [NUL] at h
    · exact (tocharbase_ne d base).1 hd.symm

/-- A successful call had room for every character, and the C string it
leaves in the buffer is the text. -/
theorem d_to_s_success (H : Host α ρ) (buf : Int → Char) (x : α) (base prec n : Int)
    (out : Int → Char) (e : Int) (hok : d_to_s H buf x base prec n = some (RPN_OK, out, e)) :
    (fmt_written H base x prec (fmt_fuel H base x prec n) = [] ∨
      ((fmt_written H base x prec (fmt_fuel H base x prec n)).length : Int) < n) ∧
    cstr out n.toNat 0 = fmt_text H base x prec (fmt_fuel H base x prec n) := by
  by_cases h : fmt_written H base x prec (fmt_fuel H base x prec n) = [] ∨
      ((fmt_written H base x prec (fmt_fuel H base x prec n)).length : Int) < n
  · refine ⟨h, ?_⟩
    obtain ⟨out1, ho, hh, hnul⟩ := d_to_s_ok H buf x base prec n h
    rw [ho] at hok
    have e1 : out1 = out := by
      have := Option.some.inj hok
      exact (Prod.mk.inj (Prod.mk.inj this).2).1
    subst e1
    have hle := fmt_text_length_le H base x prec (fmt_fuel H base x prec n)
    by_cases ht : fmt_text H base x prec (fmt_fuel H base x prec n) = []
    · rw [ht] at hnul ⊢
      simp only [List.length_nil, Nat.cast_zero] at hnul
      cases hn : n.toNat with
      | zero => rfl
      | succ k => simp [cstr, hnul]
    · have hpos : 0 < (fmt_text H base x prec (fmt_fuel H base x prec n)).length :=
        List.length_pos.2 ht
      have hlt : (fmt_text H base x prec (fmt_fuel H base x prec n)).length < n.toNat := by
        rcases h with h | h
        · rw [h, List.length_nil] at hle; omega
        · omega
      apply cstr_of_holds _ _ 0 _ hh _ (fmt_text_no_nul H base x prec _) hlt
      simpa using hnul
  · exfalso
    obtain ⟨r, hr, hr1⟩ := d_to_s_err H buf x base prec n (fun h0 => h (Or.inl h0))
      (by by_contra hc; exact h (Or.inr (by omega)))
    rw [hr] at hok
    have := Option.some.inj hok
    rw [this] at hr1
    simp at hr1

/-- Allowing the integer-part loop more iterations than it uses changes
nothing; allowing fewer cuts the digits short at that number. -/
theorem whole_digits_fuel (H : Host α ρ) (base : Int) (k : Nat) :
    ∀ (w : α), (whole_digits H base k w).length < k →
      ∀ k1, whole_digits H base k1 w = whole_digits H base k w ∨
        (whole_digits H base k1 w).length = k1 := by
  induction k with
  | zero => intro w h; simp at h
  | succ k ih =>
    intro w h k1
    cases k1 with
    | zero => right; rfl
    | succ k1 =>
      by_cases hc : H.le (H.lit 1) w = true
      · simp only [whole_digits, hc, if_true, List.length_cons] at h ⊢
        rcases ih (H.div w (H.ofInt base)) (by omega) k1 with h1 | h1
        · left; rw [h1]
        · right; rw [h1]
      · left
        simp [whole_digits, hc]

theorem convert_d_to_s_ok (H : Host α ρ) (buf : Int → Char) (x : α) (base prec n : Int)
    (out : Int → Char) (hok : convert_d_to_s H buf x base prec n = some (RPN_OK, out)) :
    ∃ e, d_to_s H buf x base prec n = some (RPN_OK, out, e) := by
  rw [convert_d_to_s] at hok
  cases h : d_to_s H buf x base prec n with
  | none => rw [h] at hok; simp at hok
  | some r =>
    rw [h] at hok
    simp only [Option.map_some', Option.some.injEq, Prod.mk.injEq] at hok
    obtain ⟨r1, r2, r3⟩ := r
    simp only at hok
    exact ⟨r3, by rw [hok.1, hok.2]⟩

/-- The text of a successful call is the C string left in the buffer. -/
theorem convert_d_to_s_text (H : Host α ρ) (buf : Int → Char) (x : α) (base prec n : Int)
    (out : Int → Char) (hok : convert_d_to_s H buf x base prec n = some (RPN_OK, out)) :
    (fmt_written H base x prec (fmt_fuel H base x prec n) = [] ∨
      ((fmt_written H base x prec (fmt_fuel H base x prec n)).length : Int) < n) ∧
    cstr out n.toNat 0 = fmt_text H base x prec (fmt_fuel H base x prec n) := by
  obtain ⟨e, he⟩ := convert_d_to_s_ok H buf x base prec n out hok
  exact d_to_s_success H buf x base prec n out e he

/-- A text with a radix point ends in a fraction digit other than `'0'`. -/
theorem fmt_text_last (H : Host α ρ) (base : Int) (x : α) (prec : Int) (fuel : Nat)
    (hdot : '.' ∈ fmt_text H base x prec fuel) :
    ∃ c, (fmt_text H base x prec fuel).getLast? = some c ∧ c ≠ '0' ∧ c ≠ '.' := by
  have hpt : '.' ∈ point_text H base (fmt_fracval H base x prec)
      (fmt_prec prec - (fmt_int H base x prec fuel).length) := by
    simp only [fmt_text, List.mem_append] at hdot
    rcases hdot with (h | h) | h
    · simp only [fmt_sign] at h
      split at h <;> simp at h
    · obtain ⟨d, hd⟩ := fmt_int_mem H base x prec fuel _ h
      exact absurd hd.symm (tocharbase_ne d base).2.1
    · exact h
  generalize hp : fmt_prec prec - ((fmt_int H base x prec fuel).length : Int) = p at hpt
  generalize hf : fmt_fracval H base x prec = f at hpt
  have hcond : ¬ (p ≤ 0 ∨ keep (frac_digits H base p.toNat f) = 0) := by
    intro h; simp [point_text, h] at hpt
  obtain ⟨c, hc, hc0, hcm⟩ := keep_last (frac_digits H base p.toNat f) (fun h => hcond (Or.inr h))
  obtain ⟨d, hd⟩ := frac_digits_mem H base _ _ _ hcm
  refine ⟨c, ?_, hc0, ?_⟩
  · simp only [fmt_text, hp, hf, point_text, hcond, if_false]
    have hne : (frac_digits H base p.toNat f).take (keep (frac_digits H base p.toNat f)) ≠ [] := by
      intro h0; rw [h0] at hc; simp at hc
    obtain ⟨a, t, hat⟩ := List.exists_cons_of_ne_nil hne
    rw [hat] at hc ⊢
    rw [List.getLast?_append, List.getLast?_cons_cons, hc]
    rfl
  · rw [hd]; exact (tocharbase_ne d base).2.1

/-- C15: for every double arithmetic and every call of `convert_d_to_s` that
returns `RPN_OK`, if the text left in the buffer (the C string from index 0)
contains a radix point then its last character is neither `'0'` nor `'.'`:
trailing zeros of the fraction and a bare radix point are trimmed. -/
theorem format_trims_fraction (H : Host α ρ) (buf : Int → Char) (x : α) (base prec n : Int)
    (out : Int → Char) (hok : convert_d_to_s H buf x base prec n = some (RPN_OK, out))
    (hdot : '.' ∈ cstr out n.toNat 0) :
    (cstr out n.toNat 0).getLast? ≠ some '0' ∧ (cstr out n.toNat 0).getLast? ≠ some '.' := by
  have ht := (convert_d_to_s_text H buf x base prec n out hok).2
  rw [ht] at hdot ⊢
  obtain ⟨c, hc, h0, h1⟩ := fmt_text_last H base x prec _ hdot
  rw [hc]
  exact ⟨fun h => h0 (Option.some.inj h), fun h => h1 (Option.some.inj h)⟩

/-- A buffer too small for a non-empty text: for every double arithmetic,
every `x`, base and precision: if a call
of `convert_d_to_s` with some `maxLength = N` returns `RPN_OK` and leaves the
non-empty text `s`, then every call with a `maxLength = n` such that
`length(s) + 1 > n` returns `RPN_ERROR`, whatever the buffer held before. -/
theorem format_fails_when_too_small (H : Host α ρ) (buf buf1 : Int → Char) (x : α)
    (base prec N n : Int) (out : Int → Char)
    (hok : convert_d_to_s H buf x base prec N = some (RPN_OK, out))
    (hne : cstr out N.toNat 0 ≠ [])
    (hn : ((cstr out N.toNat 0).length : Int) + 1 > n) :
    ∃ out1, convert_d_to_s H buf1 x base prec n = some (RPN_ERROR, out1) := by
  obtain ⟨hroom, ht⟩ := convert_d_to_s_text H buf x base prec N out hok
  rw [ht] at hne hn
  have hle := fmt_text_length_le H base x prec (fmt_fuel H base x prec N)
  have hpos : 0 < (fmt_text H base x prec (fmt_fuel H base x prec N)).length :=
    List.length_pos.2 hne
  have hroomN : ((fmt_written H base x prec (fmt_fuel H base x prec N)).length : Int) < N := by
    rcases hroom with h | h
    · rw [h, List.length_nil] at hle; omega
    · exact h
  have hfuel : (whole_digits H base (fmt_fuel H base x prec N)
      (H.floor (fmt_round H base x prec))).length < fmt_fuel H base x prec N := by
    have : ((fmt_written H base x prec (fmt_fuel H base x prec N)).length : Int)
        ≥ (fmt_sign H x).length + (fmt_zero H base x prec).length
          + (fmt_int H base x prec (fmt_fuel H base x prec N)).length := by
      simp only [fmt_written, List.length_append, Nat.cast_add]
      omega
    simp only [fmt_int] at this
    simp only [fmt_fuel] at this hroomN ⊢
    omega
  have key : fmt_written H base x prec (fmt_fuel H base x prec n) ≠ [] ∧
      n ≤ ((fmt_written H base x prec (fmt_fuel H base x prec n)).length : Int) := by
    rcases whole_digits_fuel H base _ _ hfuel (fmt_fuel H base x prec n) with h | h
    · have e : fmt_written H base x prec (fmt_fuel H base x prec n)
          = fmt_written H base x prec (fmt_fuel H base x prec N) := by
        simp only [fmt_written, fmt_int, h]
      rw [e]
      constructor
      · intro h0; rw [h0, List.length_nil] at hle; omega
      · omega
    · have : ((fmt_written H base x prec (fmt_fuel H base x prec n)).length : Int)
          ≥ (fmt_sign H x).length + (fmt_zero H base x prec).length
            + (fmt_int H base x prec (fmt_fuel H base x prec n)).length := by
        simp only [fmt_written, List.length_append, Nat.cast_add]
        omega
      simp only [fmt_int, h] at this
      have hf : ((fmt_fuel H base x prec n : Nat) : Int)
          = ((n - (fmt_sign H x).length - (fmt_zero H base x prec).length).toNat : Int) + 1 := by
        simp [fmt_fuel]
      constructor
      · intro h0; rw [h0, List.length_nil] at this; omega
      · omega
  obtain ⟨r, hr, hr1⟩ := d_to_s_err H buf1 x base prec n key.1 key.2
  refine ⟨r.2.1, ?_⟩
  rw [convert_d_to_s, hr, Option.map_some', ← hr1]

/-- With room for every character the call succeeds and leaves the text. -/
theorem convert_d_to_s_of_room (H : Host α ρ) (buf : Int → Char) (x : α) (base prec n : Int)
    (hroom : fmt_written H base x prec (fmt_fuel H base x prec n) = [] ∨
      ((fmt_written H base x prec (fmt_fuel H base x prec n)).length : Int) < n) :
    ∃ out, convert_d_to_s H buf x base prec n = some (RPN_OK, out) ∧
      cstr out n.toNat 0 = fmt_text H base x prec (fmt_fuel H base x prec n) := by
  obtain ⟨out, ho, _, _⟩ := d_to_s_ok H buf x base prec n hroom
  have h : convert_d_to_s H buf x base prec n = some (RPN_OK, out) := by
    rw [convert_d_to_s, ho]; rfl
  exact ⟨out, h, (convert_d_to_s_text H buf x base prec n out h).2⟩

/-- C15, on 0.5 in base 10 with precision 3: the digits stored are `0.500`, the
text left is `0.5`. -/
theorem format_trims_fraction_witness :
    ∃ out, convert_d_to_s Q (fun _ => 'X') (1 / 2) 10 3 8 = some (RPN_OK, out) ∧
      '.' ∈ cstr out (8 : Int).toNat 0 ∧
      (cstr out (8 : Int).toNat 0).getLast? ≠ some '0' ∧
      (cstr out (8 : Int).toNat 0).getLast? ≠ some '.' := by
  obtain ⟨out, ho, ht⟩ := convert_d_to_s_of_room Q (fun _ => 'X') (1 / 2) 10 3 8
    (by decide!)
  have hT : fmt_text Q 10 (1 / 2) 3 (fmt_fuel Q 10 (1 / 2) 3 8) = ['0', '.', '5'] := by decide!
  have hdot : '.' ∈ cstr out (8 : Int).toNat 0 := by rw [ht, hT]; decide
  exact ⟨out, ho, hdot, format_trims_fraction Q (fun _ => 'X') (1 / 2) 10 3 8 out ho hdot⟩

/-- On 0.5 in base 10 with precision 3: the text `0.5` has length 3, and
the call with `maxLength = 3` fails. -/
theorem format_fails_when_too_small_witness :
    ∃ out, convert_d_to_s Q (fun _ => 'X') (1 / 2) 10 3 8 = some (RPN_OK, out) ∧
      cstr out (8 : Int).toNat 0 ≠ [] ∧
      ((cstr out (8 : Int).toNat 0).length : Int) + 1 > 3 ∧
      ∃ out1, convert_d_to_s Q (fun _ => 'Y') (1 / 2) 10 3 3 = some (RPN_ERROR, out1) := by
  obtain ⟨out, ho, ht⟩ := convert_d_to_s_of_room Q (fun _ => 'X') (1 / 2) 10 3 8
    (by decide!)
  have hT : fmt_text Q 10 (1 / 2) 3 (fmt_fuel Q 10 (1 / 2) 3 8) = ['0', '.', '5'] := by decide!
  have hne : cstr out (8 : Int).toNat 0 ≠ [] := by rw [ht, hT]; decide
  have hn : ((cstr out (8 : Int).toNat 0).length : Int) + 1 > 3 := by rw [ht, hT]; decide
  exact ⟨out, ho, hne, hn,
    format_fails_when_too_small Q (fun _ => 'X') (fun _ => 'Y') (1 / 2) 10 3 8 3 out ho hne hn⟩

/-! ## Formatter in exact arithmetic -/

theorem truncQ_nonneg (q : ℚ) (h : 0 ≤ q) : truncQ q = ⌊q⌋ := by
  rw [truncQ, Rat.floor_def]
  exact Int.tdiv_eq_ediv (Rat.num_nonneg.2 h) (by exact_mod_cast Nat.zero_le _)

theorem char_ofNat_toNat (k : Nat) (h1 : 48 ≤ k) (h2 : k ≤ 90) : (Char.ofNat k).toNat = k := by
  interval_cases k <;> rfl

/-- The digit character `tocharbase` gives carries the value of the digit,
and is a digit of the base whatever the number given. -/
theorem tocharbase_value (b : Int) (hb : 2 ≤ b ∧ b ≤ 36) (d : Int) :
    specIsDigit b (tocharbase d b) = true ∧
    (0 ≤ d → d < b → digitQ (tocharbase d b) = (d : ℚ)) := by
  have e0 : cint '0' = 48 := rfl
  have eA : cint 'A' = 65 := rfl
  have f0 : ('0' : Char).toNat = 48 := rfl
  have f9 : ('9' : Char).toNat = 57 := rfl
  have fA : ('A' : Char).toNat = 65 := rfl
  have fZ : ('Z' : Char).toNat = 90 := rfl
  have key : ∀ k : Nat, 48 ≤ k → k ≤ 90 → (k ≤ 57 ∨ 65 ≤ k) →
      (specDigitValue (Char.ofNat k) = some (if k ≤ 57 then (k : Int) - 48 else (k : Int) - 55)) := by
    intro k h1 h2 h3
    simp only [specDigitValue, char_ofNat_toNat k h1 h2, f0, f9, fA, fZ]
    by_cases h : k ≤ 57
    · simp [h, h1]
    · have h65 : 65 ≤ k := by omega
      have : ¬ (48 ≤ k ∧ k ≤ 57) := by omega
      simp only [this, if_false, h65, h2, and_self, if_true, h, and_false, Nat.cast_ofNat]
      congr 1; omega
  have zero : specIsDigit b '0' = true ∧ digitQ '0' = 0 := by
    have : specDigitValue '0' = some 0 := by
      simp [specDigitValue]
    simp only [specIsDigit, digitQ, this, Option.getD_some, Int.cast_zero, decide_eq_true_eq]
    exact ⟨by omega, trivial⟩
  by_cases hd : 0 ≤ d ∧ d < b
  · obtain ⟨hd0, hdb⟩ := hd
    by_cases h10 : d < 10
    · have e : tocharbase d b = Char.ofNat (d + 48).toNat := by
        simp only [tocharbase, e0, eA]
        split_ifs <;> first | rfl | omega
      have hk := key (d + 48).toNat (by omega) (by omega) (by omega)
      have hle : (d + 48).toNat ≤ 57 := by omega
      rw [if_pos hle] at hk
      have hv : (((d + 48).toNat : Int) - 48) = d := by omega
      rw [hv] at hk
      rw [e]
      simp only [specIsDigit, digitQ, hk, Option.getD_some, decide_eq_true_eq]
      exact ⟨hdb, fun _ _ => trivial⟩
    · have e : tocharbase d b = Char.ofNat (d + 65 - 10).toNat := by
        simp only [tocharbase, e0, eA]
        split_ifs <;> first | rfl | omega
      have hk := key (d + 65 - 10).toNat (by omega) (by omega) (by omega)
      have hle : ¬ (d + 65 - 10).toNat ≤ 57 := by omega
      rw [if_neg hle] at hk
      have hv : (((d + 65 - 10).toNat : Int) - 55) = d := by omega
      rw [hv] at hk
      rw [e]
      simp only [specIsDigit, digitQ, hk, Option.getD_some, decide_eq_true_eq]
      exact ⟨hdb, fun _ _ => trivial⟩
  · have e : tocharbase d b = '0' := by
      simp only [tocharbase, e0, eA]
      split_ifs <;> first | rfl | (exfalso; omega)
    rw [e]
    exact ⟨zero.1, fun h1 h2 => absurd ⟨h1, h2⟩ hd⟩

/-! The operations of the exact host, one by one. -/

theorem exact_lit {ρ : Type} (L : Libm ρ) (q : ℚ) : (exactHost L).lit q = q := rfl
theorem exact_ofInt {ρ : Type} (L : Libm ρ) (i : Int) : (exactHost L).ofInt i = (i : ℚ) := rfl
theorem exact_toInt {ρ : Type} (L : Libm ρ) (x : ℚ) : (exactHost L).toInt x = truncQ x := rfl
theorem exact_add {ρ : Type} (L : Libm ρ) (x y : ℚ) : (exactHost L).add x y = x + y := rfl
theorem exact_sub {ρ : Type} (L : Libm ρ) (x y : ℚ) : (exactHost L).sub x y = x - y := rfl
theorem exact_mul {ρ : Type} (L : Libm ρ) (x y : ℚ) : (exactHost L).mul x y = x * y := rfl
theorem exact_div {ρ : Type} (L : Libm ρ) (x y : ℚ) : (exactHost L).div x y = x / y := rfl
theorem exact_neg {ρ : Type} (L : Libm ρ) (x : ℚ) : (exactHost L).neg x = -x := rfl
theorem exact_lt {ρ : Type} (L : Libm ρ) (x y : ℚ) :
    (exactHost L).lt x y = decide (x < y) := rfl
theorem exact_le {ρ : Type} (L : Libm ρ) (x y : ℚ) :
    (exactHost L).le x y = decide (x ≤ y) := rfl
theorem exact_floor {ρ : Type} (L : Libm ρ) (x : ℚ) :
    (exactHost L).floor x = ((⌊x⌋ : Int) : ℚ) := rfl

/-- In exact arithmetic the integer-part loop stores the base-`b` digits of
the integer part, least significant first. -/
theorem whole_digits_exact {ρ : Type} (L : Libm ρ) (b : Nat) (hb : 2 ≤ b) (fuel : Nat) :
    ∀ w : ℚ, 0 ≤ w →
      whole_digits (exactHost L) (b : Int) fuel w
        = ((Nat.digits b ⌊w⌋₊).take fuel).map (fun (d : Nat) => tocharbase (d : Int) (b : Int)) := by
  induction fuel with
  | zero => intro w _; simp [whole_digits]
  | succ k ih =>
    intro w hw
    have hbq : (0 : ℚ) < (b : ℚ) := by exact_mod_cast (by omega : 0 < b)
    rw [whole_digits]
    by_cases h1 : (1 : ℚ) ≤ w
    · have hn : 0 < ⌊w⌋₊ := Nat.floor_pos.2 h1
      have hdiv : (0 : ℚ) ≤ w / (b : ℚ) := div_nonneg hw hbq.le
      have hfl : ⌊w / (b : ℚ)⌋₊ = ⌊w⌋₊ / b := Nat.floor_div_nat w b
      have hdig : truncQ (w - ((⌊w / (b : ℚ)⌋ : Int) : ℚ) * (b : ℚ)) = ((⌊w⌋₊ % b : Nat) : Int) := by
        have e1 : w - ((⌊w / (b : ℚ)⌋ : Int) : ℚ) * (b : ℚ)
            = w - (((⌊w / (b : ℚ)⌋ * (b : Int) : Int)) : ℚ) := by push_cast; ring
        have hnn : 0 ≤ w - ((⌊w / (b : ℚ)⌋ : Int) : ℚ) * (b : ℚ) := by
          have := Int.floor_le (w / (b : ℚ))
          have := mul_le_mul_of_nonneg_right this hbq.le
          rw [div_mul_cancel₀ _ hbq.ne'] at this
          linarith
        rw [truncQ_nonneg _ hnn, e1, Int.floor_sub_int]
        rw [← Int.natCast_floor_eq_floor hw, ← Int.natCast_floor_eq_floor hdiv, hfl]
        have := Nat.div_add_mod ⌊w⌋₊ b
        have h2 : ((⌊w⌋₊ : Nat) : Int) = (b : Int) * ((⌊w⌋₊ / b : Nat) : Int) + ((⌊w⌋₊ % b : Nat) : Int) := by
          exact_mod_cast this.symm
        linarith
      rw [Nat.digits_def' (by omega) hn, List.take_succ_cons, List.map_cons]
      simp only [exact_le, exact_lit, exact_toInt, exact_sub, exact_mul, exact_floor, exact_div,
        exact_ofInt, decide_eq_true_eq, h1, if_true, Int.cast_natCast]
      rw [hdig, ih _ hdiv, hfl]
    · have h0 : ⌊w⌋₊ = 0 := Nat.floor_eq_zero.2 (not_le.1 h1)
      simp [exact_le, exact_lit, h1, h0]

theorem specFrac_nil (b : Int) : specFrac b [] = 0 := by simp [specFrac]

theorem specFrac_cons (b : Int) (c : Char) (s : List Char) :
    specFrac b (c :: s) = (digitQ c + specFrac b s) / (b : ℚ) := by
  simp only [specFrac, List.length_cons, List.range_succ_eq_map, List.map_cons, List.sum_cons,
    List.map_map]
  rw [add_div, div_eq_mul_inv (List.sum _), ← List.sum_map_mul_right]
  congr 1
  · simp [div_eq_mul_inv]
  · apply congrArg
    apply List.map_congr_left
    intro i _
    simp only [Function.comp_apply, List.getD_cons_succ]
    rw [pow_succ _ (i + 1), mul_inv]
    ring

/-- Trimming trailing `'0'` does not change the value of a fraction. -/
theorem specFrac_take_keep (b : Int) (F : List Char) :
    specFrac b (F.take (keep F)) = specFrac b F := by
  have z : digitQ '0' = 0 := by
    have : specDigitValue '0' = some 0 := by simp [specDigitValue]
    simp [digitQ, this]
  induction F with
  | nil => simp [keep]
  | cons c l ih =>
    by_cases hk : keep l = 0
    · rw [hk] at ih
      simp only [List.take_zero, specFrac_nil] at ih
      by_cases hc : c = '0'
      · simp [keep, hk, hc, specFrac_cons, specFrac_nil, ← ih, z]
      · simp [keep, hk, hc, specFrac_cons, specFrac_nil, ← ih]
    · have e : keep (c :: l) = keep l + 1 := by simp [keep, hk]
      rw [e, List.take_succ_cons, specFrac_cons, specFrac_cons, ih]

/-- In exact arithmetic the fraction loop stores the first `p` base-`b` digits
of a fraction in `[0, 1)`: their value is the fraction truncated to `p`
places. -/
theorem frac_digits_exact {ρ : Type} (L : Libm ρ) (b : Int) (hb : 2 ≤ b ∧ b ≤ 36) (p : Nat) :
    ∀ f : ℚ, 0 ≤ f → f < 1 →
      specFrac b (frac_digits (exactHost L) b p f) = ((⌊f * (b : ℚ) ^ p⌋ : Int) : ℚ) / (b : ℚ) ^ p := by
  have hbq : (0 : ℚ) < (b : ℚ) := by exact_mod_cast (by omega : (0 : Int) < b)
  induction p with
  | zero =>
    intro f h0 h1
    have : ⌊f⌋ = 0 := Int.floor_eq_iff.2 ⟨by simpa using h0, by simpa using h1⟩
    simp [frac_digits, specFrac_nil, this]
  | succ p ih =>
    intro f h0 h1
    have hfb0 : 0 ≤ f * (b : ℚ) := mul_nonneg h0 hbq.le
    have hfb1 : f * (b : ℚ) < (b : ℚ) := by
      have := mul_lt_mul_of_pos_right h1 hbq
      simpa using this
    have hd0 : 0 ≤ ⌊f * (b : ℚ)⌋ := Int.floor_nonneg.2 hfb0
    have hdb : ⌊f * (b : ℚ)⌋ < b := by
      rw [Int.floor_lt]; exact hfb1
    have hf0 : 0 ≤ f * (b : ℚ) - ((⌊f * (b : ℚ)⌋ : Int) : ℚ) := by
      have := Int.floor_le (f * (b : ℚ)); linarith
    have hf1 : f * (b : ℚ) - ((⌊f * (b : ℚ)⌋ : Int) : ℚ) < 1 := by
      have := Int.lt_floor_add_one (f * (b : ℚ)); linarith
    rw [frac_digits]
    simp only [exact_toInt, exact_mul, exact_ofInt, exact_sub]
    rw [truncQ_nonneg _ hfb0, specFrac_cons, ih _ hf0 hf1,
      ((tocharbase_value b hb _).2 hd0 hdb)]
    have hfl : ⌊f * (b : ℚ) ^ (p + 1)⌋
        = ⌊f * (b : ℚ)⌋ * b ^ p + ⌊(f * (b : ℚ) - ((⌊f * (b : ℚ)⌋ : Int) : ℚ)) * (b : ℚ) ^ p⌋ := by
      have e : f * (b : ℚ) ^ (p + 1)
          = (((⌊f * (b : ℚ)⌋ * b ^ p : Int)) : ℚ)
            + (f * (b : ℚ) - ((⌊f * (b : ℚ)⌋ : Int) : ℚ)) * (b : ℚ) ^ p := by
        push_cast; ring
      rw [e, Int.floor_int_add]
    rw [hfl]
    have hp : (b : ℚ) ^ p ≠ 0 := pow_ne_zero _ hbq.ne'
    push_cast
    generalize ((⌊f * (b : ℚ)⌋ : Int) : ℚ) = d
    generalize ((⌊(f * (b : ℚ) - d) * (b : ℚ) ^ p⌋ : Int) : ℚ) = g
    rw [pow_succ]
    field_simp

theorem specInt_nil (b : Int) : specInt b [] = 0 := by simp [specInt]

theorem specInt_append (b : Int) (s t : List Char) :
    specInt b (s ++ t) = specInt b s * (b : ℚ) ^ t.length + specInt b t := by
  induction s with
  | nil => simp [specInt_nil]
  | cons c s ih =>
    rw [List.cons_append, specInt_cons, specInt_cons, ih, List.length_append, pow_add]
    ring

/-- The digits of a number, most significant first, have the number as their
positional value. -/
theorem specInt_digits (b : Nat) (hb : 2 ≤ b ∧ b ≤ 36) (l : List Nat) (hl : ∀ d ∈ l, d < b) :
    specInt (b : Int) (l.reverse.map (fun (d : Nat) => tocharbase (d : Int) (b : Int)))
      = ((Nat.ofDigits b l : Nat) : ℚ) := by
  induction l with
  | nil => simp [specInt_nil]
  | cons d l ih =>
    have hd : d < b := hl d (by simp)
    have hv := (tocharbase_value (b : Int) ⟨by omega, by omega⟩ (d : Int)).2
      (by omega) (by exact_mod_cast hd)
    rw [List.reverse_cons, List.map_append, specInt_append, ih (fun e he => hl e (by simp [he])),
      Nat.ofDigits_cons]
    simp only [List.map_cons, List.map_nil, List.length_singleton, pow_one, specInt_cons,
      List.length_nil, pow_zero, mul_one, specInt_nil, add_zero, hv]
    push_cast
    ring

theorem base_to_prec_exact {ρ : Type} (L : Libm ρ) (b : Int) (t : Nat) :
    ∀ acc : ℚ, base_to_prec (exactHost L) b t acc = acc * (b : ℚ) ^ t := by
  induction t with
  | zero => intro acc; simp [base_to_prec]
  | succ t ih =>
    intro acc
    rw [base_to_prec, ih, exact_mul, exact_ofInt, pow_succ]
    ring

theorem whole_digits_indep {ρ : Type} (L : Libm ρ) (b : Int) (k : Nat) :
    ∀ w : ℚ, whole_digits (exactHost L) b k w = whole_digits Q b k w := by
  induction k with
  | zero => intro w; rfl
  | succ k ih =>
    intro w
    simp only [whole_digits, Q, exact_le, exact_lit, exact_toInt, exact_sub, exact_mul,
      exact_floor, exact_div, exact_ofInt, ih]

theorem frac_digits_indep {ρ : Type} (L : Libm ρ) (b : Int) (p : Nat) :
    ∀ f : ℚ, frac_digits (exactHost L) b p f = frac_digits Q b p f := by
  induction p with
  | zero => intro f; rfl
  | succ p ih =>
    intro f
    simp only [frac_digits, Q, exact_toInt, exact_sub, exact_mul, exact_ofInt, ih]

theorem fmt_indep {ρ : Type} (L : Libm ρ) (base : Int) (x : ℚ) (prec : Int) :
    (∀ fuel, fmt_text (exactHost L) base x prec fuel = fmt_text Q base x prec fuel) ∧
    (∀ fuel, fmt_written (exactHost L) base x prec fuel = fmt_written Q base x prec fuel) ∧
    (∀ n, fmt_fuel (exactHost L) base x prec n = fmt_fuel Q base x prec n) := by
  have hr : fmt_round (exactHost L) base x prec = fmt_round Q base x prec := by
    simp only [fmt_round, Q, exact_add, exact_lt, exact_lit, exact_neg, exact_div,
      base_to_prec_exact]
  have hs : fmt_sign (exactHost L) x = fmt_sign Q x := by
    simp only [fmt_sign, Q, exact_lt, exact_lit]
  have hz : fmt_zero (exactHost L) base x prec = fmt_zero Q base x prec := by
    simp only [fmt_zero, hr]
    simp only [Q, exact_le, exact_floor, exact_lit]
  have hi : ∀ fuel, fmt_int (exactHost L) base x prec fuel = fmt_int Q base x prec fuel := by
    intro fuel
    simp only [fmt_int, hr, whole_digits_indep L]
    simp only [Q, exact_floor]
  have hf : fmt_fracval (exactHost L) base x prec = fmt_fracval Q base x prec := by
    simp only [fmt_fracval, hr]
    simp only [Q, exact_sub, exact_floor]
  refine ⟨?_, ?_, ?_⟩
  · intro fuel
    simp only [fmt_text, hs, hz, hi, hf, point_text, frac_digits_indep L]
  · intro fuel
    simp only [fmt_written, hs, hz, hi, hf, point_written, frac_digits_indep L]
  · intro n
    simp only [fmt_fuel, hs, hz]

/-- The pieces of the text of a non-negative number in exact arithmetic, in
terms of `y = x + 0.5 / b^p`: no sign, the leading zero when the integer part
of `y` is 0, the base-`b` digits of the integer part, the fractional part. -/
theorem fmt_exact {ρ : Type} (L : Libm ρ) (b : Nat) (hb : 2 ≤ b ∧ b ≤ 36) (p : Nat) (x : ℚ)
    (hx : 0 ≤ x) :
    fmt_sign (exactHost L) x = [] ∧
    fmt_zero (exactHost L) (b : Int) x (p : Int)
      = (if ⌊x + (1 / 2) / (b : ℚ) ^ p⌋₊ = 0 then ['0'] else []) ∧
    (∀ fuel, fmt_int (exactHost L) (b : Int) x (p : Int) fuel
      = ((Nat.digits b ⌊x + (1 / 2) / (b : ℚ) ^ p⌋₊).take fuel).map
          (fun (d : Nat) => tocharbase (d : Int) (b : Int))) ∧
    fmt_fracval (exactHost L) (b : Int) x (p : Int) = Int.fract (x + (1 / 2) / (b : ℚ) ^ p) ∧
    fmt_prec (p : Int) = (p : Int) := by
  have hbq : (0 : ℚ) < (b : ℚ) := by exact_mod_cast (by omega : 0 < b)
  have hr0 : (0 : ℚ) < (1 / 2) / (b : ℚ) ^ p := by positivity
  have hy : (0 : ℚ) ≤ x + (1 / 2) / (b : ℚ) ^ p := by linarith
  have hp : fmt_prec (p : Int) = (p : Int) := by
    simp only [fmt_prec]
    split_ifs <;> omega
  have hs : fmt_sign (exactHost L) x = [] := by
    simp [fmt_sign, exact_lt, exact_lit, not_lt.2 hx]
  have hr : fmt_round (exactHost L) (b : Int) x (p : Int) = x + (1 / 2) / (b : ℚ) ^ p := by
    simp only [fmt_round, exact_lt, exact_lit, exact_add, exact_div, base_to_prec_exact, hp,
      Int.toNat_ofNat, one_mul, Int.cast_natCast]
    simp [not_lt.2 hx]
  have hfl : ((⌊x + (1 / 2) / (b : ℚ) ^ p⌋ : Int) : ℚ)
      = ((⌊x + (1 / 2) / (b : ℚ) ^ p⌋₊ : Nat) : ℚ) := by
    rw [← Int.natCast_floor_eq_floor hy, Int.cast_natCast]
  refine ⟨hs, ?_, ?_, ?_, hp⟩
  · simp only [fmt_zero, hr, exact_le, exact_floor, exact_lit, hfl]
    by_cases h0 : ⌊x + (1 / 2) / (b : ℚ) ^ p⌋₊ = 0
    · simp [h0]
    · have : ¬ (((⌊x + (1 / 2) / (b : ℚ) ^ p⌋₊ : Nat) : ℚ) ≤ 0) := by
        intro h
        apply h0
        exact_mod_cast le_antisymm h (by positivity)
      simp [h0, this]
  · intro fuel
    simp only [fmt_int, hr, exact_floor, hfl]
    rw [whole_digits_exact L b hb.1 fuel _ (by positivity), Nat.floor_natCast]
  · simp only [fmt_fracval, hr, exact_sub, exact_floor]
    rfl

/-- A call with room for every character lets the integer-part loop end by
itself: the digits stored are fewer than the iterations allowed. -/
theorem fmt_int_complete (H : Host α ρ) (base : Int) (x : α) (prec n : Int)
    (hroom : fmt_written H base x prec (fmt_fuel H base x prec n) = [] ∨
      ((fmt_written H base x prec (fmt_fuel H base x prec n)).length : Int) < n) :
    (fmt_int H base x prec (fmt_fuel H base x prec n)).length < fmt_fuel H base x prec n := by
  rcases hroom with h | h
  · simp only [fmt_written, List.append_eq_nil] at h
    rw [h.1.2.2]
    simp [fmt_fuel]
  · have : ((fmt_written H base x prec (fmt_fuel H base x prec n)).length : Int)
        ≥ (fmt_sign H x).length + (fmt_zero H base x prec).length
          + (fmt_int H base x prec (fmt_fuel H base x prec n)).length := by
      simp only [fmt_written, List.length_append, Nat.cast_add]
      omega
    have hf : ((fmt_fuel H base x prec n : Nat) : Int)
        = ((n - (fmt_sign H x).length - (fmt_zero H base x prec).length).toNat : Int) + 1 := by
      simp [fmt_fuel]
    omega

/-- In exact arithmetic the text of a successful call on a non-negative `x`
is read back as `y` truncated to `q` places, where `y = x + 0.5 / b^p` and `q`
is the precision left by the digits of the integer part of `y`. -/
theorem format_parse_exact {ρ : Type} (L : Libm ρ) (b p : Nat) (x : ℚ) (n : Int)
    (buf out : Int → Char) (hb : 2 ≤ b ∧ b ≤ 36) (hx : 0 ≤ x)
    (hok : convert_d_to_s (exactHost L) buf x (b : Int) (p : Int) n = some (RPN_OK, out)) :
    convert_s_to_d (exactHost L) (cstr out n.toNat 0) (b : Int)
      = some (((⌊x + (1 / 2) / (b : ℚ) ^ p⌋₊ : Nat) : ℚ)
          + ((⌊Int.fract (x + (1 / 2) / (b : ℚ) ^ p)
              * (b : ℚ) ^ (p - (Nat.digits b ⌊x + (1 / 2) / (b : ℚ) ^ p⌋₊).length)⌋ : Int) : ℚ)
            / (b : ℚ) ^ (p - (Nat.digits b ⌊x + (1 / 2) / (b : ℚ) ^ p⌋₊).length)) := by
  have hbi : (2 : Int) ≤ (b : Int) ∧ (b : Int) ≤ 36 := ⟨by omega, by omega⟩
  obtain ⟨hroom, ht⟩ := convert_d_to_s_text (exactHost L) buf x (b : Int) (p : Int) n out hok
  obtain ⟨hs, hz, hi, hf, hp⟩ := fmt_exact L b hb p x hx
  have hcomp := fmt_int_complete (exactHost L) (b : Int) x (p : Int) n hroom
  generalize hN : ⌊x + (1 / 2) / (b : ℚ) ^ p⌋₊ = N at hz hi ⊢
  generalize hfr : Int.fract (x + (1 / 2) / (b : ℚ) ^ p) = f at hf ⊢
  have hf0 : 0 ≤ f := by rw [← hfr]; exact Int.fract_nonneg _
  have hf1 : f < 1 := by rw [← hfr]; exact Int.fract_lt_one _
  have hD : fmt_int (exactHost L) (b : Int) x (p : Int) (fmt_fuel (exactHost L) (b : Int) x (p : Int) n)
      = (Nat.digits b N).map (fun (d : Nat) => tocharbase (d : Int) (b : Int)) := by
    rw [hi] at hcomp ⊢
    rw [List.take_of_length_le]
    simp only [List.length_map, List.length_take] at hcomp
    omega
  -- the integer part of the text
  have hIdig : ∀ c ∈ (fmt_zero (exactHost L) (b : Int) x (p : Int)
      ++ (Nat.digits b N).map (fun (d : Nat) => tocharbase (d : Int) (b : Int))).reverse,
      specIsDigit (b : Int) c = true := by
    intro c hc
    rw [← hD] at hc
    obtain ⟨d, hd⟩ := fmt_int_mem (exactHost L) (b : Int) x (p : Int) _ c hc
    rw [hd]
    exact (tocharbase_value (b : Int) hbi d).1
  have hIval : (fmt_zero (exactHost L) (b : Int) x (p : Int)
      ++ (Nat.digits b N).map (fun (d : Nat) => tocharbase (d : Int) (b : Int))).reverse ≠ [] ∧
      specInt (b : Int) (fmt_zero (exactHost L) (b : Int) x (p : Int)
      ++ (Nat.digits b N).map (fun (d : Nat) => tocharbase (d : Int) (b : Int))).reverse
        = (N : ℚ) := by
    rw [hz]
    by_cases h0 : N = 0
    · have z : digitQ '0' = 0 := by
        have : specDigitValue '0' = some 0 := by simp [specDigitValue]
        simp [digitQ, this]
      simp [h0, specInt_cons, specInt_nil, z]
    · simp only [h0, if_false, List.nil_append, ← List.map_reverse]
      constructor
      · simp [Nat.digits_ne_nil_iff_ne_zero, h0]
      · rw [specInt_digits b hb _ (fun d hd => Nat.digits_lt_base (by omega) hd),
          Nat.ofDigits_digits]
  -- the fraction
  generalize hq : p - (Nat.digits b N).length = q
  have hqi : ((p : Int) - ((Nat.digits b N).length : Int)).toNat = q := by omega
  have hFdig : ∀ c ∈ frac_digits (exactHost L) (b : Int) q f, specIsDigit (b : Int) c = true := by
    intro c hc
    obtain ⟨d, hd⟩ := frac_digits_mem (exactHost L) (b : Int) _ _ _ hc
    rw [hd]
    exact (tocharbase_value (b : Int) hbi d).1
  have hFval := frac_digits_exact L (b : Int) hbi q f hf0 hf1
  rw [Int.cast_natCast] at hFval
  have htext : fmt_text (exactHost L) (b : Int) x (p : Int)
      (fmt_fuel (exactHost L) (b : Int) x (p : Int) n)
      = (fmt_zero (exactHost L) (b : Int) x (p : Int)
          ++ (Nat.digits b N).map (fun (d : Nat) => tocharbase (d : Int) (b : Int))).reverse
        ++ point_text (exactHost L) (b : Int) f ((p : Int) - ((Nat.digits b N).length : Int)) := by
    simp only [fmt_text, hs, hD, hf, hp, List.length_map, List.nil_append]
  rw [ht, htext]
  by_cases hc : (p : Int) - ((Nat.digits b N).length : Int) ≤ 0 ∨
      keep (frac_digits (exactHost L) (b : Int) q f) = 0
  · have hpt : point_text (exactHost L) (b : Int) f
        ((p : Int) - ((Nat.digits b N).length : Int)) = [] := by
      simp only [point_text, hqi, hc, if_true]
    have hg : ((⌊f * (b : ℚ) ^ q⌋ : Int) : ℚ) / (b : ℚ) ^ q = 0 := by
      rw [← hFval, ← specFrac_take_keep]
      rcases hc with h | h
      · have : q = 0 := by omega
        subst this
        simp [frac_digits, keep, specFrac_nil]
      · rw [h]; simp [specFrac_nil]
    rw [hpt, List.append_nil, hg, add_zero,
      convert_s_to_d_int L (b : Int) hbi _ hIval.1 hIdig, hIval.2]
  · have hpt : point_text (exactHost L) (b : Int) f
        ((p : Int) - ((Nat.digits b N).length : Int))
        = '.' :: (frac_digits (exactHost L) (b : Int) q f).take
            (keep (frac_digits (exactHost L) (b : Int) q f)) := by
      simp only [point_text, hqi, hc, if_false]
    rw [hpt, convert_s_to_d_point L (b : Int) _ _ hbi hIdig
      (fun c hc => hFdig c (List.mem_of_mem_take hc)) (Or.inl hIval.1),
      hIval.2, specFrac_take_keep, hFval]

/-- C11, at the failing input: the text of 1.5 in base 10 with precision 1 is
`1` (the loop of the integer part decrements the precision for the digit it
stores, so no fraction digit is written although `0.5 * 10^-1` was added to
round to the first one), which is read back as 1, farther from 1.5 than
`0.5 * 10^-1`. -/
theorem format_parse_beyond_bound :
    (convert_d_to_s Q (fun _ => 'X') (3 / 2) 10 1 256).map (fun r => (r.1, cstr r.2 256 0))
      = some (RPN_OK, ['1']) ∧
    convert_s_to_d Q ['1'] 10 = some 1 ∧
    ¬ (|(1 : ℚ) - 3 / 2| ≤ (1 / 2) * ((10 : ℚ) ^ 1)⁻¹) := by
  refine ⟨by decide!, by decide!, ?_⟩
  norm_num [abs_le]

/-- What the round trip does achieve in exact arithmetic: for every base `b`
in 2..36, every precision `p ≥ 0`, every `x ≥ 0` and every call of `convert_d_to_s` that
returns `RPN_OK`, `convert_s_to_d` accepts the text and returns a value `v`
with `|v - x| ≤ b^-(p - k) - 0.5 * b^-p`, where `k` is the number of base-`b`
digits of the integer part of `x + 0.5 * b^-p` and `p - k` is 0 when `k > p`:
the digits of the integer part count against the precision.  When that
integer part is 0 (`x + 0.5 * b^-p < 1`) this is the bound `0.5 * b^-p`. -/
theorem format_parse_within {ρ : Type} (L : Libm ρ) (b p : Nat) (x : ℚ) (n : Int)
    (buf out : Int → Char) (hb : 2 ≤ b ∧ b ≤ 36) (hx : 0 ≤ x)
    (hok : convert_d_to_s (exactHost L) buf x (b : Int) (p : Int) n = some (RPN_OK, out)) :
    ∃ v, convert_s_to_d (exactHost L) (cstr out n.toNat 0) (b : Int) = some v ∧
      |v - x| ≤ ((b : ℚ) ^ (p - (Nat.digits b ⌊x + (1 / 2) / (b : ℚ) ^ p⌋₊).length))⁻¹
        - (1 / 2) / (b : ℚ) ^ p ∧
      (x + (1 / 2) / (b : ℚ) ^ p < 1 → |v - x| ≤ (1 / 2) / (b : ℚ) ^ p) := by
  have hb1 : (1 : ℚ) ≤ (b : ℚ) := by exact_mod_cast (by omega : 1 ≤ b)
  have hr0 : (0 : ℚ) < (1 / 2) / (b : ℚ) ^ p := by positivity
  have hy : (0 : ℚ) ≤ x + (1 / 2) / (b : ℚ) ^ p := by linarith
  have hmain : ∀ q : Nat, q ≤ p →
      |((⌊x + (1 / 2) / (b : ℚ) ^ p⌋₊ : Nat) : ℚ)
          + ((⌊Int.fract (x + (1 / 2) / (b : ℚ) ^ p) * (b : ℚ) ^ q⌋ : Int) : ℚ) / (b : ℚ) ^ q - x|
        ≤ ((b : ℚ) ^ q)⁻¹ - (1 / 2) / (b : ℚ) ^ p := by
    intro q hq
    have hBq : (0 : ℚ) < (b : ℚ) ^ q := by positivity
    have hBp : (0 : ℚ) < (b : ℚ) ^ p := by positivity
    have hpow : (b : ℚ) ^ q ≤ (b : ℚ) ^ p := pow_le_pow_right₀ hb1 hq
    have h2r : 2 * ((1 / 2) / (b : ℚ) ^ p) ≤ ((b : ℚ) ^ q)⁻¹ := by
      have e : 2 * ((1 / 2) / (b : ℚ) ^ p) = ((b : ℚ) ^ p)⁻¹ := by field_simp
      rw [e]
      exact inv_anti₀ hBq hpow
    have hsplit : ((⌊x + (1 / 2) / (b : ℚ) ^ p⌋₊ : Nat) : ℚ)
        + Int.fract (x + (1 / 2) / (b : ℚ) ^ p) = x + (1 / 2) / (b : ℚ) ^ p := by
      have h1 := Int.floor_add_fract (x + (1 / 2) / (b : ℚ) ^ p)
      have h2 : ((⌊x + (1 / 2) / (b : ℚ) ^ p⌋ : Int) : ℚ)
          = ((⌊x + (1 / 2) / (b : ℚ) ^ p⌋₊ : Nat) : ℚ) := by
        rw [← Int.natCast_floor_eq_floor hy, Int.cast_natCast]
      rw [← h2]; exact h1
    generalize Int.fract (x + (1 / 2) / (b : ℚ) ^ p) = f at hsplit ⊢
    have hg1 : ((⌊f * (b : ℚ) ^ q⌋ : Int) : ℚ) / (b : ℚ) ^ q ≤ f := by
      rw [div_le_iff₀ hBq]; exact Int.floor_le _
    have hg2 : f < ((⌊f * (b : ℚ) ^ q⌋ : Int) : ℚ) / (b : ℚ) ^ q + ((b : ℚ) ^ q)⁻¹ := by
      have := Int.lt_floor_add_one (f * (b : ℚ) ^ q)
      have e : ((⌊f * (b : ℚ) ^ q⌋ : Int) : ℚ) / (b : ℚ) ^ q + ((b : ℚ) ^ q)⁻¹
          = (((⌊f * (b : ℚ) ^ q⌋ : Int) : ℚ) + 1) / (b : ℚ) ^ q := by
        rw [add_div, one_div]
      rw [e, lt_div_iff₀ hBq]
      exact this
    rw [abs_le]
    constructor <;> linarith
  refine ⟨_, format_parse_exact L b p x n buf out hb hx hok, hmain _ (Nat.sub_le _ _), ?_⟩
  intro hlt
  have hN : ⌊x + (1 / 2) / (b : ℚ) ^ p⌋₊ = 0 := Nat.floor_eq_zero.2 hlt
  have := hmain (p - (Nat.digits b ⌊x + (1 / 2) / (b : ℚ) ^ p⌋₊).length) (Nat.sub_le _ _)
  rw [hN] at this ⊢
  simp only [Nat.digits_zero, List.length_nil, Nat.sub_zero] at this ⊢
  have e : ((b : ℚ) ^ p)⁻¹ - (1 / 2) / (b : ℚ) ^ p = (1 / 2) / (b : ℚ) ^ p := by
    field_simp; ring
  rw [e] at this
  exact this

/-- The round trip on 1/3 in base 10 with precision 3: the text `0.333` is read
back within `0.5 * 10^-3` of 1/3. -/
theorem format_parse_within_witness :
    ∃ out, convert_d_to_s Q (fun _ => 'X') (1 / 3) ((10 : Nat) : Int) ((3 : Nat) : Int) 8
        = some (RPN_OK, out) ∧
      ∃ v, convert_s_to_d Q (cstr out (8 : Int).toNat 0) ((10 : Nat) : Int) = some v ∧
        |v - 1 / 3| ≤ (((10 : Nat) : ℚ)
            ^ (3 - (Nat.digits 10 ⌊(1 / 3 : ℚ) + (1 / 2) / ((10 : Nat) : ℚ) ^ 3⌋₊).length))⁻¹
          - (1 / 2) / ((10 : Nat) : ℚ) ^ 3 ∧
        ((1 / 3 : ℚ) + (1 / 2) / ((10 : Nat) : ℚ) ^ 3 < 1 →
          |v - 1 / 3| ≤ (1 / 2) / ((10 : Nat) : ℚ) ^ 3) := by
  obtain ⟨out, ho, _⟩ := convert_d_to_s_of_room Q (fun _ => 'X') (1 / 3) 10 3 8 (by decide!)
  exact ⟨out, ho, format_parse_within zeroLibm 10 3 (1 / 3) 8 (fun _ => 'X') out (by decide)
    (by norm_num) ho⟩

/-! ## Division and formatting -/

/-- The operator `/` on a stack of at least two values whose top passes the
test `fabs(top) > DBL_MIN`: the two values are replaced by their quotient. -/
theorem divide_done (H : Host α ρ) (ds : DS α ρ) (h2 : 2 ≤ ds.next)
    (hd : H.lt (DBL_MIN H) (H.fabs (ds.stack (ds.next - 1))) = true) :
    rpncalc_op H ds "/".toList
      = (0, (ds_replace ds 2 (H.div (ds.stack (ds.next - 2)) (ds.stack (ds.next - 1)))).2) := by
  have hsel : select (compute_hash "/".toList) = some Op.divide := by decide
  have f1 : ¬ ((1 : Int) < 0 ∨ 1 ≥ ds.next) := by omega
  have f0 : ¬ ((0 : Int) < 0 ∨ 0 ≥ ds.next) := by omega
  have f2 : ¬ (ds.next < 2) := by omega
  have e : ds.next - 1 - 1 = ds.next - 2 := by ring
  simp only [rpncalc_op, hsel, rpncalc_case, ds_fromtop, f1, f0, if_false, sub_zero, hd,
    Bool.not_true, Bool.false_eq_true, lor, ds_replace, f2, e]
  rfl

/-- C18: in exact arithmetic, for every calculator initialised by `ds_init`
with room for at least two values (its base is 10), the line `5.0 2.0 /`
returns `RPN_OK` and leaves the single value 2.5 on the stack, and
`convert_d_to_s` of that value with base 10, precision 2 and `maxLength` 256
returns `RPN_OK` and leaves exactly the text `2.5`, whatever the buffer held
before. -/
theorem divide_then_format {ρ : Type} (L : Libm ρ) (stack : Int → ℚ) (size : Int)
    (buf : Int → Char) (hsize : 2 ≤ size) :
    ∃ ds0 S out,
      ds_init (exactHost L) stack size = some ds0 ∧ ds_base ds0 = 10 ∧
      rpncalc_eval (exactHost L) ds0 "5.0 2.0 /".toList = some (RPN_OK, S) ∧
      S.next = 1 ∧ S.stack 0 = 5 / 2 ∧
      convert_d_to_s (exactHost L) buf (S.stack 0) 10 2 256 = some (RPN_OK, out) ∧
      cstr out 256 0 = "2.5".toList := by
  obtain ⟨ds, hinit, hnext, hsz, hbase⟩ : ∃ ds0 : DS ℚ ρ,
      ds_init (exactHost L) stack size = some ds0 ∧ ds0.next = 0 ∧ ds0.size = size ∧
        ds0.base = 10 := by
    simp only [ds_init, if_neg (not_le.2 (by omega : 0 < size))]
    exact ⟨_, rfl, rfl, rfl, rfl⟩
  have hb : (2 : Int) ≤ 10 ∧ (10 : Int) ≤ 36 := by decide
  have hn0 : (0 : Int) ≠ ds.size := by omega
  have hn1 : (1 : Int) ≠ ds.size := by omega
  have v5 : specInt 10 ['5'] + specFrac 10 ['0'] = 5 := by
    simp [specInt, specFrac, List.range_succ, digitQ, specDigitValue]
  have v2 : specInt 10 ['2'] + specFrac 10 ['0'] = 2 := by
    simp [specInt, specFrac, List.range_succ, digitQ, specDigitValue]
  have c5 : convert_s_to_d (exactHost L) "5.0".toList 10 = some 5 := by
    rw [← v5]
    exact convert_s_to_d_point L 10 ['5'] ['0'] hb (by decide) (by decide) (by decide)
  have c2 : convert_s_to_d (exactHost L) "2.0".toList 10 = some 2 := by
    rw [← v2]
    exact convert_s_to_d_point L 10 ['2'] ['0'] hb (by decide) (by decide) (by decide)
  -- the state after each push
  have p1base : ds_base (ds_push ds 5).2 = 10 := by
    simp [ds_push, hn0, hnext, ds_base, hbase]
  have p2next : (ds_push (ds_push ds 5).2 2).2.next = 2 := by
    simp [ds_push, hn0, hn1, hnext]
  have p2s0 : (ds_push (ds_push ds 5).2 2).2.stack 0 = 5 := by
    simp [ds_push, hn0, hn1, hnext, store]
  have p2s1 : (ds_push (ds_push ds 5).2 2).2.stack 1 = 2 := by
    simp [ds_push, hn0, hn1, hnext, store]
  -- the three tokens
  have e1 : rpncalc_eval (exactHost L) ds "5.0".toList = some (RPN_OK, (ds_push ds 5).2) := by
    apply eval_literal_line _ _ _ _ (by decide) (by decide) (by decide)
    rw [ds_base, hbase]; exact c5
  have e2 : rpncalc_eval (exactHost L) (ds_push ds 5).2 "2.0".toList
      = some (RPN_OK, (ds_push (ds_push ds 5).2 2).2) := by
    apply eval_literal_line _ _ _ _ (by decide) (by decide) (by decide)
    rw [p1base]; exact c2
  have hlt : (exactHost L).lt (DBL_MIN (exactHost L)) ((exactHost L).fabs
      ((ds_push (ds_push ds 5).2 2).2.stack ((ds_push (ds_push ds 5).2 2).2.next - 1))) = true := by
    rw [p2next]
    have : (2 : Int) - 1 = 1 := by norm_num
    rw [this, p2s1]
    simp only [exactHost, DBL_MIN, decide_eq_true_eq]
    have h1 : (1 : ℚ) / 2 ^ 1022 ≤ 1 := by
      rw [div_le_one (by positivity)]
      exact one_le_pow₀ (by norm_num)
    have h2 : |(2 : ℚ)| = 2 := abs_of_pos (by norm_num)
    rw [h2]; linarith
  have e3 : rpncalc_eval (exactHost L) (ds_push (ds_push ds 5).2 2).2 "/".toList
      = some (RPN_OK, (ds_replace (ds_push (ds_push ds 5).2 2).2 2 (5 / 2)).2) := by
    apply eval_op_line_ok _ _ _ _ (by decide) (by decide) (by decide) (by decide)
    rw [divide_done _ _ (by rw [p2next]) hlt, p2next]
    have a1 : (2 : Int) - 2 = 0 := by norm_num
    have a2 : (2 : Int) - 1 = 1 := by norm_num
    rw [a1, a2, p2s0, p2s1]
    rfl
  have hline : rpncalc_eval (exactHost L) ds "5.0 2.0 /".toList
      = some (RPN_OK, (ds_replace (ds_push (ds_push ds 5).2 2).2 2 (5 / 2)).2) := by
    have s1 : "5.0 2.0 /".toList = "5.0".toList ++ ' ' :: "2.0 /".toList := rfl
    have s2 : "2.0 /".toList = "2.0".toList ++ ' ' :: "/".toList := rfl
    rw [s1, rpncalc_eval_append _ _ _ _ _ _ (by decide) (by decide) e1,
      s2, rpncalc_eval_append _ _ _ _ _ _ (by decide) (by decide) e2, e3]
  have hSnext : (ds_replace (ds_push (ds_push ds 5).2 2).2 2 (5 / 2)).2.next = 1 := by
    simp [ds_replace, p2next]
  have hStop : (ds_replace (ds_push (ds_push ds 5).2 2).2 2 (5 / 2)).2.stack 0 = 5 / 2 := by
    simp [ds_replace, p2next, store]
  -- the text
  obtain ⟨i1, i2, i3⟩ := fmt_indep L 10 (5 / 2) 2
  obtain ⟨out, ho, ht⟩ := convert_d_to_s_of_room (exactHost L) buf (5 / 2) 10 2 256
    (by rw [i3, i2]; decide!)
  have htext : fmt_text Q 10 (5 / 2) 2 (fmt_fuel Q 10 (5 / 2) 2 256) = "2.5".toList := by
    decide!
  refine ⟨ds, _, out, hinit, by rw [ds_base, hbase], hline, hSnext, hStop, ?_, ?_⟩
  · rw [hStop]; exact ho
  · have : (256 : Int).toNat = 256 := rfl
    rw [this, i3, i1, htext] at ht
    exact ht

/-- C18, on a calculator of capacity 4 with the math library `zeroLibm`. -/
theorem divide_then_format_witness :
    (2 : Int) ≤ 4 ∧
    ∃ ds0 S out,
      ds_init Q (cells []) 4 = some ds0 ∧ ds_base ds0 = 10 ∧
      rpncalc_eval Q ds0 "5.0 2.0 /".toList = some (RPN_OK, S) ∧
      S.next = 1 ∧ S.stack 0 = 5 / 2 ∧
      convert_d_to_s Q (fun _ => 'X') (S.stack 0) 10 2 256 = some (RPN_OK, out) ∧
      cstr out 256 0 = "2.5".toList :=
  ⟨by decide, divide_then_format zeroLibm (cells []) 4 (fun _ => 'X') (by decide)⟩

/-- In exact arithmetic the text of a successful call is never empty: the
integer part is 0, which gives the leading zero, or at least 1, which gives a
digit. -/
theorem format_text_nonempty_exact {ρ : Type} (L : Libm ρ) (buf : Int → Char) (x : ℚ)
    (base prec n : Int) (out : Int → Char)
    (hok : convert_d_to_s (exactHost L) buf x base prec n = some (RPN_OK, out)) :
    cstr out n.toNat 0 ≠ [] := by
  rw [(convert_d_to_s_text (exactHost L) buf x base prec n out hok).2]
  have hf : ∃ k, fmt_fuel (exactHost L) base x prec n = k + 1 := ⟨_, rfl⟩
  obtain ⟨k, hk⟩ := hf
  rw [hk]
  have hzd : fmt_zero (exactHost L) base x prec ++ fmt_int (exactHost L) base x prec (k + 1)
      ≠ [] := by
    by_cases h : (exactHost L).le ((exactHost L).floor (fmt_round (exactHost L) base x prec))
        ((exactHost L).lit 0) = true
    · simp [fmt_zero, h]
    · have h1 : (exactHost L).le ((exactHost L).lit 1)
          ((exactHost L).floor (fmt_round (exactHost L) base x prec)) = true := by
        simp only [exact_le, exact_lit, exact_floor, decide_eq_true_eq, not_le] at h ⊢
        have : (0 : Int) < ⌊fmt_round (exactHost L) base x prec⌋ := by exact_mod_cast h
        exact_mod_cast (by omega : (1 : Int) ≤ ⌊fmt_round (exactHost L) base x prec⌋)
      simp [fmt_int, whole_digits, h1]
  intro h0
  simp only [fmt_text, List.append_eq_nil, List.reverse_eq_nil_iff] at h0
  exact hzd (by simpa using h0.1.2)

/-! ## Base and precision -/

/-- C25: for every state and every `b`, `ds_setbase(b)` returns `RPN_OK` if
and only if `2 ≤ b ≤ 36`; when it fails the state is unchanged; when it
succeeds the state differs from the old one only in `base` (now `b`),
`sigfig` (now `sigfig(b)`) and `prec` (the requested precision, lowered to
`sigfig(b)` if above it): the stack contents, `next`, `size`, the memory, the
six statistics fields and `n`, the requested precision, the angle mode and
the generators are unchanged. -/
theorem ds_setbase_spec (H : Host α ρ) (ds : DS α ρ) (b : Int) :
    ((ds_setbase H ds b).1 = RPN_OK ↔ (2 ≤ b ∧ b ≤ 36)) ∧
    ((ds_setbase H ds b).1 ≠ RPN_OK → ds_setbase H ds b = (RPN_ERROR, ds)) ∧
    ((ds_setbase H ds b).1 = RPN_OK →
      (ds_setbase H ds b).2 = { ds with
        base := b
        sigfig := sigfig H b
        prec := if ds.askprec > sigfig H b then sigfig H b else ds.askprec } ∧
      (ds_setbase H ds b).2.stack = ds.stack ∧ (ds_setbase H ds b).2.next = ds.next ∧
      (ds_setbase H ds b).2.size = ds.size ∧ (ds_setbase H ds b).2.mem = ds.mem ∧
      (ds_setbase H ds b).2.sumx = ds.sumx ∧ (ds_setbase H ds b).2.sumy = ds.sumy ∧
      (ds_setbase H ds b).2.sumxx = ds.sumxx ∧ (ds_setbase H ds b).2.sumyy = ds.sumyy ∧
      (ds_setbase H ds b).2.sumxy = ds.sumxy ∧ (ds_setbase H ds b).2.n = ds.n ∧
      (ds_setbase H ds b).2.askprec = ds.askprec ∧
      (ds_setbase H ds b).2.angle_unit = ds.angle_unit ∧
      (ds_setbase H ds b).2.urand = ds.urand ∧ (ds_setbase H ds b).2.nrand = ds.nrand ∧
      (ds_setbase H ds b).2.erand = ds.erand) := by
  by_cases h2 : b < 2
  · have : ds_setbase H ds b = (RPN_ERROR, ds) := by simp [ds_setbase, h2]
    rw [this]
    have ne : ¬ ((RPN_ERROR, ds).1 = RPN_OK) := by simp
    refine ⟨?_, fun _ => rfl, fun h => absurd h ne⟩
    constructor
    · intro h; exact absurd h ne
    · intro h; omega
  · by_cases h36 : b > 36
    · have : ds_setbase H ds b = (RPN_ERROR, ds) := by simp [ds_setbase, h2, h36]
      rw [this]
      have ne : ¬ ((RPN_ERROR, ds).1 = RPN_OK) := by simp
      refine ⟨?_, fun _ => rfl, fun h => absurd h ne⟩
      constructor
      · intro h; exact absurd h ne
      · intro h; omega
    · have : ds_setbase H ds b = (RPN_OK, { ds with
          base := b
          sigfig := sigfig H b
          prec := if ds.askprec > sigfig H b then sigfig H b else ds.askprec }) := by
        simp [ds_setbase, h2, h36]
      rw [this]
      refine ⟨?_, fun h => absurd rfl h, fun _ => ?_⟩
      · constructor
        · intro _; omega
        · intro _; rfl
      · exact ⟨rfl, rfl, rfl, rfl, rfl, rfl, rfl, rfl, rfl, rfl, rfl, rfl, rfl, rfl, rfl, rfl⟩

/-- C26: for every state, `ds_clear` returns `RPN_OK` and changes only `next`,
which becomes 0; `ds_allclear` returns `RPN_OK`, sets `next`, the memory and
the six statistics fields `sumx, sumy, sumxx, sumyy, sumxy, n` to 0 and leaves
the base, `sigfig`, the requested and the effective precision, the angle
mode, the capacity, the stack cells and the generators unchanged. -/
theorem ds_clear_allclear_spec (H : Host α ρ) (ds : DS α ρ) :
    ds_clear ds = (RPN_OK, { ds with next := 0 }) ∧
    ds_allclear H ds = (RPN_OK, { ds with
      next := 0, mem := H.lit 0, sumx := H.lit 0, sumy := H.lit 0, sumxx := H.lit 0,
      sumyy := H.lit 0, sumxy := H.lit 0, n := H.lit 0 }) ∧
    (ds_allclear H ds).2.base = ds.base ∧ (ds_allclear H ds).2.sigfig = ds.sigfig ∧
    (ds_allclear H ds).2.askprec = ds.askprec ∧ (ds_allclear H ds).2.prec = ds.prec ∧
    (ds_allclear H ds).2.angle_unit = ds.angle_unit ∧ (ds_allclear H ds).2.size = ds.size ∧
    (ds_allclear H ds).2.stack = ds.stack ∧ (ds_allclear H ds).2.urand = ds.urand ∧
    (ds_allclear H ds).2.nrand = ds.nrand ∧ (ds_allclear H ds).2.erand = ds.erand :=
  ⟨rfl, rfl, rfl, rfl, rfl, rfl, rfl, rfl, rfl, rfl, rfl, rfl⟩

/-- C24: for every double arithmetic, all bases `b1`, `b2` in 2..36 and every
requested precision `p ≥ 0`: after `ds_setbase(b1)` and `ds_setprec(p)` the
effective precision is `min(p, sigfig(b1))`, and after a following
`ds_setbase(b2)`, which returns `RPN_OK`, the requested precision is still
`p` and the effective precision is `min(p, sigfig(b2))`. -/
theorem requested_precision_survives (H : Host α ρ) (ds : DS α ρ) (b1 b2 p : Int)
    (hb1 : 2 ≤ b1 ∧ b1 ≤ 36) (hb2 : 2 ≤ b2 ∧ b2 ≤ 36) (hp : 0 ≤ p) :
    (ds_setprec (ds_setbase H ds b1).2 p).2.prec = min p (sigfig H b1) ∧
    (ds_setbase H (ds_setprec (ds_setbase H ds b1).2 p).2 b2).1 = RPN_OK ∧
    (ds_setbase H (ds_setprec (ds_setbase H ds b1).2 p).2 b2).2.base = b2 ∧
    (ds_setbase H (ds_setprec (ds_setbase H ds b1).2 p).2 b2).2.askprec = p ∧
    (ds_setbase H (ds_setprec (ds_setbase H ds b1).2 p).2 b2).2.prec = min p (sigfig H b2) := by
  have f1 : ¬ b1 < 2 := by omega
  have f2 : ¬ b1 > 36 := by omega
  have g1 : ¬ b2 < 2 := by omega
  have g2 : ¬ b2 > 36 := by omega
  have hp0 : ¬ p < 0 := by omega
  refine ⟨?_, ?_, ?_, ?_, ?_⟩
  · simp only [ds_setprec, ds_setbase, f1, f2, if_false, hp0]
    split_ifs with h
    · exact (min_eq_right (le_of_lt h)).symm
    · exact (min_eq_left (not_lt.1 h)).symm
  · simp [ds_setbase, g1, g2]
  · simp [ds_setbase, g1, g2]
  · simp [ds_setbase, ds_setprec, g1, g2]
  · simp only [ds_setprec, ds_setbase, g1, g2, if_false]
    split_ifs with h
    · exact (min_eq_right (le_of_lt h)).symm
    · exact (min_eq_left (not_lt.1 h)).symm

/-- C24, on the example: with `sigfig(16) = 13` and `sigfig(10) = 15`, the
request 14 made in base 16 is shown as 13 there and as 14 after the switch to
base 10. -/
theorem requested_precision_survives_witness :
    sigfig (exactHost logLibm) 16 = 13 ∧ sigfig (exactHost logLibm) 10 = 15 ∧
    (ds_setprec (ds_setbase (exactHost logLibm) (mkDS 4 0 (cells [])) 16).2 14).2.prec
      = min 14 (sigfig (exactHost logLibm) 16) ∧
    (ds_setbase (exactHost logLibm)
      (ds_setprec (ds_setbase (exactHost logLibm) (mkDS 4 0 (cells [])) 16).2 14).2 10).2.prec
      = min 14 (sigfig (exactHost logLibm) 10) :=
  ⟨by decide!, by decide!,
    (requested_precision_survives (exactHost logLibm) (mkDS 4 0 (cells [])) 16 10 14
      (by decide) (by decide) (by decide)).1,
    (requested_precision_survives (exactHost logLibm) (mkDS 4 0 (cells [])) 16 10 14
      (by decide) (by decide) (by decide)).2.2.2.2⟩

/-- While every requested precision is non-negative, the effective precision
is the clamped request after any sequence of the two setters. -/
theorem prec_clamped_of_nonneg_requests (H : Host α ρ)
    (hsf : ∀ b : Int, 2 ≤ b → b ≤ 36 → 0 ≤ sigfig H b) (cs : List Setter)
    (hcs : ∀ p, Setter.setprec p ∈ cs → 0 ≤ p) :
    ∀ ds : DS α ρ, 0 ≤ ds.sigfig → 0 ≤ ds.askprec →
      ds.prec = specClamp ds.askprec 0 ds.sigfig →
      (runSetters H ds cs).prec
        = specClamp (runSetters H ds cs).askprec 0 (runSetters H ds cs).sigfig := by
  induction cs with
  | nil => intro ds _ _ h; exact h
  | cons c cs ih =>
    intro ds h1 h2 h3
    have hrest : ∀ p, Setter.setprec p ∈ cs → 0 ≤ p := fun p hp => hcs p (by simp [hp])
    have e : runSetters H ds (c :: cs) = runSetters H (Setter.run H ds c) cs := rfl
    rw [e]
    cases c with
    | setprec p =>
      have hp : 0 ≤ p := hcs p (by simp)
      apply ih hrest
      · exact h1
      · exact hp
      · simp only [Setter.run, ds_setprec, specClamp]
    | setbase b =>
      by_cases hb : 2 ≤ b ∧ b ≤ 36
      · have f1 : ¬ b < 2 := by omega
        have f2 : ¬ b > 36 := by omega
        apply ih hrest
        · simp only [Setter.run, ds_setbase, f1, f2, if_false]
          exact hsf b hb.1 hb.2
        · simp only [Setter.run, ds_setbase, f1, f2, if_false]
          exact h2
        · simp only [Setter.run, ds_setbase, f1, f2, if_false, specClamp]
          have := hsf b hb.1 hb.2
          split_ifs <;> omega
      · have : Setter.run H ds (Setter.setbase b) = ds := by
          simp only [Setter.run, ds_setbase]
          split_ifs <;> first | rfl | (exfalso; omega)
        rw [this]
        exact ih hrest ds h1 h2 h3

/-- C23, at the failing input: a negative request is clamped to 0 by
`ds_setprec`, but the next `ds_setbase` copies the request into the effective
precision and only lowers it to `sigfig`.  For every double arithmetic, state,
`p < 0` and base `b` in 2..36 with `sigfig(b) ≥ 0`, after `ds_setprec(p)` and
`ds_setbase(b)` the effective precision is `p`, not `clamp(p, 0, sigfig) = 0`;
so on the calculator initialised by `ds_init`, after `ds_setprec(-1)` and
`ds_setbase(10)`, `prec = -1` with `askprec = -1` and `sigfig = 15`. -/
theorem setbase_restores_negative_request :
    (∀ (α ρ : Type) (H : Host α ρ) (ds : DS α ρ) (p b : Int),
      p < 0 → 2 ≤ b → b ≤ 36 → 0 ≤ sigfig H b →
      (ds_setprec ds p).2.prec = 0 ∧
      (runSetters H ds [Setter.setprec p, Setter.setbase b]).askprec = p ∧
      (runSetters H ds [Setter.setprec p, Setter.setbase b]).sigfig = sigfig H b ∧
      (runSetters H ds [Setter.setprec p, Setter.setbase b]).prec = p ∧
      specClamp p 0 (sigfig H b) = 0) ∧
    (ds_init (exactHost logLibm) (cells []) 4).map
        (fun ds0 =>
          ((runSetters (exactHost logLibm) ds0 [Setter.setprec (-1), Setter.setbase 10]).askprec,
           (runSetters (exactHost logLibm) ds0 [Setter.setprec (-1), Setter.setbase 10]).sigfig,
           (runSetters (exactHost logLibm) ds0 [Setter.setprec (-1), Setter.setbase 10]).prec))
      = some (-1, 15, -1) ∧
    specClamp (-1) 0 15 = 0 := by
  refine ⟨?_, by decide!, by decide⟩
  intro α ρ H ds p b hp h2 h36 hsf
  have f1 : ¬ b < 2 := by omega
  have f2 : ¬ b > 36 := by omega
  have f3 : ¬ p > sigfig H b := by omega
  refine ⟨by simp [ds_setprec, hp], ?_, ?_, ?_, by simp [specClamp, hp]⟩
  · simp [runSetters, Setter.run, ds_setprec, ds_setbase, f1, f2]
  · simp [runSetters, Setter.run, ds_setprec, ds_setbase, f1, f2]
  · simp [runSetters, Setter.run, ds_setprec, ds_setbase, f1, f2, f3]

/-- On a calculator initialised by `ds_init`, while every requested precision
is non-negative, the effective precision is the clamped request. -/
theorem prec_clamped_after_init (H : Host α ρ)
    (hsf : ∀ b : Int, 2 ≤ b → b ≤ 36 → 0 ≤ sigfig H b) (stack : Int → α) (size : Int)
    (ds0 : DS α ρ) (h0 : ds_init H stack size = some ds0) (cs : List Setter)
    (hcs : ∀ p, Setter.setprec p ∈ cs → 0 ≤ p) :
    (runSetters H ds0 cs).prec
      = specClamp (runSetters H ds0 cs).askprec 0 (runSetters H ds0 cs).sigfig := by
  have h10 := hsf 10 (by decide) (by decide)
  unfold ds_init at h0
  split at h0
  · exact absurd h0 (by simp)
  · have e := Option.some.inj h0
    subst e
    apply prec_clamped_of_nonneg_requests H hsf cs hcs
    · exact h10
    · exact h10
    · simp only [specClamp]
      split_ifs <;> omega

/-! ## Help and quit -/

/-- C28: for every double arithmetic and state, a line whose first token is
the bare `?` (after leading white space; followed by the end of the line or
white space and anything) returns `RPN_HELP`, and one whose first token is the
bare `q` returns `RPN_QUIT`, in both cases with the state unchanged whatever
follows; a token of two or more characters, whatever its first character, is
never answered with `RPN_HELP` or `RPN_QUIT`: the body of the loop goes on to
the next token or returns `RPN_ERROR`, and a line made of this token alone
returns `RPN_OK` or `RPN_ERROR`. -/
theorem help_quit_spec (H : Host α ρ) (ds : DS α ρ) (ws rest tok after : List Char)
    (hws : ∀ c ∈ ws, isspace c = true)
    (hrest : ∀ c ∈ rest.head?, isnullspace c = true)
    (htok : ∀ c ∈ tok, isnullspace c = false) (hlen : 2 ≤ tok.length) :
    rpncalc_eval H ds (ws ++ '?' :: rest) = some (RPN_HELP, ds) ∧
    rpncalc_eval H ds (ws ++ 'q' :: rest) = some (RPN_QUIT, ds) ∧
    (∀ r, eval_token H ds (tok ++ after) = Sum.inl r → r.1 = RPN_ERROR) ∧
    (∃ S, rpncalc_eval H ds tok = some (RPN_OK, S) ∨
      rpncalc_eval H ds tok = some (RPN_ERROR, S)) := by
  have hnext : chr rest 0 = NUL ∨ isspace (chr rest 0) = true := by
    cases rest with
    | nil => left; rfl
    | cons c r =>
      have := hrest c (by simp)
      exact (isnullspace_iff c).1 this
  have hq : isspace '?' = false := by decide
  have hqq : isspace 'q' = false := by decide
  have key : ∀ (a : Char) (st : Int), isspace a = false → a ≠ NUL →
      (∀ S, eval_token H S (a :: rest) = Sum.inl (st, S)) →
      rpncalc_eval H ds (ws ++ a :: rest) = some (st, ds) := by
    intro a st ha han hev
    rw [rpncalc_eval, eval_loop_succ, skipwhite_all_space hws, skipwhite_of_head ha,
      if_neg (by simpa [chr] using han), hev]
  have tokfacts : ∀ (aft : List Char) (r : Int × DS α ρ),
      eval_token H ds (tok ++ aft) = Sum.inl r → r.1 = RPN_ERROR := by
    intro aft r hr
    rcases tok with _ | ⟨a, _ | ⟨b, t⟩⟩
    · simp at hlen
    · simp at hlen
    · obtain ⟨hb1, hb2⟩ := isnullspace_false (htok b (by simp))
      have n1 : ¬ (chr (a :: b :: t ++ aft) 0 = '?' ∧
          (chr (a :: b :: t ++ aft) 1 = NUL ∨ isspace (chr (a :: b :: t ++ aft) 1) = true)) := by
        simp [chr, hb1, hb2]
      have n2 : ¬ (chr (a :: b :: t ++ aft) 0 = 'q' ∧
          (chr (a :: b :: t ++ aft) 1 = NUL ∨ isspace (chr (a :: b :: t ++ aft) 1) = true)) := by
        simp [chr, hb1, hb2]
      unfold eval_token at hr
      rw [if_neg n1, if_neg n2] at hr
      simp only at hr
      split at hr
      · split at hr
        · exact absurd hr (by simp)
        · cases hr; rfl
      · exact absurd hr (by simp)
  refine ⟨?_, ?_, tokfacts after, ?_⟩
  · apply key '?' RPN_HELP hq (by decide)
    intro S
    have c1 : chr ('?' :: rest) 0 = '?' ∧
        (chr ('?' :: rest) 1 = NUL ∨ isspace (chr ('?' :: rest) 1) = true) :=
      ⟨rfl, by simpa [chr] using hnext⟩
    unfold eval_token
    rw [if_pos c1]
  · apply key 'q' RPN_QUIT hqq (by decide)
    intro S
    have c0 : ¬ (chr ('q' :: rest) 0 = '?' ∧
        (chr ('q' :: rest) 1 = NUL ∨ isspace (chr ('q' :: rest) 1) = true)) := by
      intro h
      have h1 : ('q' : Char) = '?' := h.1
      exact absurd h1 (by decide)
    have c1 : chr ('q' :: rest) 0 = 'q' ∧
        (chr ('q' :: rest) 1 = NUL ∨ isspace (chr ('q' :: rest) 1) = true) :=
      ⟨rfl, by simpa [chr] using hnext⟩
    unfold eval_token
    rw [if_neg c0, if_pos c1]
  · have hne : tok ≠ [] := by
      intro h; rw [h] at hlen; simp at hlen
    rw [eval_single_token H ds tok hne htok]
    cases h : eval_token H ds tok with
    | inl r =>
      have := tokfacts [] r (by simpa using h)
      exact ⟨r.2, Or.inr (by simp [← this])⟩
    | inr S => exact ⟨S, Or.inl rfl⟩

/-- C28, on the line `  ? 1 2 +`, on `q` alone and on the token `?base`, which
pushes the base. -/
theorem help_quit_spec_witness :
    (rpncalc_eval Q (mkDS 4 0 (cells [])) ("  ".toList ++ '?' :: " 1 2 +".toList)
        = some (RPN_HELP, mkDS 4 0 (cells [])) ∧
      rpncalc_eval Q (mkDS 4 0 (cells [])) ("  ".toList ++ 'q' :: " 1 2 +".toList)
        = some (RPN_QUIT, mkDS 4 0 (cells [])) ∧
      (∀ r, eval_token Q (mkDS 4 0 (cells [])) ("?base".toList ++ " 3".toList) = Sum.inl r →
        r.1 = RPN_ERROR) ∧
      (∃ S, rpncalc_eval Q (mkDS 4 0 (cells [])) "?base".toList = some (RPN_OK, S) ∨
        rpncalc_eval Q (mkDS 4 0 (cells [])) "?base".toList = some (RPN_ERROR, S))) ∧
    (rpncalc_eval Q (mkDS 4 0 (cells [])) "?base".toList).map
        (fun r => (r.1, r.2.next, r.2.stack 0)) = some (RPN_OK, 1, 10) :=
  ⟨help_quit_spec Q (mkDS 4 0 (cells [])) "  ".toList " 1 2 +".toList "?base".toList
      " 3".toList (by decide) (by decide) (by decide) (by decide),
    by decide!⟩

/-! ## The dispatch key -/

/-- Each `case` label is the key of one spelling of the vocabulary. -/
theorem vocabulary_keys : case_labels.map Prod.fst = vocabulary.map compute_hash := by
  decide

theorem vocabulary_tokens : ∀ s ∈ vocabulary, Token s ∧ s.length ≤ 6 := by
  have h : ∀ s ∈ vocabulary,
      (s ≠ [] ∧ s.all (fun c => !isnullspace c && decide (c.toNat < 128)) = true)
        ∧ s.length ≤ 6 := by
    decide
  intro s hs
  obtain ⟨⟨h1, h2⟩, h3⟩ := h s hs
  refine ⟨⟨h1, ?_⟩, h3⟩
  intro c hc
  have := List.all_eq_true.1 h2 c hc
  simpa using this

theorem char_of_toNat {a b : Char} (h : a.toNat = b.toNat) : a = b := by
  apply Char.ext
  apply UInt32.ext
  exact h

theorem toklen_token (t : List Char) (h : ∀ c ∈ t, isnullspace c = false) :
    toklen t = t.length := by
  induction t with
  | nil => rfl
  | cons c t ih =>
    simp only [toklen, h c (by simp), Bool.false_eq_true, if_false, List.length_cons]
    rw [ih (fun d hd => h d (by simp [hd]))]

/-- The key of a token: its first three characters, as far as it has them, in
the three high bytes, plus its length. -/
theorem compute_hash_token (t : List Char) (h : ∀ c ∈ t, isnullspace c = false) :
    compute_hash t = cint (chr t 0) * 2 ^ 24
      + (if 2 ≤ t.length then cint (chr t 1) * 2 ^ 16 else 0)
      + (if 3 ≤ t.length then cint (chr t 2) * 2 ^ 8 else 0) + t.length := by
  have hN : isnullspace NUL = true := by decide
  rcases t with _ | ⟨a, _ | ⟨b, _ | ⟨c, _ | ⟨d, r⟩⟩⟩⟩
  · have hz : cint NUL = 0 := rfl
    simp [compute_hash, chr, hN, hz]
  · have ha := h a (by simp)
    simp [compute_hash, chr, hN, ha]
  · have ha := h a (by simp)
    have hb := h b (by simp)
    simp [compute_hash, chr, hN, ha, hb]
  · have ha := h a (by simp)
    have hb := h b (by simp)
    have hc := h c (by simp)
    simp [compute_hash, chr, hN, ha, hb, hc]
  · have ha := h a (by simp)
    have hb := h b (by simp)
    have hc := h c (by simp)
    have hd := h d (by simp)
    have hr : toklen r = r.length := toklen_token r (fun e he => h e (by simp [he]))
    simp only [compute_hash, chr, List.getD_cons_zero, List.getD_cons_succ, ha, hb, hc, hd,
      Bool.false_eq_true, if_false, List.drop_succ_cons, List.drop_zero, hr, List.length_cons]
    have e2 : (2 : Nat) ≤ r.length + 1 + 1 + 1 + 1 := by omega
    have e3 : (3 : Nat) ≤ r.length + 1 + 1 + 1 + 1 := by omega
    simp only [e2, e3, if_true]
    push_cast
    ring

/-- The low byte of the key of a token is its length modulo 256. -/
theorem compute_hash_mod (t : List Char) (h : ∀ c ∈ t, isnullspace c = false) :
    compute_hash t % 256 = (t.length : Int) % 256 := by
  rw [compute_hash_token t h]
  have e24 : (2 : Int) ^ 24 = 16777216 := by norm_num
  have e16 : (2 : Int) ^ 16 = 65536 := by norm_num
  have e8 : (2 : Int) ^ 8 = 256 := by norm_num
  rw [e24, e16, e8]
  split_ifs <;> omega

/-- Tokens of at most 255 characters with the same key have the same length
and the same first three characters. -/
theorem compute_hash_decode (s t : List Char) (hs : Token s) (ht : Token t)
    (hsl : s.length ≤ 255) (htl : t.length ≤ 255) (h : compute_hash s = compute_hash t) :
    s.length = t.length ∧ s.take 3 = t.take 3 := by
  have hs1 : ∀ c ∈ s, isnullspace c = false := fun c hc => (hs.2 c hc).1
  have ht1 : ∀ c ∈ t, isnullspace c = false := fun c hc => (ht.2 c hc).1
  have hlen : s.length = t.length := by
    have h1 := compute_hash_mod s hs1
    have h2 := compute_hash_mod t ht1
    rw [h] at h1
    omega
  refine ⟨hlen, ?_⟩
  have e := h
  rw [compute_hash_token s hs1, compute_hash_token t ht1, hlen] at e
  have e24 : (2 : Int) ^ 24 = 16777216 := by norm_num
  have e16 : (2 : Int) ^ 16 = 65536 := by norm_num
  have e8 : (2 : Int) ^ 8 = 256 := by norm_num
  rw [e24, e16, e8] at e
  have bs : ∀ c ∈ s, 0 ≤ cint c ∧ cint c < 128 := fun c hc => by
    have := (hs.2 c hc).2
    simp only [cint]; omega
  have bt : ∀ c ∈ t, 0 ≤ cint c ∧ cint c < 128 := fun c hc => by
    have := (ht.2 c hc).2
    simp only [cint]; omega
  have inj : ∀ a b : Char, cint a = cint b → a = b := fun a b hab =>
    char_of_toNat (by simpa [cint] using hab)
  rcases s with _ | ⟨a, _ | ⟨b, _ | ⟨c, r⟩⟩⟩ <;>
    rcases t with _ | ⟨a1, _ | ⟨b1, _ | ⟨c1, r1⟩⟩⟩ <;>
    simp only [List.length_cons, List.length_nil] at hlen <;>
    try omega
  · rfl
  · have ha := bs a (by simp)
    have ha1 := bt a1 (by simp)
    simp [chr] at e
    rw [inj a a1 e]
  · have ha := bs a (by simp)
    have ha1 := bt a1 (by simp)
    have hb := bs b (by simp)
    have hb1 := bt b1 (by simp)
    simp [chr] at e
    have h1 : cint a = cint a1 := by omega
    have h2 : cint b = cint b1 := by omega
    rw [inj a a1 h1, inj b b1 h2]
  · have ha := bs a (by simp)
    have ha1 := bt a1 (by simp)
    have hb := bs b (by simp)
    have hb1 := bt b1 (by simp)
    have hc := bs c (by simp)
    have hc1 := bt c1 (by simp)
    simp [chr] at e
    have h1 : cint a = cint a1 := by omega
    have h2 : cint b = cint b1 := by omega
    have h3 : cint c = cint c1 := by omega
    simp [inj a a1 h1, inj b b1 h2, inj c c1 h3]

/-- A token of at most 255 characters that has a `case` label has the key,
the length and the first three characters of a spelling of the vocabulary. -/
theorem recognised_decode (t : List Char) (ht : Token t) (hl : t.length ≤ 255)
    (hsel : select (compute_hash t) ≠ none) :
    ∃ s ∈ vocabulary, compute_hash t = compute_hash s ∧ t.length = s.length ∧
      t.take 3 = s.take 3 := by
  have hmem : compute_hash t ∈ case_labels.map Prod.fst := by
    by_contra hno
    apply hsel
    rw [select, List.lookup_eq_none_iff]
    intro p hp
    simp only [bne_iff_ne, ne_eq]
    intro he
    exact hno (List.mem_map.2 ⟨p, hp, he.symm⟩)
  rw [vocabulary_keys] at hmem
  obtain ⟨s, hs, he⟩ := List.mem_map.1 hmem
  obtain ⟨hst, hs6⟩ := vocabulary_tokens s hs
  obtain ⟨h1, h2⟩ := compute_hash_decode t s ht hst hl (by omega) he.symm
  exact ⟨s, hs, he.symm, h1, h2⟩

/-- Every spelling of the vocabulary has a `case` label. -/
theorem vocabulary_recognised : ∀ s ∈ vocabulary, select (compute_hash s) ≠ none := by
  decide!

/-- C30 as the code has it: the token `duo` followed by 256 times `x`, 259
non-blank ASCII characters, has the key of the three-character operator `dup`
(the length 259 = 256 + 3 carries into the byte of the third character, and
`o + 1 = p`), and is dispatched as `dup`. -/
theorem long_token_takes_short_key :
    ("duo".toList ++ List.replicate 256 'x').length = 259 ∧
    (∀ c ∈ "duo".toList ++ List.replicate 256 'x', isnullspace c = false ∧ c.toNat < 128) ∧
    compute_hash ("duo".toList ++ List.replicate 256 'x') = compute_hash "dup".toList ∧
    select (compute_hash ("duo".toList ++ List.replicate 256 'x')) = some Op.dup ∧
    (rpncalc_op Q (mkDS 4 1 (cells [7])) ("duo".toList ++ List.replicate 256 'x')).1 = 0 ∧
    (rpncalc_op Q (mkDS 4 1 (cells [7])) ("duo".toList ++ List.replicate 256 'x')).2.next = 2 := by
  refine ⟨by decide!, by decide!, by decide!, by decide!, by decide!, by decide!⟩

/-- C30, amended: for every token `s` of length 1, 2 or 3 and every token `t`
of length 4 to 255 (characters other than NUL and white space),
`compute_hash(s)` differs from `compute_hash(t)`: the low byte of the key is
the length. -/
theorem short_keys_reserved (s t : List Char)
    (hs : ∀ c ∈ s, isnullspace c = false) (ht : ∀ c ∈ t, isnullspace c = false)
    (hsl : 1 ≤ s.length ∧ s.length ≤ 3) (htl : 4 ≤ t.length ∧ t.length ≤ 255) :
    compute_hash s ≠ compute_hash t := by
  intro h
  have h1 := compute_hash_mod s hs
  have h2 := compute_hash_mod t ht
  rw [h] at h1
  omega

/-- C30, amended, on `dup` and the token `duo` followed by 252 times `x`, of
length 255. -/
theorem short_keys_reserved_witness :
    compute_hash "dup".toList ≠ compute_hash ("duo".toList ++ List.replicate 252 'x') :=
  short_keys_reserved "dup".toList ("duo".toList ++ List.replicate 252 'x')
    (by decide) (by decide!) (by decide) (by decide!)

/-- C29 as the code has it: the token `swat` is no operator spelling, yet it
has the key of `swap` (same first three characters, same length) and is
executed as `swap`. -/
theorem token_matched_by_key_only :
    "swat".toList ∉ vocabulary ∧
    select (compute_hash "swat".toList) = some Op.swap ∧
    (rpncalc_op Q (mkDS 4 2 (cells [1, 2])) "swat".toList).1 = RPN_OK ∧
    (rpncalc_op Q (mkDS 4 2 (cells [1, 2])) "swat".toList).2.stack 0 = 2 ∧
    (rpncalc_op Q (mkDS 4 2 (cells [1, 2])) "swat".toList).2.stack 1 = 1 := by
  refine ⟨by decide, by decide, by decide!, by decide!, by decide!⟩

/-- C29, amended: for every token `t` of at most 255 ASCII characters, if
`rpncalc_op` dispatches `t` to an operation (the key of `t` has a `case`
label) then some operator spelling `s` of the vocabulary has the same key,
the same length and the same first three characters as `t`; so a recognised
token of length 1, 2 or 3 is byte for byte an operator spelling, and a longer
one is matched on its first three characters and its length only. -/
theorem recognised_token_spelling (t : List Char) (ht : Token t) (hl : t.length ≤ 255)
    (hsel : select (compute_hash t) ≠ none) :
    ∃ s ∈ vocabulary, compute_hash t = compute_hash s ∧ t.length = s.length ∧
      t.take 3 = s.take 3 ∧ (t.length ≤ 3 → t = s) := by
  obtain ⟨s, hs, h1, h2, h3⟩ := recognised_decode t ht hl hsel
  refine ⟨s, hs, h1, h2, h3, ?_⟩
  intro h
  rw [List.take_of_length_le h, List.take_of_length_le (by omega)] at h3
  exact h3

/-- C29, amended, on `swat`: the spelling is `swap`. -/
theorem recognised_token_spelling_witness :
    ∃ s ∈ vocabulary, compute_hash "swat".toList = compute_hash s ∧
      "swat".toList.length = s.length ∧ "swat".toList.take 3 = s.take 3 ∧
      ("swat".toList.length ≤ 3 → "swat".toList = s) :=
  recognised_token_spelling "swat".toList ⟨by decide, by decide⟩ (by decide) (by decide)

/-! ## Literals are no operators -/

/-- The characters of a literal: a sign, a radix point or a digit of the base,
and at least one digit. -/
theorem specLiteral_chars (b : Int) (L : List Char) (h : specLiteral b L = true) :
    L ≠ [] ∧ (∀ c ∈ L, c = '+' ∨ c = '-' ∨ c = '.' ∨ specIsDigit b c = true) ∧
    ∃ c ∈ L, specIsDigit b c = true := by
  have body : ∀ s : List Char, specBody b s = true →
      (∀ c ∈ s, c = '.' ∨ specIsDigit b c = true) ∧ ∃ c ∈ s, specIsDigit b c = true := by
    intro s hs
    simp only [specBody, Bool.and_eq_true, List.all_eq_true, Bool.or_eq_true,
      decide_eq_true_eq, List.any_eq_true] at hs
    exact ⟨hs.1.1, hs.2⟩
  cases L with
  | nil => simp [specLiteral] at h
  | cons c s =>
    refine ⟨by simp, ?_⟩
    simp only [specLiteral] at h
    split at h
    · rename_i hc
      obtain ⟨h1, d, hd, hd2⟩ := body s h
      constructor
      · intro e he
        rcases List.mem_cons.1 he with rfl | he
        · rcases hc with hc | hc
          · exact Or.inl hc
          · exact Or.inr (Or.inl hc)
        · rcases h1 e he with h | h
          · exact Or.inr (Or.inr (Or.inl h))
          · exact Or.inr (Or.inr (Or.inr h))
      · exact ⟨d, by simp [hd], hd2⟩
    · obtain ⟨h1, d, hd, hd2⟩ := body (c :: s) h
      constructor
      · intro e he
        rcases h1 e he with h | h
        · exact Or.inr (Or.inr (Or.inl h))
        · exact Or.inr (Or.inr (Or.inr h))
      · exact ⟨d, hd, hd2⟩

theorem specIsDigit_36 (b : Int) (c : Char) (h : specIsDigit b c = true) :
    specIsDigit 36 c = true ∧ c.toNat < 128 := by
  simp only [specIsDigit, specDigitValue] at h ⊢
  have e0 : ('0' : Char).toNat = 48 := rfl
  have e9 : ('9' : Char).toNat = 57 := rfl
  have eA : ('A' : Char).toNat = 65 := rfl
  have eZ : ('Z' : Char).toNat = 90 := rfl
  rw [e0, e9, eA, eZ] at h ⊢
  by_cases h1 : 48 ≤ c.toNat ∧ c.toNat ≤ 57
  · simp only [h1, and_self, if_true, decide_eq_true_eq] at h ⊢
    omega
  · by_cases h2 : 65 ≤ c.toNat ∧ c.toNat ≤ 90
    · simp only [h1, if_false, h2, and_self, if_true, decide_eq_true_eq] at h ⊢
      omega
    · simp [h1, h2] at h

/-- A literal is a token. -/
theorem specLiteral_token (b : Int) (hb : 2 ≤ b ∧ b ≤ 36) (L : List Char)
    (h : specLiteral b L = true) : Token L := by
  obtain ⟨hne, hch, -⟩ := specLiteral_chars b L h
  refine ⟨hne, ?_⟩
  intro c hc
  rcases hch c hc with rfl | rfl | rfl | hd
  · exact ⟨by decide, by decide⟩
  · exact ⟨by decide, by decide⟩
  · exact ⟨by decide, by decide⟩
  · obtain ⟨h1, h2, -⟩ := digit_char_facts b hb c hd
    refine ⟨?_, (specIsDigit_36 b c hd).2⟩
    cases hn : isnullspace c with
    | false => rfl
    | true =>
      rcases (isnullspace_iff c).1 hn with h0 | h0
      · exact absurd h0 h1
      · rw [h2] at h0; exact absurd h0 (by simp)

/-- The spellings whose first three characters could begin a literal. -/
theorem vocabulary_literal_like : ∀ s ∈ vocabulary,
    (s.take 3).all (fun c => decide (c = '+') || decide (c = '-') || decide (c = '.')
      || specIsDigit 36 c) = true →
    s.length ≤ 2 ∧ s.all (fun c => decide (c = '+') || decide (c = '-') || decide (c = '.'))
      = true := by
  decide!

/-- In every base 2..36 a literal of at most 255 characters is no operator:
it is not the bare `?` or `q` and its key has no `case` label. -/
theorem literal_not_recognised (b : Int) (hb : 2 ≤ b ∧ b ≤ 36) (L : List Char)
    (h : specLiteral b L = true) (hl : L.length ≤ 255) : ¬ recognised L := by
  obtain ⟨hne, hch, d, hd, hdd⟩ := specLiteral_chars b L h
  obtain ⟨hdot, hplus, hminus, hexp⟩ := specIsDigit_special b
  have hnd : ∀ c : Char, (c = '+' ∨ c = '-' ∨ c = '.') → specIsDigit b c = false := by
    intro c hc
    rcases hc with rfl | rfl | rfl
    · exact hplus
    · exact hminus
    · exact hdot
  intro hr
  rcases hr with hr | hr | hr
  · subst hr
    rcases hch '?' (by simp) with h1 | h1 | h1 | h1
    · exact absurd h1 (by decide)
    · exact absurd h1 (by decide)
    · exact absurd h1 (by decide)
    · simp [specIsDigit, specDigitValue] at h1
  · subst hr
    rcases hch 'q' (by simp) with h1 | h1 | h1 | h1
    · exact absurd h1 (by decide)
    · exact absurd h1 (by decide)
    · exact absurd h1 (by decide)
    · simp [specIsDigit, specDigitValue] at h1
  · obtain ⟨s, hs, -, hlen, htake⟩ :=
      recognised_decode L (specLiteral_token b hb L h) hl hr
    have hall : (s.take 3).all (fun c => decide (c = '+') || decide (c = '-')
        || decide (c = '.') || specIsDigit 36 c) = true := by
      rw [← htake, List.all_eq_true]
      intro c hc
      rcases hch c (List.mem_of_mem_take hc) with h1 | h1 | h1 | h1
      · simp [h1]
      · simp [h1]
      · simp [h1]
      · simp [(specIsDigit_36 b c h1).1]
    obtain ⟨h2, hsig⟩ := vocabulary_literal_like s hs hall
    have hLs : L = s := by
      rw [List.take_of_length_le (by omega), List.take_of_length_le (by omega)] at htake
      exact htake
    rw [← hLs] at hsig
    have := List.all_eq_true.1 hsig d hd
    simp only [Bool.or_eq_true, decide_eq_true_eq] at this
    have hf := hnd d (by tauto)
    rw [hf] at hdd
    exact absurd hdd (by simp)

/-! ## A literal as long as the key allows -/

theorem minus_one_zeros_token (m : Nat) :
    ∀ c ∈ '-' :: '1' :: List.replicate m '0', isnullspace c = false := by
  intro c hc
  simp only [List.mem_cons, List.mem_replicate] at hc
  rcases hc with rfl | rfl | ⟨-, rfl⟩ <;> decide

/-- The literal `-1` followed by `m` zeros is a literal of base 16. -/
theorem minus_one_zeros_literal (m : Nat) :
    specLiteral 16 ('-' :: '1' :: List.replicate m '0') = true := by
  have d0 : specIsDigit 16 '0' = true := by decide
  have d1 : specIsDigit 16 '1' = true := by decide
  have hall : ('1' :: List.replicate m '0').all
      (fun c => decide (c = '.') || specIsDigit 16 c) = true := by
    rw [List.all_eq_true]
    intro c hc
    simp only [List.mem_cons, List.mem_replicate] at hc
    rcases hc with rfl | ⟨-, rfl⟩
    · simp [d1]
    · simp [d0]
  have hcount : ('1' :: List.replicate m '0').count '.' = 0 := by
    rw [List.count_eq_zero]
    intro hc
    simp only [List.mem_cons, List.mem_replicate] at hc
    rcases hc with h | ⟨-, h⟩
    · exact absurd h (by decide)
    · exact absurd h (by decide)
  have hany : ('1' :: List.replicate m '0').any (fun c => specIsDigit 16 c) = true := by
    rw [List.any_cons, d1]; rfl
  simp only [specLiteral, true_or, or_true, if_true, specBody, hall, hcount, hany]
  decide

/-- The key of the literal `-1` followed by `m + 1` zeros. -/
theorem minus_one_zeros_key (m : Nat) :
    compute_hash ('-' :: '1' :: List.replicate (m + 1) '0')
      = 45 * 2 ^ 24 + 49 * 2 ^ 16 + 48 * 2 ^ 8 + ((m : Int) + 3) := by
  rw [compute_hash_token _ (minus_one_zeros_token (m + 1))]
  have hlen : ('-' :: '1' :: List.replicate (m + 1) '0').length = m + 3 := by
    rw [List.length_cons, List.length_cons, List.length_replicate]
  have c0 : cint (chr ('-' :: '1' :: List.replicate (m + 1) '0') 0) = 45 := rfl
  have c1 : cint (chr ('-' :: '1' :: List.replicate (m + 1) '0') 1) = 49 := rfl
  have c2 : cint (chr ('-' :: '1' :: List.replicate (m + 1) '0') 2) = 48 := by
    rw [List.replicate_succ]; rfl
  rw [c0, c1, c2, hlen]
  have e2 : (2 : Nat) ≤ m + 3 := by omega
  have e3 : (3 : Nat) ≤ m + 3 := by omega
  simp only [e2, e3, if_true]
  push_cast
  ring

/-- On a non-empty stack, a token with the key of `.` after `hex` is executed
as `drop`. -/
theorem hex_then_drop_key (H : Host α ρ) (ds : DS α ρ) (t : List Char)
    (hne : t ≠ []) (htok : ∀ c ∈ t, isnullspace c = false)
    (h1 : t ≠ ['?']) (h2 : t ≠ ['q'])
    (hsel : select (compute_hash t) = some Op.drop) (hnext : ds.next ≠ 0) :
    rpncalc_eval H ds ("hex".toList ++ ' ' :: t)
      = some (RPN_OK, { (ds_setbase H ds 16).2 with next := ds.next - 1 }) := by
  have hselx : select (compute_hash "hex".toList) = some Op.hex := by decide
  have hset : ds_setbase H ds 16 = (RPN_OK, { ds with
      base := 16
      sigfig := sigfig H 16
      prec := if ds.askprec > sigfig H 16 then sigfig H 16 else ds.askprec }) := by
    simp [ds_setbase]
  have e1 : rpncalc_eval H ds "hex".toList = some (RPN_OK, (ds_setbase H ds 16).2) := by
    apply eval_op_line_ok _ _ _ _ (by decide) (by decide) (by decide) (by decide)
    simp only [rpncalc_op, hselx, rpncalc_case, hset]
  have e2 : rpncalc_eval H (ds_setbase H ds 16).2 t
      = some (RPN_OK, { (ds_setbase H ds 16).2 with next := ds.next - 1 }) := by
    apply eval_op_line_ok _ _ _ _ hne htok h1 h2
    simp only [rpncalc_op, hsel, rpncalc_case, hset, ds_drop, hnext, if_false]
  rw [rpncalc_eval_append _ _ _ _ _ _ (by decide) (by decide) e1, e2]

/-- C27 as the code has it: the base-16 literal `-1` followed by 13553663
zeros has the key of the operator `.` (its length 13553665 carries through
the bytes of the second and third character into the byte of the first, and
`'-' + 1 = '.'`), so on a stack holding one value the line `hex` followed by
this literal returns `RPN_OK` having dropped the value instead of pushing the
literal. -/
theorem giant_literal_taken_as_drop :
    specLiteral 16 ('-' :: '1' :: List.replicate 13553663 '0') = true ∧
    ('-' :: '1' :: List.replicate 13553663 '0').length = 13553665 ∧
    compute_hash ('-' :: '1' :: List.replicate 13553663 '0') = compute_hash ".".toList ∧
    select (compute_hash ('-' :: '1' :: List.replicate 13553663 '0')) = some Op.drop ∧
    (rpncalc_eval Q (mkDS 4 1 (cells [7]))
        ("hex".toList ++ ' ' :: '-' :: '1' :: List.replicate 13553663 '0')).map
      (fun r => (r.1, r.2.base, r.2.next)) = some (RPN_OK, 16, 0) := by
  have hkey : compute_hash ('-' :: '1' :: List.replicate 13553663 '0') = 771751937 := by
    have := minus_one_zeros_key 13553662
    norm_num at this
    exact this
  have hdot : compute_hash ".".toList = 771751937 := by decide
  have hsel : select (compute_hash ('-' :: '1' :: List.replicate 13553663 '0'))
      = some Op.drop := by
    rw [hkey]; decide
  have hlen : ('-' :: '1' :: List.replicate 13553663 '0').length = 13553665 := by
    have h : ('-' :: '1' :: List.replicate 13553663 '0').length
        = (List.replicate 13553663 '0').length + 1 + 1 := by
      rw [List.length_cons, List.length_cons]
    rw [h, List.length_replicate]
  refine ⟨minus_one_zeros_literal 13553663, hlen, by rw [hkey, hdot], hsel, ?_⟩
  rw [hex_then_drop_key Q (mkDS 4 1 (cells [7])) ('-' :: '1' :: List.replicate 13553663 '0')
    (List.cons_ne_nil _ _) (minus_one_zeros_token 13553663)
    (fun h => absurd (List.cons.inj h).1 (by decide))
    (fun h => absurd (List.cons.inj h).1 (by decide)) hsel (by decide)]
  simp [ds_setbase, mkDS]

/-- C27, amended: for every double arithmetic, every state whose stack is not
full, whatever its base, and every literal `L` of base 16 of at most 255
characters: `convert_s_to_d` reads `L` in base 16 as some value `x`, and the
line `hex L` returns `RPN_OK`, having set the base to 16 and then pushed `x`:
`next` has grown by one, the new top is `x` and the cells below are
unchanged. -/
theorem hex_then_literal (H : Host α ρ) (ds : DS α ρ) (L : List Char)
    (hfull : ds.next ≠ ds.size) (hL : specLiteral 16 L = true) (hl : L.length ≤ 255) :
    ∃ x, convert_s_to_d H L 16 = some x ∧
      rpncalc_eval H ds ("hex".toList ++ ' ' :: L)
        = some (RPN_OK, (ds_push (ds_setbase H ds 16).2 x).2) ∧
      (ds_push (ds_setbase H ds 16).2 x).2.base = 16 ∧
      (ds_push (ds_setbase H ds 16).2 x).2.next = ds.next + 1 ∧
      (ds_push (ds_setbase H ds 16).2 x).2.stack ds.next = x ∧
      ∀ i, i ≠ ds.next → (ds_push (ds_setbase H ds 16).2 x).2.stack i = ds.stack i := by
  have hb : (2 : Int) ≤ 16 ∧ (16 : Int) ≤ 36 := by decide
  obtain ⟨hne, htok⟩ := specLiteral_token 16 hb L hL
  have htok1 : ∀ c ∈ L, isnullspace c = false := fun c hc => (htok c hc).1
  have hsome := (convert_s_to_d_isSome_iff H 16 L hb hne htok1).2 hL
  obtain ⟨x, hx⟩ := Option.isSome_iff_exists.1 hsome
  have hsel : select (compute_hash "hex".toList) = some Op.hex := by decide
  have hset : ds_setbase H ds 16 = (RPN_OK, { ds with
      base := 16
      sigfig := sigfig H 16
      prec := if ds.askprec > sigfig H 16 then sigfig H 16 else ds.askprec }) := by
    simp [ds_setbase]
  have e1 : rpncalc_eval H ds "hex".toList = some (RPN_OK, (ds_setbase H ds 16).2) := by
    apply eval_op_line_ok _ _ _ _ (by decide) (by decide) (by decide) (by decide)
    simp only [rpncalc_op, hsel, rpncalc_case, hset]
  have e2 : rpncalc_eval H (ds_setbase H ds 16).2 L
      = some (RPN_OK, (ds_push (ds_setbase H ds 16).2 x).2) := by
    apply eval_literal_line _ _ _ _ hne htok1 (literal_not_recognised 16 hb L hL hl)
    rw [hset]
    exact hx
  refine ⟨x, hx, ?_, ?_, ?_, ?_, ?_⟩
  · rw [rpncalc_eval_append _ _ _ _ _ _ (by decide) (by decide) e1, e2]
  · simp [hset, ds_push, hfull]
  · simp [hset, ds_push, hfull]
  · simp [hset, ds_push, hfull, store]
  · intro i hi
    simp [hset, ds_push, hfull, store, hi]

/-- C27, amended, on the line `hex FF` from base 10: the value pushed is 255. -/
theorem hex_then_literal_witness :
    (∃ x, convert_s_to_d Q "FF".toList 16 = some x ∧
      rpncalc_eval Q (mkDS 4 0 (cells [])) ("hex".toList ++ ' ' :: "FF".toList)
        = some (RPN_OK, (ds_push (ds_setbase Q (mkDS 4 0 (cells [])) 16).2 x).2) ∧
      (ds_push (ds_setbase Q (mkDS 4 0 (cells [])) 16).2 x).2.base = 16 ∧
      (ds_push (ds_setbase Q (mkDS 4 0 (cells [])) 16).2 x).2.next
        = (mkDS 4 0 (cells [])).next + 1 ∧
      (ds_push (ds_setbase Q (mkDS 4 0 (cells [])) 16).2 x).2.stack (mkDS 4 0 (cells [])).next
        = x ∧
      ∀ i, i ≠ (mkDS 4 0 (cells [])).next →
        (ds_push (ds_setbase Q (mkDS 4 0 (cells [])) 16).2 x).2.stack i
          = (mkDS 4 0 (cells [])).stack i) ∧
    convert_s_to_d Q "FF".toList 16 = some 255 ∧
    (rpncalc_eval Q (mkDS 4 0 (cells [])) "hex FF".toList).map
      (fun r => (r.1, r.2.base, r.2.next, r.2.stack 0)) = some (RPN_OK, 16, 1, 255) :=
  ⟨hex_then_literal Q (mkDS 4 0 (cells [])) "FF".toList (by decide) (by decide) (by decide),
    by decide!, by decide!⟩

/-! ## Single values as points -/

/-- The loop of `xstat` in exact arithmetic, with `m` values left from index
`t` on: the count runs through `n, n + 1, ...` as the x values. -/
theorem xstat_loop_exact {ρ : Type} (L : Libm ρ) (m : Nat) :
    ∀ (fuel : Nat) (t : Int) (ds : DS ℚ ρ), ds.next = t + m → m ≤ fuel →
      xstat_loop (exactHost L) fuel t ds = { ds with
        sumx := ds.sumx + ((List.range m).map (fun (i : Nat) => ds.n + (i : ℚ))).sum
        sumy := ds.sumy + ((List.range m).map (fun (i : Nat) => ds.stack (t + (i : Int)))).sum
        sumxx := ds.sumxx + ((List.range m).map
          (fun (i : Nat) => (ds.n + (i : ℚ)) * (ds.n + (i : ℚ)))).sum
        sumyy := ds.sumyy + ((List.range m).map
          (fun (i : Nat) => ds.stack (t + (i : Int)) * ds.stack (t + (i : Int)))).sum
        sumxy := ds.sumxy + ((List.range m).map
          (fun (i : Nat) => (ds.n + (i : ℚ)) * ds.stack (t + (i : Int)))).sum
        n := ds.n + m } := by
  induction m with
  | zero =>
    intro fuel t ds hn _
    have hlt : ¬ t < ds.next := by rw [hn]; simp
    cases fuel with
    | zero => simp [xstat_loop]
    | succ f => simp [xstat_loop, hlt]
  | succ m ih =>
    intro fuel t ds hn hf
    cases fuel with
    | zero => omega
    | succ f =>
      have hlt : t < ds.next := by rw [hn]; push_cast; omega
      rw [xstat_loop, if_pos hlt, ih f (t + 1) _ (by simp only [hn]; push_cast; ring) (by omega)]
      have e : ∀ i : Nat, t + ((Nat.succ i : Nat) : Int) = t + 1 + (i : Int) := by
        intro i; push_cast; ring
      have e2 : ∀ i : Nat, ds.n + ((Nat.succ i : Nat) : ℚ) = ds.n + 1 + (i : ℚ) := by
        intro i; push_cast; ring
      simp only [List.sum_range_succ', e, e2, Nat.cast_zero, add_zero, exact_add, exact_mul,
        exact_ofInt, Int.cast_one]
      congr 1 <;> ring

/-- The operator `stat` on a stack of even, non-zero depth, for every double
arithmetic. -/
theorem stat_done (H : Host α ρ) (ds : DS α ρ) (k : Nat) (hk : 0 < k)
    (hn : ds.next = 2 * (k : Int)) :
    rpncalc_op H ds "stat".toList
      = (RPN_OK, { stat_loop H ds.next.toNat 0 ds with next := 0 }) := by
  have hsel : select (compute_hash "stat".toList) = some Op.stat := by decide
  have h0 : ¬ ((0 : Int) < 0 ∨ 0 ≥ ds.next) := by omega
  have h1 : ¬ ((1 : Int) < 0 ∨ 1 ≥ ds.next) := by omega
  have hmod : Int.tmod ds.next 2 = 0 := by
    rw [Int.tmod_eq_emod (by omega) (by omega)]; omega
  simp only [rpncalc_op, hsel, rpncalc_case, ds_fromtop, h0, h1, if_false, hmod, ne_eq,
    not_true_eq_false]

/-- The operator `xstat`, for every double arithmetic: it fails on an empty
stack and runs its loop otherwise. -/
theorem xstat_done (H : Host α ρ) (ds : DS α ρ) :
    rpncalc_op H ds "xstat".toList
      = if ds.next ≤ 0 then (RPN_ERROR, ds)
        else (RPN_OK, { xstat_loop H ds.next.toNat 0 ds with next := 0 }) := by
  have hsel : select (compute_hash "xstat".toList) = some Op.xstat := by decide
  have hop : rpncalc_op H ds "xstat".toList = rpncalc_case H ds Op.xstat := by
    simp only [rpncalc_op, hsel]
  rw [hop]
  by_cases h : ds.next ≤ 0
  · simp [rpncalc_case, ds_fromtop, h]
  · simp [rpncalc_case, ds_fromtop, h]

/-- C21: in exact arithmetic, for every state with count `n`: on an empty
stack `xstat` returns `RPN_ERROR` and changes nothing; on the non-empty stack
`[y0, ..., y(k-1)]` it returns `RPN_OK`, and so does `stat` on the stack of
the pairs `(n, y0), (n+1, y1), ..., (n+k-1, y(k-1))` with the same
statistics; the two resulting states have the same `sumx`, `sumy`, `sumxx`,
`sumyy`, `sumxy` and `n` and the same top, 0, and `xstat` changes nothing but
the statistics and the top. -/
theorem xstat_refines_stat {ρ : Type} (L : Libm ρ) (ds : DS ℚ ρ) :
    (ds.next ≤ 0 → rpncalc_op (exactHost L) ds "xstat".toList = (RPN_ERROR, ds)) ∧
    (0 < ds.next → ∃ S T,
      rpncalc_op (exactHost L) ds "xstat".toList = (RPN_OK, S) ∧
      rpncalc_op (exactHost L) (specPaired ds) "stat".toList = (RPN_OK, T) ∧
      S.sumx = T.sumx ∧ S.sumy = T.sumy ∧ S.sumxx = T.sumxx ∧ S.sumyy = T.sumyy ∧
      S.sumxy = T.sumxy ∧ S.n = T.n ∧ S.next = 0 ∧ T.next = 0 ∧
      S = { ds with sumx := S.sumx, sumy := S.sumy, sumxx := S.sumxx, sumyy := S.sumyy,
                    sumxy := S.sumxy, n := S.n, next := 0 }) := by
  constructor
  · intro h
    rw [xstat_done, if_pos h]
  · intro h
    obtain ⟨k, hk⟩ : ∃ k : Nat, ds.next = (k : Int) := ⟨ds.next.toNat, by omega⟩
    have hk0 : 0 < k := by omega
    have hx := xstat_loop_exact L k ds.next.toNat 0 ds (by omega) (by omega)
    have hs := stat_loop_exact L k (specPaired ds).next.toNat 0 (specPaired ds)
      (by simp only [specPaired]; omega) (by simp only [specPaired]; omega)
    have hsd := stat_done (exactHost L) (specPaired ds) k hk0 (by simp only [specPaired]; omega)
    have hev : ∀ i : Nat, specPairs ds.n ds.stack (0 + 2 * (i : Int)) = ds.n + (i : ℚ) := by
      intro i
      have e1 : (0 + 2 * (i : Int)) % 2 = 0 := by omega
      have e2 : (0 + 2 * (i : Int)) / 2 = (i : Int) := by omega
      simp only [specPairs, e1, if_true, e2, Int.cast_natCast]
    have hod : ∀ i : Nat, specPairs ds.n ds.stack (0 + 2 * (i : Int) + 1) = ds.stack (0 + (i : Int)) := by
      intro i
      have e1 : ¬ ((0 + 2 * (i : Int) + 1) % 2 = 0) := by omega
      have e2 : (0 + 2 * (i : Int) + 1) / 2 = 0 + (i : Int) := by omega
      simp only [specPairs, e1, if_false, e2]
    have hstack : (specPaired ds).stack = specPairs ds.n ds.stack := rfl
    have hsx : (specPaired ds).sumx = ds.sumx := rfl
    have hsy : (specPaired ds).sumy = ds.sumy := rfl
    have hsxx : (specPaired ds).sumxx = ds.sumxx := rfl
    have hsyy : (specPaired ds).sumyy = ds.sumyy := rfl
    have hsxy : (specPaired ds).sumxy = ds.sumxy := rfl
    have hsn : (specPaired ds).n = ds.n := rfl
    refine ⟨_, _, by rw [xstat_done, if_neg (by omega)], hsd, ?_, ?_, ?_, ?_, ?_, ?_, rfl, rfl, ?_⟩
    · simp only [hx, hs, hstack, hev, hsx]
    · simp only [hx, hs, hstack, hod, hsy]
    · simp only [hx, hs, hstack, hev, hsxx]
    · simp only [hx, hs, hstack, hod, hsyy]
    · simp only [hx, hs, hstack, hev, hod, hsxy]
    · simp only [hx, hs, hsn]
    · simp only [hx]

/-! ## The statistics registers along evaluation -/

/-- The line `-1 sqrt 1 stat` on a calculator set up by `ds_init`, in the
arithmetic with NaN: it returns `RPN_OK` with one point counted; the two
standard deviations are 0 and the three regression values are NaN. -/
theorem nan_point_trace :
    ((ds_init (nanHost zeroLibm) (fun _ => some 0) 4).bind
      (fun ds0 => rpncalc_eval (nanHost zeroLibm) ds0 "-1 sqrt 1 stat".toList)).map
      (fun r => (r.1, r.2.n, ds_stddev_x (nanHost zeroLibm) r.2, ds_stddev_y (nanHost zeroLibm) r.2))
    = some (RPN_OK, some 1, some 0, some 0) ∧
    ((ds_init (nanHost zeroLibm) (fun _ => some 0) 4).bind
      (fun ds0 => rpncalc_eval (nanHost zeroLibm) ds0 "-1 sqrt 1 stat".toList)).map
      (fun r => (ds_leastsq_a (nanHost zeroLibm) r.2, ds_leastsq_b (nanHost zeroLibm) r.2,
        ds_leastsq_r (nanHost zeroLibm) r.2))
    = some (none, none, none) := by
  constructor <;> decide!

/-- The state reached by the line `-1 sqrt 1 stat`, in the arithmetic with
NaN. -/
theorem nan_point_reachable :
    ∃ ds : DS (Option ℚ) Unit, Reachable (nanHost zeroLibm) ds ∧ ds.n = some 1 ∧
      ds_stddev_x (nanHost zeroLibm) ds = some 0 ∧ ds_stddev_y (nanHost zeroLibm) ds = some 0 ∧
      ds_leastsq_a (nanHost zeroLibm) ds = none ∧ ds_leastsq_b (nanHost zeroLibm) ds = none ∧
      ds_leastsq_r (nanHost zeroLibm) ds = none := by
  obtain ⟨h1, h2⟩ := nan_point_trace
  cases hi : ds_init (nanHost zeroLibm) (fun _ => some 0) 4 with
  | none => rw [hi] at h1; simp at h1
  | some ds0 =>
    rw [hi] at h1 h2
    rw [Option.some_bind] at h1 h2
    cases he : rpncalc_eval (nanHost zeroLibm) ds0 "-1 sqrt 1 stat".toList with
    | none => rw [he] at h1; simp at h1
    | some r =>
      rw [he] at h1 h2
      simp only [Option.map_some', Option.some.injEq, Prod.mk.injEq] at h1 h2
      exact ⟨r.2, Reachable.line ds0 _ r.1 r.2 (Reachable.init _ _ _ hi) he,
        h1.2.1, h1.2.2.1, h1.2.2.2, h2.1, h2.2.1, h2.2.2⟩

/-- C31: the 97 operator spellings handled by `rpncalc_op` are pairwise
distinct, each has a `case` label, and `compute_hash` gives them 97 distinct
keys: two different spellings never have the same key.  The spellings the
claim names (`sqrt`, `sinh`, `cosh`, `tanh`, `atan`, `atan2`, `log`, `logn`,
`tort`, `torad`, `toxy`, `todeg`) are among them. -/
theorem vocabulary_keys_distinct :
    vocabulary.length = 97 ∧ vocabulary.Nodup ∧
    (∀ s ∈ vocabulary, select (compute_hash s) ≠ none) ∧
    (vocabulary.map compute_hash).Nodup ∧
    (∀ s ∈ vocabulary, ∀ t ∈ vocabulary, s ≠ t → compute_hash s ≠ compute_hash t) ∧
    (∀ s ∈ ["sqrt", "sinh", "cosh", "tanh", "atan", "atan2", "log", "logn", "tort", "torad",
        "toxy", "todeg"], s.toList ∈ vocabulary) := by
  have hn : (vocabulary.map compute_hash).Nodup := by decide!
  refine ⟨by decide!, by decide!, by decide!, hn, ?_, by decide!⟩
  intro s hs t ht hst he
  exact hst (List.inj_on_of_nodup_map hn hs ht he)

/-! ## Literals and operators do not overlap -/

/-- C36: for every double arithmetic, every base `b` in 2..36, every state in
base `b` and every token of fewer than 256 characters that `convert_s_to_d`
accepts in base `b` with value `x`: `rpncalc_op` finds no `case` label for
the token and returns `RPN_ERROR` with the state unchanged, and, when the
stack is not full, the line made of this token returns `RPN_OK` having pushed
`x`: `next` grows by one, the new top cell holds `x`, the other cells and the
base are unchanged. -/
theorem literal_not_shadowed (H : Host α ρ) (ds : DS α ρ) (b : Int) (tok : List Char) (x : α)
    (hb : 2 ≤ b ∧ b ≤ 36) (hbase : ds.base = b) (hne : tok ≠ [])
    (htok : ∀ c ∈ tok, isnullspace c = false) (hl : tok.length < 256)
    (hx : convert_s_to_d H tok b = some x) :
    select (compute_hash tok) = none ∧
    rpncalc_op H ds tok = (RPN_ERROR, ds) ∧
    (ds.next ≠ ds.size →
      rpncalc_eval H ds tok = some (RPN_OK, (ds_push ds x).2) ∧
      (ds_push ds x).2.next = ds.next + 1 ∧
      (ds_push ds x).2.stack ds.next = x ∧
      (∀ i, i ≠ ds.next → (ds_push ds x).2.stack i = ds.stack i) ∧
      (ds_push ds x).2.base = b ∧ (ds_push ds x).2.size = ds.size) := by
  have hlit : specLiteral b tok = true :=
    (convert_s_to_d_isSome_iff H b tok hb hne htok).1 (by rw [hx]; rfl)
  have hnr : ¬ recognised tok := literal_not_recognised b hb tok hlit (by omega)
  have hsel : select (compute_hash tok) = none := by
    by_contra h
    exact hnr (Or.inr (Or.inr h))
  have hop : rpncalc_op H ds tok = (RPN_ERROR, ds) := by
    simp only [rpncalc_op, hsel]
  refine ⟨hsel, hop, fun hfull => ?_⟩
  have hx2 : convert_s_to_d H tok (ds_base ds) = some x := by
    rw [ds_base, hbase]; exact hx
  refine ⟨eval_literal_line H ds tok x hne htok hnr hx2, ?_, ?_, ?_, ?_, ?_⟩
  · simp [ds_push, hfull]
  · simp [ds_push, hfull, store]
  · intro i hi
    simp [ds_push, hfull, store, hi]
  · simp [ds_push, hfull, hbase]
  · simp [ds_push, hfull]

/-- C36, on the token `1A.8` in base 16 (hexadecimal 26.5) on the stack `[7]`. -/
theorem literal_not_shadowed_witness :
    (select (compute_hash "1A.8".toList) = none ∧
      rpncalc_op Q (ds_setbase Q (mkDS 4 1 (cells [7])) 16).2 "1A.8".toList
        = (RPN_ERROR, (ds_setbase Q (mkDS 4 1 (cells [7])) 16).2) ∧
      ((ds_setbase Q (mkDS 4 1 (cells [7])) 16).2.next
          ≠ (ds_setbase Q (mkDS 4 1 (cells [7])) 16).2.size →
        rpncalc_eval Q (ds_setbase Q (mkDS 4 1 (cells [7])) 16).2 "1A.8".toList
          = some (RPN_OK, (ds_push (ds_setbase Q (mkDS 4 1 (cells [7])) 16).2 (53 / 2)).2) ∧
        (ds_push (ds_setbase Q (mkDS 4 1 (cells [7])) 16).2 (53 / 2)).2.next
          = (ds_setbase Q (mkDS 4 1 (cells [7])) 16).2.next + 1 ∧
        (ds_push (ds_setbase Q (mkDS 4 1 (cells [7])) 16).2 (53 / 2)).2.stack
          (ds_setbase Q (mkDS 4 1 (cells [7])) 16).2.next = 53 / 2 ∧
        (∀ i, i ≠ (ds_setbase Q (mkDS 4 1 (cells [7])) 16).2.next →
          (ds_push (ds_setbase Q (mkDS 4 1 (cells [7])) 16).2 (53 / 2)).2.stack i
            = (ds_setbase Q (mkDS 4 1 (cells [7])) 16).2.stack i) ∧
        (ds_push (ds_setbase Q (mkDS 4 1 (cells [7])) 16).2 (53 / 2)).2.base = 16 ∧
        (ds_push (ds_setbase Q (mkDS 4 1 (cells [7])) 16).2 (53 / 2)).2.size
          = (ds_setbase Q (mkDS 4 1 (cells [7])) 16).2.size)) ∧
    (rpncalc_eval Q (ds_setbase Q (mkDS 4 1 (cells [7])) 16).2 "1A.8".toList).map
      (fun r => (r.1, r.2.next, r.2.stack 0, r.2.stack 1)) = some (RPN_OK, 2, 7, 53 / 2) :=
  ⟨literal_not_shadowed Q (ds_setbase Q (mkDS 4 1 (cells [7])) 16).2 16 "1A.8".toList (53 / 2)
      (by decide) (by decide) (by decide) (by decide) (by decide) (by decide!),
    by decide!⟩

/-! ## Evaluation of a line in two parts -/

/-- C35: for every double arithmetic, every state `S` and all lines `l1`
(a C string: no NUL inside) and `l2`: if `rpncalc_eval` of `l1` from `S`
returns `RPN_OK` with state `S1`, then `rpncalc_eval` of `l1`, a white-space
character (blank, tab, newline or carriage return) and `l2` from `S` returns
what `rpncalc_eval` of `l2` from `S1` returns, the same status and the same
final state, and both calls do return. -/
theorem eval_composes (H : Host α ρ) (S S1 : DS α ρ) (l1 l2 : List Char) (w : Char)
    (hnul : NUL ∉ l1) (hw : isspace w = true)
    (hok : rpncalc_eval H S l1 = some (RPN_OK, S1)) :
    ∃ r, rpncalc_eval H S1 l2 = some r ∧ rpncalc_eval H S (l1 ++ w :: l2) = some r := by
  obtain ⟨r, hr⟩ := rpncalc_eval_returns H S1 l2
  exact ⟨r, hr, by rw [rpncalc_eval_append H S S1 l1 l2 w hnul hw hok, hr]⟩

/-- C35, on the lines `1 2` and `+ 4` joined by a tab, from the empty stack:
both ways end with the stack `[3, 4]`. -/
theorem eval_composes_witness :
    (∃ r, rpncalc_eval Q (ds_push (ds_push (mkDS 4 0 (cells [])) 1).2 2).2 "+ 4".toList = some r ∧
      rpncalc_eval Q (mkDS 4 0 (cells [])) ("1 2".toList ++ '\t' :: "+ 4".toList) = some r) ∧
    (rpncalc_eval Q (mkDS 4 0 (cells [])) ("1 2".toList ++ '\t' :: "+ 4".toList)).map
      (fun r => (r.1, r.2.next, r.2.stack 0, r.2.stack 1)) = some (RPN_OK, 2, 3, 4) :=
  ⟨eval_composes Q (mkDS 4 0 (cells [])) (ds_push (ds_push (mkDS 4 0 (cells [])) 1).2 2).2
      "1 2".toList "+ 4".toList '\t' (by decide) (by decide) (by with_unfolding_all rfl),
    by decide!⟩

/-! ## The stack bound along evaluation -/

theorem bounded_push (ds : DS α ρ) (v : α) (hb : Bounded ds) : Bounded (ds_push ds v).2 :=
  (stack_ops_keep_bound ds v hb).1

theorem bounded_replace (ds : DS α ρ) (k : Int) (v : α) (hk : 1 ≤ k) (hb : Bounded ds) :
    Bounded (ds_replace ds k v).2 :=
  (stack_ops_keep_bound ds v hb).2.2.2.2.2.2.2 k hk

theorem bounded_drop (ds : DS α ρ) (hb : Bounded ds) : Bounded (ds_drop ds).2 :=
  (stack_ops_keep_bound ds (ds.stack 0) hb).2.2.2.2.2.1

theorem bounded_setbase (H : Host α ρ) (ds : DS α ρ) (b : Int) (hb : Bounded ds) :
    Bounded (ds_setbase H ds b).2 := by
  unfold ds_setbase; split_ifs <;> exact hb

theorem stat_loop_frame (H : Host α ρ) :
    ∀ (k : Nat) (t : Int) (ds : DS α ρ),
      (stat_loop H k t ds).size = ds.size ∧ (stat_loop H k t ds).next = ds.next := by
  intro k
  induction k with
  | zero => intro t ds; exact ⟨rfl, rfl⟩
  | succ k ih =>
    intro t ds
    rw [stat_loop]
    split_ifs
    · exact ih _ _
    · exact ⟨rfl, rfl⟩

theorem xstat_loop_frame (H : Host α ρ) :
    ∀ (k : Nat) (t : Int) (ds : DS α ρ),
      (xstat_loop H k t ds).size = ds.size ∧ (xstat_loop H k t ds).next = ds.next := by
  intro k
  induction k with
  | zero => intro t ds; exact ⟨rfl, rfl⟩
  | succ k ih =>
    intro t ds
    rw [xstat_loop]
    split_ifs
    · exact ih _ _
    · exact ⟨rfl, rfl⟩

theorem fromtop_some (ds : DS α ρ) (k : Int) (v : α) (h : ds_fromtop ds k = some v) :
    0 ≤ k ∧ k < ds.next := by
  unfold ds_fromtop at h
  split_ifs at h with c
  omega

/-- Every operator keeps `0 ≤ top ≤ capacity`, whatever it returns. -/
theorem bounded_case (H : Host α ρ) (ds : DS α ρ) (op : Op) (hb : Bounded ds) :
    Bounded (rpncalc_case H ds op).2 := by
  have hp := fun v => bounded_push ds v hb
  have h1 := fun v => bounded_replace ds 1 v le_rfl hb
  have h2 := fun v => bounded_replace ds 2 v (by norm_num) hb
  have hd := bounded_drop ds hb
  have b0 := hb.1
  have b1 := hb.2
  cases op <;>
    (simp only [rpncalc_case]
     repeat' split
     all_goals try simp only [lor]
     all_goals first
       | with_reducible exact hb
       | with_reducible exact hp _
       | with_reducible exact h1 _
       | with_reducible exact h2 _
       | with_reducible exact hd
       | (have f1 := fromtop_some ds 1 _ (by assumption)
          unfold Bounded
          simp only [ds_push]
          repeat' split
          all_goals try simp only []
          all_goals omega)
       | (have f0 := fromtop_some ds 0 _ (by assumption)
          unfold Bounded
          simp only []
          omega)
       | (unfold Bounded
          simp only [ds_clear, ds_allclear, ds_dup, ds_swap, ds_rot, ds_setprec, ds_setbase,
            ds_drop, ds_replace, ds_push, stat_loop_frame, xstat_loop_frame]
          repeat' split
          all_goals try simp only []
          all_goals omega))

theorem bounded_op (H : Host α ρ) (ds : DS α ρ) (tok : List Char) (hb : Bounded ds) :
    Bounded (rpncalc_op H ds tok).2 := by
  unfold rpncalc_op
  split
  · exact bounded_case H ds _ hb
  · exact hb

theorem bounded_token (H : Host α ρ) (ds : DS α ρ) (ptr : List Char) (hb : Bounded ds) :
    (∀ r, eval_token H ds ptr = Sum.inl r → Bounded r.2) ∧
    (∀ ds1, eval_token H ds ptr = Sum.inr ds1 → Bounded ds1) := by
  have hop := bounded_op H ds ptr hb
  unfold eval_token
  split_ifs with c1 c2
  · exact ⟨fun r e => by cases e; exact hb, fun d e => by cases e⟩
  · exact ⟨fun r e => by cases e; exact hb, fun d e => by cases e⟩
  · dsimp only
    by_cases c3 : (rpncalc_op H ds ptr).1 ≠ 0
    · rw [if_pos c3]
      cases hc : convert_s_to_d H ptr (ds_base ds) with
      | some x =>
        refine ⟨fun r e => (by cases e), fun d e => ?_⟩
        cases e
        exact bounded_push _ x hop
      | none => exact ⟨fun r e => by cases e; exact hop, fun d e => by cases e⟩
    · rw [if_neg c3]
      exact ⟨fun r e => (by cases e), fun d e => by cases e; exact hop⟩

theorem bounded_loop (H : Host α ρ) :
    ∀ (fuel : Nat) (ds : DS α ρ) (ptr : List Char) (r : Int × DS α ρ),
      Bounded ds → eval_loop H fuel ds ptr = some r → Bounded r.2 := by
  intro fuel
  induction fuel with
  | zero => intro ds ptr r _ e; simp [eval_loop] at e
  | succ k ih =>
    intro ds ptr r h e
    rw [eval_loop] at e
    split_ifs at e with c
    · cases e; exact h
    · obtain ⟨hl, hr⟩ := bounded_token H ds (skipwhite ptr) h
      cases ht : eval_token H ds (skipwhite ptr) with
      | inl r1 =>
        rw [ht] at e
        cases e
        exact hl _ ht
      | inr ds1 =>
        rw [ht] at e
        exact ih ds1 _ r (hr _ ht) e

theorem size_push (ds : DS α ρ) (v : α) : (ds_push ds v).2.size = ds.size := by
  unfold ds_push; split <;> rfl

theorem size_replace (ds : DS α ρ) (k : Int) (v : α) : (ds_replace ds k v).2.size = ds.size := by
  unfold ds_replace; split <;> rfl

theorem size_drop (ds : DS α ρ) : (ds_drop ds).2.size = ds.size := by
  unfold ds_drop; split <;> rfl

theorem size_dup (ds : DS α ρ) : (ds_dup ds).2.size = ds.size := by
  unfold ds_dup; split <;> rfl

theorem size_swap (ds : DS α ρ) : (ds_swap ds).2.size = ds.size := by
  unfold ds_swap; split <;> rfl

theorem size_rot (ds : DS α ρ) : (ds_rot ds).2.size = ds.size := by
  unfold ds_rot; split <;> rfl

theorem size_setbase (H : Host α ρ) (ds : DS α ρ) (b : Int) :
    (ds_setbase H ds b).2.size = ds.size := by
  unfold ds_setbase; split_ifs <;> rfl

theorem size_setprec (ds : DS α ρ) (p : Int) : (ds_setprec ds p).2.size = ds.size := rfl

theorem size_lor (r : Int × DS α ρ) : (lor r).2.size = r.2.size := rfl

/-- No operator changes the capacity. -/
theorem size_case (H : Host α ρ) (ds : DS α ρ) (op : Op) :
    (rpncalc_case H ds op).2.size = ds.size := by
  cases op <;> first
    | rfl
    | (simp only [rpncalc_case]
       repeat' split
       all_goals try simp only [size_lor, size_push, size_replace, size_drop, size_dup,
         size_swap, size_rot, size_setbase, size_setprec, stat_loop_frame, xstat_loop_frame])

theorem size_op (H : Host α ρ) (ds : DS α ρ) (tok : List Char) :
    (rpncalc_op H ds tok).2.size = ds.size := by
  unfold rpncalc_op
  split
  · exact size_case H ds _
  · rfl

/-- What the body of the loop returns from inside has status `RPN_ERROR`,
`RPN_HELP` or `RPN_QUIT` and the capacity it started with, and the state it
hands to the next iteration has that capacity too. -/
theorem size_token (H : Host α ρ) (ds : DS α ρ) (ptr : List Char) :
    (∀ r, eval_token H ds ptr = Sum.inl r →
      r.2.size = ds.size ∧ (r.1 = RPN_ERROR ∨ r.1 = RPN_HELP ∨ r.1 = RPN_QUIT)) ∧
    (∀ ds1, eval_token H ds ptr = Sum.inr ds1 → ds1.size = ds.size) := by
  have hop := size_op H ds ptr
  unfold eval_token
  split_ifs with c1 c2
  · exact ⟨fun r e => by cases e; exact ⟨rfl, Or.inr (Or.inl rfl)⟩, fun d e => by cases e⟩
  · exact ⟨fun r e => by cases e; exact ⟨rfl, Or.inr (Or.inr rfl)⟩, fun d e => by cases e⟩
  · dsimp only
    by_cases c3 : (rpncalc_op H ds ptr).1 ≠ 0
    · rw [if_pos c3]
      cases hc : convert_s_to_d H ptr (ds_base ds) with
      | some x =>
        refine ⟨fun r e => (by cases e), fun d e => ?_⟩
        cases e
        rw [size_push]; exact hop
      | none => exact ⟨fun r e => by cases e; exact ⟨hop, Or.inl rfl⟩, fun d e => by cases e⟩
    · rw [if_neg c3]
      exact ⟨fun r e => (by cases e), fun d e => by cases e; exact hop⟩

theorem size_loop (H : Host α ρ) :
    ∀ (fuel : Nat) (ds : DS α ρ) (ptr : List Char) (r : Int × DS α ρ),
      eval_loop H fuel ds ptr = some r →
      r.2.size = ds.size ∧
        (r.1 = RPN_OK ∨ r.1 = RPN_ERROR ∨ r.1 = RPN_HELP ∨ r.1 = RPN_QUIT) := by
  intro fuel
  induction fuel with
  | zero => intro ds ptr r e; simp [eval_loop] at e
  | succ k ih =>
    intro ds ptr r e
    rw [eval_loop] at e
    split_ifs at e with c
    · cases e; exact ⟨rfl, Or.inl rfl⟩
    · obtain ⟨hl, hr⟩ := size_token H ds (skipwhite ptr)
      cases ht : eval_token H ds (skipwhite ptr) with
      | inl r1 =>
        rw [ht] at e
        cases e
        exact ⟨(hl _ ht).1, Or.inr (hl _ ht).2⟩
      | inr ds1 =>
        rw [ht] at e
        obtain ⟨a, b⟩ := ih ds1 _ r e
        exact ⟨a.trans (hr _ ht), b⟩

/-- C34: for every double arithmetic, every state with `0 ≤ top ≤ capacity`
(whatever the capacity) and every line, `rpncalc_eval` returns a status and a
state that satisfies `0 ≤ top ≤ capacity` with the capacity unchanged,
whether the status is `RPN_OK`, `RPN_ERROR`, `RPN_HELP` or `RPN_QUIT`. -/
theorem eval_keeps_bound (H : Host α ρ) (ds : DS α ρ) (line : List Char) (hb : Bounded ds) :
    ∃ r, rpncalc_eval H ds line = some r ∧
      (r.1 = RPN_OK ∨ r.1 = RPN_ERROR ∨ r.1 = RPN_HELP ∨ r.1 = RPN_QUIT) ∧
      r.2.size = ds.size ∧ 0 ≤ r.2.next ∧ r.2.next ≤ r.2.size := by
  obtain ⟨r, hr⟩ := rpncalc_eval_returns H ds line
  have hs := size_loop H _ ds line r hr
  have hbd := bounded_loop H _ ds line r hb hr
  exact ⟨r, hr, hs.2, hs.1, hbd.1, hbd.2⟩

/-- C34, on the full stack `[1, 2]` of capacity 2 and the lines
`3 4 + dup dup` (the two pushes find the stack full, `+` adds 1 and 2, the
first `dup` fills the stack and the second fails: `RPN_ERROR`), `?` and
`drop drop drop q` (the third `drop` fails): top stays within 0..2. -/
theorem eval_keeps_bound_witness :
    (∃ r, rpncalc_eval Q (mkDS 2 2 (cells [1, 2])) "3 4 + dup dup".toList = some r ∧
      (r.1 = RPN_OK ∨ r.1 = RPN_ERROR ∨ r.1 = RPN_HELP ∨ r.1 = RPN_QUIT) ∧
      r.2.size = (mkDS 2 2 (cells [1, 2])).size ∧ 0 ≤ r.2.next ∧ r.2.next ≤ r.2.size) ∧
    (rpncalc_eval Q (mkDS 2 2 (cells [1, 2])) "3 4 + dup dup".toList).map
      (fun r => (r.1, r.2.next, r.2.size)) = some (RPN_ERROR, 2, 2) ∧
    (rpncalc_eval Q (mkDS 2 2 (cells [1, 2])) "?".toList).map
      (fun r => (r.1, r.2.next, r.2.size)) = some (RPN_HELP, 2, 2) ∧
    (rpncalc_eval Q (mkDS 2 2 (cells [1, 2])) "drop drop drop q".toList).map
      (fun r => (r.1, r.2.next, r.2.size)) = some (RPN_ERROR, 0, 2) :=
  ⟨eval_keeps_bound Q (mkDS 2 2 (cells [1, 2])) "3 4 + dup dup".toList
      ⟨by decide, by decide⟩,
    by decide!, by decide!, by decide!⟩

/-! ## One-shot evaluation -/

/-- C33, at the failing input: `rpncalc_eval_full` always gets its
calculator from `ds_init` with capacity `sizeof(stack)` = 80, the size in
bytes of an array of 10 doubles, and always returns; on the line
`1 2 3 4 5 6 7 8 9 10 11` the eleventh push is accepted and stores 11 at
index 10, past the last cell (index 9) of the array: the call returns 0, the
value popped is 11, and the final state has capacity 80, top 10 and the cell
of index 10, which held 0 on entry, holding 11. -/
theorem eval_full_capacity_in_bytes :
    eval_full_cells = 10 ∧
    (∀ (β σ : Type) (H : Host β σ) (stack : Int → β),
      ∃ ds, ds_init H stack (eval_full_cells * sizeof_double) = some ds ∧ ds.size = 80 ∧
        ds.next = 0 ∧ ds.stack = stack) ∧
    (∀ (β σ : Type) (H : Host β σ) (stack : Int → β) (ptr : List Char),
      ∃ r, rpncalc_eval_full H stack ptr = some r ∧ r.2.2.size = 80) ∧
    cells [] 10 = 0 ∧
    (rpncalc_eval_full Q (cells []) "1 2 3 4 5 6 7 8 9 10 11".toList).map
      (fun r => (r.1, r.2.1, r.2.2.size, r.2.2.next, r.2.2.stack 9, r.2.2.stack 10))
      = some (0, some 11, 80, 10, 10, 11) := by
  refine ⟨rfl, ?_, ?_, by decide, by decide!⟩
  · intro β σ H stack
    exact ⟨_, rfl, rfl, rfl, rfl⟩
  · intro β σ H stack ptr
    have hi : ∃ ds, ds_init H stack (eval_full_cells * sizeof_double) = some ds ∧ ds.size = 80 :=
      ⟨_, rfl, rfl⟩
    obtain ⟨ds, hds, hsz⟩ := hi
    obtain ⟨r, hr⟩ := rpncalc_eval_returns H ds ptr
    have hs := (size_loop H _ ds ptr r hr).1
    unfold rpncalc_eval_full
    rw [hds]
    simp only [hr]
    split_ifs
    · exact ⟨_, rfl, by simp only []; rw [hs, hsz]⟩
    · refine ⟨_, rfl, ?_⟩
      simp only [ds_pop]
      split_ifs <;> simp only [] <;> rw [hs, hsz]

/-! ## Room for the text -/

/-- The digits of the integer part with fewer iterations allowed are the
first ones of the digits with enough iterations. -/
theorem whole_digits_take (H : Host α ρ) (base : Int) (k : Nat) :
    ∀ (w : α), (whole_digits H base k w).length < k →
      ∀ k1, whole_digits H base k1 w = (whole_digits H base k w).take k1 := by
  induction k with
  | zero => intro w h; simp at h
  | succ k ih =>
    intro w h k1
    cases k1 with
    | zero => simp [whole_digits]
    | succ k1 =>
      by_cases hc : H.le (H.lit 1) w = true
      · simp only [whole_digits, hc, if_true, List.length_cons, List.take_succ_cons] at h ⊢
        rw [ih (H.div w (H.ofInt base)) (by omega) k1]
      · simp [whole_digits, hc]

/-- C37 as the code has it: `x = 0.5` in base 10 with precision 3 gives the
text `0.5` when there is room (here `maxLength = 8`); with `maxLength = 4`,
enough for `0.5` and its terminator, the call returns `RPN_ERROR`: it stores
`0`, `.`, `5` and a `0` that it would trim, and the room test after that
fourth character fails. -/
theorem format_fits_but_fails :
    (convert_d_to_s Q (fun _ => 'X') (1 / 2) 10 3 8).map (fun r => (r.1, cstr r.2 8 0))
      = some (RPN_OK, ['0', '.', '5']) ∧
    ((['0', '.', '5'].length : Int) + 1 ≤ 4) ∧
    (convert_d_to_s Q (fun _ => 'X') (1 / 2) 10 3 4).map (fun r => r.1) = some RPN_ERROR ∧
    fmt_written Q 10 (1 / 2) 3 (fmt_fuel Q 10 (1 / 2) 3 8) = ['0', '.', '5', '0', '0'] := by
  refine ⟨by decide!, by decide, by decide!, by decide!⟩

/-- C37, amended: for every double arithmetic, `x`, base and precision, if a
call of `convert_d_to_s` with some `maxLength = N` returns `RPN_OK` and
leaves the text `s`, and `w` is the list of all characters that call stores
(sign, integer digits or leading zero, point and fraction digits, the
trailing zeros it trims included), then every call with a `maxLength = n`
such that `length(w) + 1 ≤ n` returns `RPN_OK` and leaves the same text `s`,
whatever the buffer held before. -/
theorem format_succeeds_with_room (H : Host α ρ) (buf buf1 : Int → Char) (x : α)
    (base prec N n : Int) (out : Int → Char)
    (hok : convert_d_to_s H buf x base prec N = some (RPN_OK, out))
    (hn : ((fmt_written H base x prec (fmt_fuel H base x prec N)).length : Int) + 1 ≤ n) :
    ∃ out1, convert_d_to_s H buf1 x base prec n = some (RPN_OK, out1) ∧
      cstr out1 n.toNat 0 = cstr out N.toNat 0 := by
  obtain ⟨hroom, ht⟩ := convert_d_to_s_text H buf x base prec N out hok
  have hlen : ((fmt_written H base x prec (fmt_fuel H base x prec N)).length : Int)
      ≥ (fmt_sign H x).length + (fmt_zero H base x prec).length
        + (fmt_int H base x prec (fmt_fuel H base x prec N)).length := by
    simp only [fmt_written, List.length_append, Nat.cast_add]
    omega
  have hfuel : (whole_digits H base (fmt_fuel H base x prec N)
      (H.floor (fmt_round H base x prec))).length < fmt_fuel H base x prec N := by
    rcases hroom with h | h
    · have h0 : (fmt_int H base x prec (fmt_fuel H base x prec N)).length = 0 := by
        rw [h, List.length_nil] at hlen; omega
      simp only [fmt_int] at h0
      rw [h0]; simp [fmt_fuel]
    · simp only [fmt_int] at hlen
      simp only [fmt_fuel] at hlen h ⊢
      omega
  have hint : fmt_int H base x prec (fmt_fuel H base x prec n)
      = fmt_int H base x prec (fmt_fuel H base x prec N) := by
    simp only [fmt_int]
    rw [whole_digits_take H base _ _ hfuel (fmt_fuel H base x prec n)]
    apply List.take_of_length_le
    simp only [fmt_int] at hlen
    have hfn : fmt_fuel H base x prec n
        = (n - (fmt_sign H x).length - (fmt_zero H base x prec).length).toNat + 1 := rfl
    rw [hfn]
    omega
  have ew : fmt_written H base x prec (fmt_fuel H base x prec n)
      = fmt_written H base x prec (fmt_fuel H base x prec N) := by
    simp only [fmt_written, hint]
  have et : fmt_text H base x prec (fmt_fuel H base x prec n)
      = fmt_text H base x prec (fmt_fuel H base x prec N) := by
    simp only [fmt_text, hint]
  obtain ⟨out1, h1, h2⟩ := convert_d_to_s_of_room H buf1 x base prec n
    (Or.inr (by rw [ew]; omega))
  exact ⟨out1, h1, by rw [h2, et, ht]⟩

/-- C37, amended, for `x = 0.5` in base 10 with precision 3: the call stores
the five characters `0.500`, so `maxLength = 6` is enough and leaves `0.5`. -/
theorem format_succeeds_with_room_witness :
    ∃ out, convert_d_to_s Q (fun _ => 'X') (1 / 2) 10 3 8 = some (RPN_OK, out) ∧
      ((fmt_written Q 10 (1 / 2) 3 (fmt_fuel Q 10 (1 / 2) 3 8)).length : Int) + 1 ≤ 6 ∧
      ∃ out1, convert_d_to_s Q (fun _ => 'Y') (1 / 2) 10 3 6 = some (RPN_OK, out1) ∧
        cstr out1 (6 : Int).toNat 0 = cstr out (8 : Int).toNat 0 ∧
        cstr out1 (6 : Int).toNat 0 = ['0', '.', '5'] := by
  obtain ⟨out, ho, ht⟩ := convert_d_to_s_of_room Q (fun _ => 'X') (1 / 2) 10 3 8
    (by decide!)
  have hT : fmt_text Q 10 (1 / 2) 3 (fmt_fuel Q 10 (1 / 2) 3 8) = ['0', '.', '5'] := by decide!
  obtain ⟨out1, h1, h2⟩ := format_succeeds_with_room Q (fun _ => 'X') (fun _ => 'Y') (1 / 2)
    10 3 8 6 out ho (by decide!)
  exact ⟨out, ho, by decide!, out1, h1, h2, by rw [h2, ht, hT]⟩

/-! ## Factorial -/

theorem exact_fabs {ρ : Type} (L : Libm ρ) (x : ℚ) : (exactHost L).fabs x = |x| := rfl

/-- The loop of `factorial` in exact arithmetic, started at `r = m + 2`:
`cum` is multiplied by `m + 1, m, ..., 2`. -/
theorem factorial_loop_exact {ρ : Type} (L : Libm ρ) (m : Nat) :
    ∀ (fuel : Nat) (cum : ℚ), m ≤ fuel →
      factorial_loop (exactHost L) fuel ((m : Int) + 2) cum = cum * ((m + 1).factorial : ℚ) := by
  induction m with
  | zero =>
    intro fuel cum _
    cases fuel with
    | zero => simp [factorial_loop]
    | succ f => simp [factorial_loop]
  | succ m ih =>
    intro fuel cum hf
    cases fuel with
    | zero => omega
    | succ f =>
      have hgt : ((m + 1 : Nat) : Int) + 2 > 2 := by push_cast; omega
      rw [factorial_loop, if_pos hgt]
      have e : ((m + 1 : Nat) : Int) + 2 - 1 = (m : Int) + 2 := by push_cast; ring
      rw [e, ih f _ (by omega), exact_mul, exact_ofInt, Nat.factorial_succ (m + 1)]
      push_cast
      ring

/-- The macro `round` on a natural number, in exact arithmetic. -/
theorem round_nat {ρ : Type} (L : Libm ρ) (k : Nat) : round (exactHost L) (k : ℚ) = k := by
  have h0 : ¬ ((k : ℚ) < 0) := by
    have : (0 : ℚ) ≤ k := Nat.cast_nonneg k
    linarith
  simp only [round, exact_lt, exact_ofInt, exact_toInt, exact_add, exact_lit, Int.cast_zero,
    decide_eq_true_eq, if_neg h0]
  rw [truncQ_nonneg _ (by positivity)]
  rw [Int.floor_eq_iff]
  constructor
  · push_cast; linarith
  · push_cast; linarith

/-- The C function `factorial` on a natural number, in exact arithmetic. -/
theorem factorial_nat {ρ : Type} (L : Libm ρ) (k : Nat) :
    factorial (exactHost L) (k : ℚ) = some (k.factorial : ℚ) := by
  have hr := round_nat L k
  have hd : ¬ ((1 : ℚ) / 2 ^ 1022 < |(k : ℚ) - ((k : Int) : ℚ)|) := by
    simp
  simp only [factorial, hr, DBL_MIN, exact_lt, exact_lit, exact_fabs, exact_sub, exact_ofInt,
    decide_eq_true_eq, if_neg hd]
  have hk0 : ¬ ((k : Int) < 0) := by omega
  rw [if_neg hk0]
  by_cases h2 : (k : Int) < 2
  · rw [if_pos h2]
    have : k = 0 ∨ k = 1 := by omega
    rcases this with h | h <;> subst h <;> simp
  · rw [if_neg h2]
    obtain ⟨m, rfl⟩ : ∃ m, k = m + 2 := ⟨k - 2, by omega⟩
    have e : ((m + 2 : Nat) : Int) = (m : Int) + 2 := by push_cast; ring
    rw [e, factorial_loop_exact L m _ _ (by omega), Nat.factorial_succ (m + 1)]
    push_cast
    ring_nf

/-- The C function `factorial` refuses a value further than `DBL_MIN` from
every integer, in exact arithmetic. -/
theorem factorial_far {ρ : Type} (L : Libm ρ) (x : ℚ)
    (h : ∀ j : Int, (1 : ℚ) / 2 ^ 1022 < |x - (j : ℚ)|) : factorial (exactHost L) x = none := by
  have := h (round (exactHost L) x)
  simp only [factorial, DBL_MIN, exact_lt, exact_lit, exact_fabs, exact_sub, exact_ofInt,
    decide_eq_true_eq, if_pos this]

theorem truncQ_nonpos (q : ℚ) (h : q ≤ 0) : truncQ q ≤ 0 := by
  rw [truncQ]
  have hn : q.num ≤ 0 := Rat.num_nonpos.2 h
  have hd : (0 : Int) ≤ (q.den : Int) := Int.natCast_nonneg _
  obtain ⟨a, ha⟩ : ∃ a : Nat, q.num = -(a : Int) := ⟨q.num.natAbs, by omega⟩
  rw [ha, Int.neg_tdiv]
  have : 0 ≤ Int.tdiv (a : Int) (q.den : Int) := Int.tdiv_nonneg (by omega) hd
  omega

/-- The C function `factorial` refuses a value below `-DBL_MIN`, in exact
arithmetic. -/
theorem factorial_negative {ρ : Type} (L : Libm ρ) (x : ℚ) (h : x < -(1 / 2 ^ 1022)) :
    factorial (exactHost L) x = none := by
  have hpos : (0 : ℚ) < 1 / 2 ^ 1022 := by positivity
  have hx : x < 0 := by linarith
  have hr : round (exactHost L) x = truncQ (x - 1 / 2) := by
    simp only [round, exact_lt, exact_ofInt, exact_toInt, exact_sub, exact_lit, Int.cast_zero,
      decide_eq_true_eq, if_pos hx]
  have hle : round (exactHost L) x ≤ 0 := by
    rw [hr]; exact truncQ_nonpos _ (by linarith)
  simp only [factorial, DBL_MIN, exact_lt, exact_lit, exact_fabs, exact_sub, exact_ofInt,
    decide_eq_true_eq]
  by_cases hd : (1 : ℚ) / 2 ^ 1022 < |x - ((round (exactHost L) x : Int) : ℚ)|
  · rw [if_pos hd]
  · rw [if_neg hd]
    by_cases hneg : round (exactHost L) x < 0
    · rw [if_pos hneg]
    · exfalso
      have h0 : round (exactHost L) x = 0 := by omega
      rw [h0] at hd
      apply hd
      simp only [Int.cast_zero, sub_zero]
      rw [abs_of_neg hx]
      linarith

/-- The operator `!` when `factorial` accepts the top. -/
theorem fact_done (H : Host α ρ) (ds : DS α ρ) (f : α) (hne : 0 < ds.next)
    (hf : factorial H (ds.stack (ds.next - 1)) = some f) :
    rpncalc_op H ds "!".toList
      = (RPN_OK, { ds with stack := store ds.stack (ds.next - 1) f }) := by
  have hsel : select (compute_hash "!".toList) = some Op.fact := by decide
  have hop : rpncalc_op H ds "!".toList = rpncalc_case H ds Op.fact := by
    simp only [rpncalc_op, hsel]
  have h0 : ¬ ((0 : Int) < 0 ∨ 0 ≥ ds.next) := by omega
  have h1 : ¬ (ds.next < 1) := by omega
  rw [hop]
  simp only [rpncalc_case, ds_fromtop, h0, if_false, sub_zero, hf, lor, ds_replace, h1,
    sub_self]
  simp [truth]

/-- The operator `!` when `factorial` refuses the top or the stack is empty. -/
theorem fact_refused (H : Host α ρ) (ds : DS α ρ)
    (hf : ds.next ≤ 0 ∨ factorial H (ds.stack (ds.next - 1)) = none) :
    rpncalc_op H ds "!".toList = (RPN_ERROR, ds) := by
  have hsel : select (compute_hash "!".toList) = some Op.fact := by decide
  have hop : rpncalc_op H ds "!".toList = rpncalc_case H ds Op.fact := by
    simp only [rpncalc_op, hsel]
  rw [hop]
  by_cases hn : ds.next ≤ 0
  · have h0 : ((0 : Int) < 0 ∨ 0 ≥ ds.next) := by omega
    simp only [rpncalc_case, ds_fromtop, h0, if_true]
  · have h0 : ¬ ((0 : Int) < 0 ∨ 0 ≥ ds.next) := by omega
    rcases hf with h | h
    · exact absurd h hn
    · simp only [rpncalc_case, ds_fromtop, h0, if_false, sub_zero, h]

/-- C32 as the code has it: the test for an integer is
`fabs(x - r) > DBL_MIN`, so a top within `DBL_MIN` of 0 is taken as 0: on the
stack `[2^-1022]`, whose top is no integer, and on the stack `[-2^-1022]`,
whose top is negative and no integer, `!` returns `RPN_OK` and replaces the
top by 1. -/
theorem factorial_accepts_tiny :
    (rpncalc_op Q (mkDS 4 1 (cells [1 / 2 ^ 1022])) "!".toList).1 = RPN_OK ∧
    (rpncalc_op Q (mkDS 4 1 (cells [1 / 2 ^ 1022])) "!".toList).2.next = 1 ∧
    (rpncalc_op Q (mkDS 4 1 (cells [1 / 2 ^ 1022])) "!".toList).2.stack 0 = 1 ∧
    (rpncalc_op Q (mkDS 4 1 (cells [-(1 / 2 ^ 1022)])) "!".toList).1 = RPN_OK ∧
    (rpncalc_op Q (mkDS 4 1 (cells [-(1 / 2 ^ 1022)])) "!".toList).2.next = 1 ∧
    (rpncalc_op Q (mkDS 4 1 (cells [-(1 / 2 ^ 1022)])) "!".toList).2.stack 0 = 1 ∧
    (∀ j : Int, ((1 : ℚ) / 2 ^ 1022) ≠ ((j : Int) : ℚ)) ∧ -((1 : ℚ) / 2 ^ 1022) < 0 := by
  refine ⟨by decide!, by decide!, by decide!, by decide!, by decide!, by decide!, ?_, ?_⟩
  · intro j hj
    have hpos : (0 : ℚ) < 1 / 2 ^ 1022 := by positivity
    have hlt : (1 : ℚ) / 2 ^ 1022 < 1 := by
      rw [div_lt_one (by positivity)]
      exact one_lt_pow₀ (by norm_num) (by norm_num)
    rw [hj] at hpos hlt
    have h1 : (0 : Int) < j := by exact_mod_cast hpos
    have h2 : j < (1 : Int) := by exact_mod_cast hlt
    omega
  · have hpos : (0 : ℚ) < 1 / 2 ^ 1022 := by positivity
    linarith

theorem truncQ_small (q : ℚ) (h1 : -1 < q) (h2 : q < 1) : truncQ q = 0 := by
  rw [truncQ]
  have hd : (0 : ℚ) < (q.den : ℚ) := by exact_mod_cast q.den_pos
  have hq : q = (q.num : ℚ) / (q.den : ℚ) := (Rat.num_div_den q).symm
  have a1 : -(q.den : ℚ) < (q.num : ℚ) := by
    have : -1 < (q.num : ℚ) / (q.den : ℚ) := by rw [← hq]; exact h1
    rw [lt_div_iff₀ hd] at this
    linarith
  have a2 : (q.num : ℚ) < (q.den : ℚ) := by
    have : (q.num : ℚ) / (q.den : ℚ) < 1 := by rw [← hq]; exact h2
    rw [div_lt_iff₀ hd] at this
    linarith
  have b1 : -(q.den : Int) < q.num := by exact_mod_cast a1
  have b2 : q.num < (q.den : Int) := by exact_mod_cast a2
  rcases le_or_lt 0 q.num with hn | hn
  · exact Int.tdiv_eq_zero_of_lt hn b2
  · obtain ⟨a, ha⟩ : ∃ a : Nat, q.num = -(a : Int) := ⟨q.num.natAbs, by omega⟩
    rw [ha, Int.neg_tdiv, Int.tdiv_eq_zero_of_lt (by omega) (by omega)]
    rfl

/-- The C function `factorial` takes a value within `DBL_MIN` of 0 as 0 and
returns 1, in exact arithmetic. -/
theorem factorial_tiny {ρ : Type} (L : Libm ρ) (x : ℚ) (h : |x| ≤ 1 / 2 ^ 1022) :
    factorial (exactHost L) x = some 1 := by
  have hlt : (1 : ℚ) / 2 ^ 1022 < 1 / 2 := by
    have h2 : (2 : ℚ) ^ 1 < 2 ^ 1022 := pow_lt_pow_right₀ (by norm_num) (by norm_num)
    rw [pow_one] at h2
    exact one_div_lt_one_div_of_lt (by norm_num) h2
  obtain ⟨hx1, hx2⟩ := abs_le.1 h
  have hr : round (exactHost L) x = 0 := by
    simp only [round, exact_lt, exact_ofInt, exact_toInt, exact_sub, exact_add, exact_lit,
      Int.cast_zero, decide_eq_true_eq]
    split_ifs
    · exact truncQ_small _ (by linarith) (by linarith)
    · exact truncQ_small _ (by linarith) (by linarith)
  have hd : ¬ ((1 : ℚ) / 2 ^ 1022 < |x - ((0 : Int) : ℚ)|) := by
    simp only [Int.cast_zero, sub_zero]; linarith
  simp only [factorial, hr, DBL_MIN, exact_lt, exact_lit, exact_fabs, exact_sub, exact_ofInt,
    decide_eq_true_eq, if_neg hd]
  simp

/-- C32, amended: in exact arithmetic, on every non-empty stack: if the top
is a non-negative integer `k` (below `2^31`, the range of `int`), `!` returns
`RPN_OK` and replaces the top by `k!` (1 for `k` = 0 and 1), leaving the
depth, the rest of the stack and everything else unchanged; if the top is
further than `DBL_MIN = 2^-1022` from every integer, or is below `-DBL_MIN`,
`!` returns `RPN_ERROR` and leaves the state unchanged; if the top is within
`DBL_MIN` of 0, positive or negative, `!` returns `RPN_OK` and replaces the
top by 1, leaving everything else unchanged. -/
theorem factorial_spec {ρ : Type} (L : Libm ρ) (ds : DS ℚ ρ) (hne : 0 < ds.next) :
    (∀ k : Nat, (k : Int) < 2 ^ 31 → ds.stack (ds.next - 1) = (k : ℚ) →
      rpncalc_op (exactHost L) ds "!".toList
        = (RPN_OK, { ds with stack := store ds.stack (ds.next - 1) (k.factorial : ℚ) })) ∧
    ((∀ j : Int, (1 : ℚ) / 2 ^ 1022 < |ds.stack (ds.next - 1) - (j : ℚ)|) →
      rpncalc_op (exactHost L) ds "!".toList = (RPN_ERROR, ds)) ∧
    (ds.stack (ds.next - 1) < -(1 / 2 ^ 1022) →
      rpncalc_op (exactHost L) ds "!".toList = (RPN_ERROR, ds)) ∧
    (|ds.stack (ds.next - 1)| ≤ 1 / 2 ^ 1022 →
      rpncalc_op (exactHost L) ds "!".toList
        = (RPN_OK, { ds with stack := store ds.stack (ds.next - 1) 1 })) := by
  refine ⟨?_, ?_, ?_, ?_⟩
  · intro k _ hk
    exact fact_done _ ds _ hne (by rw [hk]; exact factorial_nat L k)
  · intro h
    exact fact_refused _ ds (Or.inr (factorial_far L _ h))
  · intro h
    exact fact_refused _ ds (Or.inr (factorial_negative L _ h))
  · intro h
    exact fact_done _ ds _ hne (factorial_tiny L _ h)

/-- C32, amended, on the stack `[7, 5]`: `!` leaves `[7, 120]`; on `[7, -3]`
and on `[7, 5/2]` it fails; on `[7, 2^-1030]` it leaves `[7, 1]`. -/
theorem factorial_spec_witness :
    rpncalc_op Q (mkDS 4 2 (cells [7, 5])) "!".toList
      = (RPN_OK, { mkDS 4 2 (cells [7, 5]) with
          stack := store (cells [7, 5]) ((mkDS 4 2 (cells [7, 5])).next - 1)
            ((Nat.factorial 5 : Nat) : ℚ) }) ∧
    (rpncalc_op Q (mkDS 4 2 (cells [7, 5])) "!".toList).2.stack 0 = 7 ∧
    (rpncalc_op Q (mkDS 4 2 (cells [7, 5])) "!".toList).2.stack 1 = 120 ∧
    rpncalc_op Q (mkDS 4 2 (cells [7, -3])) "!".toList = (RPN_ERROR, mkDS 4 2 (cells [7, -3])) ∧
    (rpncalc_op Q (mkDS 4 2 (cells [7, 5 / 2])) "!".toList).1 = RPN_ERROR ∧
    rpncalc_op Q (mkDS 4 2 (cells [7, 1 / 2 ^ 1030])) "!".toList
      = (RPN_OK, { mkDS 4 2 (cells [7, 1 / 2 ^ 1030]) with
          stack := store (cells [7, 1 / 2 ^ 1030])
            ((mkDS 4 2 (cells [7, 1 / 2 ^ 1030])).next - 1) 1 }) :=
  ⟨(factorial_spec zeroLibm (mkDS 4 2 (cells [7, 5])) (by decide)).1 5 (by decide)
      (by decide!),
    by decide!, by decide!,
    (factorial_spec zeroLibm (mkDS 4 2 (cells [7, -3])) (by decide)).2.2.1 (by decide!),
    by decide!,
    (factorial_spec zeroLibm (mkDS 4 2 (cells [7, 1 / 2 ^ 1030])) (by decide)).2.2.2
      (by decide!)⟩

/-! ## Regression on the points of a line -/

/-- Pushing a list of values for which there is room: the depth grows by its
length, the values lie above the old top in order, and nothing else changes. -/
theorem pushAll_spec (vals : List α) :
    ∀ ds : DS α ρ, 0 ≤ ds.next → ds.next + (vals.length : Int) ≤ ds.size →
      (pushAll ds vals).next = ds.next + vals.length ∧
      (pushAll ds vals).size = ds.size ∧
      stats (pushAll ds vals) = stats ds ∧
      (∀ j, j < ds.next → (pushAll ds vals).stack j = ds.stack j) ∧
      (∀ (i : Nat) (v : α), vals[i]? = some v → (pushAll ds vals).stack (ds.next + i) = v) := by
  induction vals with
  | nil =>
    intro ds _ _
    refine ⟨by simp [pushAll], rfl, rfl, fun j _ => rfl, fun i v h => by simp at h⟩
  | cons a vals ih =>
    intro ds h0 hroom
    simp only [List.length_cons, Nat.cast_add, Nat.cast_one] at hroom
    have hfull : ¬ ds.next = ds.size := by omega
    have e : pushAll ds (a :: vals)
        = pushAll { ds with stack := store ds.stack ds.next a, next := ds.next + 1 } vals := by
      simp only [pushAll, List.foldl_cons, ds_push, if_neg hfull]
    obtain ⟨i1, i2, i3, i4, i5⟩ := ih { ds with stack := store ds.stack ds.next a, next := ds.next + 1 }
      (by simp only []; omega) (by simp only []; omega)
    simp only [] at i1 i2 i4 i5
    rw [e]
    refine ⟨by rw [i1]; simp only [List.length_cons, Nat.cast_add, Nat.cast_one]; ring, i2,
      by rw [i3]; rfl, ?_, ?_⟩
    · intro j hj
      rw [i4 j (by omega)]
      simp only [store]
      rw [if_neg (by omega)]
    · intro i v hv
      cases i with
      | zero =>
        simp only [List.getElem?_cons_zero, Option.some.injEq] at hv
        rw [i4 _ (by simp)]
        simp [store, hv]
      | succ i =>
        simp only [List.getElem?_cons_succ] at hv
        have := i5 i v hv
        rw [← this]
        congr 1
        push_cast
        ring

theorem coords_length (pts : List (α × α)) : (coords pts).length = 2 * pts.length := by
  induction pts with
  | nil => rfl
  | cons p ps ih => simp only [coords, List.length_cons, ih]; ring

theorem coords_get (pts : List (α × α)) :
    ∀ (i : Nat) (p : α × α), pts[i]? = some p →
      (coords pts)[2 * i]? = some p.1 ∧ (coords pts)[2 * i + 1]? = some p.2 := by
  induction pts with
  | nil => intro i p h; simp at h
  | cons q ps ih =>
    intro i p h
    cases i with
    | zero =>
      simp only [List.getElem?_cons_zero, Option.some.injEq] at h
      subst h
      simp [coords]
    | succ i =>
      simp only [List.getElem?_cons_succ] at h
      obtain ⟨a, b⟩ := ih i p h
      have e1 : 2 * (i + 1) = (2 * i + 1) + 1 := by ring
      have e2 : 2 * (i + 1) + 1 = (2 * i + 1 + 1) + 1 := by ring
      constructor
      · rw [e1]; simp only [coords, List.getElem?_cons_succ]; exact a
      · rw [e2]; simp only [coords, List.getElem?_cons_succ]; exact b

/-- A list is the list of its elements taken by index. -/
theorem map_range_get (l : List ℚ) (f : Nat → ℚ)
    (h : ∀ (i : Nat) (v : ℚ), l[i]? = some v → f i = v) :
    (List.range l.length).map f = l := by
  apply List.ext_getElem?
  intro i
  by_cases hi : i < l.length
  · rw [List.getElem?_map, List.getElem?_range hi]
    simp only [Option.map_some']
    rw [List.getElem?_eq_getElem hi]
    congr 1
    exact h i _ (List.getElem?_eq_getElem hi)
  · rw [List.getElem?_eq_none (by simpa using hi), List.getElem?_eq_none (by simpa using hi)]

/-- One call of `stat` on the pushed coordinates of a non-empty batch of
points, in exact arithmetic, from an empty stack with room for the batch:
`RPN_OK`, the stack is empty again and the registers have grown by the sums
over the batch. -/
theorem stat_batch {ρ : Type} (L : Libm ρ) (ds : DS ℚ ρ) (pts : List (ℚ × ℚ))
    (hnext : ds.next = 0) (hne : pts ≠ []) (hroom : 2 * (pts.length : Int) ≤ ds.size) :
    ∃ S, rpncalc_op (exactHost L) (pushAll ds (coords pts)) "stat".toList = (RPN_OK, S) ∧
      S.next = 0 ∧ S.size = ds.size ∧
      S.n = ds.n + pts.length ∧
      S.sumx = ds.sumx + (pts.map (fun p => p.1)).sum ∧
      S.sumy = ds.sumy + (pts.map (fun p => p.2)).sum ∧
      S.sumxx = ds.sumxx + (pts.map (fun p => p.1 * p.1)).sum ∧
      S.sumyy = ds.sumyy + (pts.map (fun p => p.2 * p.2)).sum ∧
      S.sumxy = ds.sumxy + (pts.map (fun p => p.1 * p.2)).sum := by
  have hlen := coords_length pts
  obtain ⟨p1, p2, p3, _, p5⟩ := pushAll_spec (coords pts) ds (by omega)
    (by rw [hnext, hlen]; push_cast; omega)
  rw [hnext, hlen] at p1
  simp only [zero_add] at p1 p5
  simp only [hnext, zero_add] at p5
  have hk : 0 < pts.length := List.length_pos.2 hne
  have hn2 : (pushAll ds (coords pts)).next = 2 * ((pts.length : Nat) : Int) := by
    rw [p1]; push_cast; ring
  rw [stat_done _ _ pts.length hk hn2,
    stat_loop_exact L pts.length _ 0 _ (by rw [hn2]; ring) (by rw [hn2]; omega)]
  simp only [stats, Prod.mk.injEq] at p3
  obtain ⟨q1, q2, q3, q4, q5, q6⟩ := p3
  have gx : ∀ (i : Nat) (p : ℚ × ℚ), pts[i]? = some p →
      (pushAll ds (coords pts)).stack (0 + 2 * (i : Int)) = p.1 := by
    intro i p h
    have := p5 (2 * i) p.1 (coords_get pts i p h).1
    rw [← this]; congr 1; push_cast; ring
  have gy : ∀ (i : Nat) (p : ℚ × ℚ), pts[i]? = some p →
      (pushAll ds (coords pts)).stack (0 + 2 * (i : Int) + 1) = p.2 := by
    intro i p h
    have := p5 (2 * i + 1) p.2 (coords_get pts i p h).2
    rw [← this]; congr 1; push_cast; ring
  have mk : ∀ (g : ℚ × ℚ → ℚ) (f : Nat → ℚ),
      (∀ (i : Nat) (p : ℚ × ℚ), pts[i]? = some p → f i = g p) →
      ((List.range pts.length).map f).sum = (pts.map g).sum := by
    intro g f h
    have := map_range_get (pts.map g) f (by
      intro i v hv
      rw [List.getElem?_map] at hv
      cases hp : pts[i]? with
      | none => rw [hp] at hv; simp at hv
      | some p =>
        rw [hp] at hv
        simp only [Option.map_some', Option.some.injEq] at hv
        rw [h i p hp, hv])
    rw [List.length_map] at this
    rw [this]
  refine ⟨_, rfl, rfl, p2, ?_, ?_, ?_, ?_, ?_, ?_⟩
  · simp only [q1]
  · simp only [q2]
    rw [mk (fun p => p.1) _ gx]
  · simp only [q3]
    rw [mk (fun p => p.2) _ gy]
  · simp only [q4]
    rw [mk (fun p => p.1 * p.1) _ (fun i p h => by simp only [gx i p h])]
  · simp only [q5]
    rw [mk (fun p => p.2 * p.2) _ (fun i p h => by simp only [gy i p h])]
  · simp only [q6]
    rw [mk (fun p => p.1 * p.2) _ (fun i p h => by simp only [gx i p h, gy i p h])]

/-- Points ingested in several calls of `stat`, in exact arithmetic, from an
empty stack with room for every batch: every call returns `RPN_OK` and the
registers grow by the sums over all the points. -/
theorem ingest_exact {ρ : Type} (L : Libm ρ) (bs : List (List (ℚ × ℚ))) :
    ∀ ds : DS ℚ ρ, ds.next = 0 →
      (∀ b ∈ bs, b ≠ [] ∧ 2 * (b.length : Int) ≤ ds.size) →
      ∃ S, ingest (exactHost L) bs ds = some S ∧
        S.next = 0 ∧ S.size = ds.size ∧
        S.n = ds.n + bs.flatten.length ∧
        S.sumx = ds.sumx + (bs.flatten.map (fun p => p.1)).sum ∧
        S.sumy = ds.sumy + (bs.flatten.map (fun p => p.2)).sum ∧
        S.sumxx = ds.sumxx + (bs.flatten.map (fun p => p.1 * p.1)).sum ∧
        S.sumyy = ds.sumyy + (bs.flatten.map (fun p => p.2 * p.2)).sum ∧
        S.sumxy = ds.sumxy + (bs.flatten.map (fun p => p.1 * p.2)).sum := by
  induction bs with
  | nil =>
    intro ds hn _
    exact ⟨ds, rfl, hn, rfl, by simp, by simp, by simp, by simp, by simp, by simp⟩
  | cons b bs ih =>
    intro ds hn hroom
    obtain ⟨hb1, hb2⟩ := hroom b (List.mem_cons_self _ _)
    obtain ⟨S1, e1, n1, z1, a1, a2, a3, a4, a5, a6⟩ := stat_batch L ds b hn hb1 hb2
    obtain ⟨S, e, n2, z2, c1, c2, c3, c4, c5, c6⟩ := ih S1 n1 (by
      intro b' hb'
      rw [z1]
      exact hroom b' (List.mem_cons_of_mem _ hb'))
    refine ⟨S, ?_, n2, by rw [z2, z1], ?_, ?_, ?_, ?_, ?_, ?_⟩
    · rw [ingest, e1]
      simp only [if_true]
      exact e
    · rw [c1, a1]; simp only [List.flatten_cons, List.length_append, Nat.cast_add]; ring
    · rw [c2, a2]; simp only [List.flatten_cons, List.map_append, List.sum_append]; ring
    · rw [c3, a3]; simp only [List.flatten_cons, List.map_append, List.sum_append]; ring
    · rw [c4, a4]; simp only [List.flatten_cons, List.map_append, List.sum_append]; ring
    · rw [c5, a5]; simp only [List.flatten_cons, List.map_append, List.sum_append]; ring
    · rw [c6, a6]; simp only [List.flatten_cons, List.map_append, List.sum_append]; ring

/-- The sums over points of the line `y = m x + c`. -/
theorem line_sums (m c : ℚ) (P : List (ℚ × ℚ)) (h : ∀ p ∈ P, p.2 = m * p.1 + c) :
    (P.map (fun p => p.2)).sum = m * (P.map (fun p => p.1)).sum + c * P.length ∧
    (P.map (fun p => p.1 * p.2)).sum
      = m * (P.map (fun p => p.1 * p.1)).sum + c * (P.map (fun p => p.1)).sum := by
  induction P with
  | nil => simp
  | cons p P ih =>
    obtain ⟨i1, i2⟩ := ih (fun q hq => h q (List.mem_cons_of_mem _ hq))
    have hp := h p (List.mem_cons_self _ _)
    simp only [List.map_cons, List.sum_cons, List.length_cons, i1, i2, hp]
    constructor <;> (push_cast; ring)

theorem sum_dev_sq (N S : ℚ) (xs : List ℚ) :
    (xs.map (fun x => (N * x - S) * (N * x - S))).sum
      = N * N * (xs.map (fun x => x * x)).sum - 2 * N * S * xs.sum + xs.length * (S * S) := by
  induction xs with
  | nil => simp
  | cons x xs ih =>
    simp only [List.map_cons, List.sum_cons, List.length_cons, ih]
    push_cast
    ring

theorem sum_zero_of_nonneg (l : List ℚ) (h : ∀ x ∈ l, 0 ≤ x) (hs : l.sum = 0) :
    ∀ x ∈ l, x = 0 := by
  induction l with
  | nil => intro x hx; simp at hx
  | cons a l ih =>
    have ha : 0 ≤ a := h a (List.mem_cons_self _ _)
    have hl : 0 ≤ l.sum := List.sum_nonneg (fun x hx => h x (List.mem_cons_of_mem _ hx))
    rw [List.sum_cons] at hs
    have ha0 : a = 0 := by linarith
    have hl0 : l.sum = 0 := by linarith
    intro x hx
    rcases List.mem_cons.1 hx with e | e
    · rw [e, ha0]
    · exact ih (fun x hx => h x (List.mem_cons_of_mem _ hx)) hl0 x e

/-- The denominator `n * sumxx - sumx * sumx` of the regression is not zero
when the abscissas are not all equal. -/
theorem denom_ne_zero (xs : List ℚ) (h : ∃ u ∈ xs, ∃ v ∈ xs, u ≠ v) :
    (xs.length : ℚ) * (xs.map (fun x => x * x)).sum - xs.sum * xs.sum ≠ 0 := by
  intro h0
  obtain ⟨u, hu, v, hv, huv⟩ := h
  have hN : (0 : ℚ) < xs.length := by
    have : 0 < xs.length := List.length_pos_of_mem hu
    exact_mod_cast this
  have hsum : (xs.map (fun x => ((xs.length : ℚ) * x - xs.sum) * ((xs.length : ℚ) * x - xs.sum))).sum
      = 0 := by
    rw [sum_dev_sq]
    have : (xs.length : ℚ) * (xs.length : ℚ) * (xs.map (fun x => x * x)).sum
        - 2 * (xs.length : ℚ) * xs.sum * xs.sum + (xs.length : ℚ) * (xs.sum * xs.sum)
        = (xs.length : ℚ) *
          ((xs.length : ℚ) * (xs.map (fun x => x * x)).sum - xs.sum * xs.sum) := by ring
    rw [this, h0, mul_zero]
  have hz := sum_zero_of_nonneg _ (by
    intro y hy
    obtain ⟨x, _, rfl⟩ := List.mem_map.1 hy
    exact mul_self_nonneg _) hsum
  have key : ∀ x ∈ xs, (xs.length : ℚ) * x = xs.sum := by
    intro x hx
    have := hz _ (List.mem_map.2 ⟨x, hx, rfl⟩)
    have := mul_self_eq_zero.1 this
    linarith
  have e : (xs.length : ℚ) * u = (xs.length : ℚ) * v := by rw [key u hu, key v hv]
  exact huv (mul_left_cancel₀ (ne_of_gt hN) e)

/-- C38: in exact arithmetic, for all `m` and `c` and all points of the line
`y = m x + c` whose abscissas are not all equal (so there are at least two),
ingested in one or several calls of `stat` (each call on the pushed
coordinates of a non-empty batch that the stack has room for) into the
registers cleared by `ds_allclear`: every `stat` returns `RPN_OK`, the count
is the number of points, and `ds_leastsq_a` returns `m` and `ds_leastsq_b`
returns `c`. -/
theorem leastsq_recovers_line {ρ : Type} (L : Libm ρ) (ds0 : DS ℚ ρ) (m c : ℚ)
    (bs : List (List (ℚ × ℚ)))
    (hroom : ∀ b ∈ bs, b ≠ [] ∧ 2 * (b.length : Int) ≤ ds0.size)
    (hline : ∀ p ∈ bs.flatten, p.2 = m * p.1 + c)
    (hx : ∃ p ∈ bs.flatten, ∃ q ∈ bs.flatten, p.1 ≠ q.1) :
    ∃ S, ingest (exactHost L) bs (ds_allclear (exactHost L) ds0).2 = some S ∧
      S.n = bs.flatten.length ∧ 2 ≤ bs.flatten.length ∧
      ds_leastsq_a (exactHost L) S = m ∧ ds_leastsq_b (exactHost L) S = c := by
  obtain ⟨S, e, _, _, c1, c2, c3, c4, _, c6⟩ :=
    ingest_exact L bs (ds_allclear (exactHost L) ds0).2 rfl hroom
  have z : ∀ q : ℚ, (exactHost L).lit 0 + q = q := fun q => by rw [exact_lit, zero_add]
  simp only [ds_allclear, ds_clear, z] at c1 c2 c3 c4 c6
  obtain ⟨l1, l2⟩ := line_sums m c bs.flatten hline
  have hxs : ∃ u ∈ bs.flatten.map (fun p => p.1), ∃ v ∈ bs.flatten.map (fun p => p.1), u ≠ v := by
    obtain ⟨p, hp, q, hq, hpq⟩ := hx
    exact ⟨p.1, List.mem_map.2 ⟨p, hp, rfl⟩, q.1, List.mem_map.2 ⟨q, hq, rfl⟩, hpq⟩
  have hd := denom_ne_zero _ hxs
  simp only [List.length_map, List.map_map] at hd
  have hmm : (List.map ((fun x => x * x) ∘ fun p => p.1) bs.flatten)
      = List.map (fun p : ℚ × ℚ => p.1 * p.1) bs.flatten := rfl
  rw [hmm] at hd
  have h2 : 2 ≤ bs.flatten.length := by
    obtain ⟨p, hp, q, hq, hpq⟩ := hx
    rcases hP : bs.flatten with _ | ⟨a, _ | ⟨b, t⟩⟩
    · rw [hP] at hp; simp at hp
    · rw [hP] at hp hq
      simp only [List.mem_singleton] at hp hq
      rw [hp, hq] at hpq
      exact absurd rfl hpq
    · simp
  refine ⟨S, e, c1, h2, ?_, ?_⟩
  · simp only [ds_leastsq_a, exact_sub, exact_mul, exact_div, exact_lit, exactHost, c1, c2, c3,
      c4, c6, l1, l2]
    simp only [decide_eq_true_eq, if_neg hd]
    rw [div_eq_iff hd]
    ring
  · simp only [ds_leastsq_b, exact_sub, exact_mul, exact_div, exact_lit, exactHost, c1, c2, c3,
      c4, c6, l1, l2]
    simp only [decide_eq_true_eq, if_neg hd]
    rw [div_eq_iff hd]
    ring

/-- C38, on the line `y = 2x + 1`: the points `(0, 1)`, `(1, 3)` in one call
and `(3, 7)` in a second call give `a = 2` and `b = 1`. -/
theorem leastsq_recovers_line_witness :
    (∃ S, ingest Q [[(0, 1), (1, 3)], [(3, 7)]] (ds_allclear Q (mkDS 4 0 (cells []))).2 = some S ∧
      S.n = ([[((0 : ℚ), (1 : ℚ)), (1, 3)], [(3, 7)]] : List (List (ℚ × ℚ))).flatten.length ∧
      2 ≤ ([[((0 : ℚ), (1 : ℚ)), (1, 3)], [(3, 7)]] : List (List (ℚ × ℚ))).flatten.length ∧
      ds_leastsq_a Q S = 2 ∧ ds_leastsq_b Q S = 1) ∧
    (ingest Q [[(0, 1), (1, 3)], [(3, 7)]] (ds_allclear Q (mkDS 4 0 (cells []))).2).map
      (fun S => (S.n, S.sumx, S.sumy, S.sumxx, S.sumxy)) = some (3, 4, 11, 10, 24) :=
  ⟨leastsq_recovers_line zeroLibm (mkDS 4 0 (cells [])) 2 1 [[(0, 1), (1, 3)], [(3, 7)]]
      (by decide) (by decide!) (by decide!),
    by decide!⟩

/-! ## Statistics in the arithmetic of doubles -/

/-- The loop of `stat` in every double arithmetic, with `m` pairs left from
index `t` on: the registers take the points one at a time. -/
theorem stat_loop_fold (H : Host α ρ) (m : Nat) :
    ∀ (fuel : Nat) (t : Int) (ds : DS α ρ), ds.next = t + 2 * m → m ≤ fuel →
      stat_loop H fuel t ds
        = withStats ds (specPoints H (stats ds) (pairsFrom ds.stack m t)) := by
  induction m with
  | zero =>
    intro fuel t ds hn _
    have hlt : ¬ t < ds.next := by rw [hn]; simp
    cases fuel with
    | zero => rfl
    | succ f => rw [stat_loop, if_neg hlt]; rfl
  | succ m ih =>
    intro fuel t ds hn hf
    cases fuel with
    | zero => omega
    | succ f =>
      have hlt : t < ds.next := by rw [hn]; push_cast; omega
      rw [stat_loop, if_pos hlt, ih f (t + 2) _ (by simp only [hn]; push_cast; ring) (by omega)]
      rfl

/-- The registers after a list of points in exact arithmetic: each sum grows
by the sum over the points. -/
theorem specPoints_exact {ρ : Type} (L : Libm ρ) (pts : List (ℚ × ℚ)) :
    ∀ s : ℚ × ℚ × ℚ × ℚ × ℚ × ℚ,
      specPoints (exactHost L) s pts
        = (s.1 + pts.length, s.2.1 + (pts.map (fun p => p.1)).sum,
           s.2.2.1 + (pts.map (fun p => p.2)).sum,
           s.2.2.2.1 + (pts.map (fun p => p.1 * p.1)).sum,
           s.2.2.2.2.1 + (pts.map (fun p => p.2 * p.2)).sum,
           s.2.2.2.2.2 + (pts.map (fun p => p.1 * p.2)).sum) := by
  induction pts with
  | nil => intro s; simp [specPoints]
  | cons p pts ih =>
    intro s
    have e : specPoints (exactHost L) s (p :: pts)
        = specPoints (exactHost L) (specPoint (exactHost L) s p) pts := rfl
    rw [e, ih]
    simp only [specPoint, exact_add, exact_mul, exact_ofInt, List.map_cons, List.sum_cons,
      List.length_cons, Prod.mk.injEq]
    refine ⟨?_, ?_, ?_, ?_, ?_, ?_⟩ <;> (push_cast; ring)

/-- C19 as the code has it on doubles: with `sumx = 10^16` and the two points
`(1, 5)`, `(1, 5)` on the stack, in arithmetic rounded as binary64, `stat`
returns `RPN_OK` with `n = 2` and leaves `sumx = 10^16`: each of the two
additions `10^16 + 1` rounds back to `10^16`, while `10^16 + (1 + 1)` is the
double `10^16 + 2`. -/
theorem stat_sum_rounds :
    (rpncalc_op (roundHost zeroLibm)
        { mkDS 4 4 (cells [1, 5, 1, 5]) with sumx := 10 ^ 16 } "stat".toList).1 = RPN_OK ∧
    (rpncalc_op (roundHost zeroLibm)
        { mkDS 4 4 (cells [1, 5, 1, 5]) with sumx := 10 ^ 16 } "stat".toList).2.n = 2 ∧
    (rpncalc_op (roundHost zeroLibm)
        { mkDS 4 4 (cells [1, 5, 1, 5]) with sumx := 10 ^ 16 } "stat".toList).2.sumx = 10 ^ 16 ∧
    (rpncalc_op (roundHost zeroLibm)
        { mkDS 4 4 (cells [1, 5, 1, 5]) with sumx := 10 ^ 16 } "stat".toList).2.sumy = 10 ∧
    rn (10 ^ 16) = 10 ^ 16 ∧ rn (10 ^ 16 + 1) = 10 ^ 16 ∧
    rn (10 ^ 16 + (1 + 1)) = 10 ^ 16 + 2 ∧ (10 : ℚ) ^ 16 ≠ 10 ^ 16 + (1 + 1) := by
  refine ⟨by decide!, by decide!, by decide!, by decide!, by decide!, by decide!, by decide!,
    by norm_num⟩

/-- C19, amended: for every double arithmetic and every state, the operator
`stat` returns `RPN_ERROR` and changes nothing unless the stack depth is even
and non-zero; on the stack `[x1, y1, ..., xk, yk]` (bottom first, `k ≥ 1`) it
returns `RPN_OK`, takes the points `(x1, y1), ..., (xk, yk)` one at a time in
this order, adding for each point, in the arithmetic of doubles, `xi` to
`sumx`, `yi` to `sumy`, `xi*xi` to `sumxx`, `yi*yi` to `sumyy`, `xi*yi` to
`sumxy` and 1 to `n`, sets top to 0 and changes nothing else; in exact
arithmetic the registers have then grown by the sums over the points and by
`k`. -/
theorem stat_accumulates :
    (∀ (β σ : Type) (H : Host β σ) (ds : DS β σ),
      ((¬ ∃ k : Nat, 0 < k ∧ ds.next = 2 * (k : Int)) →
        rpncalc_op H ds "stat".toList = (RPN_ERROR, ds)) ∧
      (∀ k : Nat, 0 < k → ds.next = 2 * (k : Int) →
        rpncalc_op H ds "stat".toList
          = (RPN_OK, { withStats ds (specPoints H (stats ds) (pairsFrom ds.stack k 0))
                       with next := 0 }))) ∧
    (∀ (σ : Type) (L : Libm σ) (s : ℚ × ℚ × ℚ × ℚ × ℚ × ℚ) (pts : List (ℚ × ℚ)),
      specPoints (exactHost L) s pts
        = (s.1 + pts.length, s.2.1 + (pts.map (fun p => p.1)).sum,
           s.2.2.1 + (pts.map (fun p => p.2)).sum,
           s.2.2.2.1 + (pts.map (fun p => p.1 * p.1)).sum,
           s.2.2.2.2.1 + (pts.map (fun p => p.2 * p.2)).sum,
           s.2.2.2.2.2 + (pts.map (fun p => p.1 * p.2)).sum)) ∧
    pairsFrom (cells [1, 2, 3, 4]) 2 0 = [(1, 2), (3, 4)] ∧
    stats (rpncalc_op Q (mkDS 4 4 (cells [1, 2, 3, 4])) "stat".toList).2
      = (2, 4, 6, 10, 20, 14) := by
  refine ⟨?_, fun σ L s pts => specPoints_exact L pts s, by decide!, by decide!⟩
  intro β σ H ds
  have hsel : select (compute_hash "stat".toList) = some Op.stat := by decide
  have hop : rpncalc_op H ds "stat".toList = rpncalc_case H ds Op.stat := by
    simp only [rpncalc_op, hsel]
  rw [hop]
  constructor
  · intro hno
    by_cases h0 : ds.next ≤ 0
    · simp [rpncalc_case, ds_fromtop, h0]
    · by_cases h1 : ds.next ≤ 1
      · simp [rpncalc_case, ds_fromtop, h0, h1]
      · have hmod : Int.tmod ds.next 2 ≠ 0 := by
          rw [Int.tmod_eq_emod (by omega) (by omega)]
          intro h
          exact hno ⟨(ds.next / 2).toNat, by omega, by omega⟩
        simp [rpncalc_case, ds_fromtop, h0, h1, hmod]
  · intro k hk hn
    have h0 : ¬ ((0 : Int) < 0 ∨ 0 ≥ ds.next) := by omega
    have h1 : ¬ ((1 : Int) < 0 ∨ 1 ≥ ds.next) := by omega
    have hmod : Int.tmod ds.next 2 = 0 := by
      rw [Int.tmod_eq_emod (by omega) (by omega)]; omega
    have hloop := stat_loop_fold H k ds.next.toNat 0 ds (by omega) (by omega)
    simp only [rpncalc_case, ds_fromtop, h0, h1, if_false, hmod, ne_eq,
      not_true_eq_false, hloop]

/-! ## Numerals in the arithmetic of doubles -/

/-- The rounding `rn` on known values: 0.1, 1/3 and 0.1 + 0.2 round to the
doubles `0x3FB999999999999A`, `0x3FD5555555555555` and `0x3FD3333333333334`
(the sum printed as 0.30000000000000004), and a value half-way between two
doubles goes to the one with the even significand. -/
theorem rn_examples :
    rn (1 / 10) = 3602879701896397 / 2 ^ 55 ∧
    rn (1 / 3) = 6004799503160661 / 2 ^ 54 ∧
    rn (rn (1 / 10) + rn (2 / 10)) = 5404319552844596 / 2 ^ 54 ∧
    rn (2 ^ 53 + 1) = 2 ^ 53 ∧ rn (2 ^ 53 + 3) = 2 ^ 53 + 4 ∧
    rn (-(2 ^ 53 + 1)) = -(2 ^ 53) ∧ rn 0 = 0 ∧ rn (3 / 4) = 3 / 4 := by
  refine ⟨by decide!, by decide!, by decide!, by decide!, by decide!, by decide!, by decide!,
    by decide!⟩

/-- C13, at the failing input: for `x` = NaN with precision 0 the function
stores no character (neither `whole <= 0.0` nor `whole >= 1.0` holds), so the
text it leaves in a large buffer is empty; called with `maxLength = 0`, which
has no room for the terminator of that text, it stores the terminator at
index 0 = `maxLength` through the exit `if (prec <= 0)` and returns `RPN_OK`,
not `RPN_ERROR`. -/
theorem format_nan_without_room :
    (convert_d_to_s (nanHost zeroLibm) (fun _ => 'X') none 10 0 8).map
      (fun r => (r.1, cstr r.2 8 0)) = some (RPN_OK, []) ∧
    ((([] : List Char).length : Int) + 1 > 0) ∧
    (convert_d_to_s (nanHost zeroLibm) (fun _ => 'X') none 10 0 0).map
      (fun r => (r.1, r.2 0, r.2 1)) = some (RPN_OK, NUL, 'X') ∧
    (d_to_s (nanHost zeroLibm) (fun _ => 'X') none 10 0 0).map (fun r => r.2.2) = some 0 := by
  refine ⟨by decide!, by decide, by decide!, by decide!⟩

end RpnCalc
